import Mathlib

/-!
# Smart_Band: heart-rate estimation and dual-round reconciliation

Shallow embedding of `components/MAX30102/algorithm.c` and of the heart-rate
part of `components/MAX30102/MAX30102.c`.

Conventions of the embedding
* C integers are mathematical integers; every arithmetic result of type
  `int32_t` is wrapped by `i32`, every result of type `uint32_t` by `u32`.
* An array that the code writes is a list of integers (`Mem`) read with `rd`
  and written with `wr`; an array that a function only reads is passed as its
  read function `Nat → Int`.
* `for (k = 0; k < n; k++)` is `forLoop n`; loops whose trip count is not
  syntactically bounded carry fuel and report `Fault.outOfFuel` when it runs
  out; a division whose divisor is zero reports `Fault.divByZero`.
-/

namespace SmartBand

/-! ## Machine integers and memory -/

/-- The value of an integer expression converted to `uint32_t`. -/
def u32 (x : Int) : Int := x % 4294967296

/-- The value of an integer expression converted to `int32_t` (two's complement). -/
def i32 (x : Int) : Int := (x + 2147483648) % 4294967296 - 2147483648

/-- The value of an integer expression converted to `uint8_t`. -/
def u8 (x : Int) : Int := x % 256

/-- Abnormal outcomes of the embedded code. -/
inductive Fault where
  | divByZero
  | outOfFuel
deriving DecidableEq

/-- A writable C array of integers. -/
abbrev Mem := List Int

/-- Array read `a[k]`. -/
def rd (a : Mem) (k : Nat) : Int := a.getD k 0

/-- Array write `a[k] = v`. -/
def wr (a : Mem) (k : Nat) (v : Int) : Mem := a.set k v

/-- The loop `for (k = 0; k < n; k++) s = body k s`. -/
def forLoop {σ : Type} (n : Nat) (body : Nat → σ → σ) (s : σ) : σ :=
  match n with
  | 0 => s
  | n + 1 => body n (forLoop n body s)

/-- Integer division of C with a run-time divisor: truncation toward zero,
a zero divisor is a fault. -/
def cdiv (a b : Int) : Except Fault Int :=
  if b = 0 then .error .divByZero else .ok (i32 (Int.tdiv a b))

/-! ## algorithm.c -/

def FS : Nat := 100
def BUFFER_SIZE : Nat := FS * 5
def MA4_SIZE : Nat := 4
def HAMMING_SIZE : Nat := 5

/-- Lines 218-220 of `maxim_peaks_above_min_height`:
`while (i + n_width < n_size && pn_x[i] == pn_x[i + n_width]) n_width++;`
started with the given `n_width`; the result is the final `n_width`. -/
def flat_width (pn_x : Nat → Int) (n_size : Int) (i : Nat) : Nat → Nat → Except Fault Nat
  | 0, _ => .error .outOfFuel
  | fuel + 1, n_width =>
    if ((i + n_width : Nat) : Int) < n_size ∧ pn_x i = pn_x (i + n_width) then
      flat_width pn_x n_size i fuel (n_width + 1)
    else
      .ok n_width

/-- Lines 214-230 of `maxim_peaks_above_min_height`: the loop `while (i < n_size - 1)`
on the state `i`, `pn_locs`, `*pn_npks`. -/
def peaks_loop (pn_x : Nat → Int) (n_size n_min_height : Int) :
    Nat → Nat → Mem → Nat → Except Fault (Mem × Nat)
  | 0, _, _, _ => .error .outOfFuel
  | fuel + 1, i, pn_locs, npks =>
    if (i : Int) < n_size - 1 then
      if pn_x i > n_min_height ∧ pn_x i > pn_x (i - 1) then
        match flat_width pn_x n_size i (n_size.toNat + 1) 1 with
        | .error e => .error e
        | .ok n_width =>
          if pn_x i > pn_x (i + n_width) ∧ npks < 15 then
            peaks_loop pn_x n_size n_min_height fuel (i + n_width + 1) (wr pn_locs npks i) (npks + 1)
          else
            peaks_loop pn_x n_size n_min_height fuel (i + n_width) pn_locs npks
      else
        peaks_loop pn_x n_size n_min_height fuel (i + 1) pn_locs npks
    else
      .ok (pn_locs, npks)

/-- The function `maxim_peaks_above_min_height` (lines 206-231): `i = 1`, `*pn_npks = 0`,
then the scan. The result is the location array and `*pn_npks`. -/
def maxim_peaks_above_min_height (pn_locs : Mem) (pn_x : Nat → Int) (n_size n_min_height : Int) :
    Except Fault (Mem × Nat) :=
  peaks_loop pn_x n_size n_min_height (n_size.toNat + 1) 1 pn_locs 0

/-- The inner loop shared by the two insertion sorts:
`for (j = i; j > 0 && before(pn_x[j - 1]); j--) pn_x[j] = pn_x[j - 1];`
The result is the array and the final `j`. -/
def shift_down (before : Int → Bool) : Mem → Nat → Mem × Nat
  | a, 0 => (a, 0)
  | a, j + 1 => if before (rd a j) then shift_down before (wr a (j + 1) (rd a j)) j else (a, j + 1)

/-- One pass of the outer loop of the insertion sorts, for the index `i`:
`n_temp = a[i]; for (j = i; j > 0 && before(n_temp, a[j - 1]); j--) a[j] = a[j - 1]; a[j] = n_temp;` -/
def ins_pass (before : Int → Int → Bool) (a : Mem) (i : Nat) : Mem :=
  let n_temp := rd a i
  let r := shift_down (before n_temp) a i
  wr r.1 r.2 n_temp

/-- The insertion sort of `maxim_sort_ascend` and `maxim_sort_indices_descend`:
`for (i = 1; i < n_size; i++)` around `ins_pass`. -/
def insertion_sort (before : Int → Int → Bool) (a : Mem) (n_size : Nat) : Mem :=
  forLoop (n_size - 1) (fun t a => ins_pass before a (t + 1)) a

/-- The function `maxim_sort_ascend` (lines 274-282): the inner loop runs while
`n_temp < pn_x[j - 1]`. -/
def maxim_sort_ascend (pn_x : Mem) (n_size : Nat) : Mem :=
  insertion_sort (fun n_temp e => decide (n_temp < e)) pn_x n_size

/-- The function `maxim_sort_indices_descend` (lines 292-302): the inner loop runs while
`pn_x[n_temp] > pn_x[pn_indx[j - 1]]`. -/
def maxim_sort_indices_descend (pn_x : Nat → Int) (pn_indx : Mem) (n_size : Nat) : Mem :=
  insertion_sort (fun n_temp e => decide (pn_x n_temp.toNat > pn_x e.toNat)) pn_indx n_size

/-- Lines 253-259 of `maxim_remove_close_peaks`, the body of the inner loop for the outer
index `i = i1 - 1` and the inner index `j`, on the state `(pn_locs, *pn_npks)`: the entry
`pn_locs[j]` is copied to `pn_locs[(*pn_npks)++]` when its distance from `pn_locs[i]`
(from -1 when `i == -1`) exceeds `n_min_distance` in absolute value. -/
def remove_step (n_min_distance : Int) (i1 j : Nat) (st : Mem × Nat) : Mem × Nat :=
  let n_dist := i32 (rd st.1 j - (if i1 = 0 then -1 else rd st.1 (i1 - 1)))
  if n_dist > n_min_distance ∨ n_dist < -n_min_distance then
    (wr st.1 st.2 (rd st.1 j), st.2 + 1)
  else st

/-- Lines 250-260 of `maxim_remove_close_peaks`, one pass of the outer loop for `i = i1 - 1`:
`n_old_npks = *pn_npks; *pn_npks = i + 1; for (j = i + 1; j < n_old_npks; j++) ...`. -/
def remove_pass (n_min_distance : Int) (i1 : Nat) (pn_locs : Mem) (n_old_npks : Nat) : Mem × Nat :=
  forLoop (n_old_npks - i1) (fun t st => remove_step n_min_distance i1 (i1 + t) st) (pn_locs, i1)

/-- Lines 249-261 of `maxim_remove_close_peaks`: the loop `for (i = -1; i < *pn_npks; i++)`,
with `i1 = i + 1`. -/
def remove_loop (n_min_distance : Int) : Nat → Nat → Mem → Nat → Except Fault (Mem × Nat)
  | 0, _, _, _ => .error .outOfFuel
  | fuel + 1, i1, pn_locs, npks =>
    if i1 ≤ npks then
      let st := remove_pass n_min_distance i1 pn_locs npks
      remove_loop n_min_distance fuel (i1 + 1) st.1 st.2
    else
      .ok (pn_locs, npks)

/-- The function `maxim_remove_close_peaks` (lines 240-265). -/
def maxim_remove_close_peaks (pn_locs : Mem) (npks : Nat) (pn_x : Nat → Int)
    (n_min_distance : Int) : Except Fault (Mem × Nat) :=
  match remove_loop n_min_distance (npks + 2) 0
      (maxim_sort_indices_descend pn_x pn_locs npks) npks with
  | .error e => .error e
  | .ok st => .ok (maxim_sort_ascend st.1 st.2, st.2)

/-- The function `maxim_find_peaks` (lines 187-197). -/
def maxim_find_peaks (pn_locs : Mem) (pn_x : Nat → Int)
    (n_size n_min_height n_min_distance n_max_num : Int) : Except Fault (Mem × Int) :=
  match maxim_peaks_above_min_height pn_locs pn_x n_size n_min_height with
  | .error e => .error e
  | .ok st =>
    match maxim_remove_close_peaks st.1 st.2 pn_x n_min_distance with
    | .error e => .error e
    | .ok st => .ok (st.1, min (st.2 : Int) n_max_num)

/-- Lines 163-176 of `maxim_heart_rate_saturation`: the heart rate and its
validity flag from the peak locations `an_dx_peak_locs[0 .. n_npks-1]`. -/
def heart_rate_from_peaks (an_dx_peak_locs : Mem) (n_npks : Int) : Except Fault (Int × Int) :=
  if n_npks ≥ 2 then do
    let n_peak_interval_sum :=
      forLoop (n_npks.toNat - 1)
        (fun t sum => i32 (sum + i32 (rd an_dx_peak_locs (t + 1) - rd an_dx_peak_locs t))) 0
    let n_peak_interval_sum ← cdiv n_peak_interval_sum (i32 (n_npks - 1))
    let heart_rate ← cdiv 6000 n_peak_interval_sum
    pure (heart_rate, 1)
  else
    pure (-999, 0)

/-- The table `auw_hamm[31] = {41, 276, 512, 276, 41}`; the other entries are zero. -/
def auw_hamm (k : Nat) : Int := rd [41, 276, 512, 276, 41] k

/-- The module-level scratch arrays `an_dx[BUFFER_SIZE - MA4_SIZE]` and `an_x[BUFFER_SIZE]`. -/
structure Scratch where
  an_dx : Mem
  an_x : Mem

/-- Lines 120-122: `un_ir_mean = 0; for (k = 0; k < buffer_length; k++) un_ir_mean += ir_buffer[k];` -/
def ir_sum (ir_buffer : Nat → Int) (buffer_length : Int) : Int :=
  forLoop buffer_length.toNat (fun k un_ir_mean => u32 (un_ir_mean + ir_buffer k)) 0

/-- Lines 124-125: `for (k = 0; k < buffer_length; k++) an_x[k] = ir_buffer[k] - un_ir_mean;` -/
def remove_dc (ir_buffer : Nat → Int) (buffer_length un_ir_mean : Int) (an_x : Mem) : Mem :=
  forLoop buffer_length.toNat (fun k an_x => wr an_x k (i32 (u32 (ir_buffer k - un_ir_mean)))) an_x

/-- The right-hand side of line 129 on the current contents `x` of `an_x`. -/
def ma4_value (x : Nat → Int) (k : Nat) : Int :=
  Int.tdiv (i32 (i32 (i32 (x k + x (k + 1)) + x (k + 2)) + x (k + 3))) 4

/-- Lines 128-130: the 4 point moving average, in place. -/
def moving_average4 (an_x : Mem) : Mem :=
  forLoop (BUFFER_SIZE - MA4_SIZE) (fun k an_x => wr an_x k (ma4_value (rd an_x) k)) an_x

/-- Lines 134-135: `an_dx[k] = an_x[k + 1] - an_x[k]`. -/
def difference (an_x : Nat → Int) (an_dx : Mem) : Mem :=
  forLoop (BUFFER_SIZE - MA4_SIZE - 1) (fun k an_dx => wr an_dx k (i32 (an_x (k + 1) - an_x k))) an_dx

/-- The right-hand side of line 139 on the current contents `dx` of `an_dx`. -/
def ma2_value (dx : Nat → Int) (k : Nat) : Int :=
  Int.tdiv (i32 (dx k + dx (k + 1))) 2

/-- Lines 138-140: the 2 point moving average of `an_dx`, in place. -/
def moving_average2 (an_dx : Mem) : Mem :=
  forLoop (BUFFER_SIZE - MA4_SIZE - 2) (fun k an_dx => wr an_dx k (ma2_value (rd an_dx) k)) an_dx

/-- Lines 145-149 on the current contents `dx` of `an_dx`:
`s = 0; for (k = i; k < i + HAMMING_SIZE; k++) s -= an_dx[k] * auw_hamm[k - i];` and the
quotient `s / (int32_t)1146`. -/
def hamming_value (dx : Nat → Int) (i : Nat) : Int :=
  Int.tdiv (forLoop HAMMING_SIZE (fun t s => i32 (s - i32 (dx (i + t) * auw_hamm t))) 0) 1146

/-- Lines 144-150: the inverted Hamming window, in place. -/
def hamming (an_dx : Mem) : Mem :=
  forLoop (BUFFER_SIZE - HAMMING_SIZE - MA4_SIZE - 2)
    (fun i an_dx => wr an_dx i (hamming_value (rd an_dx) i)) an_dx

/-- Lines 152-156: the threshold `n_th1`, the mean of the absolute values of
`an_dx[0 .. BUFFER_SIZE - HAMMING_SIZE - 1]`. -/
def threshold (an_dx : Nat → Int) : Int :=
  Int.tdiv
    (forLoop (BUFFER_SIZE - HAMMING_SIZE)
      (fun k n_th1 => i32 (n_th1 + (if an_dx k > 0 then an_dx k else i32 (0 - an_dx k)))) 0)
    ((BUFFER_SIZE - HAMMING_SIZE : Nat) : Int)

/-- Lines 124-150 of `maxim_heart_rate_saturation`: the conditioning stages on the scratch
arrays. -/
def conditioning (s : Scratch) (ir_buffer : Nat → Int) (buffer_length un_ir_mean : Int) : Scratch :=
  let an_x := remove_dc ir_buffer buffer_length un_ir_mean s.an_x
  let an_x := moving_average4 an_x
  let an_dx := difference (rd an_x) s.an_dx
  let an_dx := moving_average2 an_dx
  let an_dx := hamming an_dx
  { an_dx := an_dx, an_x := an_x }

/-- Lines 152-176 of `maxim_heart_rate_saturation`: threshold, peak search on `an_dx` and the
heart-rate step; `an_dx_peak_locs` is the content of the uninitialised local array on entry. -/
def estimate_from (an_dx_peak_locs : Mem) (an_dx : Nat → Int) : Except Fault (Int × Int) :=
  let n_th1 := threshold an_dx
  match maxim_find_peaks an_dx_peak_locs an_dx ((BUFFER_SIZE - HAMMING_SIZE : Nat) : Int) n_th1 8 5 with
  | .error e => .error e
  | .ok r => heart_rate_from_peaks r.1 r.2

/-- The function `maxim_heart_rate_saturation` (lines 113-177) on the scratch arrays `s`;
the result is the scratch arrays after the call, `*heart_rate` and `*hr_valid`. The
division `un_ir_mean / buffer_length` is unsigned. -/
def maxim_heart_rate_saturation (s : Scratch) (an_dx_peak_locs : Mem) (ir_buffer : Nat → Int)
    (buffer_length : Int) : Except Fault (Scratch × Int × Int) :=
  if u32 buffer_length = 0 then .error .divByZero
  else
    let un_ir_mean := ir_sum ir_buffer buffer_length / u32 buffer_length
    let s2 := conditioning s ir_buffer buffer_length un_ir_mean
    match estimate_from an_dx_peak_locs (rd s2.an_dx) with
    | .error e => .error e
    | .ok r => .ok (s2, r.1, r.2)

/-! ## MAX30102.c -/

/-- The driver status `static enum { ready, running, error } status`. -/
inductive Status where
  | ready
  | running
  | error
deriving DecidableEq

def BUFFER_LENGTH : Nat := 500
def MAX_HR : Int := 200
def MAX_DIFF : Int := 25

/-- The macro `MIN(x, y) (((x) > (y)) ? (y) : (x))`. -/
def MIN (x y : Int) : Int := if x > y then y else x

/-- What the bus answers to one call of `MAX30102_read_fifo`: whether the reads of
`INTR_STATUS_1` and of `INTR_STATUS_2` succeed, and the bytes of `FIFO_DATA` when that
read succeeds. -/
structure FifoRead where
  intr_status_1 : Bool
  intr_status_2 : Bool
  fifo_data : Option (List Nat)

/-- What the hardware answers during one call of `MAX30102_get_hr`: the write of
`MODE_CONFIG` in `MAX30102_shutdown(1, 0)`, for each round the read of `INTR_STATUS_1` of
line 341, for each bus (`which`), round and sample index the answer to
`MAX30102_read_fifo`, the write of `MODE_CONFIG` in `MAX30102_shutdown(0, 0)`, and for
each round the content of the uninitialised local array `an_dx_peak_locs`. -/
structure Bus where
  wake : Bool
  round_intr : Nat → Bool
  fifo : Nat → Nat → Nat → FifoRead
  sleep : Bool
  stack : Nat → Mem

/-- The static variables of the driver and of the algorithm, and a ghost record
`estimated` of the buffers handed to `maxim_heart_rate_saturation`. -/
structure Driver where
  status : Status
  ir_buffer : Mem
  scratch : Scratch
  estimated : List (List Int)

/-- The function `MAX30102_shutdown` (lines 178-207) on the status; `written` tells whether
the write of `MODE_CONFIG` succeeds. -/
def MAX30102_shutdown (status : Status) (written : Bool) : Status :=
  if status ≠ .running then status
  else if written then status else .error

/-- Lines 256-266 of `MAX30102_read_fifo`: the sample assembled from the bytes 3, 4, 5 of
the frame in `uint32_t` arithmetic and masked with `0x03FFFF`. -/
def fifo_sample (read_buffer : List Nat) : Nat :=
  let ir_led := 0
  let temp := read_buffer.getD 3 0
  let temp := (temp <<< 16) % 4294967296
  let ir_led := (ir_led + temp) % 4294967296
  let temp := read_buffer.getD 4 0
  let temp := (temp <<< 8) % 4294967296
  let ir_led := (ir_led + temp) % 4294967296
  let temp := read_buffer.getD 5 0
  let ir_led := (ir_led + temp) % 4294967296
  ir_led &&& 0x03FFFF

/-- The function `MAX30102_read_fifo` (lines 218-268) for the bus answer `r`: the status
after the call and the sample stored in `*ir_led`, or `none` for `ESP_FAIL`. Both values
of `which` perform the same three reads, on their own bus. -/
def MAX30102_read_fifo (status : Status) (r : FifoRead) : Status × Option Int :=
  if status ≠ .running then (status, none)
  else if r.intr_status_1 = false then (.error, none)
  else if r.intr_status_2 = false then (.error, none)
  else
    match r.fifo_data with
    | none => (.error, none)
    | some read_buffer => (status, some (fifo_sample read_buffer : Nat))

/-- Lines 345-351 of `MAX30102_get_hr`: the loop `for (i = ...; i < BUFFER_LENGTH; i++)` with
`n` samples still to read, every sample read by `MAX30102_read_fifo(ir_buffer + i, 0)`. The
wait `while (NAR_GPIO_get_MAX30102_intr()) {}` is taken to end. The Boolean tells whether
the loop ran to its end (`false`: the function returns 0 at line 349). -/
def acquire (bus : Bus) (times : Nat) : Nat → Nat → Status → Mem → Status × Mem × Bool
  | 0, _, status, ir_buffer => (status, ir_buffer, true)
  | n + 1, i, status, ir_buffer =>
    match MAX30102_read_fifo status (bus.fifo 0 times i) with
    | (status2, none) => (status2, ir_buffer, false)
    | (status2, some v) => acquire bus times n (i + 1) status2 (wr ir_buffer i v)

/-- Lines 355-357: `if (hr[times] >= MAX_HR) valid[times] = 0;`, the value of
`valid[times]` afterwards. -/
def hr_gate (hr valid : Int) : Int := if hr ≥ MAX_HR then 0 else valid

/-- Lines 340-357 of `MAX30102_get_hr`, one round of the loop over `times`: the driver
afterwards and `hr[times]`, `valid[times]`, or `none` when the function returns 0 from
inside the round. -/
def hr_round (bus : Bus) (times : Nat) (d : Driver) : Except Fault (Driver × Option (Int × Int)) :=
  if bus.round_intr times = false then
    .ok ({ d with status := .error }, none)
  else
    match acquire bus times BUFFER_LENGTH 0 d.status d.ir_buffer with
    | (status, ir_buffer, false) => .ok ({ d with status := status, ir_buffer := ir_buffer }, none)
    | (status, ir_buffer, true) =>
      match maxim_heart_rate_saturation d.scratch (bus.stack times) (rd ir_buffer)
          (BUFFER_LENGTH : Nat) with
      | .error e => .error e
      | .ok (scratch, hr, valid) =>
        .ok ({ status := status, ir_buffer := ir_buffer, scratch := scratch,
               estimated := d.estimated ++ [(List.range BUFFER_LENGTH).map (rd ir_buffer)] },
             some (hr, hr_gate hr valid))

/-- Lines 360-380 of `MAX30102_get_hr`: the value of the returned expression before its
conversion to `uint8_t`; `strict` tells whether `STRICT` is defined. -/
def combine (strict : Bool) (hr0 valid0 hr1 valid1 : Int) : Int :=
  if strict then
    if valid0 ≠ 0 ∧ valid1 ≠ 0 then
      let temp := i32 (hr0 - hr1)
      if temp < MAX_DIFF ∧ temp > -MAX_DIFF then MIN hr0 hr1 else 0
    else 0
  else
    if valid0 ≠ 0 then
      if valid1 ≠ 0 then MIN hr0 hr1 else hr0
    else if valid1 ≠ 0 then hr1
    else 0

/-- The function `MAX30102_get_hr` (lines 331-381): the returned `uint8_t` and the driver
afterwards. The loop `for (times = 0; times < 2; times++)` is written out as its two
rounds. -/
def MAX30102_get_hr (strict : Bool) (bus : Bus) (d : Driver) : Except Fault (Int × Driver) :=
  if d.status ≠ .running then .ok (0, d)
  else
    let d := { d with status := MAX30102_shutdown d.status bus.wake }
    match hr_round bus 0 d with
    | .error e => .error e
    | .ok (d, none) => .ok (0, d)
    | .ok (d, some (hr0, valid0)) =>
      match hr_round bus 1 d with
      | .error e => .error e
      | .ok (d, none) => .ok (0, d)
      | .ok (d, some (hr1, valid1)) =>
        let d := { d with status := MAX30102_shutdown d.status bus.sleep }
        .ok (u8 (combine strict hr0 valid0 hr1 valid1), d)

/-! ## Reference definitions written from the specification -/

/-- Sum of the consecutive differences `p[k] - p[k-1]` of a list. -/
def interval_sum : List Int → Int
  | a :: b :: rest => (b - a) + interval_sum (b :: rest)
  | _ => 0

/-- Specification 4.3: with at least two peaks the heart rate is 6000 divided by
the truncated average of the consecutive index differences, marked valid;
otherwise the sentinel -999, invalid. -/
def estimate_spec (peaks : List Int) : Int × Bool :=
  if peaks.length ≥ 2 then
    (Int.tdiv 6000 (Int.tdiv (interval_sum peaks) ((peaks.length : Int) - 1)), true)
  else
    (-999, false)


/-! ## Stage-wise description of the conditioning -/

/-- The contents of `an_x` after the DC removal. -/
def dcF (ir : Nat → Int) (n : Nat) (mean : Int) (x : Nat → Int) : Nat → Int :=
  fun k => if k < n then i32 (u32 (ir k - mean)) else x k

/-- The contents of `an_x` after the 4 point moving average of `x`. -/
def ma4F (x : Nat → Int) : Nat → Int :=
  fun k => if k < BUFFER_SIZE - MA4_SIZE then ma4_value x k else x k

/-- The contents of `an_dx` after the difference of `x`. -/
def diffF (x dx : Nat → Int) : Nat → Int :=
  fun k => if k < BUFFER_SIZE - MA4_SIZE - 1 then i32 (x (k + 1) - x k) else dx k

/-- The contents of `an_dx` after the 2 point moving average of `dx`. -/
def ma2F (dx : Nat → Int) : Nat → Int :=
  fun k => if k < BUFFER_SIZE - MA4_SIZE - 2 then ma2_value dx k else dx k

/-- The contents of `an_dx` after the inverted Hamming window on `dx`. -/
def hammF (dx : Nat → Int) : Nat → Int :=
  fun k => if k < BUFFER_SIZE - HAMMING_SIZE - MA4_SIZE - 2 then hamming_value dx k else dx k

/-- The contents of `an_dx` after the five conditioning stages, each computed from the
unmodified result of the stage before. -/
def condF (ir : Nat → Int) (n : Nat) (mean : Int) (x dx : Nat → Int) : Nat → Int :=
  hammF (ma2F (diffF (ma4F (dcF ir n mean x)) dx))

/-- Equality of results is decidable. -/
instance instDecidableEqExcept {ε α : Type} [DecidableEq ε] [DecidableEq α] :
    DecidableEq (Except ε α)
  | .ok a, .ok b =>
    if h : a = b then isTrue (by rw [h]) else isFalse (fun e => h (Except.ok.inj e))
  | .error a, .error b =>
    if h : a = b then isTrue (by rw [h]) else isFalse (fun e => h (Except.error.inj e))
  | .ok _, .error _ => isFalse (fun e => Except.noConfusion e)
  | .error _, .ok _ => isFalse (fun e => Except.noConfusion e)

/-- The scratch arrays at program start: static storage is zero-initialised. -/
def boot_scratch : Scratch :=
  { an_dx := List.replicate (BUFFER_SIZE - MA4_SIZE) 0, an_x := List.replicate BUFFER_SIZE 0 }

/-- The contents of the scratch arrays that calls of `maxim_heart_rate_saturation` can leave
behind: the contents at program start, and the contents after a call, with any input, any
`buffer_length ≤ BUFFER_SIZE` and any content of the uninitialised local array, that
started from such contents. -/
inductive Reachable : Scratch → Prop
  | boot : Reachable boot_scratch
  | call (s s2 : Scratch) (an_dx_peak_locs : Mem) (ir_buffer : Nat → Int)
      (buffer_length heart_rate hr_valid : Int) :
      Reachable s → buffer_length ≤ 500 →
      maxim_heart_rate_saturation s an_dx_peak_locs ir_buffer buffer_length
        = .ok (s2, heart_rate, hr_valid) →
      Reachable s2

/-- A triangle wave of period 80 samples, rising by 300 per sample from 100000 and falling
back, as 18 bit samples. -/
def triangle_wave (k : Nat) : Int :=
  Int.ofNat (if k % 80 < 40 then 100000 + 300 * (k % 80) else 124000 - 300 * (k % 80))

/-- One period of the conditioned triangle wave. -/
def triangle_period : List Int :=
  List.replicate 32 (-300) ++ [-297, -273, -198, -72, 72, 198, 273, 297] ++
    List.replicate 32 300 ++ [297, 273, 198, 72, -72, -198, -273, -297]

/-- The contents of `an_dx` after conditioning the first 499 samples of the triangle wave
from the scratch arrays at program start. -/
def triangle_conditioned (k : Nat) : Int :=
  if k < 489 then rd triangle_period (k % 80) else if k < 495 then 300 else 0

/-! ## Invariants and relations used in the proofs -/

/-- The candidate array holds `npks` indices of the scanned range, `npks ≤ 15`. -/
def CandInv (n_size : Int) (len : Nat) (locs : Mem) (npks : Nat) : Prop :=
  npks ≤ 15 ∧ locs.length = len ∧ ∀ k, k < npks → 1 ≤ rd locs k ∧ rd locs k < n_size - 1

/-- The entries `new[0 .. n-1]` are the entries `old[0 .. n-1]` in another order. -/
def Reindex (n : Nat) (new old : Mem) : Prop :=
  ∃ σ : Nat → Nat, (∀ k, k < n → σ k < n) ∧ (∀ a b, a < n → b < n → σ a = σ b → a = b) ∧
    ∀ k, k < n → rd new k = rd old (σ k)

/-- The test of line 258 for an entry `x` against the reference location `ref`. -/
def Kept (d ref x : Int) : Prop := i32 (x - ref) > d ∨ i32 (x - ref) < -d

/-- The two arrays hold the same entries at the indices below `n`. -/
def Agree (n : Nat) (a b : Mem) : Prop := ∀ k, k < n → rd a k = rd b k

/-- The static arrays have their declared sizes: `an_dx[BUFFER_SIZE - MA4_SIZE]` and
`an_x[BUFFER_SIZE]`. -/
def Scratch.WF (s : Scratch) : Prop :=
  s.an_dx.length = BUFFER_SIZE - MA4_SIZE ∧ s.an_x.length = BUFFER_SIZE

/-- The bus answer `r` lets `MAX30102_read_fifo` succeed: the three reads succeed. -/
def FifoOk (r : FifoRead) : Prop :=
  r.intr_status_1 = true ∧ r.intr_status_2 = true ∧ r.fifo_data.isSome = true

/-- The sample that `MAX30102_read_fifo` stores for the bus answer `r`. -/
def sample_of (r : FifoRead) : Int :=
  match r.fifo_data with
  | some read_buffer => (fifo_sample read_buffer : Nat)
  | none => 0

/-- The 500 samples of the round `times` of `MAX30102_get_hr`, read from the bus 0. -/
def round_samples (bus : Bus) (times : Nat) : List Int :=
  (List.range BUFFER_LENGTH).map (fun i => sample_of (bus.fifo 0 times i))

/-- A bus on which every access succeeds and the FIFO returns frames of a slow wave. -/
def steady_bus : Bus :=
  { wake := true
    round_intr := fun _ => true
    fifo := fun _ times i =>
      { intr_status_1 := true, intr_status_2 := true,
        fifo_data := some [0, 0, 0, 1, 134 + (if (i + 7 * times) % 80 < 40 then (i + 7 * times) % 80
          else 80 - (i + 7 * times) % 80), 160] }
    sleep := true
    stack := fun _ => List.replicate 15 0 }

/-- The steady bus with a failing FIFO read for the last sample of the second round. -/
def failing_bus : Bus :=
  { steady_bus with
    fifo := fun which times i =>
      if times = 1 ∧ i = 499 then { intr_status_1 := true, intr_status_2 := true, fifo_data := none }
      else steady_bus.fifo which times i }

/-- The driver after a successful `MAX30102_init`, before any measurement. -/
def fresh_driver : Driver :=
  { status := .running, ir_buffer := List.replicate BUFFER_LENGTH 0, scratch := boot_scratch,
    estimated := [] }

/-! ## Definitions for the claims on the peak search, the sample format and the channel -/

/-- The steady bus with a second channel (`which` other than 0) on which every read
fails. -/
def dead_channel_bus : Bus :=
  { steady_bus with
    fifo := fun which times i =>
      if which = 0 then steady_bus.fifo 0 times i
      else { intr_status_1 := false, intr_status_2 := false, fifo_data := none } }

/-- Written from the specification of the candidate scan: `w ≥ 1` is the least offset with
`i + w = M` or `x[i + w] ≠ x[i]`. -/
def PlateauEnd (x : Nat → Int) (M : Int) (i w : Nat) : Prop :=
  1 ≤ w ∧ (((i + w : Nat) : Int) = M ∨ x (i + w) ≠ x i) ∧
    ∀ v, 1 ≤ v → v < w → ¬ (((i + v : Nat) : Int) = M ∨ x (i + v) ≠ x i)

/-- Written from the specification of the candidate scan: the index `i` of the signal `x`
of length `M` qualifies for the threshold `t`: `1 ≤ i ≤ M - 2`, `x[i] > t`,
`x[i] > x[i - 1]` and `x[i + w] < x[i]` at the end `i + w` of the plateau that starts
at `i`. -/
def Qualifies (x : Nat → Int) (M t : Int) (i : Nat) : Prop :=
  1 ≤ i ∧ (i : Int) ≤ M - 2 ∧ x i > t ∧ x i > x (i - 1) ∧
    ∃ w, PlateauEnd x M i w ∧ x (i + w) < x i

/-- The state of the candidate scan at the index `i`: the recorded candidates are
qualifying indices below `i` in ascending order, and every qualifying index below `i` is
recorded unless the array was already full with smaller indices. -/
def ScanInv (x : Nat → Int) (M t : Int) (i : Nat) (locs : Mem) (npks : Nat) : Prop :=
  npks ≤ 15 ∧
    (∀ k, k < npks → ∃ j : Nat, rd locs k = (j : Int) ∧ Qualifies x M t j ∧ j < i) ∧
    (∀ a b, a < b → b < npks → rd locs a < rd locs b) ∧
    ∀ j, j < i → Qualifies x M t j →
      (∃ k, k < npks ∧ rd locs k = (j : Int)) ∨
        (npks = 15 ∧ ∀ k, k < npks → rd locs k < (j : Int))

instance instDecidableKept (d ref x : Int) : Decidable (Kept d ref x) := by
  unfold Kept
  exact inferInstance

/-- Written from the specification of the distance filter: the greedy selection over the
candidates in the given order. A candidate `c` is selected when `|c - a| > d` for every
`a` selected before it and for the lag-zero peak, which `acc` holds from the start
(`acc = [-1]`). -/
def greedy_selection (d : Int) : List Int → List Int → List Int
  | _, [] => []
  | acc, c :: rest =>
    if ∀ a ∈ acc, |c - a| > d then c :: greedy_selection d (acc ++ [c]) rest
    else greedy_selection d acc rest

/-- A signal of 31 entries with the amplitudes 9, 5, 7, 5, 1 at the indices 3, 10, 15, 20,
30, used as an example for the distance filter. -/
def example_signal : List Int :=
  [0, 0, 0, 9, 0, 0, 0, 0, 0, 0, 5, 0, 0, 0, 0, 7, 0, 0, 0, 0, 5, 0, 0, 0, 0, 0, 0, 0, 0, 0, 1]

/-- The candidates 3, 10, 15, 20, 30 of the example signal in the array of 15 locations. -/
def example_candidates : Mem := [3, 10, 15, 20, 30, 0, 0, 0, 0, 0, 0, 0, 0, 0, 0]

/-- Written from the specification: the exact sum of the first `n` samples. -/
def sum_spec (x : Nat → Int) : Nat → Int
  | 0 => 0
  | n + 1 => sum_spec x n + x n

/-- Written from the specification: `y[k] = x[k] - trunc(sum(x) / 500)`. -/
def y_spec (x : Nat → Int) (k : Nat) : Int := x k - Int.tdiv (sum_spec x 500) 500

/-- Written from the specification: `m[k] = trunc((y[k] + y[k+1] + y[k+2] + y[k+3]) / 4)`. -/
def m_spec (x : Nat → Int) (k : Nat) : Int :=
  Int.tdiv (y_spec x k + y_spec x (k + 1) + y_spec x (k + 2) + y_spec x (k + 3)) 4

/-- Written from the specification: `d[k] = m[k+1] - m[k]`. -/
def d_spec (x : Nat → Int) (k : Nat) : Int := m_spec x (k + 1) - m_spec x k

/-- Written from the specification: `e[k] = trunc((d[k] + d[k+1]) / 2)`. -/
def e_spec (x : Nat → Int) (k : Nat) : Int := Int.tdiv (d_spec x k + d_spec x (k + 1)) 2

/-- Written from the specification: the conditioned entry
`trunc(-(41 e[i] + 276 e[i+1] + 512 e[i+2] + 276 e[i+3] + 41 e[i+4]) / 1146)`. -/
def c_spec (x : Nat → Int) (i : Nat) : Int :=
  Int.tdiv (-(41 * e_spec x i + 276 * e_spec x (i + 1) + 512 * e_spec x (i + 2)
    + 276 * e_spec x (i + 3) + 41 * e_spec x (i + 4))) 1146

/-- The 2 point average `e[k]` of the differences for samples `x[k] = c + 8 * u[k]`: every
division of the first stages is exact and the result does not depend on `c`. -/
def slope8_e (u : Nat → Int) (k : Nat) : Int := u (k + 4) + u (k + 5) - u k - u (k + 1)

/-- The contents of `an_dx` after conditioning 500 samples `x[k] = c + 8 * u[k]`, when
`an_dx[495]` was 0 before. -/
def slope8_conditioned (u : Nat → Int) (k : Nat) : Int :=
  if k < 489 then
    Int.tdiv (-(41 * slope8_e u k + 276 * slope8_e u (k + 1) + 512 * slope8_e u (k + 2)
      + 276 * slope8_e u (k + 3) + 41 * slope8_e u (k + 4))) 1146
  else if k < 494 then slope8_e u k
  else if k < 495 then 2 * (u 498 - u 494)
  else 0

/-- Written from the specification of the threshold: the sum of `|c[k]|` for `k < n`. -/
def abs_sum (c : Nat → Int) : Nat → Int
  | 0 => 0
  | n + 1 => abs_sum c n + |c n|

/-- Written from the specification of the threshold: `trunc((sum of |c[k]| for k < L) / L)`
for the conditioned signal `c` of valid length `L`. -/
def threshold_spec (c : Nat → Int) (L : Nat) : Int := Int.tdiv (abs_sum c L) L

/-- A buffer of 500 samples that are 0 except the last two, which are 8000. -/
def end_step (k : Nat) : Int := if k < 498 then 0 else 8000

/-- The buffer `end_step` is `8 * end_step_u`. -/
def end_step_u (k : Nat) : Int := if k < 498 then 0 else 1000

/-- A triangle wave of period 120 samples (50 beats per minute at 100 samples per second)
in units of 8: it rises by 1 per sample for 60 samples and falls back. -/
def triangle120_u (k : Nat) : Int :=
  Int.ofNat (if k % 120 < 60 then k % 120 else 120 - k % 120)

/-- The triangle wave of period 120 samples as 18 bit samples around 100000. -/
def triangle120 (k : Nat) : Int := 100000 + 8 * triangle120_u k

/-- A rising sawtooth of period `P` samples in units of 8. -/
def sawtooth_u (P : Nat) (k : Nat) : Int := Int.ofNat (k % P)


/-- Lines 163-169 of `maxim_heart_rate_saturation` for `n_npks >= 2`: the truncated average
distance `n_peak_interval_sum / (n_npks - 1)` between consecutive peak locations. -/
def peak_interval_average (an_dx_peak_locs : Mem) (n_npks : Int) : Int :=
  Int.tdiv
    (forLoop (n_npks.toNat - 1)
      (fun t sum => i32 (sum + i32 (rd an_dx_peak_locs (t + 1) - rd an_dx_peak_locs t))) 0)
    (i32 (n_npks - 1))


/-- Written from the specification of the truncation: the accepted peaks sorted by
ascending index and truncated to at most `max_count` entries. -/
def truncate_ascending (accepted : List Int) (max_count : Nat) : List Int :=
  (List.insertionSort (fun a b => a ≤ b) accepted).take max_count

/-- A signal of 70 entries with peaks of growing amplitude at the indices 9, 19, 29, 39,
49 and 59. -/
def six_peaks (k : Nat) : Int := if k % 10 = 9 then (k : Int) else 0

/-- A buffer that repeats the four samples 1000, 5000, 2000, 90000. -/
def four_cycle (k : Nat) : Int := rd [1000, 5000, 2000, 90000] (k % 4)

/-- The value `v` is in the range of `int32_t`. -/
def fits_i32 (v : Int) : Prop := -2147483648 ≤ v ∧ v ≤ 2147483647

/-- The value `v` is in the range of `uint32_t`. -/
def fits_u32 (v : Int) : Prop := 0 ≤ v ∧ v ≤ 4294967295

/-- Lines 145-148: the accumulator `s` of the Hamming entry `i` after `t` rounds of the
inner loop, on the current contents `dx` of `an_dx`. -/
def hamming_acc (dx : Nat → Int) (i t : Nat) : Int :=
  forLoop t (fun t s => i32 (s - i32 (dx (i + t) * auw_hamm t))) 0

/-- Lines 152-155: the sum `n_th1` after `k` rounds of the loop. -/
def threshold_acc (an_dx : Nat → Int) (k : Nat) : Int :=
  forLoop k (fun k n_th1 => i32 (n_th1 + (if an_dx k > 0 then an_dx k else i32 (0 - an_dx k)))) 0

/-- The contents of `an_x` after the DC removal (lines 124-125) of a call with 500 samples
on the scratch arrays `s`. -/
def an_x_dc (s : Scratch) (ir_buffer : Nat → Int) : Nat → Int :=
  dcF ir_buffer 500 (ir_sum ir_buffer 500 / u32 500) (rd s.an_x)

/-- The contents of `an_x` after the 4 point moving average (lines 128-130) of that call. -/
def an_x_ma4 (s : Scratch) (ir_buffer : Nat → Int) : Nat → Int := ma4F (an_x_dc s ir_buffer)

/-- The contents of `an_dx` after the difference (lines 134-135) of that call. -/
def an_dx_diff (s : Scratch) (ir_buffer : Nat → Int) : Nat → Int :=
  diffF (an_x_ma4 s ir_buffer) (rd s.an_dx)

/-- The contents of `an_dx` after the 2 point moving average (lines 138-140) of that call. -/
def an_dx_ma2 (s : Scratch) (ir_buffer : Nat → Int) : Nat → Int := ma2F (an_dx_diff s ir_buffer)

/-- The contents of `an_dx` after the Hamming window (lines 144-150) of that call. -/
def an_dx_hamm (s : Scratch) (ir_buffer : Nat → Int) : Nat → Int := hammF (an_dx_ma2 s ir_buffer)

/-! ## The code with checked array accesses

The functions of `algorithm.c` once more, with every array access checked against the
size of the array: the result is `none` when an index is outside its array (and when the
unchecked function reports a fault). The arrays are lists that have the declared sizes. -/

/-- Checked array read `a[k]` on an array of `a.length` entries: `none` when `k` is
outside the array. -/
def rdc (a : Mem) (k : Int) : Option Int :=
  if 0 ≤ k ∧ k < (a.length : Int) then some (rd a k.toNat) else none

/-- Checked array write `a[k] = v`: `none` when `k` is outside the array. -/
def wrc (a : Mem) (k : Int) (v : Int) : Option Mem :=
  if 0 ≤ k ∧ k < (a.length : Int) then some (wr a k.toNat v) else none

/-- The loop `for (k = 0; k < n; k++)` around a body with checked accesses. -/
def forLoopM {σ : Type} (n : Nat) (body : Nat → σ → Option σ) (s : σ) : Option σ :=
  match n with
  | 0 => some s
  | n + 1 => (forLoopM n body s).bind (body n)

/-- The array `auw_hamm[31] = {41, 276, 512, 276, 41}` with its 31 entries. -/
def auw_hamm_table : Mem := [41, 276, 512, 276, 41] ++ List.replicate 26 0

/-- Lines 120-122 with checked accesses. -/
def ir_sum_checked (ir_buffer : Mem) (buffer_length : Int) : Option Int :=
  forLoopM buffer_length.toNat (fun k un_ir_mean => do
    let v ← rdc ir_buffer (k : Int)
    pure (u32 (un_ir_mean + v))) 0

/-- Lines 124-125 with checked accesses. -/
def remove_dc_checked (ir_buffer : Mem) (buffer_length un_ir_mean : Int) (an_x : Mem) :
    Option Mem :=
  forLoopM buffer_length.toNat (fun k an_x => do
    let v ← rdc ir_buffer (k : Int)
    wrc an_x (k : Int) (i32 (u32 (v - un_ir_mean)))) an_x

/-- Lines 128-130 with checked accesses. -/
def moving_average4_checked (an_x : Mem) : Option Mem :=
  forLoopM (BUFFER_SIZE - MA4_SIZE) (fun k an_x => do
    let x0 ← rdc an_x (k : Int)
    let x1 ← rdc an_x ((k : Int) + 1)
    let x2 ← rdc an_x ((k : Int) + 2)
    let x3 ← rdc an_x ((k : Int) + 3)
    wrc an_x (k : Int) (Int.tdiv (i32 (i32 (i32 (x0 + x1) + x2) + x3)) 4)) an_x

/-- Lines 134-135 with checked accesses. -/
def difference_checked (an_x : Mem) (an_dx : Mem) : Option Mem :=
  forLoopM (BUFFER_SIZE - MA4_SIZE - 1) (fun k an_dx => do
    let x1 ← rdc an_x ((k : Int) + 1)
    let x0 ← rdc an_x (k : Int)
    wrc an_dx (k : Int) (i32 (x1 - x0))) an_dx

/-- Lines 138-140 with checked accesses. -/
def moving_average2_checked (an_dx : Mem) : Option Mem :=
  forLoopM (BUFFER_SIZE - MA4_SIZE - 2) (fun k an_dx => do
    let d0 ← rdc an_dx (k : Int)
    let d1 ← rdc an_dx ((k : Int) + 1)
    wrc an_dx (k : Int) (Int.tdiv (i32 (d0 + d1)) 2)) an_dx

/-- Lines 144-150 with checked accesses: the inner loop index is `k = i + t`, and
`auw_hamm` is read at `k - i = t`. -/
def hamming_checked (an_dx : Mem) : Option Mem :=
  forLoopM (BUFFER_SIZE - HAMMING_SIZE - MA4_SIZE - 2) (fun i an_dx => do
    let s ← forLoopM HAMMING_SIZE (fun t s => do
      let d ← rdc an_dx ((i : Int) + (t : Int))
      let w ← rdc auw_hamm_table ((i : Int) + (t : Int) - (i : Int))
      pure (i32 (s - i32 (d * w)))) 0
    wrc an_dx (i : Int) (Int.tdiv s 1146)) an_dx

/-- Lines 152-156 with checked accesses. -/
def threshold_checked (an_dx : Mem) : Option Int := do
  let n_th1 ← forLoopM (BUFFER_SIZE - HAMMING_SIZE) (fun k n_th1 => do
    let v ← rdc an_dx (k : Int)
    pure (i32 (n_th1 + (if v > 0 then v else i32 (0 - v))))) 0
  pure (Int.tdiv n_th1 ((BUFFER_SIZE - HAMMING_SIZE : Nat) : Int))

/-- Lines 218-220 with checked accesses: `pn_x[i + n_width]` is read only when
`i + n_width < n_size`. -/
def flat_width_checked (pn_x : Mem) (n_size : Int) (i : Nat) : Nat → Nat → Option Nat
  | 0, _ => none
  | fuel + 1, n_width =>
    if ((i + n_width : Nat) : Int) < n_size then do
      let a ← rdc pn_x (i : Int)
      let b ← rdc pn_x ((i : Int) + (n_width : Int))
      if a = b then flat_width_checked pn_x n_size i fuel (n_width + 1) else pure n_width
    else pure n_width

/-- Lines 214-230 with checked accesses: `pn_x[i - 1]` is read only when
`pn_x[i] > n_min_height`, and `pn_locs[*pn_npks]` is written only when `*pn_npks < 15`. -/
def peaks_loop_checked (pn_x : Mem) (n_size n_min_height : Int) :
    Nat → Nat → Mem → Nat → Option (Mem × Nat)
  | 0, _, _, _ => none
  | fuel + 1, i, pn_locs, npks =>
    if (i : Int) < n_size - 1 then do
      let a ← rdc pn_x (i : Int)
      let left_edge ←
        if a > n_min_height then do
          let b ← rdc pn_x ((i : Int) - 1)
          pure (decide (a > b))
        else pure false
      if left_edge then do
        let n_width ← flat_width_checked pn_x n_size i (n_size.toNat + 1) 1
        let c ← rdc pn_x ((i : Int) + (n_width : Int))
        if a > c ∧ npks < 15 then do
          let pn_locs ← wrc pn_locs (npks : Int) (i : Int)
          peaks_loop_checked pn_x n_size n_min_height fuel (i + n_width + 1) pn_locs (npks + 1)
        else
          peaks_loop_checked pn_x n_size n_min_height fuel (i + n_width) pn_locs npks
      else
        peaks_loop_checked pn_x n_size n_min_height fuel (i + 1) pn_locs npks
    else pure (pn_locs, npks)

/-- The function `maxim_peaks_above_min_height` with checked accesses. -/
def maxim_peaks_above_min_height_checked (pn_locs : Mem) (pn_x : Mem)
    (n_size n_min_height : Int) : Option (Mem × Nat) :=
  peaks_loop_checked pn_x n_size n_min_height (n_size.toNat + 1) 1 pn_locs 0

/-- The inner loop of the insertion sorts with checked accesses; the test `before` reads
the signal in `maxim_sort_indices_descend`. For the loop index `j + 1` the entry
`pn_x[j]` is read and `pn_x[j + 1]` is written. -/
def shift_down_checked (before : Int → Option Bool) : Mem → Nat → Option (Mem × Nat)
  | a, 0 => some (a, 0)
  | a, j + 1 => do
    let e ← rdc a ((j : Int) + 1 - 1)
    let b ← before e
    if b then do
      let a ← wrc a ((j : Int) + 1) e
      shift_down_checked before a j
    else pure (a, j + 1)

/-- One pass of the outer loop of the insertion sorts with checked accesses. -/
def ins_pass_checked (before : Int → Int → Option Bool) (a : Mem) (i : Nat) : Option Mem := do
  let n_temp ← rdc a (i : Int)
  let r ← shift_down_checked (before n_temp) a i
  wrc r.1 (r.2 : Int) n_temp

/-- The insertion sort with checked accesses. -/
def insertion_sort_checked (before : Int → Int → Option Bool) (a : Mem) (n_size : Nat) :
    Option Mem :=
  forLoopM (n_size - 1) (fun t a => ins_pass_checked before a (t + 1)) a

/-- The function `maxim_sort_ascend` with checked accesses. -/
def maxim_sort_ascend_checked (pn_x : Mem) (n_size : Nat) : Option Mem :=
  insertion_sort_checked (fun n_temp e => some (decide (n_temp < e))) pn_x n_size

/-- The function `maxim_sort_indices_descend` with checked accesses: the test reads
`pn_x[n_temp]` and `pn_x[pn_indx[j - 1]]`. -/
def maxim_sort_indices_descend_checked (pn_x : Mem) (pn_indx : Mem) (n_size : Nat) :
    Option Mem :=
  insertion_sort_checked (fun n_temp e => do
    let x1 ← rdc pn_x n_temp
    let x2 ← rdc pn_x e
    pure (decide (x1 > x2))) pn_indx n_size

/-- Lines 253-259 with checked accesses, for `i = i1 - 1`. -/
def remove_step_checked (n_min_distance : Int) (i1 j : Nat) (st : Mem × Nat) :
    Option (Mem × Nat) := do
  let lj ← rdc st.1 (j : Int)
  let ref ← if i1 = 0 then pure (-1) else rdc st.1 ((i1 : Int) - 1)
  let n_dist := i32 (lj - ref)
  if n_dist > n_min_distance ∨ n_dist < -n_min_distance then do
    let l ← wrc st.1 (st.2 : Int) lj
    pure (l, st.2 + 1)
  else pure st

/-- Lines 250-260 with checked accesses. -/
def remove_pass_checked (n_min_distance : Int) (i1 : Nat) (pn_locs : Mem) (n_old_npks : Nat) :
    Option (Mem × Nat) :=
  forLoopM (n_old_npks - i1) (fun t st => remove_step_checked n_min_distance i1 (i1 + t) st)
    (pn_locs, i1)

/-- Lines 249-261 with checked accesses. -/
def remove_loop_checked (n_min_distance : Int) :
    Nat → Nat → Mem → Nat → Option (Mem × Nat)
  | 0, _, _, _ => none
  | fuel + 1, i1, pn_locs, npks =>
    if i1 ≤ npks then do
      let st ← remove_pass_checked n_min_distance i1 pn_locs npks
      remove_loop_checked n_min_distance fuel (i1 + 1) st.1 st.2
    else pure (pn_locs, npks)

/-- The function `maxim_remove_close_peaks` with checked accesses. -/
def maxim_remove_close_peaks_checked (pn_locs : Mem) (npks : Nat) (pn_x : Mem)
    (n_min_distance : Int) : Option (Mem × Nat) := do
  let sorted ← maxim_sort_indices_descend_checked pn_x pn_locs npks
  let st ← remove_loop_checked n_min_distance (npks + 2) 0 sorted npks
  let out ← maxim_sort_ascend_checked st.1 st.2
  pure (out, st.2)

/-- The function `maxim_find_peaks` with checked accesses. -/
def maxim_find_peaks_checked (pn_locs : Mem) (pn_x : Mem)
    (n_size n_min_height n_min_distance n_max_num : Int) : Option (Mem × Int) := do
  let st ← maxim_peaks_above_min_height_checked pn_locs pn_x n_size n_min_height
  let st ← maxim_remove_close_peaks_checked st.1 st.2 pn_x n_min_distance
  pure (st.1, min (st.2 : Int) n_max_num)

/-- Lines 163-176 with checked accesses: the loop index is `k = t + 1`. -/
def heart_rate_from_peaks_checked (an_dx_peak_locs : Mem) (n_npks : Int) :
    Option (Int × Int) :=
  if n_npks ≥ 2 then do
    let n_peak_interval_sum ← forLoopM (n_npks.toNat - 1) (fun t sum => do
      let a ← rdc an_dx_peak_locs ((t : Int) + 1)
      let b ← rdc an_dx_peak_locs ((t : Int) + 1 - 1)
      pure (i32 (sum + i32 (a - b)))) 0
    let n_peak_interval_sum ← (cdiv n_peak_interval_sum (i32 (n_npks - 1))).toOption
    let heart_rate ← (cdiv 6000 n_peak_interval_sum).toOption
    pure (heart_rate, 1)
  else
    pure (-999, 0)

/-- The function `maxim_heart_rate_saturation` with checked accesses, on the buffer
`ir_buffer`, the scratch arrays `s` and the local array `an_dx_peak_locs`. -/
def maxim_heart_rate_saturation_checked (s : Scratch) (an_dx_peak_locs : Mem) (ir_buffer : Mem)
    (buffer_length : Int) : Option (Scratch × Int × Int) :=
  if u32 buffer_length = 0 then none
  else do
    let un_ir_mean ← ir_sum_checked ir_buffer buffer_length
    let un_ir_mean := un_ir_mean / u32 buffer_length
    let an_x ← remove_dc_checked ir_buffer buffer_length un_ir_mean s.an_x
    let an_x ← moving_average4_checked an_x
    let an_dx ← difference_checked an_x s.an_dx
    let an_dx ← moving_average2_checked an_dx
    let an_dx ← hamming_checked an_dx
    let n_th1 ← threshold_checked an_dx
    let r ← maxim_find_peaks_checked an_dx_peak_locs an_dx
      ((BUFFER_SIZE - HAMMING_SIZE : Nat) : Int) n_th1 8 5
    let e ← heart_rate_from_peaks_checked r.1 r.2
    pure ({ an_dx := an_dx, an_x := an_x }, e.1, e.2)

/-- A signal of 495 entries that is 0 at the index 0 and 1 elsewhere: its plateau reaches
the end of the signal. -/
def plateau_to_end : Mem := 0 :: List.replicate 494 1

/-! ## Definitions for rising sawtooth buffers of any step -/

/-- The rising sawtooth buffer `x[k] = c + s * (k mod P)` of period `P` samples and step
`s` per sample. -/
def sawtooth (c : Int) (s P : Nat) (k : Nat) : Int := c + (s : Int) * ((k % P : Nat) : Int)

/-- The falling sawtooth buffer `x[k] = c + s * (P - 1 - k mod P)` of period `P` samples and
step `s` per sample. -/
def falling_sawtooth (c : Int) (s P : Nat) (k : Nat) : Int :=
  c + (s : Int) * ((P - 1 - k % P : Nat) : Int)

/-- The sawtooth `s * (k mod P)` with the value `M` subtracted: the samples of a rising
sawtooth after the removal of the mean `c + M`. -/
def rampy (s P : Nat) (M : Int) (k : Nat) : Int := (s : Int) * ((k % P : Nat) : Int) - M

/-- The 4 point moving average of the signal `y` at `k`, as in `m_spec`. -/
def win_m (y : Nat → Int) (k : Nat) : Int := Int.tdiv (y k + y (k + 1) + y (k + 2) + y (k + 3)) 4

/-- The difference of the 4 point moving average of `y` at `k`, as in `d_spec`. -/
def win_d (y : Nat → Int) (k : Nat) : Int := win_m y (k + 1) - win_m y k

/-- The 2 point moving average of the differences of `y` at `k`, as in `e_spec`. -/
def win_e (y : Nat → Int) (k : Nat) : Int := Int.tdiv (win_d y k + win_d y (k + 1)) 2

/-- The conditioned entry of `y` at `k`, as in `c_spec`. -/
def win_c (y : Nat → Int) (k : Nat) : Int :=
  Int.tdiv (-(41 * win_e y k + 276 * win_e y (k + 1) + 512 * win_e y (k + 2)
    + 276 * win_e y (k + 3) + 41 * win_e y (k + 4))) 1146

/-- The sum of `k mod P` over `k < 500` in closed form. -/
def saw_mod_sum (P : Nat) : Nat :=
  ((500 / P) * (P * (P - 1)) + (500 % P) * (500 % P - 1)) / 2

/-- The truncated mean of the 500 samples `s * (k mod P)`. -/
def saw_mean (s P : Nat) : Int := ((s * saw_mod_sum P / 500 : Nat) : Int)

/-- The conditioned value of the rising sawtooth of step `s` and period `P` with the mean
`M` removed, at the `j`-th entry of the bump that the first drop of the sawtooth produces,
`j = 0 .. 8`. -/
def bump (s P : Nat) (M : Int) (j : Nat) : Int := win_c (rampy s P M) (P - 9 + j)

/-- The entries `489 .. 493` of `an_dx`, which the Hamming filter leaves as the 2 point
averages, for the rising sawtooth. -/
def tail_e (s P : Nat) (M : Int) (k : Nat) : Int := win_e (rampy s P M) k

/-- The shape of the conditioned rising sawtooth that the peak search relies on: the bump of
a drop rises weakly to its top `bump 4` and falls weakly from it, it is not positive at its
ends, the top is positive and bounds the absolute values, and the six entries after the
filtered part are small against the top. -/
def BumpFacts (s P : Nat) (M : Int) : Prop :=
  bump s P M 0 ≤ 0 ∧ bump s P M 8 ≤ 0 ∧
  -bump s P M 4 ≤ bump s P M 0 ∧ -bump s P M 4 ≤ bump s P M 8 ∧
  bump s P M 0 ≤ bump s P M 1 ∧ bump s P M 1 ≤ bump s P M 2 ∧ bump s P M 2 ≤ bump s P M 3 ∧
  bump s P M 3 ≤ bump s P M 4 ∧ bump s P M 5 ≤ bump s P M 4 ∧ bump s P M 6 ≤ bump s P M 5 ∧
  bump s P M 7 ≤ bump s P M 6 ∧ bump s P M 8 ≤ bump s P M 7 ∧
  bump s P M 2 < bump s P M 4 ∧ bump s P M 6 < bump s P M 4 ∧
  1 ≤ bump s P M 4 ∧ (10 ≤ P → (s : Int) ≤ bump s P M 4) ∧
  |tail_e s P M 489| + |tail_e s P M 490| + |tail_e s P M 491| + |tail_e s P M 492|
    + |tail_e s P M 493| + |win_d (rampy s P M) 494|
    + 4 * |bump s P M 2| + 4 * |bump s P M 6| < 14 * bump s P M 4 ∧
  (33 ≤ P → tail_e s P M 489 ≤ bump s P M 4 ∧ tail_e s P M 490 ≤ bump s P M 4 ∧
    tail_e s P M 491 ≤ bump s P M 4 ∧ tail_e s P M 492 ≤ bump s P M 4 ∧
    tail_e s P M 493 ≤ bump s P M 4)

instance instDecidableBumpFacts (s P : Nat) (M : Int) : Decidable (BumpFacts s P M) := by
  unfold BumpFacts
  exact inferInstance

/-- A conditioned signal `f` with one bump per period `P`, as a drop of a rising sawtooth
produces it: `f` repeats with the period `P` on the filtered part `k < 489`; it is not
positive outside the nine entries `P - 9 .. P - 1` of the bump; the bump rises weakly to its
top `f (P - 5)` and falls weakly after it, is not positive at its two ends and is lower than
the top two entries away from it; the top is positive and bounds the absolute values of a
period; the six entries after the filtered part are small against the top. -/
def BumpSignal (f : Nat → Int) (P : Nat) : Prop :=
  (∀ k, k < 489 → f k = f (k % P)) ∧
  (∀ r, r + 9 < P → f r ≤ 0) ∧
  (∀ r, r < P → |f r| ≤ f (P - 5)) ∧
  f (P - 9) ≤ 0 ∧ f (P - 1) ≤ 0 ∧
  f (P - 9) ≤ f (P - 8) ∧ f (P - 8) ≤ f (P - 7) ∧ f (P - 7) ≤ f (P - 6) ∧
  f (P - 6) ≤ f (P - 5) ∧ f (P - 4) ≤ f (P - 5) ∧ f (P - 3) ≤ f (P - 4) ∧
  f (P - 2) ≤ f (P - 3) ∧ f (P - 1) ≤ f (P - 2) ∧
  f (P - 7) < f (P - 5) ∧ f (P - 3) < f (P - 5) ∧ 1 ≤ f (P - 5) ∧
  |f 489| + |f 490| + |f 491| + |f 492| + |f 493| + |f 494|
    + 4 * |f (P - 7)| + 4 * |f (P - 3)| < 14 * f (P - 5) ∧
  (33 ≤ P → ∀ k, 489 ≤ k → k ≤ 493 → f k ≤ f (P - 5)) ∧
  (∀ k, k < 495 → -4000000 ≤ f k ∧ f k ≤ 4000000)

/-- The place in the period of the candidate that the bump produces: the first entry of
the top. -/
def bump_top (f : Nat → Int) (P : Nat) : Nat := if f (P - 6) = f (P - 5) then P - 6 else P - 5

/-- The index of the candidate that the `i`-th bump of the signal `f` of period `P`
produces. -/
def bump_peak (f : Nat → Int) (P i : Nat) : Int := ((bump_top f P + i * P : Nat) : Int)

/-- The falling sawtooth of period `P` in units of the step: `P - 1 - k mod P`. -/
def falling_u (P : Nat) (k : Nat) : Int := Int.ofNat (P - 1 - k % P)

/-- A conditioned signal that is 0 on the filtered part `k < 489` and continues with the
entries of the list `tail`, as the rising sawtooth of step 1 produces it for the periods
9, 10 and 11. -/
def flat_conditioned (tail : List Int) (k : Nat) : Int :=
  if k < 489 then 0 else rd tail (k - 489)

/-- A bus on which every access succeeds and the FIFO returns frames of a rising sawtooth
`65536 + 256 * (i mod P)`: of period `P = 20` samples (300 BPM) in the first round and of
period `P = 25` samples (240 BPM) in the second. -/
def fast_bus : Bus :=
  { wake := true
    round_intr := fun _ => true
    fifo := fun _ times i =>
      { intr_status_1 := true, intr_status_2 := true,
        fifo_data := some [0, 0, 0, 1, i % (20 + 5 * times), 0] }
    sleep := true
    stack := fun _ => List.replicate 15 0 }

/-! ## Basic facts -/

theorem i32_eq_self {x : Int} (h1 : -2147483648 ≤ x) (h2 : x < 2147483648) : i32 x = x := by
  unfold i32; omega

theorem rd_wr (a : Mem) (k j : Nat) (v : Int) :
    rd (wr a k v) j = if j = k ∧ k < a.length then v else rd a j := by
  unfold rd wr
  rw [List.getD_eq_getElem?_getD, List.getElem?_set, List.getD_eq_getElem?_getD]
  by_cases h : k = j
  · subst h
    by_cases h2 : k < a.length
    · simp [h2]
    · simp [h2, List.getElem?_eq_none (Nat.le_of_not_lt h2)]
  · have h3 : ¬ (j = k) := fun e => h e.symm
    simp [h, h3]

theorem length_wr (a : Mem) (k : Nat) (v : Int) : (wr a k v).length = a.length := by
  simp [wr]

theorem rd_wr_same (a : Mem) (k : Nat) (v : Int) (h : k < a.length) : rd (wr a k v) k = v := by
  rw [rd_wr]; simp [h]

theorem rd_wr_ne (a : Mem) (k j : Nat) (v : Int) (h : j ≠ k) : rd (wr a k v) j = rd a j := by
  rw [rd_wr]; simp [h]

theorem rd_append_left (q rest : Mem) (k : Nat) (hk : k < q.length) : rd (q ++ rest) k = rd q k := by
  unfold rd; exact List.getD_append q rest 0 k hk

theorem rd_eq_getElem (q : Mem) (k : Nat) (hk : k < q.length) : rd q k = q[k] := by
  unfold rd; exact List.getD_eq_getElem q 0 hk

/-! ## Candidate extraction -/

theorem flat_width_ok (pn_x : Nat → Int) (n_size : Int) (i : Nat) :
    ∀ (fuel n_width : Nat), 0 < fuel → n_size - ((i + n_width : Nat) : Int) < fuel →
      ∃ w, n_width ≤ w ∧ flat_width pn_x n_size i fuel n_width = .ok w := by
  intro fuel
  induction fuel with
  | zero => intro w h; omega
  | succ fuel ih =>
    intro w _ hm
    unfold flat_width
    by_cases hc : ((i + w : Nat) : Int) < n_size ∧ pn_x i = pn_x (i + w)
    · rw [if_pos hc]
      obtain ⟨w2, hw2, e⟩ := ih (w + 1) (by omega) (by push_cast at hm ⊢; omega)
      exact ⟨w2, by omega, e⟩
    · rw [if_neg hc]
      exact ⟨w, le_refl _, rfl⟩

theorem peaks_loop_ok (pn_x : Nat → Int) (n_size h : Int) (len : Nat) (hlen : 15 ≤ len) :
    ∀ (fuel i : Nat) (locs : Mem) (npks : Nat), 1 ≤ i → 0 < fuel → n_size - (i : Int) < fuel →
      CandInv n_size len locs npks →
      ∃ locs2 npks2, peaks_loop pn_x n_size h fuel i locs npks = .ok (locs2, npks2) ∧
        CandInv n_size len locs2 npks2 := by
  intro fuel
  induction fuel with
  | zero => intro i locs npks _ h0; omega
  | succ fuel ih =>
    intro i locs npks hi _ hm hinv
    unfold peaks_loop
    by_cases hc : (i : Int) < n_size - 1
    · rw [if_pos hc]
      by_cases hp : pn_x i > h ∧ pn_x i > pn_x (i - 1)
      · rw [if_pos hp]
        obtain ⟨w, hw, e⟩ := flat_width_ok pn_x n_size i (n_size.toNat + 1) 1 (by omega)
          (by push_cast; omega)
        rw [e]
        by_cases hq : pn_x i > pn_x (i + w) ∧ npks < 15
        · simp only [if_pos hq]
          apply ih (i + w + 1) _ _ (by omega) (by omega) (by push_cast; omega)
          obtain ⟨h1, h2, h3⟩ := hinv
          refine ⟨by omega, by rw [length_wr]; exact h2, ?_⟩
          intro k hk
          by_cases hk2 : k = npks
          · subst hk2
            rw [rd_wr_same _ _ _ (by omega)]
            omega
          · rw [rd_wr_ne _ _ _ _ hk2]
            exact h3 k (by omega)
        · simp only [if_neg hq]
          exact ih (i + w) _ _ (by omega) (by omega) (by push_cast; omega) hinv
      · rw [if_neg hp]
        exact ih (i + 1) _ _ (by omega) (by omega) (by push_cast; omega) hinv
    · rw [if_neg hc]
      exact ⟨locs, npks, rfl, hinv⟩

theorem maxim_peaks_above_min_height_ok (pn_locs : Mem) (pn_x : Nat → Int) (n_size h : Int)
    (hlen : 15 ≤ pn_locs.length) :
    ∃ locs npks, maxim_peaks_above_min_height pn_locs pn_x n_size h = .ok (locs, npks) ∧
      CandInv n_size pn_locs.length locs npks := by
  unfold maxim_peaks_above_min_height
  apply peaks_loop_ok pn_x n_size h pn_locs.length hlen _ _ _ _ (by omega) (by omega) (by omega)
  exact ⟨by omega, rfl, fun k hk => by omega⟩

/-! ## Insertion sorts -/

theorem shift_down_spec (before : Int → Bool) :
    ∀ (j : Nat) (a : Mem), j < a.length →
      (shift_down before a j).2 ≤ j ∧ (shift_down before a j).1.length = a.length ∧
      (∀ k, rd (shift_down before a j).1 k
          = if (shift_down before a j).2 < k ∧ k ≤ j then rd a (k - 1) else rd a k) ∧
      ((shift_down before a j).2 = 0 ∨ before (rd a ((shift_down before a j).2 - 1)) = false) ∧
      (∀ k, (shift_down before a j).2 ≤ k → k < j → before (rd a k) = true) := by
  intro j
  induction j with
  | zero =>
    intro a _
    unfold shift_down
    refine ⟨le_refl _, rfl, ?_, Or.inl rfl, ?_⟩
    · intro k
      rw [if_neg (by simp only []; omega)]
    · intro k _ hk
      omega
  | succ j ih =>
    intro a hj
    unfold shift_down
    by_cases hb : before (rd a j) = true
    · rw [if_pos hb]
      have hlen : j < (wr a (j + 1) (rd a j)).length := by rw [length_wr]; omega
      obtain ⟨h1, h2, h3, h4, h5⟩ := ih (wr a (j + 1) (rd a j)) hlen
      have hrd : ∀ k, k ≤ j → rd (wr a (j + 1) (rd a j)) k = rd a k :=
        fun k hk => rd_wr_ne _ _ _ _ (by omega)
      refine ⟨by omega, by rw [h2, length_wr], ?_, ?_, ?_⟩
      · intro k
        rw [h3 k]
        by_cases c1 : (shift_down before (wr a (j + 1) (rd a j)) j).2 < k ∧ k ≤ j
        · rw [if_pos c1, if_pos ⟨c1.1, by omega⟩, hrd _ (by omega)]
        · rw [if_neg c1]
          by_cases c2 : k = j + 1
          · subst c2
            rw [rd_wr_same _ _ _ hj, if_pos ⟨by omega, le_refl _⟩]
            simp
          · rw [rd_wr_ne _ _ _ _ c2, if_neg (by omega)]
      · rcases h4 with h4 | h4
        · exact Or.inl h4
        · right
          rw [hrd _ (by omega)] at h4
          exact h4
      · intro k hk1 hk2
        by_cases c : k = j
        · subst c; exact hb
        · have := h5 k hk1 (by omega)
          rw [hrd _ (by omega)] at this
          exact this
    · rw [if_neg hb]
      refine ⟨le_refl _, rfl, ?_, ?_, ?_⟩
      · intro k
        rw [if_neg (by simp only []; omega)]
      · right
        simpa using hb
      · intro k hk1 hk2
        simp only [] at hk1
        omega

theorem Reindex.refl (n : Nat) (a : Mem) : Reindex n a a :=
  ⟨id, fun _ h => h, fun _ _ _ _ h => h, fun _ _ => rfl⟩

theorem Reindex.trans {n : Nat} {a b c : Mem} (h1 : Reindex n a b) (h2 : Reindex n b c) :
    Reindex n a c := by
  obtain ⟨s1, a1, b1, c1⟩ := h1
  obtain ⟨s2, a2, b2, c2⟩ := h2
  refine ⟨fun k => s2 (s1 k), fun k hk => a2 _ (a1 k hk), ?_, ?_⟩
  · intro x y hx hy h
    exact b1 x y hx hy (b2 _ _ (a1 x hx) (a1 y hy) h)
  · intro k hk
    rw [c1 k hk, c2 _ (a1 k hk)]

theorem ins_pass_rd (before : Int → Int → Bool) (a : Mem) (i : Nat) (hi : i < a.length) (k : Nat) :
    rd (ins_pass before a i) k
      = if k = (shift_down (before (rd a i)) a i).2 then rd a i
        else if (shift_down (before (rd a i)) a i).2 < k ∧ k ≤ i then rd a (k - 1) else rd a k := by
  obtain ⟨h1, h2, h3, _, _⟩ := shift_down_spec (before (rd a i)) i a hi
  unfold ins_pass
  rw [rd_wr]
  by_cases c : k = (shift_down (before (rd a i)) a i).2
  · rw [if_pos ⟨c, by rw [h2]; omega⟩, if_pos c]
  · rw [if_neg (fun h => c h.1), if_neg c, h3 k]

theorem ins_pass_length (before : Int → Int → Bool) (a : Mem) (i : Nat) (hi : i < a.length) :
    (ins_pass before a i).length = a.length := by
  unfold ins_pass
  rw [length_wr, (shift_down_spec (before (rd a i)) i a hi).2.1]

theorem ins_pass_reindex (before : Int → Int → Bool) (a : Mem) (i n : Nat) (hi : i < n)
    (hn : n ≤ a.length) : Reindex n (ins_pass before a i) a := by
  have hj := (shift_down_spec (before (rd a i)) i a (by omega)).1
  refine ⟨fun k => if k = (shift_down (before (rd a i)) a i).2 then i
      else if (shift_down (before (rd a i)) a i).2 < k ∧ k ≤ i then k - 1 else k, ?_, ?_, ?_⟩
  · intro k hk
    simp only []
    split_ifs <;> omega
  · intro x y hx hy
    simp only []
    split_ifs <;> omega
  · intro k hk
    rw [ins_pass_rd before a i (by omega) k]
    simp only []
    split_ifs <;> rfl

theorem insertion_sort_loop (before : Int → Int → Bool) (a : Mem) (n : Nat) (hn : n ≤ a.length) :
    ∀ m, m + 1 ≤ n →
      (forLoop m (fun t a => ins_pass before a (t + 1)) a).length = a.length ∧
      Reindex n (forLoop m (fun t a => ins_pass before a (t + 1)) a) a := by
  intro m
  induction m with
  | zero => intro _; exact ⟨rfl, Reindex.refl n a⟩
  | succ m ih =>
    intro hm
    obtain ⟨h1, h2⟩ := ih (by omega)
    simp only [forLoop]
    exact ⟨by rw [← h1]; exact ins_pass_length before _ _ (by omega),
      Reindex.trans (ins_pass_reindex before _ (m + 1) n (by omega) (by omega)) h2⟩

theorem insertion_sort_reindex (before : Int → Int → Bool) (a : Mem) (n : Nat)
    (hn : n ≤ a.length) :
    (insertion_sort before a n).length = a.length ∧ Reindex n (insertion_sort before a n) a := by
  unfold insertion_sort
  rcases Nat.eq_zero_or_pos n with h0 | h0
  · subst h0
    exact ⟨rfl, Reindex.refl 0 a⟩
  · exact insertion_sort_loop before a n hn (n - 1) (by omega)

theorem SortedUpTo_ins_pass (a : Mem) (i : Nat) (hi : i < a.length)
    (hs : ∀ p q, p < q → q < i → rd a p ≤ rd a q) :
    ∀ p q, p < q → q < i + 1 →
      rd (ins_pass (fun n_temp e => decide (n_temp < e)) a i) p
        ≤ rd (ins_pass (fun n_temp e => decide (n_temp < e)) a i) q := by
  intro p q hpq hq
  obtain ⟨h1, _, _, h4, h5⟩ :=
    shift_down_spec ((fun n_temp e => decide (n_temp < e)) (rd a i)) i a hi
  rw [ins_pass_rd _ a i hi p, ins_pass_rd _ a i hi q]
  generalize (shift_down ((fun n_temp e => decide (n_temp < e)) (rd a i)) a i).2 = j at h1 h4 h5 ⊢
  have e1 : j = 0 ∨ ¬ (rd a i < rd a (j - 1)) := by
    rcases h4 with h | h
    · exact Or.inl h
    · exact Or.inr (by simpa using h)
  have e2 : ∀ k, j ≤ k → k < i → rd a i < rd a k := by
    intro k hk1 hk2
    simpa using h5 k hk1 hk2
  have s1 := hs p q
  have s2 := hs p (q - 1)
  have s3 := hs (p - 1) (q - 1)
  have s4 := hs p (j - 1)
  have s5 := e2 (q - 1)
  split_ifs <;> first
    | omega
    | (rcases Nat.lt_or_ge p (j - 1) with c | c
       · have := hs p (j - 1) c (by omega); omega
       · have : p = j - 1 := by omega
         subst this; omega)

theorem maxim_sort_ascend_sorted (a : Mem) (n : Nat) (hn : n ≤ a.length) :
    ∀ p q, p < q → q < n → rd (maxim_sort_ascend a n) p ≤ rd (maxim_sort_ascend a n) q := by
  unfold maxim_sort_ascend insertion_sort
  have key : ∀ m, m + 1 ≤ n →
      (forLoop m (fun t a => ins_pass (fun n_temp e => decide (n_temp < e)) a (t + 1)) a).length
        = a.length ∧
      ∀ p q, p < q → q < m + 1 →
        rd (forLoop m (fun t a => ins_pass (fun n_temp e => decide (n_temp < e)) a (t + 1)) a) p
          ≤ rd (forLoop m (fun t a => ins_pass (fun n_temp e => decide (n_temp < e)) a (t + 1)) a) q := by
    intro m
    induction m with
    | zero =>
      intro _
      exact ⟨rfl, fun p q h1 h2 => by omega⟩
    | succ m ih =>
      intro hm
      obtain ⟨h1, h2⟩ := ih (by omega)
      simp only [forLoop]
      exact ⟨by rw [← h1]; exact ins_pass_length _ _ _ (by omega),
        SortedUpTo_ins_pass _ (m + 1) (by omega) h2⟩
  intro p q hpq hq
  exact (key (n - 1) (by omega)).2 p q hpq (by omega)

/-! ## Distance filtering -/

theorem remove_pass_spec (d : Int) (i1 : Nat) (l0 : Mem) (n_old : Nat)
    (hn : n_old ≤ l0.length) (hi : i1 ≤ n_old) :
    i1 ≤ (remove_pass d i1 l0 n_old).2 ∧ (remove_pass d i1 l0 n_old).2 ≤ n_old ∧
    (remove_pass d i1 l0 n_old).1.length = l0.length ∧
    (∀ k, k < i1 → rd (remove_pass d i1 l0 n_old).1 k = rd l0 k) ∧
    (∀ k, i1 ≤ k → k < (remove_pass d i1 l0 n_old).2 →
      ∃ k0, i1 ≤ k0 ∧ k0 < n_old ∧ rd (remove_pass d i1 l0 n_old).1 k = rd l0 k0 ∧
        Kept d (if i1 = 0 then -1 else rd l0 (i1 - 1)) (rd l0 k0)) := by
  have key : ∀ t, i1 + t ≤ n_old →
      i1 ≤ (forLoop t (fun t st => remove_step d i1 (i1 + t) st) (l0, i1)).2 ∧
      (forLoop t (fun t st => remove_step d i1 (i1 + t) st) (l0, i1)).2 ≤ i1 + t ∧
      (forLoop t (fun t st => remove_step d i1 (i1 + t) st) (l0, i1)).1.length = l0.length ∧
      (∀ k, k < i1 → rd (forLoop t (fun t st => remove_step d i1 (i1 + t) st) (l0, i1)).1 k = rd l0 k) ∧
      (∀ k, i1 + t ≤ k →
        rd (forLoop t (fun t st => remove_step d i1 (i1 + t) st) (l0, i1)).1 k = rd l0 k) ∧
      (∀ k, i1 ≤ k → k < (forLoop t (fun t st => remove_step d i1 (i1 + t) st) (l0, i1)).2 →
        ∃ k0, i1 ≤ k0 ∧ k0 < i1 + t ∧
          rd (forLoop t (fun t st => remove_step d i1 (i1 + t) st) (l0, i1)).1 k = rd l0 k0 ∧
          Kept d (if i1 = 0 then -1 else rd l0 (i1 - 1)) (rd l0 k0)) := by
    intro t
    induction t with
    | zero =>
      intro _
      exact ⟨le_refl _, le_refl _, rfl, fun _ _ => rfl, fun _ _ => rfl,
        fun k h1 h2 => absurd h2 (Nat.not_lt.mpr h1)⟩
    | succ t ih =>
      intro ht
      obtain ⟨h1, h2, h3, h4, h5, h6⟩ := ih (by omega)
      simp only [forLoop]
      generalize forLoop t (fun t st => remove_step d i1 (i1 + t) st) (l0, i1) = st
        at h1 h2 h3 h4 h5 h6 ⊢
      have eref : (if i1 = 0 then (-1 : Int) else rd st.1 (i1 - 1))
          = (if i1 = 0 then (-1 : Int) else rd l0 (i1 - 1)) := by
        by_cases c : i1 = 0
        · simp [c]
        · simp only [if_neg c]; exact h4 _ (by omega)
      have ej : rd st.1 (i1 + t) = rd l0 (i1 + t) := h5 _ (le_refl _)
      unfold remove_step
      simp only [eref, ej]
      by_cases c : i32 (rd l0 (i1 + t) - (if i1 = 0 then (-1 : Int) else rd l0 (i1 - 1))) > d ∨
          i32 (rd l0 (i1 + t) - (if i1 = 0 then (-1 : Int) else rd l0 (i1 - 1))) < -d
      · rw [if_pos c]
        refine ⟨by simp only []; omega, by simp only []; omega, by simp only [length_wr]; exact h3,
          ?_, ?_, ?_⟩
        · intro k hk
          simp only []
          rw [rd_wr_ne _ _ _ _ (by omega)]
          exact h4 k hk
        · intro k hk
          simp only []
          rw [rd_wr_ne _ _ _ _ (by omega)]
          exact h5 k (by omega)
        · intro k hk1 hk2
          simp only [] at hk2 ⊢
          by_cases ck : k = st.2
          · subst ck
            rw [rd_wr_same _ _ _ (by omega)]
            exact ⟨i1 + t, by omega, by omega, rfl, c⟩
          · rw [rd_wr_ne _ _ _ _ ck]
            obtain ⟨k0, a1, a2, a3, a4⟩ := h6 k hk1 (by omega)
            exact ⟨k0, a1, by omega, a3, a4⟩
      · rw [if_neg c]
        refine ⟨h1, by omega, h3, h4, fun k hk => h5 k (by omega), ?_⟩
        intro k hk1 hk2
        obtain ⟨k0, a1, a2, a3, a4⟩ := h6 k hk1 hk2
        exact ⟨k0, a1, by omega, a3, a4⟩
  obtain ⟨h1, h2, h3, h4, _, h6⟩ := key (n_old - i1) (by omega)
  unfold remove_pass
  refine ⟨h1, by omega, h3, h4, ?_⟩
  intro k hk1 hk2
  obtain ⟨k0, a1, a2, a3, a4⟩ := h6 k hk1 hk2
  exact ⟨k0, a1, by omega, a3, a4⟩

theorem remove_loop_spec (d : Int) :
    ∀ (fuel i1 : Nat) (l : Mem) (m : Nat), m + 1 - i1 < fuel → i1 ≤ m + 1 → m ≤ l.length →
      (∀ a b, a + 1 < i1 → a < b → b < m → Kept d (rd l a) (rd l b)) →
      (1 ≤ i1 → ∀ b, b < m → Kept d (-1) (rd l b)) →
      ∃ l2 m2, remove_loop d fuel i1 l m = .ok (l2, m2) ∧ m2 ≤ m ∧ l2.length = l.length ∧
        (∀ a b, a < b → b < m2 → Kept d (rd l2 a) (rd l2 b)) ∧
        (∀ b, b < m2 → Kept d (-1) (rd l2 b)) ∧
        (∀ k, k < m2 → ∃ k0, k0 < m ∧ rd l2 k = rd l k0) := by
  intro fuel
  induction fuel with
  | zero => intro i1 l m h; omega
  | succ fuel ih =>
    intro i1 l m hf hi hm hfar hm1
    unfold remove_loop
    by_cases c : i1 ≤ m
    · rw [if_pos c]
      obtain ⟨p1, p2, p3, p4, p5⟩ := remove_pass_spec d i1 l m hm c
      simp only []
      generalize remove_pass d i1 l m = st at p1 p2 p3 p4 p5 ⊢
      have sub : ∀ k, k < st.2 → ∃ k0, k0 < m ∧ rd st.1 k = rd l k0 := by
        intro k hk
        by_cases ck : k < i1
        · exact ⟨k, by omega, p4 k ck⟩
        · obtain ⟨k0, a1, a2, a3, _⟩ := p5 k (by omega) hk
          exact ⟨k0, a2, a3⟩
      obtain ⟨l2, m2, e, q1, q2, q3, q4, q5⟩ := ih (i1 + 1) st.1 st.2 (by omega) (by omega)
        (by omega)
        (by
          intro a b ha hab hb
          by_cases ca : a + 1 < i1
          · rw [p4 a (by omega)]
            by_cases cb : b < i1
            · rw [p4 b cb]
              exact hfar a b ca hab (by omega)
            · obtain ⟨k0, a1, a2, a3, _⟩ := p5 b (by omega) hb
              rw [a3]
              exact hfar a k0 ca (by omega) a2
          · have ea : a = i1 - 1 := by omega
            have hi1 : i1 ≠ 0 := by omega
            obtain ⟨k0, a1, a2, a3, a4⟩ := p5 b (by omega) hb
            rw [a3, p4 a (by omega), ea]
            simpa [hi1] using a4)
        (by
          intro _ b hb
          by_cases cb : b < i1
          · rw [p4 b cb]
            exact hm1 (by omega) b (by omega)
          · obtain ⟨k0, a1, a2, a3, a4⟩ := p5 b (by omega) hb
            rw [a3]
            by_cases c0 : i1 = 0
            · simpa [c0] using a4
            · exact hm1 (by omega) k0 a2)
      refine ⟨l2, m2, e, by omega, by rw [q2, p3], q3, q4, ?_⟩
      intro k hk
      obtain ⟨k1, b1, b2⟩ := q5 k hk
      obtain ⟨k0, c1, c2⟩ := sub k1 b1
      exact ⟨k0, c1, by rw [b2, c2]⟩
    · rw [if_neg c]
      exact ⟨l, m, rfl, le_refl _, rfl, fun a b hab hb => hfar a b (by omega) hab hb,
        fun b hb => hm1 (by omega) b hb, fun k hk => ⟨k, hk, rfl⟩⟩

/-! ## The peak detector -/

theorem Kept_iff {d ref x : Int} (h1 : -1 ≤ ref) (h2 : ref < 2147483647) (h3 : 0 ≤ x)
    (h4 : x < 2147483647) : Kept d ref x ↔ (x - ref > d ∨ x - ref < -d) := by
  unfold Kept
  rw [i32_eq_self (by omega) (by omega)]

theorem maxim_remove_close_peaks_spec (pn_locs : Mem) (npks : Nat) (pn_x : Nat → Int) (d : Int)
    (hd : 0 ≤ d) (bound : Int) (hbound : bound ≤ 2147483647) (hlen : npks ≤ pn_locs.length)
    (hrange : ∀ k, k < npks → 1 ≤ rd pn_locs k ∧ rd pn_locs k < bound) :
    ∃ locs m, maxim_remove_close_peaks pn_locs npks pn_x d = .ok (locs, m) ∧ m ≤ npks ∧
      locs.length = pn_locs.length ∧
      (∀ k, k < m → 1 ≤ rd locs k ∧ rd locs k < bound ∧ d < rd locs k + 1) ∧
      (∀ a b, a < b → b < m → rd locs a + d < rd locs b) ∧
      (∀ k, k < m → ∃ k0, k0 < npks ∧ rd locs k = rd pn_locs k0) := by
  obtain ⟨s1, σ, s2, s3, s4⟩ :=
    insertion_sort_reindex (fun n_temp e => decide (pn_x n_temp.toNat > pn_x e.toNat))
      pn_locs npks hlen
  obtain ⟨l3, m3, e, r1, r2, r3, r4, r5⟩ := remove_loop_spec d (npks + 2) 0
    (maxim_sort_indices_descend pn_x pn_locs npks) npks (by omega) (by omega)
    (by unfold maxim_sort_indices_descend; omega) (fun a b h => by omega) (fun h => by omega)
  have hr3 : ∀ k, k < m3 → 1 ≤ rd l3 k ∧ rd l3 k < bound := by
    intro k hk
    obtain ⟨k0, a1, a2⟩ := r5 k hk
    rw [a2]
    unfold maxim_sort_indices_descend
    rw [s4 k0 a1]
    exact hrange _ (s2 k0 a1)
  have hl3 : l3.length = pn_locs.length := by
    rw [r2]; unfold maxim_sort_indices_descend; exact s1
  obtain ⟨t1, τ, t2, t3, t4⟩ :=
    insertion_sort_reindex (fun n_temp e => decide (n_temp < e)) l3 m3 (by omega)
  have hsorted := maxim_sort_ascend_sorted l3 m3 (by omega)
  refine ⟨maxim_sort_ascend l3 m3, m3, ?_, r1, ?_, ?_, ?_, ?_⟩
  · unfold maxim_remove_close_peaks
    rw [e]
  · unfold maxim_sort_ascend; rw [t1, hl3]
  · intro k hk
    have e4 : rd (maxim_sort_ascend l3 m3) k = rd l3 (τ k) := t4 k hk
    rw [e4]
    have hk2 := hr3 _ (t2 k hk)
    have hk3 := (Kept_iff (le_refl _) (by omega) (by omega) (by omega)).mp (r4 _ (t2 k hk))
    omega
  · intro a b hab hb
    have hs := hsorted a b hab hb
    have ea : rd (maxim_sort_ascend l3 m3) a = rd l3 (τ a) := t4 a (by omega)
    have eb : rd (maxim_sort_ascend l3 m3) b = rd l3 (τ b) := t4 b hb
    rw [ea, eb] at hs ⊢
    have ha2 := hr3 _ (t2 a (by omega))
    have hb2 := hr3 _ (t2 b hb)
    have hne : τ a ≠ τ b := fun h => by
      have := t3 a b (by omega) hb h
      omega
    rcases Nat.lt_or_gt_of_ne hne with c | c
    · have := (Kept_iff (by omega) (by omega) (by omega) (by omega)).mp
        (r3 (τ a) (τ b) c (t2 b hb))
      omega
    · have := (Kept_iff (by omega) (by omega) (by omega) (by omega)).mp
        (r3 (τ b) (τ a) c (t2 a (by omega)))
      omega
  · intro k hk
    have e4 : rd (maxim_sort_ascend l3 m3) k = rd l3 (τ k) := t4 k hk
    obtain ⟨k1, a1, a2⟩ := r5 _ (t2 k hk)
    refine ⟨σ k1, s2 k1 a1, ?_⟩
    rw [e4, a2]
    unfold maxim_sort_indices_descend
    exact s4 k1 a1

theorem maxim_find_peaks_spec (pn_locs : Mem) (pn_x : Nat → Int) (n_size h d n_max : Int)
    (hlen : 15 ≤ pn_locs.length) (hsz : n_size ≤ 2147483647) (hd : 0 ≤ d) (hmax : 0 ≤ n_max) :
    ∃ (locs : Mem) (npks : Nat),
      maxim_find_peaks pn_locs pn_x n_size h d n_max = .ok (locs, (npks : Int)) ∧
      (npks : Int) ≤ n_max ∧ npks ≤ 15 ∧ locs.length = pn_locs.length ∧
      (∀ k, k < npks → 1 ≤ rd locs k ∧ rd locs k < n_size - 1 ∧ d < rd locs k + 1) ∧
      (∀ a b, a < b → b < npks → rd locs a + d < rd locs b) := by
  obtain ⟨l1, m1, e1, c1, c2, c3⟩ := maxim_peaks_above_min_height_ok pn_locs pn_x n_size h hlen
  obtain ⟨l2, m2, e2, q1, q2, q3, q4, _⟩ := maxim_remove_close_peaks_spec l1 m1 pn_x d hd
    (n_size - 1) (by omega) (by omega) c3
  refine ⟨l2, min m2 n_max.toNat, ?_, by omega, by omega, by rw [q2, c2],
    fun k hk => q3 k (by omega), fun a b hab hb => q4 a b hab (by omega)⟩
  unfold maxim_find_peaks
  rw [e1]
  simp only [e2]
  congr 2
  omega

/-! ## The result depends only on the entries that are read -/

theorem forLoop_congr {σ : Type} (n : Nat) (body body2 : Nat → σ → σ) (s : σ)
    (h : ∀ k s, k < n → body k s = body2 k s) : forLoop n body s = forLoop n body2 s := by
  induction n with
  | zero => rfl
  | succ n ih =>
    simp only [forLoop]
    rw [ih (fun k s hk => h k s (by omega)), h n _ (by omega)]

theorem Agree.wr {n : Nat} {a b : Mem} (h : Agree n a b) (k : Nat) (v : Int)
    (ha : k < a.length) (hb : k < b.length) : Agree n (wr a k v) (wr b k v) := by
  intro j hj
  rw [rd_wr, rd_wr]
  by_cases c : j = k
  · simp [c, ha, hb]
  · simp [c]
    exact h j hj

theorem Agree.mono {n m : Nat} {a b : Mem} (h : Agree n a b) (hm : m ≤ n) : Agree m a b :=
  fun k hk => h k (by omega)

theorem flat_width_congr (f g : Nat → Int) (n_size : Int) (i : Nat)
    (h : ∀ k : Nat, (k : Int) < n_size → f k = g k) :
    ∀ fuel w, flat_width f n_size i fuel w = flat_width g n_size i fuel w := by
  intro fuel
  induction fuel with
  | zero => intro w; rfl
  | succ fuel ih =>
    intro w
    unfold flat_width
    have e : (((i + w : Nat) : Int) < n_size ∧ f i = f (i + w))
        ↔ (((i + w : Nat) : Int) < n_size ∧ g i = g (i + w)) := by
      constructor
      · rintro ⟨h1, h2⟩
        refine ⟨h1, ?_⟩
        rw [← h i (by push_cast at h1 ⊢; omega), ← h (i + w) h1]; exact h2
      · rintro ⟨h1, h2⟩
        refine ⟨h1, ?_⟩
        rw [h i (by push_cast at h1 ⊢; omega), h (i + w) h1]; exact h2
    rw [if_congr e (ih (w + 1)) rfl]

theorem flat_width_le (f : Nat → Int) (n_size : Int) (i : Nat) :
    ∀ fuel w w2, ((i + w : Nat) : Int) ≤ n_size → flat_width f n_size i fuel w = .ok w2 →
      ((i + w2 : Nat) : Int) ≤ n_size := by
  intro fuel
  induction fuel with
  | zero => intro w w2 _ h; simp [flat_width] at h
  | succ fuel ih =>
    intro w w2 hw h
    unfold flat_width at h
    by_cases c : ((i + w : Nat) : Int) < n_size ∧ f i = f (i + w)
    · rw [if_pos c] at h
      exact ih (w + 1) w2 (by have := c.1; push_cast at this ⊢; omega) h
    · rw [if_neg c] at h
      cases h
      exact hw

theorem peaks_loop_congr (f g : Nat → Int) (n_size h : Int)
    (hfg : ∀ k : Nat, (k : Int) ≤ n_size → f k = g k) :
    ∀ (fuel i : Nat) (l l2 : Mem) (npks : Nat), 1 ≤ i → npks ≤ 15 → 15 ≤ l.length →
      15 ≤ l2.length → Agree npks l l2 →
      (∃ e, peaks_loop f n_size h fuel i l npks = .error e ∧
        peaks_loop g n_size h fuel i l2 npks = .error e) ∨
      (∃ r r2 m, peaks_loop f n_size h fuel i l npks = .ok (r, m) ∧
        peaks_loop g n_size h fuel i l2 npks = .ok (r2, m) ∧ Agree m r r2) := by
  intro fuel
  induction fuel with
  | zero =>
    intro i l l2 npks _ _ _ _ _
    exact Or.inl ⟨.outOfFuel, rfl, rfl⟩
  | succ fuel ih =>
    intro i l l2 npks hi hn hl hl2 hag
    unfold peaks_loop
    by_cases hc : (i : Int) < n_size - 1
    · rw [if_pos hc, if_pos hc]
      have e1 : f i = g i := hfg i (by omega)
      have e2 : f (i - 1) = g (i - 1) := hfg (i - 1) (by omega)
      rw [← e1, ← e2]
      by_cases hp : f i > h ∧ f i > f (i - 1)
      · rw [if_pos hp, if_pos hp]
        rw [← flat_width_congr f g n_size i (fun k hk => hfg k (by omega))]
        cases hw : flat_width f n_size i (n_size.toNat + 1) 1 with
        | error e => exact Or.inl ⟨e, rfl, rfl⟩
        | ok w =>
          have hle := flat_width_le f n_size i _ 1 w (by push_cast; omega) hw
          have e3 : f (i + w) = g (i + w) := hfg (i + w) hle
          simp only []
          rw [← e3]
          by_cases hq : f i > f (i + w) ∧ npks < 15
          · rw [if_pos hq, if_pos hq]
            exact ih (i + w + 1) _ _ _ (by omega) (by omega) (by rw [length_wr]; exact hl)
              (by rw [length_wr]; exact hl2)
              (by
                intro k hk
                rw [rd_wr, rd_wr]
                by_cases ck : k = npks
                · simp [ck, show npks < l.length by omega, show npks < l2.length by omega]
                · simp [ck]; exact hag k (by omega))
          · rw [if_neg hq, if_neg hq]
            exact ih (i + w) _ _ _ (by omega) hn hl hl2 hag
      · rw [if_neg hp, if_neg hp]
        exact ih (i + 1) _ _ _ (by omega) hn hl hl2 hag
    · rw [if_neg hc, if_neg hc]
      exact Or.inr ⟨l, l2, npks, rfl, rfl, hag⟩

theorem shift_down_index_congr (c c2 : Int → Bool) :
    ∀ (j : Nat) (a b : Mem), (∀ k, k < j → c (rd a k) = c2 (rd b k)) →
      (shift_down c a j).2 = (shift_down c2 b j).2 := by
  intro j
  induction j with
  | zero => intro a b _; rfl
  | succ j ih =>
    intro a b h
    unfold shift_down
    rw [← h j (by omega)]
    by_cases hb : c (rd a j) = true
    · rw [if_pos hb, if_pos hb]
      apply ih
      intro k hk
      rw [rd_wr_ne _ _ _ _ (by omega), rd_wr_ne _ _ _ _ (by omega)]
      exact h k (by omega)
    · rw [if_neg hb, if_neg hb]

theorem ins_pass_congr (before before2 : Int → Int → Bool) (a b : Mem) (i n : Nat) (hi : i < n)
    (ha : n ≤ a.length) (hb : n ≤ b.length) (hag : Agree n a b)
    (hbef : ∀ p q, p < n → q < n → before (rd a p) (rd a q) = before2 (rd a p) (rd a q)) :
    Agree n (ins_pass before a i) (ins_pass before2 b i) := by
  have ej : (shift_down (before (rd a i)) a i).2 = (shift_down (before2 (rd b i)) b i).2 := by
    apply shift_down_index_congr
    intro k hk
    rw [← hag i hi, ← hag k (by omega)]
    exact hbef i k hi (by omega)
  have hj := (shift_down_spec (before (rd a i)) i a (by omega)).1
  intro k hk
  rw [ins_pass_rd before a i (by omega) k, ins_pass_rd before2 b i (by omega) k, ← ej]
  rw [hag i hi]
  split_ifs with c1 c2
  · rfl
  · exact hag _ (by omega)
  · exact hag _ hk

theorem insertion_sort_congr (before before2 : Int → Int → Bool) (a b : Mem) (n : Nat)
    (ha : n ≤ a.length) (hb : n ≤ b.length) (hag : Agree n a b)
    (hbef : ∀ p q, p < n → q < n → before (rd a p) (rd a q) = before2 (rd a p) (rd a q)) :
    Agree n (insertion_sort before a n) (insertion_sort before2 b n) := by
  unfold insertion_sort
  have key : ∀ m, m + 1 ≤ n →
      Agree n (forLoop m (fun t a => ins_pass before a (t + 1)) a)
        (forLoop m (fun t a => ins_pass before2 a (t + 1)) b) := by
    intro m
    induction m with
    | zero => intro _; exact hag
    | succ m ih =>
      intro hm
      have h1 := ih (by omega)
      obtain ⟨la, σ, s1, _, s3⟩ := insertion_sort_loop before a n ha m (by omega)
      obtain ⟨lb, _⟩ := insertion_sort_loop before2 b n hb m (by omega)
      simp only [forLoop]
      apply ins_pass_congr before before2 _ _ (m + 1) n (by omega) (by omega) (by omega) h1
      intro p q hp hq
      rw [s3 p hp, s3 q hq]
      exact hbef _ _ (s1 p hp) (s1 q hq)
  rcases Nat.eq_zero_or_pos n with h0 | h0
  · subst h0
    intro k hk
    omega
  · exact key (n - 1) (by omega)

theorem remove_pass_congr (d : Int) (i1 : Nat) (a b : Mem) (n_old N : Nat) (hN : n_old ≤ N)
    (hi : i1 ≤ n_old) (ha : N ≤ a.length) (hb : N ≤ b.length) (hag : Agree N a b) :
    (remove_pass d i1 a n_old).2 = (remove_pass d i1 b n_old).2 ∧
      Agree N (remove_pass d i1 a n_old).1 (remove_pass d i1 b n_old).1 := by
  unfold remove_pass
  have key : ∀ t, i1 + t ≤ n_old →
      (forLoop t (fun t st => remove_step d i1 (i1 + t) st) (a, i1)).2
        = (forLoop t (fun t st => remove_step d i1 (i1 + t) st) (b, i1)).2 ∧
      (forLoop t (fun t st => remove_step d i1 (i1 + t) st) (a, i1)).2 ≤ i1 + t ∧
      (forLoop t (fun t st => remove_step d i1 (i1 + t) st) (a, i1)).1.length = a.length ∧
      (forLoop t (fun t st => remove_step d i1 (i1 + t) st) (b, i1)).1.length = b.length ∧
      Agree N (forLoop t (fun t st => remove_step d i1 (i1 + t) st) (a, i1)).1
        (forLoop t (fun t st => remove_step d i1 (i1 + t) st) (b, i1)).1 := by
    intro t
    induction t with
    | zero => intro _; exact ⟨rfl, le_refl _, rfl, rfl, hag⟩
    | succ t ih =>
      intro ht
      obtain ⟨h1, h2, h3, h4, h5⟩ := ih (by omega)
      simp only [forLoop]
      generalize forLoop t (fun t st => remove_step d i1 (i1 + t) st) (a, i1) = st
        at h1 h2 h3 h4 h5 ⊢
      generalize forLoop t (fun t st => remove_step d i1 (i1 + t) st) (b, i1) = st2
        at h1 h4 h5 ⊢
      have eref : (if i1 = 0 then (-1 : Int) else rd st.1 (i1 - 1))
          = (if i1 = 0 then (-1 : Int) else rd st2.1 (i1 - 1)) := by
        by_cases c : i1 = 0
        · simp [c]
        · simp only [if_neg c]; exact h5 _ (by omega)
      have ej : rd st.1 (i1 + t) = rd st2.1 (i1 + t) := h5 _ (by omega)
      unfold remove_step
      simp only [← eref, ← ej, ← h1]
      by_cases c : i32 (rd st.1 (i1 + t) - (if i1 = 0 then (-1 : Int) else rd st.1 (i1 - 1))) > d ∨
          i32 (rd st.1 (i1 + t) - (if i1 = 0 then (-1 : Int) else rd st.1 (i1 - 1))) < -d
      · rw [if_pos c, if_pos c]
        exact ⟨rfl, by simp only []; omega, by simp only [length_wr]; exact h3,
          by simp only [length_wr]; exact h4, h5.wr _ _ (by omega) (by omega)⟩
      · rw [if_neg c, if_neg c]
        exact ⟨h1, by omega, h3, h4, h5⟩
  obtain ⟨h1, _, _, _, h5⟩ := key (n_old - i1) (by omega)
  exact ⟨h1, h5⟩

theorem remove_loop_congr (d : Int) (N : Nat) :
    ∀ (fuel i1 : Nat) (a b : Mem) (m : Nat), m ≤ N → N ≤ a.length → N ≤ b.length →
      Agree N a b →
      (∃ e, remove_loop d fuel i1 a m = .error e ∧ remove_loop d fuel i1 b m = .error e) ∨
      (∃ r r2 m2, remove_loop d fuel i1 a m = .ok (r, m2) ∧
        remove_loop d fuel i1 b m = .ok (r2, m2) ∧ m2 ≤ N ∧ Agree N r r2) := by
  intro fuel
  induction fuel with
  | zero => intro i1 a b m _ _ _ _; exact Or.inl ⟨.outOfFuel, rfl, rfl⟩
  | succ fuel ih =>
    intro i1 a b m hm ha hb hag
    unfold remove_loop
    by_cases c : i1 ≤ m
    · rw [if_pos c, if_pos c]
      obtain ⟨e1, e2⟩ := remove_pass_congr d i1 a b m N hm c ha hb hag
      obtain ⟨_, p2, p3, _, _⟩ := remove_pass_spec d i1 a m (by omega) c
      obtain ⟨_, _, q3, _, _⟩ := remove_pass_spec d i1 b m (by omega) c
      simp only []
      rw [← e1]
      exact ih (i1 + 1) _ _ _ (by omega) (by omega) (by omega) e2
    · rw [if_neg c, if_neg c]
      exact Or.inr ⟨a, b, m, rfl, rfl, hm, hag⟩

theorem heart_rate_from_peaks_congr (a b : Mem) (n : Int) (hag : Agree n.toNat a b) :
    heart_rate_from_peaks a n = heart_rate_from_peaks b n := by
  unfold heart_rate_from_peaks
  rw [forLoop_congr (n.toNat - 1)
    (fun t sum => i32 (sum + i32 (rd a (t + 1) - rd a t)))
    (fun t sum => i32 (sum + i32 (rd b (t + 1) - rd b t))) 0
    (fun k s hk => by simp only []; rw [hag (k + 1) (by omega), hag k (by omega)])]

theorem maxim_find_peaks_congr (l l2 : Mem) (f g : Nat → Int) (n_size h d n_max : Int)
    (hfg : ∀ k : Nat, (k : Int) ≤ n_size → f k = g k) (hl : 15 ≤ l.length)
    (hl2 : 15 ≤ l2.length) (hmax : 0 ≤ n_max) :
    ∃ (r r2 : Mem) (m : Nat), maxim_find_peaks l f n_size h d n_max = .ok (r, (m : Int)) ∧
      maxim_find_peaks l2 g n_size h d n_max = .ok (r2, (m : Int)) ∧ Agree m r r2 := by
  obtain ⟨a1, m1, ea, ca1, ca2, ca3⟩ := maxim_peaks_above_min_height_ok l f n_size h hl
  obtain ⟨b1, m1b, eb, cb1, cb2, cb3⟩ := maxim_peaks_above_min_height_ok l2 g n_size h hl2
  have hag1 : m1 = m1b ∧ Agree m1 a1 b1 := by
    unfold maxim_peaks_above_min_height at ea eb
    rcases peaks_loop_congr f g n_size h hfg (n_size.toNat + 1) 1 l l2 0 (by omega) (by omega)
      hl hl2 (fun k hk => by omega) with ⟨e, x1, _⟩ | ⟨r, r2, m, x1, x2, x3⟩
    · rw [x1] at ea; cases ea
    · rw [x1] at ea; rw [x2] at eb
      cases ea; cases eb
      exact ⟨rfl, x3⟩
  obtain ⟨hm, hag1⟩ := hag1
  subst hm
  have hbef : ∀ p q, p < m1 → q < m1 →
      (fun n_temp e => decide (f n_temp.toNat > f e.toNat)) (rd a1 p) (rd a1 q)
        = (fun n_temp e => decide (g n_temp.toNat > g e.toNat)) (rd a1 p) (rd a1 q) := by
    intro p q hp hq
    have hp2 := ca3 p hp
    have hq2 := ca3 q hq
    simp only []
    rw [hfg (rd a1 p).toNat (by omega), hfg (rd a1 q).toNat (by omega)]
  have hsort : Agree m1 (maxim_sort_indices_descend f a1 m1) (maxim_sort_indices_descend g b1 m1) :=
    insertion_sort_congr _ _ a1 b1 m1 (by omega) (by omega) hag1 hbef
  have hla := (insertion_sort_reindex (fun n_temp e => decide (f n_temp.toNat > f e.toNat))
    a1 m1 (by omega)).1
  have hlb := (insertion_sort_reindex (fun n_temp e => decide (g n_temp.toNat > g e.toNat))
    b1 m1 (by omega)).1
  obtain ⟨a3, m3, e3, r1, r2, _⟩ := remove_loop_spec d (m1 + 2) 0
    (maxim_sort_indices_descend f a1 m1) m1 (by omega) (by omega)
    (by unfold maxim_sort_indices_descend; omega) (fun a b h => by omega) (fun h => by omega)
  rcases remove_loop_congr d m1 (m1 + 2) 0 (maxim_sort_indices_descend f a1 m1)
      (maxim_sort_indices_descend g b1 m1) m1 (le_refl _)
      (by unfold maxim_sort_indices_descend; omega)
      (by unfold maxim_sort_indices_descend; omega) hsort with ⟨e, x1, _⟩ | ⟨r, rb, m, x1, x2, x3, x4⟩
  · rw [x1] at e3; cases e3
  · rw [x1] at e3
    cases e3
    have hr : a3.length = l.length := by rw [r2]; unfold maxim_sort_indices_descend; omega
    have hrb : 15 ≤ rb.length := by
      obtain ⟨_, _, e3b, _, r2b, _⟩ := remove_loop_spec d (m1 + 2) 0
        (maxim_sort_indices_descend g b1 m1) m1 (by omega) (by omega)
        (by unfold maxim_sort_indices_descend; omega) (fun a b h => by omega) (fun h => by omega)
      rw [x2] at e3b
      cases e3b
      rw [r2b]; unfold maxim_sort_indices_descend; omega
    have hasc : Agree m3 (maxim_sort_ascend a3 m3) (maxim_sort_ascend rb m3) :=
      insertion_sort_congr _ _ a3 rb m3 (by omega) (by omega) (x4.mono (by omega))
        (fun p q _ _ => rfl)
    refine ⟨maxim_sort_ascend a3 m3, maxim_sort_ascend rb m3, min m3 n_max.toNat, ?_, ?_,
      hasc.mono (by omega)⟩
    · unfold maxim_find_peaks maxim_remove_close_peaks
      rw [ea]
      simp only [x1]
      congr 2
      omega
    · unfold maxim_find_peaks maxim_remove_close_peaks
      rw [eb]
      simp only [x2]
      congr 2
      omega

/-! ## The conditioning stages, stage by stage -/

theorem forLoop_wr_forward (g : (Nat → Int) → Nat → Int)
    (hg : ∀ f f2 k, (∀ j, k ≤ j → f j = f2 j) → g f k = g f2 k) (a0 : Mem) :
    ∀ n, (forLoop n (fun k a => wr a k (g (rd a) k)) a0).length = a0.length ∧
      ∀ j, rd (forLoop n (fun k a => wr a k (g (rd a) k)) a0) j
        = if j < n ∧ j < a0.length then g (rd a0) j else rd a0 j := by
  intro n
  induction n with
  | zero =>
    refine ⟨rfl, fun j => ?_⟩
    rw [if_neg (by omega)]
    rfl
  | succ n ih =>
    obtain ⟨h1, h2⟩ := ih
    simp only [forLoop]
    refine ⟨by rw [length_wr, h1], fun j => ?_⟩
    have hgn : g (rd (forLoop n (fun k a => wr a k (g (rd a) k)) a0)) n = g (rd a0) n :=
      hg _ _ n (fun j hj => by rw [h2 j, if_neg (by omega)])
    rw [rd_wr, h1, hgn, h2 j]
    by_cases c : j = n
    · subst c
      by_cases c2 : j < a0.length
      · rw [if_pos ⟨rfl, c2⟩, if_pos ⟨by omega, c2⟩]
      · rw [if_neg (fun h => c2 h.2), if_neg (by omega), if_neg (fun h => c2 h.2)]
    · rw [if_neg (fun h => c h.1)]
      by_cases c3 : j < n ∧ j < a0.length
      · rw [if_pos c3, if_pos ⟨by omega, c3.2⟩]
      · rw [if_neg c3, if_neg (by omega)]

theorem remove_dc_rd (ir : Nat → Int) (n mean : Int) (a : Mem) (hn : n.toNat ≤ a.length) :
    (remove_dc ir n mean a).length = a.length ∧
      rd (remove_dc ir n mean a) = dcF ir n.toNat mean (rd a) := by
  obtain ⟨h1, h2⟩ := forLoop_wr_forward (fun _ k => i32 (u32 (ir k - mean)))
    (fun _ _ _ _ => rfl) a n.toNat
  refine ⟨h1, funext fun j => ?_⟩
  unfold remove_dc dcF
  rw [h2 j]
  by_cases c : j < n.toNat
  · rw [if_pos ⟨c, by omega⟩, if_pos c]
  · rw [if_neg (fun h => c h.1), if_neg c]

theorem moving_average4_rd (a : Mem) (ha : BUFFER_SIZE - MA4_SIZE ≤ a.length) :
    (moving_average4 a).length = a.length ∧ rd (moving_average4 a) = ma4F (rd a) := by
  obtain ⟨h1, h2⟩ := forLoop_wr_forward ma4_value
    (fun f f2 k h => by
      unfold ma4_value
      rw [h k (by omega), h (k + 1) (by omega), h (k + 2) (by omega), h (k + 3) (by omega)])
    a (BUFFER_SIZE - MA4_SIZE)
  refine ⟨h1, funext fun j => ?_⟩
  unfold moving_average4 ma4F
  rw [h2 j]
  by_cases c : j < BUFFER_SIZE - MA4_SIZE
  · rw [if_pos ⟨c, by omega⟩, if_pos c]
  · rw [if_neg (fun h => c h.1), if_neg c]

theorem difference_rd (x : Nat → Int) (d : Mem) (hd : BUFFER_SIZE - MA4_SIZE - 1 ≤ d.length) :
    (difference x d).length = d.length ∧ rd (difference x d) = diffF x (rd d) := by
  obtain ⟨h1, h2⟩ := forLoop_wr_forward (fun _ k => i32 (x (k + 1) - x k))
    (fun _ _ _ _ => rfl) d (BUFFER_SIZE - MA4_SIZE - 1)
  refine ⟨h1, funext fun j => ?_⟩
  unfold difference diffF
  rw [h2 j]
  by_cases c : j < BUFFER_SIZE - MA4_SIZE - 1
  · rw [if_pos ⟨c, by omega⟩, if_pos c]
  · rw [if_neg (fun h => c h.1), if_neg c]

theorem moving_average2_rd (d : Mem) (hd : BUFFER_SIZE - MA4_SIZE - 2 ≤ d.length) :
    (moving_average2 d).length = d.length ∧ rd (moving_average2 d) = ma2F (rd d) := by
  obtain ⟨h1, h2⟩ := forLoop_wr_forward ma2_value
    (fun f f2 k h => by
      unfold ma2_value
      rw [h k (by omega), h (k + 1) (by omega)])
    d (BUFFER_SIZE - MA4_SIZE - 2)
  refine ⟨h1, funext fun j => ?_⟩
  unfold moving_average2 ma2F
  rw [h2 j]
  by_cases c : j < BUFFER_SIZE - MA4_SIZE - 2
  · rw [if_pos ⟨c, by omega⟩, if_pos c]
  · rw [if_neg (fun h => c h.1), if_neg c]

theorem hamming_rd (d : Mem) (hd : BUFFER_SIZE - HAMMING_SIZE - MA4_SIZE - 2 ≤ d.length) :
    (hamming d).length = d.length ∧ rd (hamming d) = hammF (rd d) := by
  obtain ⟨h1, h2⟩ := forLoop_wr_forward hamming_value
    (fun f f2 k h => by
      unfold hamming_value
      rw [forLoop_congr HAMMING_SIZE (fun t s => i32 (s - i32 (f (k + t) * auw_hamm t)))
        (fun t s => i32 (s - i32 (f2 (k + t) * auw_hamm t))) 0
        (fun t s _ => by simp only []; rw [h (k + t) (by omega)])])
    d (BUFFER_SIZE - HAMMING_SIZE - MA4_SIZE - 2)
  refine ⟨h1, funext fun j => ?_⟩
  unfold hamming hammF
  rw [h2 j]
  by_cases c : j < BUFFER_SIZE - HAMMING_SIZE - MA4_SIZE - 2
  · rw [if_pos ⟨c, by omega⟩, if_pos c]
  · rw [if_neg (fun h => c h.1), if_neg c]

theorem conditioning_rd (s : Scratch) (ir : Nat → Int) (n mean : Int) (hs : s.WF)
    (hn : n ≤ 500) :
    (conditioning s ir n mean).WF ∧
      rd (conditioning s ir n mean).an_x = ma4F (dcF ir n.toNat mean (rd s.an_x)) ∧
      rd (conditioning s ir n mean).an_dx = condF ir n.toNat mean (rd s.an_x) (rd s.an_dx) := by
  obtain ⟨hs1, hs2⟩ := hs
  have c1 : BUFFER_SIZE = 500 := rfl
  have c2 : MA4_SIZE = 4 := rfl
  have c3 : HAMMING_SIZE = 5 := rfl
  obtain ⟨a1, a2⟩ := remove_dc_rd ir n mean s.an_x (by omega)
  obtain ⟨b1, b2⟩ := moving_average4_rd (remove_dc ir n mean s.an_x) (by omega)
  obtain ⟨d1, d2⟩ := difference_rd (rd (moving_average4 (remove_dc ir n mean s.an_x))) s.an_dx
    (by omega)
  obtain ⟨e1, e2⟩ := moving_average2_rd
    (difference (rd (moving_average4 (remove_dc ir n mean s.an_x))) s.an_dx) (by omega)
  obtain ⟨f1, f2⟩ := hamming_rd (moving_average2
    (difference (rd (moving_average4 (remove_dc ir n mean s.an_x))) s.an_dx)) (by omega)
  unfold conditioning condF
  simp only []
  refine ⟨⟨by rw [f1, e1, d1, hs1], by rw [b1, a1, hs2]⟩, ?_, ?_⟩
  · rw [b2, a2]
  · rw [f2, e2, d2, b2, a2]

/-! ## Heart-rate step -/

theorem interval_sum_eq (a : Int) (q : List Int) :
    interval_sum (a :: q) = rd (a :: q) q.length - a := by
  induction q generalizing a with
  | nil => simp [interval_sum, rd]
  | cons b rest ih =>
    rw [interval_sum, ih b]
    simp [rd]

theorem interval_loop (L : Mem) (m : Nat)
    (hmono : ∀ i j, i ≤ j → j ≤ m → rd L i ≤ rd L j)
    (h0 : 0 ≤ rd L 0) (hb : rd L m < 2147483648) :
    forLoop m (fun t sum => i32 (sum + i32 (rd L (t + 1) - rd L t))) 0 = rd L m - rd L 0 := by
  induction m with
  | zero => simp [forLoop]
  | succ m ih =>
    have hm1 : rd L m ≤ rd L (m + 1) := hmono m (m + 1) (by omega) (by omega)
    have hm0 : rd L 0 ≤ rd L m := hmono 0 m (by omega) (by omega)
    have ih2 := ih (fun i j hij hj => hmono i j hij (by omega)) (by omega)
    simp only [forLoop]
    have e1 : i32 (rd L (m + 1) - rd L m) = rd L (m + 1) - rd L m :=
      i32_eq_self (by omega) (by omega)
    rw [ih2, e1, i32_eq_self (by omega) (by omega)]
    ring

theorem cdiv_pos (a b : Int) (ha : 0 ≤ a) (ha2 : a < 2147483648) (hb : 0 < b) :
    cdiv a b = .ok (Int.tdiv a b) ∧ 0 ≤ Int.tdiv a b ∧ Int.tdiv a b ≤ a := by
  have e : Int.tdiv a b = a / b := Int.tdiv_eq_ediv ha (le_of_lt hb)
  have h1 : 0 ≤ a / b := Int.ediv_nonneg ha (le_of_lt hb)
  have h2 : a / b ≤ a := Int.ediv_le_self b ha
  refine ⟨?_, by omega, by omega⟩
  unfold cdiv
  rw [if_neg (by omega), i32_eq_self (by omega) (by omega)]

/-- Peaks that ascend by at least `g` from one to the next span at least `g * k`. -/
theorem gap_lower (locs : Mem) (n : Nat) (g : Int)
    (hgap : ∀ a, a + 1 < n → rd locs a + g ≤ rd locs (a + 1)) :
    ∀ k, k < n → rd locs 0 + g * k ≤ rd locs k := by
  intro k
  induction k with
  | zero => intro _; simp
  | succ k ih =>
    intro hk
    have h1 := ih (by omega)
    have h2 := hgap k hk
    have e : g * ((k + 1 : Nat) : Int) = g * (k : Int) + g := by push_cast; ring
    rw [e]
    omega

/-- The heart-rate step on `n ≥ 2` strictly ascending peak locations: no division by zero,
and the value in terms of the first and the last location. -/
theorem heart_rate_from_peaks_asc (locs : Mem) (n : Nat) (hn : 2 ≤ n) (g : Int) (hg : 1 ≤ g)
    (hgap : ∀ a, a + 1 < n → rd locs a + g ≤ rd locs (a + 1))
    (h0 : 0 ≤ rd locs 0) (hlast : rd locs (n - 1) < 2147483648) :
    heart_rate_from_peaks locs n
      = .ok (Int.tdiv 6000 (Int.tdiv (rd locs (n - 1) - rd locs 0) ((n : Int) - 1)), 1) ∧
    g ≤ Int.tdiv (rd locs (n - 1) - rd locs 0) ((n : Int) - 1) ∧
    Int.tdiv (rd locs (n - 1) - rd locs 0) ((n : Int) - 1) ≤ rd locs (n - 1) - rd locs 0 := by
  have hlow := gap_lower locs n g hgap
  have hmono : ∀ i j, i ≤ j → j ≤ n - 1 → rd locs i ≤ rd locs j := by
    intro i j hij hj
    induction j with
    | zero =>
      have : i = 0 := by omega
      subst this; exact le_refl _
    | succ j ih =>
      rcases Nat.eq_or_lt_of_le hij with e | e
      · subst e; exact le_refl _
      · have h1 := ih (by omega) (by omega)
        have h2 := hgap j (by omega)
        omega
  have hloop := interval_loop locs (n - 1) hmono h0 hlast
  have hspan := hlow (n - 1) (by omega)
  have hcast : ((n - 1 : Nat) : Int) = (n : Int) - 1 := by omega
  rw [hcast] at hspan
  have hmul : g * ((n : Int) - 1) ≥ (n : Int) - 1 := by nlinarith
  have hn1 : i32 ((n : Int) - 1) = (n : Int) - 1 := i32_eq_self (by omega) (by omega)
  obtain ⟨d1, d1a, d1b⟩ := cdiv_pos (rd locs (n - 1) - rd locs 0) ((n : Int) - 1)
    (by omega) (by omega) (by omega)
  have havg : g ≤ Int.tdiv (rd locs (n - 1) - rd locs 0) ((n : Int) - 1) := by
    rw [Int.tdiv_eq_ediv (by omega) (by omega)]
    exact Int.le_ediv_of_mul_le (by omega) (by omega)
  obtain ⟨d2, d2a, d2b⟩ := cdiv_pos 6000
    (Int.tdiv (rd locs (n - 1) - rd locs 0) ((n : Int) - 1)) (by omega) (by omega)
    (by omega)
  refine ⟨?_, havg, d1b⟩
  have hge : (n : Int) ≥ 2 := by omega
  simp only [heart_rate_from_peaks, if_pos hge, Int.toNat_ofNat, hloop, hn1, d1, d2, bind,
    Except.bind, pure, Except.pure]

theorem heart_rate_from_peaks_few (locs : Mem) (n : Int) (hn : n < 2) :
    heart_rate_from_peaks locs n = .ok (-999, 0) := by
  have hlt : ¬ (n ≥ 2) := by omega
  simp only [heart_rate_from_peaks, if_neg hlt, pure, Except.pure]

/-! ## The estimate from the conditioned signal -/

theorem estimate_from_spec (locs0 : Mem) (f : Nat → Int) (hl : 15 ≤ locs0.length) :
    ∃ hr v, estimate_from locs0 f = .ok (hr, v) ∧
      ((v = 1 ∧ 12 ≤ hr ∧ hr ≤ 666) ∨ (v = 0 ∧ hr = -999)) := by
  obtain ⟨locs, npks, e, h1, _, _, h4, h5⟩ := maxim_find_peaks_spec locs0 f
    ((BUFFER_SIZE - HAMMING_SIZE : Nat) : Int) (threshold f) 8 5 hl
    (by simp [BUFFER_SIZE, FS, HAMMING_SIZE]) (by omega) (by omega)
  have hsz : ((BUFFER_SIZE - HAMMING_SIZE : Nat) : Int) = 495 := by
    simp [BUFFER_SIZE, FS, HAMMING_SIZE]
  rw [hsz] at h4
  unfold estimate_from
  simp only [e]
  by_cases c : 2 ≤ npks
  · obtain ⟨r1, r2, r3⟩ := heart_rate_from_peaks_asc locs npks c 9 (by omega)
      (fun a ha => by have := h5 a (a + 1) (by omega) ha; omega)
      (by have := h4 0 (by omega); omega)
      (by have := h4 (npks - 1) (by omega); omega)
    refine ⟨_, _, r1, Or.inl ⟨rfl, ?_, ?_⟩⟩
    · have hlast := h4 (npks - 1) (by omega)
      have hfirst := h4 0 (by omega)
      rw [Int.tdiv_eq_ediv (by omega) (by omega)]
      exact Int.le_ediv_of_mul_le (by omega) (by omega)
    · rw [Int.tdiv_eq_ediv (by omega) (by omega)]
      have : (6000 : Int) / Int.tdiv (rd locs (npks - 1) - rd locs 0) ((npks : Int) - 1) < 667 :=
        Int.ediv_lt_of_lt_mul (by omega) (by omega)
      omega
  · exact ⟨-999, 0, heart_rate_from_peaks_few locs npks (by omega), Or.inr ⟨rfl, rfl⟩⟩

theorem threshold_congr (f g : Nat → Int) (h : ∀ k, k < BUFFER_SIZE - HAMMING_SIZE → f k = g k) :
    threshold f = threshold g := by
  unfold threshold
  rw [forLoop_congr (BUFFER_SIZE - HAMMING_SIZE)
    (fun k n_th1 => i32 (n_th1 + (if f k > 0 then f k else i32 (0 - f k))))
    (fun k n_th1 => i32 (n_th1 + (if g k > 0 then g k else i32 (0 - g k)))) 0
    (fun k s hk => by simp only []; rw [h k hk])]

theorem estimate_from_congr (l l2 : Mem) (f g : Nat → Int)
    (hfg : ∀ k, k ≤ BUFFER_SIZE - HAMMING_SIZE → f k = g k) (hl : 15 ≤ l.length)
    (hl2 : 15 ≤ l2.length) : estimate_from l f = estimate_from l2 g := by
  obtain ⟨r, r2, m, e1, e2, hag⟩ := maxim_find_peaks_congr l l2 f g
    ((BUFFER_SIZE - HAMMING_SIZE : Nat) : Int) (threshold f) 8 5
    (fun k hk => hfg k (by omega)) hl hl2 (by omega)
  unfold estimate_from
  rw [← threshold_congr f g (fun k hk => hfg k (by omega))]
  simp only [e1, e2]
  exact heart_rate_from_peaks_congr r r2 m (by simpa using hag)

theorem maxim_heart_rate_saturation_eq (s : Scratch) (locs0 : Mem) (ir : Nat → Int) (n : Int)
    (hs : s.WF) (hn0 : u32 n ≠ 0) (hn : n ≤ 500) :
    maxim_heart_rate_saturation s locs0 ir n
      = match estimate_from locs0
            (condF ir n.toNat (ir_sum ir n / u32 n) (rd s.an_x) (rd s.an_dx)) with
        | .error e => .error e
        | .ok r => .ok (conditioning s ir n (ir_sum ir n / u32 n), r.1, r.2) := by
  unfold maxim_heart_rate_saturation
  rw [if_neg hn0]
  simp only []
  rw [(conditioning_rd s ir n (ir_sum ir n / u32 n) hs hn).2.2]

/-! ## Constant buffers -/

theorem u32_eq_self {x : Int} (h1 : 0 ≤ x) (h2 : x < 4294967296) : u32 x = x := by
  unfold u32; omega

theorem ir_sum_const (ir : Nat → Int) (c : Int) (hc0 : 0 ≤ c) (hc : c < 262144)
    (hir : ∀ k, k < 500 → ir k = c) :
    ∀ m, m ≤ 500 → forLoop m (fun k un_ir_mean => u32 (un_ir_mean + ir k)) 0 = (m : Int) * c := by
  intro m
  induction m with
  | zero => intro _; simp [forLoop]
  | succ m ih =>
    intro hm
    simp only [forLoop]
    rw [ih (by omega), hir m (by omega)]
    have e : (m : Int) * c + c = ((m + 1 : Nat) : Int) * c := by push_cast; ring
    rw [e]
    apply u32_eq_self
    · positivity
    · have h1 : ((m + 1 : Nat) : Int) ≤ 500 := by exact_mod_cast hm
      have h2 : ((m + 1 : Nat) : Int) * c ≤ 500 * c :=
        Int.mul_le_mul_of_nonneg_right h1 hc0
      omega

theorem forLoop_zero_sum (n : Nat) (f : Nat → Int) (hf : ∀ k, k < n → f k = 0) :
    forLoop n (fun k n_th1 => i32 (n_th1 + (if f k > 0 then f k else i32 (0 - f k)))) 0 = 0 := by
  induction n with
  | zero => rfl
  | succ n ih =>
    simp only [forLoop]
    rw [ih (fun k hk => hf k (by omega)), hf n (by omega)]
    decide

theorem condF_const (ir : Nat → Int) (c : Int) (x dx : Nat → Int)
    (hir : ∀ k, k < 500 → ir k = c) :
    ∀ k, k < 495 → condF ir 500 c x dx k = 0 := by
  have z1 : ∀ k, k < 500 → dcF ir 500 c x k = 0 := by
    intro k hk
    unfold dcF
    rw [if_pos hk, hir k hk, sub_self]
    decide
  have z2 : ∀ k, k < 500 → ma4F (dcF ir 500 c x) k = 0 := by
    intro k hk
    unfold ma4F
    by_cases h : k < BUFFER_SIZE - MA4_SIZE
    · have h2 : k < 496 := h
      rw [if_pos h]
      unfold ma4_value
      rw [z1 k hk, z1 (k + 1) (by omega), z1 (k + 2) (by omega), z1 (k + 3) (by omega)]
      decide
    · rw [if_neg h]
      exact z1 k hk
  have z3 : ∀ k, k < 495 → diffF (ma4F (dcF ir 500 c x)) dx k = 0 := by
    intro k hk
    unfold diffF
    rw [if_pos (show k < BUFFER_SIZE - MA4_SIZE - 1 from hk), z2 k (by omega),
      z2 (k + 1) (by omega)]
    decide
  have z4 : ∀ k, k < 495 → ma2F (diffF (ma4F (dcF ir 500 c x)) dx) k = 0 := by
    intro k hk
    unfold ma2F
    by_cases h : k < BUFFER_SIZE - MA4_SIZE - 2
    · have h2 : k < 494 := h
      rw [if_pos h]
      unfold ma2_value
      rw [z3 k hk, z3 (k + 1) (by omega)]
      decide
    · rw [if_neg h]
      exact z3 k hk
  intro k hk
  unfold condF hammF
  by_cases h : k < BUFFER_SIZE - HAMMING_SIZE - MA4_SIZE - 2
  · have h2 : k < 489 := h
    rw [if_pos h]
    unfold hamming_value
    simp only [HAMMING_SIZE, forLoop]
    rw [z4 (k + 0) (by omega), z4 (k + 1) (by omega), z4 (k + 2) (by omega),
      z4 (k + 3) (by omega), z4 (k + 4) (by omega)]
    decide
  · rw [if_neg h]
    exact z4 k hk

theorem peaks_loop_none (f : Nat → Int) (n_size h : Int)
    (hf : ∀ i : Nat, 1 ≤ i → (i : Int) < n_size - 1 → ¬ f i > h) :
    ∀ (fuel i : Nat) (l : Mem) (m : Nat), 0 < fuel → n_size - (i : Int) < fuel → 1 ≤ i →
      peaks_loop f n_size h fuel i l m = .ok (l, m) := by
  intro fuel
  induction fuel with
  | zero => intro i l m h0; omega
  | succ fuel ih =>
    intro i l m _ hm hi
    unfold peaks_loop
    by_cases hc : (i : Int) < n_size - 1
    · rw [if_pos hc, if_neg (fun hp => hf i hi hc hp.1)]
      exact ih (i + 1) l m (by omega) (by push_cast; omega) (by omega)
    · rw [if_neg hc]

theorem maxim_find_peaks_none (l : Mem) (f : Nat → Int) (n_size h d : Int)
    (hf : ∀ i : Nat, 1 ≤ i → (i : Int) < n_size - 1 → ¬ f i > h) :
    maxim_find_peaks l f n_size h d 5 = .ok (l, 0) := by
  unfold maxim_find_peaks maxim_peaks_above_min_height
  rw [peaks_loop_none f n_size h hf _ 1 l 0 (by omega) (by omega) (by omega)]
  rfl

theorem estimate_from_zero (l : Mem) (f : Nat → Int)
    (hf : ∀ k, k < BUFFER_SIZE - HAMMING_SIZE → f k = 0) :
    threshold f = 0 ∧ maxim_find_peaks l f 495 (threshold f) 8 5 = .ok (l, 0) ∧
      estimate_from l f = .ok (-999, 0) := by
  have ht : threshold f = 0 := by
    unfold threshold
    rw [forLoop_zero_sum _ f hf]
    rfl
  have hp : maxim_find_peaks l f 495 (threshold f) 8 5 = .ok (l, 0) := by
    apply maxim_find_peaks_none
    intro i _ hi
    rw [ht, hf i (by simp [BUFFER_SIZE, FS, HAMMING_SIZE]; omega)]
    omega
  refine ⟨ht, hp, ?_⟩
  unfold estimate_from
  have e : ((BUFFER_SIZE - HAMMING_SIZE : Nat) : Int) = 495 := by
    simp [BUFFER_SIZE, FS, HAMMING_SIZE]
  simp only [e, hp]
  rfl

theorem maxim_heart_rate_saturation_const (s : Scratch) (locs0 : Mem) (ir : Nat → Int) (c : Int)
    (hs : s.WF) (hc0 : 0 ≤ c) (hc : c < 262144) (hir : ∀ k, k < 500 → ir k = c) :
    maxim_heart_rate_saturation s locs0 ir 500 = .ok (conditioning s ir 500 c, -999, 0) ∧
      ∀ k, k < BUFFER_SIZE - HAMMING_SIZE → rd (conditioning s ir 500 c).an_dx k = 0 := by
  have hmean : ir_sum ir 500 / u32 500 = c := by
    unfold ir_sum
    have ht : (500 : Int).toNat = 500 := rfl
    rw [ht, ir_sum_const ir c hc0 hc hir 500 (le_refl _)]
    have e : u32 500 = 500 := by decide
    rw [e]
    push_cast
    omega
  have hz := condF_const ir c (rd s.an_x) (rd s.an_dx) hir
  have hz2 : ∀ k, k < BUFFER_SIZE - HAMMING_SIZE →
      condF ir 500 c (rd s.an_x) (rd s.an_dx) k = 0 := fun k hk => hz k hk
  have hrd := (conditioning_rd s ir 500 c hs (le_refl _)).2.2
  refine ⟨?_, fun k hk => by rw [hrd]; exact hz2 k hk⟩
  rw [maxim_heart_rate_saturation_eq s locs0 ir 500 hs (by decide) (le_refl _), hmean]
  have ht : (500 : Int).toNat = 500 := rfl
  rw [ht, (estimate_from_zero locs0 _ hz2).2.2]

/-! ## Independence of the scratch contents -/

theorem rd_replicate_zero (n k : Nat) : rd (List.replicate n 0) k = 0 := by
  unfold rd
  rw [List.getD_eq_getElem?_getD]
  by_cases h : k < n
  · simp [List.getElem?_replicate, h]
  · simp [List.getElem?_replicate, h]

theorem boot_scratch_WF : boot_scratch.WF := by
  unfold Scratch.WF boot_scratch
  simp

theorem condF_last (ir : Nat → Int) (n : Nat) (mean : Int) (x dx : Nat → Int) :
    condF ir n mean x dx 495 = dx 495 := by
  unfold condF hammF ma2F diffF
  simp [BUFFER_SIZE, FS, MA4_SIZE, HAMMING_SIZE]

theorem condF_congr (ir : Nat → Int) (n : Nat) (mean : Int) (x x2 dx dx2 : Nat → Int)
    (hx : ∀ k, n ≤ k → k < 500 → x k = x2 k) (hdx : dx 495 = dx2 495) :
    ∀ k, k ≤ 495 → condF ir n mean x dx k = condF ir n mean x2 dx2 k := by
  have a1 : ∀ k, k < 500 → dcF ir n mean x k = dcF ir n mean x2 k := by
    intro k hk
    unfold dcF
    by_cases c : k < n
    · rw [if_pos c, if_pos c]
    · rw [if_neg c, if_neg c]
      exact hx k (by omega) hk
  have a2 : ∀ k, k < 500 → ma4F (dcF ir n mean x) k = ma4F (dcF ir n mean x2) k := by
    intro k hk
    unfold ma4F
    by_cases c : k < BUFFER_SIZE - MA4_SIZE
    · have c2 : k < 496 := c
      rw [if_pos c, if_pos c]
      unfold ma4_value
      rw [a1 k hk, a1 (k + 1) (by omega), a1 (k + 2) (by omega), a1 (k + 3) (by omega)]
    · rw [if_neg c, if_neg c]
      exact a1 k hk
  have a3 : ∀ k, k ≤ 495 →
      diffF (ma4F (dcF ir n mean x)) dx k = diffF (ma4F (dcF ir n mean x2)) dx2 k := by
    intro k hk
    unfold diffF
    by_cases c : k < BUFFER_SIZE - MA4_SIZE - 1
    · have c2 : k < 495 := c
      rw [if_pos c, if_pos c, a2 k (by omega), a2 (k + 1) (by omega)]
    · have c2 : ¬ k < 495 := c
      have e : k = 495 := by omega
      rw [if_neg c, if_neg c, e]
      exact hdx
  have a4 : ∀ k, k ≤ 495 →
      ma2F (diffF (ma4F (dcF ir n mean x)) dx) k
        = ma2F (diffF (ma4F (dcF ir n mean x2)) dx2) k := by
    intro k hk
    unfold ma2F
    by_cases c : k < BUFFER_SIZE - MA4_SIZE - 2
    · have c2 : k < 494 := c
      rw [if_pos c, if_pos c]
      unfold ma2_value
      rw [a3 k hk, a3 (k + 1) (by omega)]
    · rw [if_neg c, if_neg c]
      exact a3 k hk
  intro k hk
  unfold condF hammF
  by_cases c : k < BUFFER_SIZE - HAMMING_SIZE - MA4_SIZE - 2
  · have c2 : k < 489 := c
    rw [if_pos c, if_pos c]
    unfold hamming_value
    simp only [HAMMING_SIZE, forLoop]
    rw [a4 (k + 0) (by omega), a4 (k + 1) (by omega), a4 (k + 2) (by omega),
      a4 (k + 3) (by omega), a4 (k + 4) (by omega)]
  · rw [if_neg c, if_neg c]
    exact a4 k hk

theorem maxim_heart_rate_saturation_ok (s s2 : Scratch) (locs : Mem) (ir : Nat → Int)
    (n hr v : Int) (h : maxim_heart_rate_saturation s locs ir n = .ok (s2, hr, v)) :
    u32 n ≠ 0 ∧ s2 = conditioning s ir n (ir_sum ir n / u32 n) := by
  unfold maxim_heart_rate_saturation at h
  by_cases c : u32 n = 0
  · rw [if_pos c] at h
    cases h
  · rw [if_neg c] at h
    refine ⟨c, ?_⟩
    simp only [] at h
    cases he : estimate_from locs (rd (conditioning s ir n (ir_sum ir n / u32 n)).an_dx) with
    | error e => rw [he] at h; cases h
    | ok r =>
      rw [he] at h
      simp only [Except.ok.injEq, Prod.mk.injEq] at h
      exact h.1.symm

theorem Reachable.inv {s : Scratch} (h : Reachable s) : s.WF ∧ rd s.an_dx 495 = 0 := by
  induction h with
  | boot => exact ⟨boot_scratch_WF, rd_replicate_zero _ _⟩
  | call s s2 locs ir n hr v _ hn hcall ih =>
    obtain ⟨_, e⟩ := maxim_heart_rate_saturation_ok s s2 locs ir n hr v hcall
    obtain ⟨w, _, c⟩ := conditioning_rd s ir n (ir_sum ir n / u32 n) ih.1 hn
    rw [e]
    refine ⟨w, ?_⟩
    rw [c, condF_last]
    exact ih.2

theorem maxim_heart_rate_saturation_total (s : Scratch) (locs : Mem) (ir : Nat → Int) (n : Int)
    (hl : 15 ≤ locs.length) (hn0 : u32 n ≠ 0) :
    ∃ hr v, maxim_heart_rate_saturation s locs ir n
        = .ok (conditioning s ir n (ir_sum ir n / u32 n), hr, v) ∧
      estimate_from locs (rd (conditioning s ir n (ir_sum ir n / u32 n)).an_dx) = .ok (hr, v) ∧
      ((v = 1 ∧ 12 ≤ hr ∧ hr ≤ 666) ∨ (v = 0 ∧ hr = -999)) := by
  obtain ⟨hr, v, e, hb⟩ := estimate_from_spec locs
    (rd (conditioning s ir n (ir_sum ir n / u32 n)).an_dx) hl
  refine ⟨hr, v, ?_, e, hb⟩
  unfold maxim_heart_rate_saturation
  rw [if_neg hn0]
  simp only [e]

theorem estimate_same (s1 s2 : Scratch) (l1 l2 : Mem) (ir : Nat → Int)
    (h1 : s1.WF ∧ rd s1.an_dx 495 = 0) (h2 : s2.WF ∧ rd s2.an_dx 495 = 0)
    (hl1 : 15 ≤ l1.length) (hl2 : 15 ≤ l2.length) :
    ∃ hr v, maxim_heart_rate_saturation s1 l1 ir 500
        = .ok (conditioning s1 ir 500 (ir_sum ir 500 / u32 500), hr, v) ∧
      maxim_heart_rate_saturation s2 l2 ir 500
        = .ok (conditioning s2 ir 500 (ir_sum ir 500 / u32 500), hr, v) := by
  obtain ⟨hr, v, e1, f1, _⟩ := maxim_heart_rate_saturation_total s1 l1 ir 500 hl1 (by decide)
  obtain ⟨hr2, v2, e2, f2, _⟩ := maxim_heart_rate_saturation_total s2 l2 ir 500 hl2 (by decide)
  have c1 := (conditioning_rd s1 ir 500 (ir_sum ir 500 / u32 500) h1.1 (le_refl _)).2.2
  have c2 := (conditioning_rd s2 ir 500 (ir_sum ir 500 / u32 500) h2.1 (le_refl _)).2.2
  have hc := estimate_from_congr l1 l2
    (rd (conditioning s1 ir 500 (ir_sum ir 500 / u32 500)).an_dx)
    (rd (conditioning s2 ir 500 (ir_sum ir 500 / u32 500)).an_dx)
    (fun k hk => by
      rw [c1, c2]
      exact condF_congr ir _ _ (rd s1.an_x) (rd s2.an_x) (rd s1.an_dx) (rd s2.an_dx)
        (fun j hj1 hj2 => by
          have : (500 : Int).toNat = 500 := rfl
          omega)
        (by rw [h1.2, h2.2]) k (by simpa [BUFFER_SIZE, FS, HAMMING_SIZE] using hk))
    hl1 hl2
  rw [f1, f2] at hc
  simp only [Except.ok.injEq, Prod.mk.injEq] at hc
  refine ⟨hr, v, e1, ?_⟩
  rw [e2, ← hc.1, ← hc.2]

/-! ## A call with 499 samples of a triangle wave -/

set_option maxRecDepth 1000000 in
theorem triangle_mean : ir_sum triangle_wave 499 / u32 499 = 105874 := by decide!

set_option maxRecDepth 1000000 in
theorem triangle_table :
    ∀ k, k < 496 → condF triangle_wave 499 105874 (fun _ => 0) (fun _ => 0) k
      = triangle_conditioned k := by decide!

set_option maxRecDepth 1000000 in
theorem triangle_estimate :
    estimate_from (List.replicate 15 0) triangle_conditioned = .ok (75, 1) := by decide!

theorem triangle_call :
    maxim_heart_rate_saturation boot_scratch (List.replicate 15 0) triangle_wave 499
      = .ok (conditioning boot_scratch triangle_wave 499 105874, 75, 1) := by
  rw [maxim_heart_rate_saturation_eq boot_scratch _ triangle_wave 499 boot_scratch_WF
    (by decide) (by decide), triangle_mean]
  have ht : (499 : Int).toNat = 499 := rfl
  have hx : rd boot_scratch.an_x = fun _ => 0 := funext fun k => rd_replicate_zero _ k
  have hdx : rd boot_scratch.an_dx = fun _ => 0 := funext fun k => rd_replicate_zero _ k
  rw [ht, hx, hdx]
  rw [estimate_from_congr (List.replicate 15 0) (List.replicate 15 0)
    (condF triangle_wave 499 105874 (fun _ => 0) (fun _ => 0)) triangle_conditioned
    (fun k hk => triangle_table k (by
      have : BUFFER_SIZE - HAMMING_SIZE = 495 := rfl
      omega)) (by simp) (by simp),
    triangle_estimate]

/-! ## Acquisition -/

theorem list_eq_of_rd (a b : Mem) (hl : a.length = b.length)
    (h : ∀ k, k < a.length → rd a k = rd b k) : a = b := by
  apply List.ext_getElem hl
  intro k h1 h2
  have := h k h1
  rw [rd_eq_getElem a k h1, rd_eq_getElem b k h2] at this
  exact this

theorem read_fifo_ok (r : FifoRead) (h : FifoOk r) :
    MAX30102_read_fifo .running r = (.running, some (sample_of r)) := by
  obtain ⟨h1, h2, h3⟩ := h
  unfold MAX30102_read_fifo sample_of
  cases hd : r.fifo_data with
  | none => rw [hd] at h3; simp at h3
  | some rb => simp [h1, h2]

theorem read_fifo_fail (status : Status) (r : FifoRead) (h : status ≠ .running ∨ ¬ FifoOk r) :
    (MAX30102_read_fifo status r).2 = none := by
  unfold MAX30102_read_fifo
  by_cases c : status ≠ .running
  · rw [if_pos c]
  · rw [if_neg c]
    have hr : ¬ FifoOk r := by
      rcases h with h | h
      · exact absurd h c
      · exact h
    by_cases c1 : r.intr_status_1 = false
    · rw [if_pos c1]
    · rw [if_neg c1]
      by_cases c2 : r.intr_status_2 = false
      · rw [if_pos c2]
      · rw [if_neg c2]
        cases hd : r.fifo_data with
        | none => rfl
        | some rb =>
          exfalso
          apply hr
          refine ⟨by simpa using c1, by simpa using c2, ?_⟩
          rw [hd]; rfl

theorem acquire_ok (bus : Bus) (t : Nat) :
    ∀ (n i : Nat) (buf : Mem), (∀ k, k < n → FifoOk (bus.fifo 0 t (i + k))) →
      i + n ≤ buf.length →
      ∃ buf2, acquire bus t n i .running buf = (.running, buf2, true) ∧
        buf2.length = buf.length ∧
        ∀ k, rd buf2 k = if i ≤ k ∧ k < i + n then sample_of (bus.fifo 0 t k) else rd buf k := by
  intro n
  induction n with
  | zero =>
    intro i buf _ _
    refine ⟨buf, rfl, rfl, fun k => ?_⟩
    rw [if_neg (by omega)]
  | succ n ih =>
    intro i buf hok hlen
    unfold acquire
    rw [read_fifo_ok _ (by simpa using hok 0 (by omega))]
    simp only []
    obtain ⟨buf2, e, l, r⟩ := ih (i + 1) (wr buf i (sample_of (bus.fifo 0 t i)))
      (fun k hk => by
        have := hok (k + 1) (by omega)
        rw [show i + (k + 1) = i + 1 + k by omega] at this
        exact this)
      (by rw [length_wr]; omega)
    refine ⟨buf2, e, by rw [l, length_wr], fun k => ?_⟩
    rw [r k, rd_wr]
    by_cases c : k = i
    · subst c
      rw [if_neg (by omega), if_pos ⟨rfl, by omega⟩, if_pos ⟨le_refl _, by omega⟩]
    · by_cases c2 : i + 1 ≤ k ∧ k < i + 1 + n
      · rw [if_pos c2, if_pos ⟨by omega, by omega⟩]
      · rw [if_neg c2, if_neg (fun h => c h.1), if_neg (by omega)]

theorem acquire_fail (bus : Bus) (t : Nat) :
    ∀ (n i : Nat) (status : Status) (buf : Mem),
      ((status ≠ .running ∧ 0 < n) ∨ ∃ k, k < n ∧ ¬ FifoOk (bus.fifo 0 t (i + k))) →
      ∃ status2 buf2, acquire bus t n i status buf = (status2, buf2, false) := by
  intro n
  induction n with
  | zero =>
    intro i status buf h
    rcases h with ⟨_, h⟩ | ⟨k, h, _⟩ <;> omega
  | succ n ih =>
    intro i status buf h
    unfold acquire
    by_cases c : status ≠ .running ∨ ¬ FifoOk (bus.fifo 0 t i)
    · have hf := read_fifo_fail status (bus.fifo 0 t i) c
      cases hr : MAX30102_read_fifo status (bus.fifo 0 t i) with
      | mk st o =>
        rw [hr] at hf
        simp only [] at hf
        subst hf
        exact ⟨st, buf, rfl⟩
    · have c1 : status = .running := by
        by_contra hh
        exact c (Or.inl hh)
      have c2 : FifoOk (bus.fifo 0 t i) := by
        by_contra hh
        exact c (Or.inr hh)
      subst c1
      rw [read_fifo_ok _ c2]
      simp only []
      apply ih
      right
      rcases h with ⟨h, _⟩ | ⟨k, hk, hbad⟩
      · exact absurd rfl h
      · cases k with
        | zero => exact absurd c2 (by simpa using hbad)
        | succ k =>
          refine ⟨k, by omega, ?_⟩
          rw [show i + 1 + k = i + (k + 1) by omega]
          exact hbad

theorem round_samples_length (bus : Bus) (t : Nat) :
    (round_samples bus t).length = BUFFER_LENGTH := by
  simp [round_samples]

theorem rd_round_samples (bus : Bus) (t k : Nat) (hk : k < BUFFER_LENGTH) :
    rd (round_samples bus t) k = sample_of (bus.fifo 0 t k) := by
  rw [rd_eq_getElem _ _ (by rw [round_samples_length]; exact hk)]
  simp [round_samples]

theorem acquire_all (bus : Bus) (t : Nat) (buf : Mem) (hlen : buf.length = BUFFER_LENGTH)
    (hok : ∀ k, k < BUFFER_LENGTH → FifoOk (bus.fifo 0 t k)) :
    acquire bus t BUFFER_LENGTH 0 .running buf = (.running, round_samples bus t, true) := by
  obtain ⟨buf2, e, l, r⟩ := acquire_ok bus t BUFFER_LENGTH 0 buf
    (fun k hk => by simpa using hok k hk) (by omega)
  have : buf2 = round_samples bus t := by
    apply list_eq_of_rd
    · rw [l, hlen, round_samples_length]
    · intro k hk
      rw [l, hlen] at hk
      rw [r k, if_pos ⟨by omega, by omega⟩, rd_round_samples bus t k hk]
  rw [e, this]

theorem map_rd_round_samples (bus : Bus) (t : Nat) :
    (List.range BUFFER_LENGTH).map (rd (round_samples bus t)) = round_samples bus t := by
  unfold round_samples
  apply List.map_congr_left
  intro k hk
  rw [List.mem_range] at hk
  exact rd_round_samples bus t k hk

theorem sample_of_range (r : FifoRead) : 0 ≤ sample_of r ∧ sample_of r < 262144 := by
  unfold sample_of
  cases r.fifo_data with
  | none => simp
  | some rb =>
    simp only []
    have h : fifo_sample rb ≤ 0x03FFFF := by
      unfold fifo_sample
      exact Nat.and_le_right
    omega

/-! ## One round and the whole measurement -/

theorem hr_round_fail (bus : Bus) (t : Nat) (d : Driver)
    (h : bus.round_intr t = false ∨ d.status ≠ .running ∨
      ∃ k, k < BUFFER_LENGTH ∧ ¬ FifoOk (bus.fifo 0 t k)) :
    ∃ d2, hr_round bus t d = .ok (d2, none) ∧ d2.estimated = d.estimated ∧
      d2.scratch = d.scratch := by
  unfold hr_round
  by_cases c : bus.round_intr t = false
  · rw [if_pos c]
    exact ⟨_, rfl, rfl, rfl⟩
  · rw [if_neg c]
    obtain ⟨st, buf, e⟩ := acquire_fail bus t BUFFER_LENGTH 0 d.status d.ir_buffer (by
      rcases h with h | h | ⟨k, hk, hbad⟩
      · exact absurd h c
      · exact Or.inl ⟨h, by decide⟩
      · exact Or.inr ⟨k, hk, by simpa using hbad⟩)
    rw [e]
    exact ⟨_, rfl, rfl, rfl⟩

theorem hr_round_ok (bus : Bus) (t : Nat) (buf : Mem) (s : Scratch) (est : List (List Int))
    (hintr : bus.round_intr t = true) (hok : ∀ k, k < BUFFER_LENGTH → FifoOk (bus.fifo 0 t k))
    (hbuf : buf.length = BUFFER_LENGTH) (hstack : (bus.stack t).length = 15) :
    ∃ s2 hr v,
      maxim_heart_rate_saturation s (bus.stack t) (rd (round_samples bus t)) 500
        = .ok (s2, hr, v) ∧
      hr_round bus t (Driver.mk .running buf s est)
        = .ok (Driver.mk .running (round_samples bus t) s2 (est ++ [round_samples bus t]),
            some (hr, hr_gate hr v)) ∧
      ((v = 1 ∧ 12 ≤ hr ∧ hr ≤ 666) ∨ (v = 0 ∧ hr = -999)) := by
  obtain ⟨hr, v, e, _, hb⟩ := maxim_heart_rate_saturation_total s (bus.stack t)
    (rd (round_samples bus t)) 500 (by omega) (by decide)
  refine ⟨_, hr, v, e, ?_, hb⟩
  unfold hr_round
  rw [if_neg (by simp [hintr])]
  simp only []
  rw [acquire_all bus t buf hbuf hok]
  have e500 : ((BUFFER_LENGTH : Nat) : Int) = 500 := rfl
  simp only [e500, e, map_rd_round_samples]

theorem combine_lenient_value (hrA validA hrB validB : Int)
    (hA : validA ≠ 0 → 0 ≤ hrA ∧ hrA < 200) (hB : validB ≠ 0 → 0 ≤ hrB ∧ hrB < 200) :
    u8 (combine false hrA validA hrB validB)
      = if validA ≠ 0 ∧ validB ≠ 0 then min hrA hrB
        else if validA ≠ 0 then hrA
        else if validB ≠ 0 then hrB
        else 0 := by
  unfold combine MIN u8
  simp only [Bool.false_eq_true, if_false]
  by_cases a : validA ≠ 0 <;> by_cases b : validB ≠ 0
  · have := hA a
    have := hB b
    simp only [a, b, and_self, if_true, not_false_eq_true, ne_eq]
    rw [min_def]
    split_ifs <;> omega
  · have := hA a
    simp only [a, b, and_false, if_true, if_false, not_false_eq_true, ne_eq]
    omega
  · have := hB b
    simp only [a, b, false_and, if_true, if_false, not_false_eq_true, ne_eq]
    omega
  · simp only [a, b, false_and, if_false]
    omega

theorem hr_gate_facts (hr v : Int) (hb : (v = 1 ∧ 12 ≤ hr ∧ hr ≤ 666) ∨ (v = 0 ∧ hr = -999)) :
    (hr_gate hr v ≠ 0 ↔ (v ≠ 0 ∧ hr < 200)) ∧ (hr_gate hr v ≠ 0 → 12 ≤ hr ∧ hr < 200) := by
  unfold hr_gate MAX_HR
  rcases hb with ⟨h1, h2, h3⟩ | ⟨h1, h2⟩
  · subst h1
    by_cases c : hr ≥ 200
    · rw [if_pos c]
      exact ⟨⟨fun h => absurd rfl h, fun h => by omega⟩, fun h => absurd rfl h⟩
    · rw [if_neg c]
      exact ⟨⟨fun _ => ⟨by omega, by omega⟩, fun _ => by omega⟩, fun _ => by omega⟩
  · subst h1
    subst h2
    rw [if_neg (by omega)]
    exact ⟨⟨fun h => absurd rfl h, fun h => absurd rfl h.1⟩, fun h => absurd rfl h⟩

/-! ## The sample of a frame and the channel of the two rounds -/

theorem fifo_sample_eq (b0 b1 b2 b3 b4 b5 : Nat) :
    fifo_sample [b0, b1, b2, b3, b4, b5] = (b3 * 65536 + b4 * 256 + b5) % 262144 := by
  unfold fifo_sample
  simp only [List.getD_cons_succ, List.getD_cons_zero, Nat.shiftLeft_eq]
  have e : (0x03FFFF : Nat) = 2 ^ 18 - 1 := by norm_num
  rw [e, Nat.and_pow_two_sub_one_eq_mod]
  norm_num

theorem acquire_channel (bus1 bus2 : Bus) (t : Nat)
    (h : ∀ i, bus1.fifo 0 t i = bus2.fifo 0 t i) :
    ∀ n i status buf, acquire bus1 t n i status buf = acquire bus2 t n i status buf := by
  intro n
  induction n with
  | zero => intro i status buf; rfl
  | succ n ih =>
    intro i status buf
    unfold acquire
    rw [h i]
    rcases e : MAX30102_read_fifo status (bus2.fifo 0 t i) with ⟨st, _ | v⟩
    · rfl
    · simp only []
      exact ih _ _ _

theorem hr_round_channel (bus1 bus2 : Bus) (t : Nat) (d : Driver)
    (hintr : bus1.round_intr t = bus2.round_intr t)
    (h : ∀ i, bus1.fifo 0 t i = bus2.fifo 0 t i) (hstack : bus1.stack t = bus2.stack t) :
    hr_round bus1 t d = hr_round bus2 t d := by
  unfold hr_round
  rw [hintr, acquire_channel bus1 bus2 t h, hstack]

theorem get_hr_channel (strict : Bool) (bus1 bus2 : Bus) (d : Driver)
    (hwake : bus1.wake = bus2.wake) (hintr : ∀ t, bus1.round_intr t = bus2.round_intr t)
    (h : ∀ t i, bus1.fifo 0 t i = bus2.fifo 0 t i) (hsleep : bus1.sleep = bus2.sleep)
    (hstack : ∀ t, bus1.stack t = bus2.stack t) :
    MAX30102_get_hr strict bus1 d = MAX30102_get_hr strict bus2 d := by
  unfold MAX30102_get_hr
  simp only [hwake, hsleep, fun t d => hr_round_channel bus1 bus2 t d (hintr t) (h t) (hstack t)]

theorem get_hr_log (strict : Bool) (bus : Bus) (d : Driver) (hrun : d.status = .running)
    (hwake : bus.wake = true) (hintr : ∀ t, t < 2 → bus.round_intr t = true)
    (hfifo : ∀ t k, t < 2 → k < BUFFER_LENGTH → FifoOk (bus.fifo 0 t k))
    (hbuf : d.ir_buffer.length = BUFFER_LENGTH) (hstack : ∀ t, (bus.stack t).length = 15) :
    ∃ result d2, MAX30102_get_hr strict bus d = .ok (result, d2) ∧
      d2.estimated = d.estimated ++ [round_samples bus 0, round_samples bus 1] := by
  obtain ⟨status, ir_buffer, scratch, estimated⟩ := d
  simp only [] at hbuf hrun ⊢
  subst hrun
  have g2 : MAX30102_shutdown .running bus.wake = .running := by
    unfold MAX30102_shutdown
    simp [hwake]
  obtain ⟨s1, hr0, v0, _, r0, _⟩ := hr_round_ok bus 0 ir_buffer scratch estimated
    (hintr 0 (by omega)) (fun k hk => hfifo 0 k (by omega) hk) hbuf (hstack 0)
  obtain ⟨s2, hr1, v1, _, r1, _⟩ := hr_round_ok bus 1 (round_samples bus 0) s1
    (estimated ++ [round_samples bus 0]) (hintr 1 (by omega))
    (fun k hk => hfifo 1 k (by omega) hk) (round_samples_length bus 0) (hstack 1)
  unfold MAX30102_get_hr
  simp only []
  rw [if_neg (by simp), g2, r0]
  simp only []
  rw [r1]
  exact ⟨_, _, rfl, by simp⟩

/-! ## The entries written by the Hamming stage -/

theorem hamming_written (d : Mem) (hd : BUFFER_SIZE - HAMMING_SIZE - MA4_SIZE - 2 ≤ d.length) :
    (∀ i, i < 489 → rd (hamming d) i = hamming_value (rd d) i) ∧
      (∀ i, 489 ≤ i → rd (hamming d) i = rd d i) := by
  have e : BUFFER_SIZE - HAMMING_SIZE - MA4_SIZE - 2 = 489 := by decide
  rw [(hamming_rd d hd).2]
  unfold hammF
  rw [e]
  exact ⟨fun i hi => by rw [if_pos hi], fun i hi => by rw [if_neg (by omega)]⟩

theorem rd_replicate (n k : Nat) (v : Int) :
    rd (List.replicate n v) k = if k < n then v else 0 := by
  unfold rd
  rw [List.getD_eq_getElem?_getD]
  by_cases h : k < n
  · simp [List.getElem?_replicate, h]
  · simp [List.getElem?_replicate, h]

theorem hamming_value_const (f : Nat → Int) (i : Nat) (v : Int)
    (h : ∀ t, t < 5 → f (i + t) = v) (hv : -1000000 ≤ v ∧ v ≤ 1000000) :
    hamming_value f i = Int.tdiv (-(1146 * v)) 1146 := by
  unfold hamming_value
  have e : HAMMING_SIZE = 5 := rfl
  rw [e]
  simp only [forLoop, h 0 (by omega), h 1 (by omega), h 2 (by omega), h 3 (by omega),
    h 4 (by omega)]
  have a0 : auw_hamm 0 = 41 := rfl
  have a1 : auw_hamm 1 = 276 := rfl
  have a2 : auw_hamm 2 = 512 := rfl
  have a3 : auw_hamm 3 = 276 := rfl
  have a4 : auw_hamm 4 = 41 := rfl
  rw [a0, a1, a2, a3, a4]
  have p0 : i32 (v * 41) = v * 41 := i32_eq_self (by omega) (by omega)
  have p1 : i32 (v * 276) = v * 276 := i32_eq_self (by omega) (by omega)
  have p2 : i32 (v * 512) = v * 512 := i32_eq_self (by omega) (by omega)
  rw [p0, p1, p2]
  have q0 : i32 (0 - v * 41) = -(41 * v) := by rw [i32_eq_self (by omega) (by omega)]; ring
  rw [q0]
  have q1 : i32 (-(41 * v) - v * 276) = -(317 * v) := by
    rw [i32_eq_self (by omega) (by omega)]; ring
  rw [q1]
  have q2 : i32 (-(317 * v) - v * 512) = -(829 * v) := by
    rw [i32_eq_self (by omega) (by omega)]; ring
  rw [q2]
  have q3 : i32 (-(829 * v) - v * 276) = -(1105 * v) := by
    rw [i32_eq_self (by omega) (by omega)]; ring
  rw [q3]
  have q4 : i32 (-(1105 * v) - v * 41) = -(1146 * v) := by
    rw [i32_eq_self (by omega) (by omega)]; ring
  rw [q4]

/-! ## Stability of the insertion sort by descending amplitude -/

theorem ins_pass_stable (key : Int → Int) (a : Mem) (i : Nat) (hi : i < a.length)
    (σ : Nat → Nat)
    (hs : ∀ p q, p < q → q < i →
      key (rd a p) > key (rd a q) ∨ (key (rd a p) = key (rd a q) ∧ σ p < σ q))
    (hσ : ∀ p, p < i → σ p < σ i) :
    ∃ π : Nat → Nat, (∀ k, k ≤ i → π k ≤ i) ∧ (∀ k, i < k → π k = k) ∧
      (∀ x y, π x = π y → x = y) ∧
      (∀ k, rd (ins_pass (fun t e => decide (key t > key e)) a i) k = rd a (π k)) ∧
      ∀ p q, p < q → q < i + 1 →
        key (rd a (π p)) > key (rd a (π q)) ∨
          (key (rd a (π p)) = key (rd a (π q)) ∧ σ (π p) < σ (π q)) := by
  obtain ⟨h1, _, _, h4, h5⟩ :=
    shift_down_spec ((fun t e => decide (key t > key e)) (rd a i)) i a hi
  have hrd := ins_pass_rd (fun t e => decide (key t > key e)) a i hi
  generalize (shift_down ((fun t e => decide (key t > key e)) (rd a i)) a i).2 = j
    at h1 h4 h5 hrd
  have e1 : j = 0 ∨ ¬ (key (rd a i) > key (rd a (j - 1))) := by
    rcases h4 with h | h
    · exact Or.inl h
    · exact Or.inr (by simpa using h)
  have e2 : ∀ k, j ≤ k → k < i → key (rd a i) > key (rd a k) := by
    intro k hk1 hk2
    simpa using h5 k hk1 hk2
  refine ⟨fun k => if k = j then i else if j < k ∧ k ≤ i then k - 1 else k, ?_, ?_, ?_, ?_, ?_⟩
  · intro k hk
    simp only []
    split_ifs <;> omega
  · intro k hk
    simp only []
    rw [if_neg (by omega), if_neg (by omega)]
  · intro x y
    simp only []
    split_ifs <;> omega
  · intro k
    rw [hrd k]
    simp only []
    split_ifs <;> rfl
  · intro p q hpq hq
    simp only []
    by_cases cp : p = j
    · subst cp
      rw [if_pos rfl, if_neg (by omega), if_pos ⟨by omega, by omega⟩]
      exact Or.inl (e2 (q - 1) (by omega) (by omega))
    · by_cases cq : q = j
      · subst cq
        rw [if_neg cp, if_neg (by omega), if_pos rfl]
        have hj : ¬ (key (rd a i) > key (rd a (q - 1))) := by
          rcases e1 with h | h
          · omega
          · exact h
        have hlast := hσ p (by omega)
        by_cases c : p = q - 1
        · subst c
          omega
        · rcases hs p (q - 1) (by omega) (by omega) with h | h
          · omega
          · omega
      · rw [if_neg cp, if_neg cq]
        by_cases c1 : j < p ∧ p ≤ i
        · rw [if_pos c1, if_pos ⟨by omega, by omega⟩]
          exact hs (p - 1) (q - 1) (by omega) (by omega)
        · rw [if_neg c1]
          by_cases c2 : j < q ∧ q ≤ i
          · rw [if_pos c2]
            exact hs p (q - 1) (by omega) (by omega)
          · rw [if_neg c2]
            exact hs p q hpq (by omega)

theorem insertion_sort_stable_loop (key : Int → Int) (a : Mem) (n : Nat) (hn : n ≤ a.length) :
    ∀ m, m + 1 ≤ n →
      (forLoop m (fun t a => ins_pass (fun t e => decide (key t > key e)) a (t + 1)) a).length
        = a.length ∧
      ∃ σ : Nat → Nat, (∀ k, k < m + 1 → σ k < m + 1) ∧ (∀ k, m + 1 ≤ k → σ k = k) ∧
        (∀ x y, σ x = σ y → x = y) ∧
        (∀ k, rd (forLoop m
            (fun t a => ins_pass (fun t e => decide (key t > key e)) a (t + 1)) a) k
          = rd a (σ k)) ∧
        ∀ p q, p < q → q < m + 1 →
          key (rd a (σ p)) > key (rd a (σ q)) ∨
            (key (rd a (σ p)) = key (rd a (σ q)) ∧ σ p < σ q) := by
  intro m
  induction m with
  | zero =>
    intro _
    exact ⟨rfl, id, fun k hk => hk, fun k _ => rfl, fun x y h => h, fun k => rfl,
      fun p q h1 h2 => by omega⟩
  | succ m ih =>
    intro hm
    obtain ⟨hl, σ, s1, s2, s3, s4, s5⟩ := ih (by omega)
    simp only [forLoop]
    generalize forLoop m
      (fun t a => ins_pass (fun t e => decide (key t > key e)) a (t + 1)) a = b at hl s4
    obtain ⟨π, p1, p2, p3, p4, p5⟩ := ins_pass_stable key b (m + 1) (by omega) σ
      (fun p q hpq hq => by
        rw [s4 p, s4 q]
        exact s5 p q hpq hq)
      (fun p hp => by
        have := s1 p hp
        rw [s2 (m + 1) (le_refl _)]
        exact this)
    refine ⟨by rw [← hl]; exact ins_pass_length _ _ _ (by omega), fun k => σ (π k), ?_, ?_, ?_,
      ?_, ?_⟩
    · intro k hk
      simp only []
      have := p1 k (by omega)
      by_cases c : π k = m + 1
      · rw [c, s2 (m + 1) (le_refl _)]
        omega
      · have := s1 (π k) (by omega)
        omega
    · intro k hk
      simp only []
      rw [p2 k (by omega), s2 k (by omega)]
    · intro x y h
      exact p3 x y (s3 _ _ h)
    · intro k
      rw [p4 k, s4 (π k)]
    · intro p q hpq hq
      have := p5 p q hpq hq
      rw [s4 (π p), s4 (π q)] at this
      exact this

theorem insertion_sort_stable (key : Int → Int) (a : Mem) (n : Nat) (hn : n ≤ a.length) :
    (insertion_sort (fun t e => decide (key t > key e)) a n).length = a.length ∧
    ∃ σ : Nat → Nat, (∀ k, k < n → σ k < n) ∧ (∀ k, n ≤ k → σ k = k) ∧
      (∀ x y, σ x = σ y → x = y) ∧
      (∀ k, rd (insertion_sort (fun t e => decide (key t > key e)) a n) k = rd a (σ k)) ∧
      ∀ p q, p < q → q < n →
        key (rd a (σ p)) > key (rd a (σ q)) ∨
          (key (rd a (σ p)) = key (rd a (σ q)) ∧ σ p < σ q) := by
  unfold insertion_sort
  rcases Nat.eq_zero_or_pos n with h0 | h0
  · subst h0
    exact ⟨rfl, id, fun k hk => hk, fun k _ => rfl, fun x y h => h, fun k => rfl,
      fun p q h1 h2 => by omega⟩
  · obtain ⟨hl, σ, s1, s2, s3, s4, s5⟩ := insertion_sort_stable_loop key a n hn (n - 1) (by omega)
    have e : n - 1 + 1 = n := by omega
    rw [e] at s1 s2 s5
    exact ⟨hl, σ, s1, s2, s3, s4, s5⟩

/-! ## The candidate scan finds exactly the qualifying indices -/

theorem flat_width_spec (pn_x : Nat → Int) (n_size : Int) (i : Nat) :
    ∀ (fuel n_width : Nat), 0 < fuel → n_size - ((i + n_width : Nat) : Int) < fuel →
      (∀ v, 1 ≤ v → v < n_width → ((i + v : Nat) : Int) < n_size ∧ pn_x i = pn_x (i + v)) →
      ∃ w, flat_width pn_x n_size i fuel n_width = .ok w ∧ n_width ≤ w ∧
        (∀ v, 1 ≤ v → v < w → ((i + v : Nat) : Int) < n_size ∧ pn_x i = pn_x (i + v)) ∧
        ¬ (((i + w : Nat) : Int) < n_size ∧ pn_x i = pn_x (i + w)) := by
  intro fuel
  induction fuel with
  | zero => intro w h; omega
  | succ fuel ih =>
    intro w _ hm hpre
    unfold flat_width
    by_cases hc : ((i + w : Nat) : Int) < n_size ∧ pn_x i = pn_x (i + w)
    · rw [if_pos hc]
      obtain ⟨w2, e, hw2, h3, h4⟩ := ih (w + 1) (by push_cast at hm hc ⊢; omega)
        (by push_cast at hm ⊢; omega)
        (fun v hv1 hv2 => by
          by_cases c : v = w
          · subst c; exact hc
          · exact hpre v hv1 (by omega))
      exact ⟨w2, e, by omega, h3, h4⟩
    · rw [if_neg hc]
      exact ⟨w, rfl, le_refl _, hpre, hc⟩

theorem PlateauEnd.unique {x : Nat → Int} {M : Int} {i w1 w2 : Nat}
    (h1 : PlateauEnd x M i w1) (h2 : PlateauEnd x M i w2) : w1 = w2 := by
  obtain ⟨a1, b1, c1⟩ := h1
  obtain ⟨a2, b2, c2⟩ := h2
  rcases Nat.lt_trichotomy w1 w2 with h | h | h
  · exact absurd b1 (c2 w1 a1 h)
  · exact h
  · exact absurd b2 (c1 w2 a2 h)

theorem flat_width_plateau (pn_x : Nat → Int) (n_size : Int) (i : Nat)
    (hi : (i : Int) < n_size - 1) :
    ∃ w, flat_width pn_x n_size i (n_size.toNat + 1) 1 = .ok w ∧ PlateauEnd pn_x n_size i w ∧
      ∀ v, v < w → pn_x (i + v) = pn_x i := by
  obtain ⟨w, e, h1, h2, h3⟩ := flat_width_spec pn_x n_size i (n_size.toNat + 1) 1 (by omega)
    (by push_cast; omega) (fun v a b => by omega)
  refine ⟨w, e, ⟨h1, ?_, ?_⟩, ?_⟩
  · by_cases c : pn_x i = pn_x (i + w)
    · left
      have : ¬ ((i + w : Nat) : Int) < n_size := fun h => h3 ⟨h, c⟩
      by_cases c1 : w = 1
      · subst c1
        push_cast at this
        omega
      · have := (h2 (w - 1) (by omega) (by omega)).1
        push_cast at this ⊢
        omega
    · right
      exact fun h => c h.symm
  · intro v hv1 hv2 hor
    obtain ⟨g1, g2⟩ := h2 v hv1 hv2
    rcases hor with h | h
    · omega
    · exact h g2.symm
  · intro v hv
    by_cases c : v = 0
    · subst c; rfl
    · exact (h2 v (by omega) hv).2.symm

theorem not_qualifies_inside (x : Nat → Int) (M t : Int) (i w j : Nat)
    (hflat : ∀ v, v < w → x (i + v) = x i) (h1 : i < j) (h2 : j < i + w) :
    ¬ Qualifies x M t j := by
  intro hq
  have hgt := hq.2.2.2.1
  have e1 := hflat (j - i) (by omega)
  have e2 := hflat (j - 1 - i) (by omega)
  have a1 : i + (j - i) = j := by omega
  have a2 : i + (j - 1 - i) = j - 1 := by omega
  rw [a1] at e1
  rw [a2] at e2
  omega

theorem not_qualifies_end (x : Nat → Int) (M t : Int) (i w : Nat)
    (hflat : ∀ v, v < w → x (i + v) = x i) (hw : 1 ≤ w) (hlt : x (i + w) < x i) :
    ¬ Qualifies x M t (i + w) := by
  intro hq
  have hgt := hq.2.2.2.1
  have e2 := hflat (w - 1) (by omega)
  have a2 : i + (w - 1) = i + w - 1 := by omega
  rw [a2] at e2
  omega

theorem peaks_loop_scan (pn_x : Nat → Int) (n_size h : Int) :
    ∀ (fuel i : Nat) (locs : Mem) (npks : Nat), 1 ≤ i → 0 < fuel → n_size - (i : Int) < fuel →
      15 ≤ locs.length → ScanInv pn_x n_size h i locs npks →
      ∃ locs2 npks2 i2, peaks_loop pn_x n_size h fuel i locs npks = .ok (locs2, npks2) ∧
        ScanInv pn_x n_size h i2 locs2 npks2 ∧ ¬ ((i2 : Int) < n_size - 1) ∧
        locs2.length = locs.length := by
  intro fuel
  induction fuel with
  | zero => intro i locs npks _ h0; omega
  | succ fuel ih =>
    intro i locs npks hi _ hm hlen hinv
    unfold peaks_loop
    by_cases hc : (i : Int) < n_size - 1
    · rw [if_pos hc]
      by_cases hp : pn_x i > h ∧ pn_x i > pn_x (i - 1)
      · rw [if_pos hp]
        obtain ⟨w, e, hpl, hflat⟩ := flat_width_plateau pn_x n_size i hc
        have hw1 : 1 ≤ w := hpl.1
        rw [e]
        obtain ⟨n1, n2, n3, n4⟩ := hinv
        by_cases hq : pn_x i > pn_x (i + w) ∧ npks < 15
        · simp only [if_pos hq]
          have hQ : Qualifies pn_x n_size h i :=
            ⟨hi, by omega, hp.1, hp.2, w, hpl, hq.1⟩
          suffices hinv2 : ScanInv pn_x n_size h (i + w + 1) (wr locs npks i) (npks + 1) by
            obtain ⟨l2, m2, i2, e2, inv2, hend, hl2⟩ := ih (i + w + 1) (wr locs npks i)
              (npks + 1) (by omega) (by omega) (by push_cast; omega)
              (by rw [length_wr]; exact hlen) hinv2
            exact ⟨l2, m2, i2, e2, inv2, hend, by rw [hl2, length_wr]⟩
          refine ⟨by omega, ?_, ?_, ?_⟩
          · intro k hk
            by_cases hk2 : k = npks
            · subst hk2
              rw [rd_wr_same _ _ _ (by omega)]
              exact ⟨i, rfl, hQ, by omega⟩
            · rw [rd_wr_ne _ _ _ _ hk2]
              obtain ⟨j, a, b, c⟩ := n2 k (by omega)
              exact ⟨j, a, b, by omega⟩
          · intro a b hab hb
            by_cases hb2 : b = npks
            · subst hb2
              rw [rd_wr_same _ _ _ (by omega), rd_wr_ne _ _ _ _ (by omega)]
              obtain ⟨j, a1, _, c1⟩ := n2 a hab
              rw [a1]
              exact_mod_cast c1
            · rw [rd_wr_ne _ _ _ _ hb2, rd_wr_ne _ _ _ _ (by omega)]
              exact n3 a b hab (by omega)
          · intro j hj hqj
            rcases Nat.lt_trichotomy j i with c | c | c
            · rcases n4 j c hqj with ⟨k, hk, ek⟩ | ⟨hfull, _⟩
              · exact Or.inl ⟨k, by omega, by rw [rd_wr_ne _ _ _ _ (by omega)]; exact ek⟩
              · omega
            · subst c
              exact Or.inl ⟨npks, by omega, rd_wr_same _ _ _ (by omega)⟩
            · exfalso
              by_cases c2 : j = i + w
              · subst c2
                exact not_qualifies_end pn_x n_size h i w hflat hw1 hq.1 hqj
              · exact not_qualifies_inside pn_x n_size h i w j hflat c (by omega) hqj
        · simp only [if_neg hq]
          apply ih (i + w) locs npks (by omega) (by omega) (by push_cast; omega) hlen
          refine ⟨n1, ?_, n3, ?_⟩
          · intro k hk
            obtain ⟨j, a, b, c⟩ := n2 k hk
            exact ⟨j, a, b, by omega⟩
          · intro j hj hqj
            rcases Nat.lt_trichotomy j i with c | c | c
            · exact n4 j c hqj
            · subst c
              right
              obtain ⟨_, _, _, _, w2, hpl2, hlt2⟩ := hqj
              have := PlateauEnd.unique hpl hpl2
              subst this
              have hfull : npks = 15 := by
                by_contra hne
                exact hq ⟨hlt2, by omega⟩
              refine ⟨hfull, fun k hk => ?_⟩
              obtain ⟨j2, a, _, c⟩ := n2 k hk
              rw [a]
              exact_mod_cast c
            · exact absurd hqj (not_qualifies_inside pn_x n_size h i w j hflat c hj)
      · rw [if_neg hp]
        apply ih (i + 1) locs npks (by omega) (by omega) (by push_cast; omega) hlen
        obtain ⟨n1, n2, n3, n4⟩ := hinv
        refine ⟨n1, ?_, n3, ?_⟩
        · intro k hk
          obtain ⟨j, a, b, c⟩ := n2 k hk
          exact ⟨j, a, b, by omega⟩
        · intro j hj hqj
          by_cases c : j = i
          · subst c
            exact absurd ⟨hqj.2.2.1, hqj.2.2.2.1⟩ hp
          · exact n4 j (by omega) hqj
    · rw [if_neg hc]
      exact ⟨locs, npks, i, rfl, hinv, hc, rfl⟩

theorem peaks_scan_spec (pn_locs : Mem) (pn_x : Nat → Int)
    (n_size n_min_height : Int) (hlen : 15 ≤ pn_locs.length) :
    ∃ locs npks,
      maxim_peaks_above_min_height pn_locs pn_x n_size n_min_height = .ok (locs, npks) ∧
      locs.length = pn_locs.length ∧ npks ≤ 15 ∧
      (∀ k, k < npks → ∃ j : Nat, rd locs k = (j : Int) ∧ Qualifies pn_x n_size n_min_height j) ∧
      (∀ a b, a < b → b < npks → rd locs a < rd locs b) ∧
      ∀ j, Qualifies pn_x n_size n_min_height j →
        (∃ k, k < npks ∧ rd locs k = (j : Int)) ∨
          (npks = 15 ∧ ∀ k, k < npks → rd locs k < (j : Int)) := by
  unfold maxim_peaks_above_min_height
  obtain ⟨locs, npks, i2, e, ⟨n1, n2, n3, n4⟩, hend, hl⟩ :=
    peaks_loop_scan pn_x n_size n_min_height (n_size.toNat + 1) 1 pn_locs 0 (le_refl _)
      (by omega) (by omega) hlen
      ⟨by omega, fun k hk => by omega, fun a b _ hb => by omega,
        fun j hj hq => by have := hq.1; omega⟩
  refine ⟨locs, npks, e, hl, n1, fun k hk => ?_, n3, fun j hq => ?_⟩
  · obtain ⟨j, a, b, _⟩ := n2 k hk
    exact ⟨j, a, b⟩
  · exact n4 j (by have := hq.2.1; omega) hq

/-! ## The distance filter is the greedy selection -/

theorem take_wr_succ (l : Mem) (k : Nat) (v : Int) (h : k < l.length) :
    (wr l k v).take (k + 1) = l.take k ++ [v] := by
  unfold wr
  rw [List.take_succ]
  have : List.take k (l.set k v) = List.take k l := by
    apply List.ext_getElem?
    intro n
    by_cases c : n < k
    · simp [List.getElem?_take, c, List.getElem?_set]
      intro h; omega
    · simp [List.getElem?_take, c]
  rw [this]
  simp [h]

theorem drop_take_succ (l : Mem) (i t : Nat) (h : i + t < l.length) :
    (l.drop i).take (t + 1) = (l.drop i).take t ++ [rd l (i + t)] := by
  unfold rd
  rw [List.take_succ, List.getElem?_drop]
  simp [List.getD_eq_getElem?_getD, h, List.getElem?_eq_getElem h]

theorem remove_pass_list (d : Int) (i1 : Nat) (l0 : Mem) (n_old : Nat)
    (hn : n_old ≤ l0.length) (hi : i1 ≤ n_old) :
    (remove_pass d i1 l0 n_old).1.take (remove_pass d i1 l0 n_old).2
      = l0.take i1 ++ ((l0.drop i1).take (n_old - i1)).filter
          (fun x => decide (Kept d (if i1 = 0 then -1 else rd l0 (i1 - 1)) x)) := by
  have key : ∀ t, i1 + t ≤ n_old →
      i1 ≤ (forLoop t (fun t st => remove_step d i1 (i1 + t) st) (l0, i1)).2 ∧
      (forLoop t (fun t st => remove_step d i1 (i1 + t) st) (l0, i1)).2 ≤ i1 + t ∧
      (forLoop t (fun t st => remove_step d i1 (i1 + t) st) (l0, i1)).1.length = l0.length ∧
      (∀ k, k < i1 → rd (forLoop t (fun t st => remove_step d i1 (i1 + t) st) (l0, i1)).1 k = rd l0 k) ∧
      (∀ k, i1 + t ≤ k →
        rd (forLoop t (fun t st => remove_step d i1 (i1 + t) st) (l0, i1)).1 k = rd l0 k) ∧
      (forLoop t (fun t st => remove_step d i1 (i1 + t) st) (l0, i1)).1.take
          (forLoop t (fun t st => remove_step d i1 (i1 + t) st) (l0, i1)).2
        = l0.take i1 ++ ((l0.drop i1).take t).filter
            (fun x => decide (Kept d (if i1 = 0 then -1 else rd l0 (i1 - 1)) x)) := by
    intro t
    induction t with
    | zero =>
      intro _
      exact ⟨le_refl _, le_refl _, rfl, fun _ _ => rfl, fun _ _ => rfl, by simp [forLoop]⟩
    | succ t ih =>
      intro ht
      obtain ⟨h1, h2, h3, h4, h5, h6⟩ := ih (by omega)
      simp only [forLoop]
      generalize forLoop t (fun t st => remove_step d i1 (i1 + t) st) (l0, i1) = st
        at h1 h2 h3 h4 h5 h6 ⊢
      have eref : (if i1 = 0 then (-1 : Int) else rd st.1 (i1 - 1))
          = (if i1 = 0 then (-1 : Int) else rd l0 (i1 - 1)) := by
        by_cases c : i1 = 0
        · simp [c]
        · simp only [if_neg c]; exact h4 _ (by omega)
      have ej : rd st.1 (i1 + t) = rd l0 (i1 + t) := h5 _ (le_refl _)
      rw [drop_take_succ l0 i1 t (by omega), List.filter_append]
      unfold remove_step
      simp only [eref, ej]
      by_cases c : i32 (rd l0 (i1 + t) - (if i1 = 0 then (-1 : Int) else rd l0 (i1 - 1))) > d ∨
          i32 (rd l0 (i1 + t) - (if i1 = 0 then (-1 : Int) else rd l0 (i1 - 1))) < -d
      · rw [if_pos c]
        have hk : Kept d (if i1 = 0 then (-1 : Int) else rd l0 (i1 - 1)) (rd l0 (i1 + t)) := c
        refine ⟨by simp only []; omega, by simp only []; omega, by simp only [length_wr]; exact h3,
          ?_, ?_, ?_⟩
        · intro k hk
          simp only []
          rw [rd_wr_ne _ _ _ _ (by omega)]
          exact h4 k hk
        · intro k hk
          simp only []
          rw [rd_wr_ne _ _ _ _ (by omega)]
          exact h5 k (by omega)
        · simp only []
          rw [take_wr_succ _ _ _ (by omega), h6, List.append_assoc]
          simp [hk]
      · rw [if_neg c]
        have hk : ¬ Kept d (if i1 = 0 then (-1 : Int) else rd l0 (i1 - 1)) (rd l0 (i1 + t)) := c
        refine ⟨h1, by omega, h3, h4, fun k hk => h5 k (by omega), ?_⟩
        rw [h6]
        simp [hk]
  unfold remove_pass
  exact (key (n_old - i1) (by omega)).2.2.2.2.2

theorem greedy_selection_filter (d r : Int) :
    ∀ (R acc : List Int), r ∈ acc →
      greedy_selection d acc R
        = greedy_selection d acc (R.filter (fun x => decide (|x - r| > d))) := by
  intro R
  induction R with
  | nil => intro acc _; rfl
  | cons c rest ih =>
    intro acc hr
    by_cases hc : |c - r| > d
    · rw [List.filter_cons_of_pos (by simpa using hc)]
      simp only [greedy_selection]
      by_cases hall : ∀ a ∈ acc, |c - a| > d
      · rw [if_pos hall, if_pos hall, ih (acc ++ [c]) (by simp [hr])]
      · rw [if_neg hall, if_neg hall, ih acc hr]
    · rw [List.filter_cons_of_neg (by simpa using hc)]
      simp only [greedy_selection]
      rw [if_neg (fun hall => hc (hall r hr)), ih acc hr]

theorem rd_take (l : Mem) (m k : Nat) (hk : k < m) : rd (l.take m) k = rd l k := by
  unfold rd
  rw [List.getD_eq_getElem?_getD, List.getD_eq_getElem?_getD, List.getElem?_take_of_lt hk]

theorem rd_append_right (a b : Mem) (k : Nat) : rd (a ++ b) (a.length + k) = rd b k := by
  unfold rd
  rw [List.getD_eq_getElem?_getD, List.getD_eq_getElem?_getD,
    List.getElem?_append_right (by omega)]
  simp

theorem Kept_abs {d ref x : Int} (h1 : -1 ≤ ref) (h2 : ref < 2147483647) (h3 : 0 ≤ x)
    (h4 : x < 2147483647) : Kept d ref x ↔ |x - ref| > d := by
  have e : (|x - ref| > d) ↔ (d < x - ref ∨ d < -(x - ref)) := lt_abs
  rw [Kept_iff h1 h2 h3 h4, e]
  constructor
  · rintro (h | h)
    · exact Or.inl h
    · exact Or.inr (by omega)
  · rintro (h | h)
    · exact Or.inl h
    · exact Or.inr (by omega)

theorem remove_loop_list (d : Int) :
    ∀ (fuel i1 : Nat) (l : Mem) (m : Nat) (A : List Int) (r : Int) (R acc : List Int),
      m ≤ l.length → l.take m = A ++ r :: R → A.length + 1 = i1 →
      (∀ x ∈ l.take m, 0 ≤ x ∧ x < 2147483647) →
      (∀ c ∈ R, ∀ a ∈ acc, |c - a| > d) → m + 1 - i1 < fuel →
      ∃ l2 m2, remove_loop d fuel i1 l m = .ok (l2, m2) ∧ m2 ≤ l2.length ∧
        l2.length = l.length ∧ l2.take m2 = A ++ r :: greedy_selection d (acc ++ [r]) R := by
  intro fuel
  induction fuel with
  | zero => intro i1 l m A r R acc _ _ _ _ _ hf; omega
  | succ fuel ih =>
    intro i1 l m A r R acc hm hP hA hrange hfar hf
    have hmlen : m = A.length + 1 + R.length := by
      have := congrArg List.length hP
      rw [List.length_take, List.length_append, List.length_cons] at this
      omega
    have hi : i1 ≤ m := by omega
    unfold remove_loop
    rw [if_pos hi]
    simp only []
    obtain ⟨p1, p2, p3, _, _⟩ := remove_pass_spec d i1 l m hm hi
    have hlist := remove_pass_list d i1 l m hm hi
    generalize remove_pass d i1 l m = st at p1 p2 p3 hlist ⊢
    have e1 : l.take i1 = A ++ [r] := by
      have : l.take i1 = (l.take m).take i1 := by rw [List.take_take, min_eq_left hi]
      rw [this, hP, ← hA, List.take_append_eq_append_take]
      simp
    have e2 : (l.drop i1).take (m - i1) = R := by
      rw [← List.drop_take, hP, ← hA]
      simp
    have e3 : rd l (i1 - 1) = r := by
      rw [← rd_take l m (i1 - 1) (by omega), hP]
      have e : i1 - 1 = A.length + 0 := by omega
      rw [e, rd_append_right A (r :: R) 0]
      rfl
    have hi0 : i1 ≠ 0 := by omega
    rw [e1, e2, if_neg hi0, e3] at hlist
    have hr : 0 ≤ r ∧ r < 2147483647 := hrange r (by rw [hP]; simp)
    have hcongr : R.filter (fun x => decide (Kept d r x))
        = R.filter (fun x => decide (|x - r| > d)) := by
      apply List.filter_congr
      intro x hx
      have hxr := hrange x (by rw [hP]; simp [hx])
      rw [decide_eq_decide]
      exact Kept_abs (by omega) hr.2 hxr.1 hxr.2
    rw [hcongr] at hlist
    have hg := greedy_selection_filter d r R (acc ++ [r]) (by simp)
    have hst2 := congrArg List.length hlist
    rw [List.length_take, min_eq_left (by omega)] at hst2
    rcases hR : R.filter (fun x => decide (|x - r| > d)) with _ | ⟨r2, R2⟩
    · rw [hR] at hlist hg hst2
      have hs : st.2 = i1 := by
        simp at hst2
        omega
      obtain ⟨f, rfl⟩ : ∃ f, fuel = f + 1 := ⟨fuel - 1, by omega⟩
      unfold remove_loop
      rw [if_neg (by omega)]
      refine ⟨st.1, st.2, rfl, by omega, p3, ?_⟩
      rw [hlist, hg]
      simp [greedy_selection]
    · rw [hR] at hlist hg hst2
      have hsub : ∀ x, x ∈ R2 → x ∈ R ∧ |x - r| > d := by
        intro x hx
        have : x ∈ R.filter (fun x => decide (|x - r| > d)) := by rw [hR]; simp [hx]
        simpa using List.mem_filter.mp this
      have hr2 : r2 ∈ R ∧ |r2 - r| > d := by
        have : r2 ∈ R.filter (fun x => decide (|x - r| > d)) := by rw [hR]; simp
        simpa using List.mem_filter.mp this
      obtain ⟨l2, m2, e, q1, q2, q3⟩ := ih (i1 + 1) st.1 st.2 (A ++ [r]) r2 R2 (acc ++ [r])
        (by omega) (by rw [hlist]) (by simp; omega)
        (by
          intro x hx
          rw [hlist] at hx
          apply hrange x
          rw [hP]
          simp only [List.mem_append, List.mem_cons, List.not_mem_nil, or_false] at hx ⊢
          rcases hx with (h | h) | h | h
          · exact Or.inl h
          · exact Or.inr (Or.inl h)
          · exact Or.inr (Or.inr (h ▸ hr2.1))
          · exact Or.inr (Or.inr (hsub x h).1))
        (by
          intro c hc a ha
          simp only [List.mem_append, List.mem_singleton] at ha
          rcases ha with h | h
          · exact hfar c (hsub c hc).1 a h
          · rw [h]; exact (hsub c hc).2)
        (by omega)
      refine ⟨l2, m2, e, q1, by rw [q2, p3], ?_⟩
      rw [q3, hg]
      simp only [greedy_selection]
      rw [if_pos (by
        intro a ha
        simp only [List.mem_append, List.mem_singleton] at ha
        rcases ha with h | h
        · exact hfar r2 hr2.1 a h
        · rw [h]; exact hr2.2)]
      simp

theorem remove_loop_greedy (d : Int) (l : Mem) (n : Nat) (hn : n ≤ l.length)
    (hrange : ∀ x ∈ l.take n, 0 ≤ x ∧ x < 2147483647) :
    ∃ l2 m2, remove_loop d (n + 2) 0 l n = .ok (l2, m2) ∧ m2 ≤ l2.length ∧
      l2.length = l.length ∧ l2.take m2 = greedy_selection d [-1] (l.take n) := by
  unfold remove_loop
  rw [if_pos (Nat.zero_le n)]
  simp only []
  obtain ⟨p1, p2, p3, _, _⟩ := remove_pass_spec d 0 l n hn (Nat.zero_le n)
  have hlist := remove_pass_list d 0 l n hn (Nat.zero_le n)
  generalize remove_pass d 0 l n = st at p1 p2 p3 hlist ⊢
  simp only [List.take_zero, List.nil_append, List.drop_zero, Nat.sub_zero, if_true] at hlist
  have hcongr : (l.take n).filter (fun x => decide (Kept d (-1) x))
      = (l.take n).filter (fun x => decide (|x - (-1)| > d)) := by
    apply List.filter_congr
    intro x hx
    have hxr := hrange x hx
    rw [decide_eq_decide]
    exact Kept_abs (le_refl _) (by omega) hxr.1 hxr.2
  rw [hcongr] at hlist
  have hg := greedy_selection_filter d (-1) (l.take n) [-1] (by simp)
  have hst2 := congrArg List.length hlist
  rw [List.length_take, min_eq_left (by omega)] at hst2
  rcases hR : (l.take n).filter (fun x => decide (|x - (-1)| > d)) with _ | ⟨r, R⟩
  · rw [hR] at hlist hg hst2
    have hs : st.2 = 0 := by simpa using hst2
    unfold remove_loop
    rw [if_neg (by omega)]
    refine ⟨st.1, st.2, rfl, by omega, p3, ?_⟩
    rw [hlist, hg]
    simp [greedy_selection]
  · rw [hR] at hlist hg hst2
    have hsub : ∀ x, x ∈ r :: R → x ∈ l.take n ∧ |x - (-1)| > d := by
      intro x hx
      have : x ∈ (l.take n).filter (fun x => decide (|x - (-1)| > d)) := by rw [hR]; exact hx
      simpa using List.mem_filter.mp this
    obtain ⟨l2, m2, e, q1, q2, q3⟩ := remove_loop_list d (n + 1) 1 st.1 st.2 [] r R [-1]
      (by omega) (by rw [hlist]; rfl) rfl
      (by
        intro x hx
        rw [hlist] at hx
        exact hrange x (hsub x hx).1)
      (by
        intro c hc a ha
        simp only [List.mem_singleton] at ha
        rw [ha]
        exact (hsub c (List.mem_cons_of_mem _ hc)).2)
      (by omega)
    refine ⟨l2, m2, e, q1, by rw [q2, p3], ?_⟩
    rw [q3, hg]
    simp only [greedy_selection]
    rw [if_pos (by
      intro a ha
      simp only [List.mem_singleton] at ha
      rw [ha]
      exact (hsub r (List.mem_cons_self _ _)).2)]
    rfl

theorem greedy_selection_mem (d : Int) :
    ∀ (R acc : List Int) (v : Int), v ∈ greedy_selection d acc R →
      v ∈ R ∧ ∀ a ∈ acc, |v - a| > d := by
  intro R
  induction R with
  | nil => intro acc v h; simp [greedy_selection] at h
  | cons c rest ih =>
    intro acc v h
    simp only [greedy_selection] at h
    by_cases hall : ∀ a ∈ acc, |c - a| > d
    · rw [if_pos hall] at h
      rcases List.mem_cons.mp h with h | h
      · subst h
        exact ⟨List.mem_cons_self _ _, hall⟩
      · obtain ⟨h1, h2⟩ := ih _ v h
        exact ⟨List.mem_cons_of_mem _ h1, fun a ha => h2 a (List.mem_append_left _ ha)⟩
    · rw [if_neg hall] at h
      obtain ⟨h1, h2⟩ := ih _ v h
      exact ⟨List.mem_cons_of_mem _ h1, h2⟩

theorem greedy_selection_skip (d : Int) (acc : List Int) :
    ∀ (front rest : List Int), (∀ x ∈ front, ¬ ∀ a ∈ acc, |x - a| > d) →
      greedy_selection d acc (front ++ rest) = greedy_selection d acc rest := by
  intro front
  induction front with
  | nil => intro rest _; rfl
  | cons c front ih =>
    intro rest h
    simp only [List.cons_append, greedy_selection]
    rw [if_neg (h c (List.mem_cons_self _ _))]
    exact ih rest (fun x hx => h x (List.mem_cons_of_mem _ hx))

theorem index_onto (n : Nat) (σ : Nat → Nat) (h1 : ∀ k, k < n → σ k < n)
    (h2 : ∀ a b, a < n → b < n → σ a = σ b → a = b) :
    ∀ j, j < n → ∃ k, k < n ∧ σ k = j := by
  intro j hj
  have hinj : Function.Injective (fun k : Fin n => (⟨σ k, h1 k k.2⟩ : Fin n)) := by
    intro a b hab
    have := congrArg Fin.val hab
    exact Fin.ext (h2 a b a.2 b.2 this)
  obtain ⟨k, hk⟩ := (Finite.injective_iff_surjective.mp hinj) ⟨j, hj⟩
  exact ⟨k, k.2, congrArg Fin.val hk⟩

theorem mem_take_iff_rd (l : Mem) (m : Nat) (hm : m ≤ l.length) (v : Int) :
    v ∈ l.take m ↔ ∃ k, k < m ∧ rd l k = v := by
  constructor
  · intro h
    obtain ⟨k, hk, e⟩ := List.getElem_of_mem h
    have hk2 : k < m := by
      rw [List.length_take] at hk
      omega
    refine ⟨k, hk2, ?_⟩
    rw [← rd_take l m k hk2, rd_eq_getElem _ _ hk]
    exact e
  · rintro ⟨k, hk, e⟩
    have hk2 : k < (l.take m).length := by
      rw [List.length_take]
      omega
    rw [← e, ← rd_take l m k hk, rd_eq_getElem _ _ hk2]
    exact List.getElem_mem _

theorem sorted_candidates_range (pn_locs : Mem) (npks : Nat) (pn_x : Nat → Int)
    (hlen : npks ≤ pn_locs.length)
    (hrange : ∀ k, k < npks → 0 ≤ rd pn_locs k ∧ rd pn_locs k < 2147483647) :
    ∀ x ∈ (maxim_sort_indices_descend pn_x pn_locs npks).take npks,
      0 ≤ x ∧ x < 2147483647 := by
  obtain ⟨hl, σ, s1, _, _, s4, _⟩ :=
    insertion_sort_stable (fun v => pn_x v.toNat) pn_locs npks hlen
  intro x hx
  have hle : npks ≤ (maxim_sort_indices_descend pn_x pn_locs npks).length := by
    unfold maxim_sort_indices_descend
    rw [hl]
    exact hlen
  obtain ⟨k, hk, e⟩ := (mem_take_iff_rd _ npks hle x).mp hx
  have e2 : rd (maxim_sort_indices_descend pn_x pn_locs npks) k = rd pn_locs (σ k) := s4 k
  rw [← e, e2]
  exact hrange _ (s1 k hk)

theorem remove_close_peaks_list (pn_locs : Mem) (npks : Nat) (pn_x : Nat → Int) (d : Int)
    (hlen : npks ≤ pn_locs.length)
    (hrange : ∀ k, k < npks → 0 ≤ rd pn_locs k ∧ rd pn_locs k < 2147483647) :
    ∃ l3 m3, maxim_remove_close_peaks pn_locs npks pn_x d = .ok (maxim_sort_ascend l3 m3, m3) ∧
      m3 ≤ l3.length ∧
      l3.take m3
        = greedy_selection d [-1] ((maxim_sort_indices_descend pn_x pn_locs npks).take npks) ∧
      (∀ a b, a < b → b < m3 → Kept d (rd l3 a) (rd l3 b)) := by
  have hl : (maxim_sort_indices_descend pn_x pn_locs npks).length = pn_locs.length := by
    unfold maxim_sort_indices_descend
    exact (insertion_sort_reindex _ pn_locs npks hlen).1
  obtain ⟨l3, m3, e, q1, _, q3⟩ := remove_loop_greedy d
    (maxim_sort_indices_descend pn_x pn_locs npks) npks (by omega)
    (sorted_candidates_range pn_locs npks pn_x hlen hrange)
  obtain ⟨l4, m4, e4, _, _, r3, _, _⟩ := remove_loop_spec d (npks + 2) 0
    (maxim_sort_indices_descend pn_x pn_locs npks) npks (by omega) (by omega)
    (by omega) (fun a b h => by omega) (fun h => by omega)
  rw [e] at e4
  have e5 : (l3, m3) = (l4, m4) := Except.ok.inj e4
  have e6 : l3 = l4 := congrArg Prod.fst e5
  have e7 : m3 = m4 := congrArg Prod.snd e5
  subst e6 e7
  refine ⟨l3, m3, ?_, q1, q3, r3⟩
  unfold maxim_remove_close_peaks
  rw [e]

theorem remove_close_peaks_selection (pn_locs : Mem) (npks : Nat) (pn_x : Nat → Int) (d : Int)
    (hd : 0 ≤ d) (hlen : npks ≤ pn_locs.length)
    (hrange : ∀ k, k < npks → 0 ≤ rd pn_locs k ∧ rd pn_locs k < 2147483647) :
    ∃ (out : Mem) (m : Nat) (σ : Nat → Nat) (c : List Int),
      maxim_remove_close_peaks pn_locs npks pn_x d = .ok (out, m) ∧
      c.length = npks ∧ (∀ k, k < npks → σ k < npks) ∧ (∀ a b, σ a = σ b → a = b) ∧
      (∀ k, k < npks → rd c k = rd pn_locs (σ k)) ∧
      (∀ p q, p < q → q < npks →
        pn_x (rd c p).toNat > pn_x (rd c q).toNat ∨
          (pn_x (rd c p).toNat = pn_x (rd c q).toNat ∧ σ p < σ q)) ∧
      m = (greedy_selection d [-1] c).length ∧
      (∀ p q, p < q → q < m → rd out p < rd out q) ∧
      (∀ v, (∃ p, p < m ∧ rd out p = v) ↔ v ∈ greedy_selection d [-1] c) ∧
      (∀ x ∈ c, 0 ≤ x ∧ x < 2147483647) ∧
      c = (maxim_sort_indices_descend pn_x pn_locs npks).take npks := by
  obtain ⟨hl, σ, s1, _, s3, s4, s5⟩ :=
    insertion_sort_stable (fun v => pn_x v.toNat) pn_locs npks hlen
  have hS : ∀ k, rd (maxim_sort_indices_descend pn_x pn_locs npks) k = rd pn_locs (σ k) := s4
  have hSl : (maxim_sort_indices_descend pn_x pn_locs npks).length = pn_locs.length := hl
  have hcr := sorted_candidates_range pn_locs npks pn_x hlen hrange
  obtain ⟨l3, m3, e, q1, q3, r3⟩ := remove_close_peaks_list pn_locs npks pn_x d hlen hrange
  generalize hc : (maxim_sort_indices_descend pn_x pn_locs npks).take npks = c at q3 hcr
  have hcl : c.length = npks := by
    rw [← hc, List.length_take, hSl]
    omega
  have hck : ∀ k, k < npks → rd c k = rd pn_locs (σ k) := by
    intro k hk
    rw [← hc, rd_take _ _ _ hk, hS k]
  have hm3 : m3 = (greedy_selection d [-1] c).length := by
    rw [← q3, List.length_take]
    omega
  have hmem3 : ∀ v, (∃ k, k < m3 ∧ rd l3 k = v) ↔ v ∈ greedy_selection d [-1] c := by
    intro v
    rw [← q3]
    exact (mem_take_iff_rd l3 m3 q1 v).symm
  have hr3 : ∀ k, k < m3 → 0 ≤ rd l3 k ∧ rd l3 k < 2147483647 := by
    intro k hk
    exact hcr _ (greedy_selection_mem d c [-1] _ ((hmem3 _).mp ⟨k, hk, rfl⟩)).1
  obtain ⟨_, τ, t2, t3, t4⟩ :=
    insertion_sort_reindex (fun n_temp e => decide (n_temp < e)) l3 m3 q1
  have hτ : ∀ k, k < m3 → rd (maxim_sort_ascend l3 m3) k = rd l3 (τ k) := t4
  have hsorted := maxim_sort_ascend_sorted l3 m3 q1
  refine ⟨maxim_sort_ascend l3 m3, m3, σ, c, e, hcl, s1, s3, hck, ?_, hm3, ?_, ?_, hcr, by first | exact hc.symm | rfl⟩
  · intro p q hpq hq
    rw [hck p (by omega), hck q hq]
    exact s5 p q hpq hq
  · intro p q hpq hq
    have hs := hsorted p q hpq hq
    rw [hτ p (by omega), hτ q hq] at hs ⊢
    have hne : τ p ≠ τ q := fun h => by
      have := t3 p q (by omega) hq h
      omega
    have hp2 := hr3 _ (t2 p (by omega))
    have hq2 := hr3 _ (t2 q hq)
    rcases Nat.lt_or_gt_of_ne hne with c1 | c1
    · have := (Kept_iff (by omega) (by omega) (by omega) (by omega)).mp
        (r3 (τ p) (τ q) c1 (t2 q hq))
      omega
    · have := (Kept_iff (by omega) (by omega) (by omega) (by omega)).mp
        (r3 (τ q) (τ p) c1 (t2 p (by omega)))
      omega
  · intro v
    rw [← hmem3 v]
    constructor
    · rintro ⟨p, hp, ep⟩
      exact ⟨τ p, t2 p hp, by rw [← hτ p hp]; exact ep⟩
    · rintro ⟨k, hk, ek⟩
      obtain ⟨p, hp, ep⟩ := index_onto m3 τ t2 t3 k hk
      exact ⟨p, hp, by rw [hτ p hp, ep]; exact ek⟩

/-! ## The conditioning in exact integers for 18 bit samples -/

theorem tdiv_cases (a b : Int) (hb : 0 < b) :
    Int.tdiv a b = if 0 ≤ a then a / b else -((-a) / b) := by
  by_cases h : 0 ≤ a
  · rw [if_pos h, Int.tdiv_eq_ediv h (le_of_lt hb)]
  · rw [if_neg h]
    have e : Int.tdiv (-(-a)) b = -(Int.tdiv (-a) b) := Int.neg_tdiv _ _
    rw [neg_neg] at e
    rw [e, Int.tdiv_eq_ediv (by omega) (le_of_lt hb)]

theorem i32_u32 {x : Int} (h1 : -2147483648 ≤ x) (h2 : x < 2147483648) : i32 (u32 x) = x := by
  unfold i32 u32; omega

theorem ir_sum_exact (ir : Nat → Int) (n : Nat) (hn : n ≤ 500)
    (hir : ∀ k, k < n → 0 ≤ ir k ∧ ir k < 262144) :
    ∀ m, m ≤ n → forLoop m (fun k un_ir_mean => u32 (un_ir_mean + ir k)) 0 = sum_spec ir m ∧
      0 ≤ sum_spec ir m ∧ sum_spec ir m ≤ (m : Int) * 262143 := by
  intro m
  induction m with
  | zero => intro _; simp [forLoop, sum_spec]
  | succ m ih =>
    intro hm
    obtain ⟨h1, h2, h3⟩ := ih (by omega)
    have hk := hir m (by omega)
    simp only [forLoop, sum_spec]
    rw [h1]
    refine ⟨u32_eq_self (by omega) (by omega), by omega, by push_cast; omega⟩

theorem mean_exact (ir : Nat → Int) (hir : ∀ k, k < 500 → 0 ≤ ir k ∧ ir k < 262144) :
    ir_sum ir 500 / u32 500 = Int.tdiv (sum_spec ir 500) 500 ∧
      0 ≤ Int.tdiv (sum_spec ir 500) 500 ∧ Int.tdiv (sum_spec ir 500) 500 < 262144 := by
  obtain ⟨h1, h2, h3⟩ := ir_sum_exact ir 500 (le_refl _) hir 500 (le_refl _)
  have e : ir_sum ir 500 = sum_spec ir 500 := h1
  have e5 : u32 500 = 500 := by decide
  rw [e, e5, Int.tdiv_eq_ediv h2 (by norm_num)]
  push_cast at h3
  refine ⟨rfl, by omega, by omega⟩

theorem y_spec_bound (x : Nat → Int) (hx : ∀ k, k < 500 → 0 ≤ x k ∧ x k < 262144) :
    ∀ k, k < 500 → -262144 < y_spec x k ∧ y_spec x k < 262144 := by
  intro k hk
  obtain ⟨_, h2, h3⟩ := mean_exact x hx
  have := hx k hk
  unfold y_spec
  omega

theorem m_spec_bound (x : Nat → Int) (hx : ∀ k, k < 500 → 0 ≤ x k ∧ x k < 262144) :
    ∀ k, k < 497 → -262144 < m_spec x k ∧ m_spec x k < 262144 := by
  intro k hk
  have h0 := y_spec_bound x hx k (by omega)
  have h1 := y_spec_bound x hx (k + 1) (by omega)
  have h2 := y_spec_bound x hx (k + 2) (by omega)
  have h3 := y_spec_bound x hx (k + 3) (by omega)
  unfold m_spec
  rw [tdiv_cases _ 4 (by norm_num)]
  split_ifs <;> omega

theorem d_spec_bound (x : Nat → Int) (hx : ∀ k, k < 500 → 0 ≤ x k ∧ x k < 262144) :
    ∀ k, k < 496 → -524288 < d_spec x k ∧ d_spec x k < 524288 := by
  intro k hk
  have h0 := m_spec_bound x hx k (by omega)
  have h1 := m_spec_bound x hx (k + 1) (by omega)
  unfold d_spec
  omega

theorem e_spec_bound (x : Nat → Int) (hx : ∀ k, k < 500 → 0 ≤ x k ∧ x k < 262144) :
    ∀ k, k < 495 → -524288 < e_spec x k ∧ e_spec x k < 524288 := by
  intro k hk
  have h0 := d_spec_bound x hx k (by omega)
  have h1 := d_spec_bound x hx (k + 1) (by omega)
  unfold e_spec
  rw [tdiv_cases _ 2 (by norm_num)]
  split_ifs <;> omega

theorem hamming_value_exact (f : Nat → Int) (i : Nat)
    (hb : ∀ t, t < 5 → -524288 < f (i + t) ∧ f (i + t) < 524288) :
    hamming_value f i
      = Int.tdiv (-(41 * f i + 276 * f (i + 1) + 512 * f (i + 2) + 276 * f (i + 3)
          + 41 * f (i + 4))) 1146 := by
  unfold hamming_value
  have e : HAMMING_SIZE = 5 := rfl
  rw [e]
  simp only [forLoop]
  have a0 : auw_hamm 0 = 41 := rfl
  have a1 : auw_hamm 1 = 276 := rfl
  have a2 : auw_hamm 2 = 512 := rfl
  have a3 : auw_hamm 3 = 276 := rfl
  have a4 : auw_hamm 4 = 41 := rfl
  rw [a0, a1, a2, a3, a4]
  have b0 := hb 0 (by omega)
  have b1 := hb 1 (by omega)
  have b2 := hb 2 (by omega)
  have b3 := hb 3 (by omega)
  have b4 := hb 4 (by omega)
  rw [Nat.add_zero] at b0 ⊢
  generalize f i = v0 at b0 ⊢
  generalize f (i + 1) = v1 at b1 ⊢
  generalize f (i + 2) = v2 at b2 ⊢
  generalize f (i + 3) = v3 at b3 ⊢
  generalize f (i + 4) = v4 at b4 ⊢
  have p0 : i32 (v0 * 41) = v0 * 41 := i32_eq_self (by omega) (by omega)
  have p1 : i32 (v1 * 276) = v1 * 276 := i32_eq_self (by omega) (by omega)
  have p2 : i32 (v2 * 512) = v2 * 512 := i32_eq_self (by omega) (by omega)
  have p3 : i32 (v3 * 276) = v3 * 276 := i32_eq_self (by omega) (by omega)
  have p4 : i32 (v4 * 41) = v4 * 41 := i32_eq_self (by omega) (by omega)
  rw [p0, p1, p2, p3, p4]
  have q0 : i32 (0 - v0 * 41) = 0 - v0 * 41 := i32_eq_self (by omega) (by omega)
  rw [q0]
  have q1 : i32 (0 - v0 * 41 - v1 * 276) = 0 - v0 * 41 - v1 * 276 :=
    i32_eq_self (by omega) (by omega)
  rw [q1]
  have q2 : i32 (0 - v0 * 41 - v1 * 276 - v2 * 512) = 0 - v0 * 41 - v1 * 276 - v2 * 512 :=
    i32_eq_self (by omega) (by omega)
  rw [q2]
  have q3 : i32 (0 - v0 * 41 - v1 * 276 - v2 * 512 - v3 * 276)
      = 0 - v0 * 41 - v1 * 276 - v2 * 512 - v3 * 276 := i32_eq_self (by omega) (by omega)
  rw [q3]
  have q4 : i32 (0 - v0 * 41 - v1 * 276 - v2 * 512 - v3 * 276 - v4 * 41)
      = -(41 * v0 + 276 * v1 + 512 * v2 + 276 * v3 + 41 * v4) := by
    rw [i32_eq_self (by omega) (by omega)]
    ring
  rw [q4]

theorem condF_exact (ir : Nat → Int) (x dx : Nat → Int)
    (hir : ∀ k, k < 500 → 0 ≤ ir k ∧ ir k < 262144) :
    (∀ k, k < 500 → dcF ir 500 (Int.tdiv (sum_spec ir 500) 500) x k = y_spec ir k) ∧
    (∀ k, k < 496 → ma4F (dcF ir 500 (Int.tdiv (sum_spec ir 500) 500) x) k = m_spec ir k) ∧
    (∀ k, k < 495 →
      diffF (ma4F (dcF ir 500 (Int.tdiv (sum_spec ir 500) 500) x)) dx k = d_spec ir k) ∧
    (∀ k, k < 494 →
      ma2F (diffF (ma4F (dcF ir 500 (Int.tdiv (sum_spec ir 500) 500) x)) dx) k = e_spec ir k) ∧
    ∀ k, condF ir 500 (Int.tdiv (sum_spec ir 500) 500) x dx k
      = if k < 489 then c_spec ir k else if k < 494 then e_spec ir k
        else if k < 495 then d_spec ir k else dx k := by
  have c1 : BUFFER_SIZE = 500 := rfl
  have c2 : MA4_SIZE = 4 := rfl
  have c3 : HAMMING_SIZE = 5 := rfl
  have s1 : ∀ k, k < 500 → dcF ir 500 (Int.tdiv (sum_spec ir 500) 500) x k = y_spec ir k := by
    intro k hk
    have hy := y_spec_bound ir hir k hk
    unfold dcF
    rw [if_pos hk]
    unfold y_spec at hy ⊢
    exact i32_u32 (by omega) (by omega)
  have s2 : ∀ k, k < 496 →
      ma4F (dcF ir 500 (Int.tdiv (sum_spec ir 500) 500) x) k = m_spec ir k := by
    intro k hk
    have h0 := y_spec_bound ir hir k (by omega)
    have h1 := y_spec_bound ir hir (k + 1) (by omega)
    have h2 := y_spec_bound ir hir (k + 2) (by omega)
    have h3 := y_spec_bound ir hir (k + 3) (by omega)
    unfold ma4F ma4_value
    rw [c1, c2, if_pos (by omega), s1 k (by omega), s1 (k + 1) (by omega), s1 (k + 2) (by omega),
      s1 (k + 3) (by omega)]
    have e1 : i32 (y_spec ir k + y_spec ir (k + 1)) = y_spec ir k + y_spec ir (k + 1) :=
      i32_eq_self (by omega) (by omega)
    rw [e1]
    have e2 : i32 (y_spec ir k + y_spec ir (k + 1) + y_spec ir (k + 2))
        = y_spec ir k + y_spec ir (k + 1) + y_spec ir (k + 2) := i32_eq_self (by omega) (by omega)
    rw [e2]
    have e3 : i32 (y_spec ir k + y_spec ir (k + 1) + y_spec ir (k + 2) + y_spec ir (k + 3))
        = y_spec ir k + y_spec ir (k + 1) + y_spec ir (k + 2) + y_spec ir (k + 3) :=
      i32_eq_self (by omega) (by omega)
    rw [e3]
    rfl
  have s3 : ∀ k, k < 495 →
      diffF (ma4F (dcF ir 500 (Int.tdiv (sum_spec ir 500) 500) x)) dx k = d_spec ir k := by
    intro k hk
    have h0 := m_spec_bound ir hir k (by omega)
    have h1 := m_spec_bound ir hir (k + 1) (by omega)
    unfold diffF
    rw [c1, c2, if_pos (by omega), s2 k (by omega), s2 (k + 1) (by omega)]
    unfold d_spec
    exact i32_eq_self (by omega) (by omega)
  have s4 : ∀ k, k < 494 →
      ma2F (diffF (ma4F (dcF ir 500 (Int.tdiv (sum_spec ir 500) 500) x)) dx) k
        = e_spec ir k := by
    intro k hk
    have h0 := d_spec_bound ir hir k (by omega)
    have h1 := d_spec_bound ir hir (k + 1) (by omega)
    unfold ma2F ma2_value
    rw [c1, c2, if_pos (by omega), s3 k (by omega), s3 (k + 1) (by omega)]
    unfold e_spec
    rw [i32_eq_self (by omega) (by omega)]
  refine ⟨s1, s2, s3, s4, fun k => ?_⟩
  unfold condF hammF
  rw [c1, c2, c3]
  by_cases h1 : k < 489
  · rw [if_pos (by omega), if_pos h1]
    rw [hamming_value_exact _ k (fun t ht => by
      rw [s4 (k + t) (by omega)]
      exact e_spec_bound ir hir (k + t) (by omega))]
    rw [s4 k (by omega), s4 (k + 1) (by omega), s4 (k + 2) (by omega), s4 (k + 3) (by omega),
      s4 (k + 4) (by omega)]
    rfl
  · rw [if_neg (by omega), if_neg h1]
    by_cases h2 : k < 494
    · rw [if_pos h2, s4 k h2]
    · rw [if_neg h2]
      unfold ma2F
      rw [c1, c2, if_neg (by omega)]
      by_cases h3 : k < 495
      · rw [if_pos h3, s3 k h3]
      · rw [if_neg h3]
        unfold diffF
        rw [c1, c2, if_neg (by omega)]

theorem triangle_wave_range (k : Nat) : 0 ≤ triangle_wave k ∧ triangle_wave k < 262144 := by
  unfold triangle_wave
  rw [Int.ofNat_eq_coe]
  have := Nat.mod_lt k (by norm_num : 80 > 0)
  split_ifs <;> omega

theorem conditioned_exact (s : Scratch) (locs : Mem) (ir : Nat → Int) (hs : s.WF)
    (hl : 15 ≤ locs.length) (hir : ∀ k, k < 500 → 0 ≤ ir k ∧ ir k < 262144) :
    ∃ s2 hr v, maxim_heart_rate_saturation s locs ir 500 = .ok (s2, hr, v) ∧
      estimate_from locs (rd s2.an_dx) = .ok (hr, v) ∧
      ∀ k, rd s2.an_dx k
        = if k < 489 then c_spec ir k else if k < 494 then e_spec ir k
          else if k < 495 then d_spec ir k else rd s.an_dx k := by
  obtain ⟨hr, v, e, f, _⟩ := maxim_heart_rate_saturation_total s locs ir 500 hl (by decide)
  refine ⟨_, hr, v, e, f, fun k => ?_⟩
  rw [(conditioning_rd s ir 500 (ir_sum ir 500 / u32 500) hs (le_refl _)).2.2,
    (mean_exact ir hir).1]
  exact (condF_exact ir (rd s.an_x) (rd s.an_dx) hir).2.2.2.2 k

/-! ## Samples that differ by multiples of 8 -/

theorem slope8_spec (ir u : Nat → Int) (c : Int) (h : ∀ k, k < 500 → ir k = c + 8 * u k) :
    (∀ k, k < 497 → m_spec ir k
      = c - Int.tdiv (sum_spec ir 500) 500 + 2 * (u k + u (k + 1) + u (k + 2) + u (k + 3))) ∧
    (∀ k, k < 496 → d_spec ir k = 2 * (u (k + 4) - u k)) ∧
    (∀ k, k < 495 → e_spec ir k = slope8_e u k) := by
  have s1 : ∀ k, k < 497 → m_spec ir k
      = c - Int.tdiv (sum_spec ir 500) 500 + 2 * (u k + u (k + 1) + u (k + 2) + u (k + 3)) := by
    intro k hk
    unfold m_spec y_spec
    rw [h k (by omega), h (k + 1) (by omega), h (k + 2) (by omega), h (k + 3) (by omega)]
    generalize Int.tdiv (sum_spec ir 500) 500 = μ
    rw [tdiv_cases _ 4 (by norm_num)]
    split_ifs <;> omega
  have s2 : ∀ k, k < 496 → d_spec ir k = 2 * (u (k + 4) - u k) := by
    intro k hk
    unfold d_spec
    rw [s1 k (by omega), s1 (k + 1) (by omega)]
    ring
  refine ⟨s1, s2, fun k hk => ?_⟩
  unfold e_spec slope8_e
  rw [s2 k (by omega), s2 (k + 1) (by omega)]
  have e5 : k + 1 + 4 = k + 5 := by omega
  rw [e5, tdiv_cases _ 2 (by norm_num)]
  split_ifs <;> omega

theorem slope8_call (s : Scratch) (locs : Mem) (ir u : Nat → Int) (c : Int) (hs : s.WF)
    (h495 : rd s.an_dx 495 = 0) (hl : 15 ≤ locs.length)
    (h : ∀ k, k < 500 → ir k = c + 8 * u k)
    (hir : ∀ k, k < 500 → 0 ≤ ir k ∧ ir k < 262144) :
    ∃ s2 hr v, maxim_heart_rate_saturation s locs ir 500 = .ok (s2, hr, v) ∧
      estimate_from (List.replicate 15 0) (slope8_conditioned u) = .ok (hr, v) ∧
      ∀ k, rd s2.an_dx k = slope8_conditioned u k := by
  obtain ⟨s2, hr, v, e, f, g⟩ := conditioned_exact s locs ir hs hl hir
  obtain ⟨_, a2, a3⟩ := slope8_spec ir u c h
  have hk : ∀ k, rd s2.an_dx k = slope8_conditioned u k := by
    intro k
    rw [g k]
    unfold slope8_conditioned
    by_cases c1 : k < 489
    · rw [if_pos c1, if_pos c1]
      unfold c_spec
      rw [a3 k (by omega), a3 (k + 1) (by omega), a3 (k + 2) (by omega), a3 (k + 3) (by omega),
        a3 (k + 4) (by omega)]
    · rw [if_neg c1, if_neg c1]
      by_cases c2 : k < 494
      · rw [if_pos c2, if_pos c2, a3 k (by omega)]
      · rw [if_neg c2, if_neg c2]
        by_cases c3 : k < 495
        · have e4 : k = 494 := by omega
          subst e4
          rw [if_pos c3, if_pos c3, a2 494 (by omega)]
        · rw [if_neg c3, if_neg c3]
          by_cases c4 : k = 495
          · subst c4; exact h495
          · unfold rd
            rw [List.getD_eq_default _ _ (by
              have := hs.1
              have c1 : BUFFER_SIZE = 500 := rfl
              have c2 : MA4_SIZE = 4 := rfl
              omega)]
  refine ⟨s2, hr, v, e, ?_, hk⟩
  rw [← f]
  exact estimate_from_congr _ _ _ _ (fun k _ => (hk k).symm) (by simp) hl

/-! ## Two calls whose result depends on entries the Hamming stage did not write -/

theorem boot_scratch_495 : rd boot_scratch.an_dx 495 = 0 := rd_replicate_zero _ _

theorem end_step_form (k : Nat) :
    end_step k = 0 + 8 * end_step_u k ∧ 0 ≤ end_step k ∧ end_step k < 262144 := by
  unfold end_step end_step_u
  split_ifs <;> omega

theorem triangle120_form (k : Nat) :
    triangle120 k = 100000 + 8 * triangle120_u k ∧ 0 ≤ triangle120 k ∧
      triangle120 k < 262144 := by
  unfold triangle120 triangle120_u
  rw [Int.ofNat_eq_coe]
  have := Nat.mod_lt k (by norm_num : 120 > 0)
  split_ifs <;> omega

set_option maxRecDepth 1000000 in
theorem end_step_values :
    (∀ i, i < 489 → slope8_conditioned end_step_u i = 0) ∧
      slope8_conditioned end_step_u 493 = 1000 ∧ slope8_conditioned end_step_u 494 = 2000 ∧
      threshold (slope8_conditioned end_step_u) = 6 ∧
      threshold_spec (slope8_conditioned end_step_u) 489 = 0 := by
  decide!

set_option maxRecDepth 1000000 in
theorem triangle120_peaks :
    maxim_find_peaks (List.replicate 15 0) (slope8_conditioned triangle120_u)
        ((BUFFER_SIZE - HAMMING_SIZE : Nat) : Int)
        (threshold (slope8_conditioned triangle120_u)) 8 5
      = .ok ([60, 180, 300, 420, 489, 0, 0, 0, 0, 0, 0, 0, 0, 0, 0], 5) := by
  decide!

theorem triangle120_estimate :
    estimate_from (List.replicate 15 0) (slope8_conditioned triangle120_u) = .ok (56, 1) := by
  unfold estimate_from
  simp only [triangle120_peaks]
  decide

theorem triangle120_tail :
    slope8_conditioned triangle120_u 488 = -8 ∧ slope8_conditioned triangle120_u 489 = 8 := by
  decide


/-! ## Residues of shifted indices and the exact threshold -/

theorem add_mod_small (k t P : Nat) (ht : t < P) :
    (k + t) % P = if k % P + t < P then k % P + t else k % P + t - P := by
  have hP : 0 < P := by omega
  have hr := Nat.mod_lt k hP
  rw [Nat.add_mod, Nat.mod_eq_of_lt ht]
  by_cases c : k % P + t < P
  · rw [if_pos c, Nat.mod_eq_of_lt c]
  · rw [if_neg c, Nat.mod_eq_sub_mod (by omega), Nat.mod_eq_of_lt (by omega)]

theorem threshold_exact (f : Nat → Int) (hb : ∀ k, k < 495 → -4000000 ≤ f k ∧ f k ≤ 4000000) :
    threshold f = threshold_spec f 495 := by
  have key : ∀ m, m ≤ 495 →
      forLoop m (fun k n_th1 => i32 (n_th1 + (if f k > 0 then f k else i32 (0 - f k)))) 0
        = abs_sum f m ∧ 0 ≤ abs_sum f m ∧ abs_sum f m ≤ (m : Int) * 4000000 := by
    intro m
    induction m with
    | zero => intro _; simp [forLoop, abs_sum]
    | succ m ih =>
      intro hm
      obtain ⟨h1, h2, h3⟩ := ih (by omega)
      obtain ⟨b1, b2⟩ := hb m (by omega)
      simp only [forLoop, abs_sum]
      rw [h1]
      have ea : (if f m > 0 then f m else i32 (0 - f m)) = |f m| := by
        by_cases c : f m > 0
        · rw [if_pos c, abs_of_pos c]
        · rw [if_neg c, i32_eq_self (by omega) (by omega), abs_of_nonpos (by omega)]
          ring
      have hab : 0 ≤ |f m| ∧ |f m| ≤ 4000000 := ⟨abs_nonneg _, abs_le.mpr ⟨by omega, b2⟩⟩
      rw [ea]
      generalize |f m| = a at hab
      refine ⟨i32_eq_self (by omega) (by omega), by omega, by push_cast; omega⟩
  unfold threshold threshold_spec
  have c : BUFFER_SIZE - HAMMING_SIZE = 495 := rfl
  rw [c, (key 495 (le_refl _)).1]



/-! ## Leading entries of equal, maximal amplitude stay in place -/

theorem stable_prefix (key : Int → Int) (L : Mem) (n m : Nat) (σ : Nat → Nat) (Kmax : Int)
    (s1 : ∀ k, k < n → σ k < n) (s3 : ∀ x y, σ x = σ y → x = y)
    (s5 : ∀ p q, p < q → q < n →
      key (rd L (σ p)) > key (rd L (σ q)) ∨ (key (rd L (σ p)) = key (rd L (σ q)) ∧ σ p < σ q))
    (hmax : ∀ p, p < n → key (rd L p) ≤ Kmax) (htop : ∀ i, i < m → key (rd L i) = Kmax)
    (hm : m ≤ n) : ∀ i, i < m → σ i = i := by
  intro i
  induction i using Nat.strong_induction_on with
  | _ i ih =>
    intro hi
    obtain ⟨p, hp, ep⟩ := index_onto n σ s1 (fun a b _ _ h => s3 a b h) i (by omega)
    rcases Nat.lt_trichotomy p i with c | c | c
    · have := ih p c (by omega)
      omega
    · subst c
      exact ep
    · exfalso
      have hσi := s1 i (by omega)
      rcases s5 i p c hp with h | ⟨_, h⟩
      · rw [ep, htop i hi] at h
        have := hmax (σ i) hσi
        omega
      · rw [ep] at h
        have e2 := ih (σ i) h (by omega)
        have := s3 _ _ e2
        omega

theorem ascending_prefix (out : Mem) (mo : Nat) (G A : List Int)
    (hasc : ∀ p q, p < q → q < mo → rd out p < rd out q)
    (hmem : ∀ v, (∃ p, p < mo ∧ rd out p = v) ↔ v ∈ G)
    (hA : ∀ i j, i < j → j < A.length → rd A i < rd A j)
    (hAG : ∀ i, i < A.length → rd A i ∈ G)
    (hrest : ∀ v, v ∈ G →
      (∃ i, i < A.length ∧ rd A i = v) ∨ (∀ i, i < A.length → rd A i < v)) :
    ∀ i, i < A.length → i < mo ∧ rd out i = rd A i := by
  intro i
  induction i using Nat.strong_induction_on with
  | _ i ih =>
    intro hi
    obtain ⟨p, hp, ep⟩ := (hmem _).mpr (hAG i hi)
    rcases Nat.lt_trichotomy p i with c | c | c
    · exfalso
      have := (ih p c (by omega)).2
      have h2 := hA p i c hi
      omega
    · subst c
      exact ⟨hp, ep⟩
    · exfalso
      have hlt := hasc i p c hp
      rw [ep] at hlt
      rcases hrest _ ((hmem _).mp ⟨i, by omega, rfl⟩) with ⟨j, hj, ej⟩ | hall
      · rcases Nat.lt_trichotomy j i with d | d | d
        · have e2 := (ih j d hj).2
          have := hasc j i d (by omega)
          omega
        · subst d
          omega
        · have := hA i j d hj
          omega
      · have := hall i hi
        omega



theorem greedy_selection_run (acc : List Int) :
    ∀ (l rest : List Int) (acc2 : List Int), (∀ a ∈ acc ++ acc2, ∀ x ∈ l, a + 8 < x) →
      List.Pairwise (fun x y => x + 8 < y) l →
      greedy_selection 8 (acc ++ acc2) (l ++ rest)
        = l ++ greedy_selection 8 (acc ++ acc2 ++ l) rest := by
  intro l
  induction l with
  | nil => intro rest acc2 _ _; simp
  | cons x l ih =>
    intro rest acc2 h1 h2
    have hx : ∀ a ∈ acc ++ acc2, |x - a| > 8 := by
      intro a ha
      have := h1 a ha x (List.mem_cons_self _ _)
      exact lt_abs.mpr (Or.inl (by omega))
    simp only [List.cons_append, greedy_selection, List.append_eq]
    rw [if_pos hx]
    have e : acc ++ acc2 ++ [x] = acc ++ (acc2 ++ [x]) := by simp
    rw [e, ih rest (acc2 ++ [x]) (by
      intro a ha y hy
      rw [← List.append_assoc] at ha
      rcases List.mem_append.mp ha with h | h
      · exact h1 a h y (List.mem_cons_of_mem _ hy)
      · rw [List.mem_singleton] at h
        rw [h]
        exact (List.pairwise_cons.mp h2).1 y hy) (List.pairwise_cons.mp h2).2]
    simp

theorem mem_drop_rd (c : List Int) (m : Nat) (v : Int) (hv : v ∈ c.drop m) :
    ∃ p, m ≤ p ∧ p < c.length ∧ rd c p = v := by
  obtain ⟨k, hk, e⟩ := List.getElem_of_mem hv
  rw [List.length_drop] at hk
  refine ⟨m + k, by omega, by omega, ?_⟩
  rw [rd_eq_getElem c (m + k) (by omega), ← e, List.getElem_drop]

theorem list_split5 (c : List Int) (a0 a1 a2 a3 a4 : Int) (h : 5 ≤ c.length)
    (h0 : rd c 0 = a0) (h1 : rd c 1 = a1) (h2 : rd c 2 = a2) (h3 : rd c 3 = a3)
    (h4 : rd c 4 = a4) : c = [a0, a1, a2, a3, a4] ++ c.drop 5 := by
  match c, h with
  | b0 :: b1 :: b2 :: b3 :: b4 :: rest, _ =>
    simp only [rd, List.getD_cons_zero, List.getD_cons_succ] at h0 h1 h2 h3 h4
    subst h0 h1 h2 h3 h4
    rfl

theorem list_split6 (c : List Int) (a0 a1 a2 a3 a4 a5 : Int) (h : 6 ≤ c.length)
    (h0 : rd c 0 = a0) (h1 : rd c 1 = a1) (h2 : rd c 2 = a2) (h3 : rd c 3 = a3)
    (h4 : rd c 4 = a4) (h5 : rd c 5 = a5) : c = [a0] ++ [a1, a2, a3, a4, a5] ++ c.drop 6 := by
  match c, h with
  | b0 :: b1 :: b2 :: b3 :: b4 :: b5 :: rest, _ =>
    simp only [rd, List.getD_cons_zero, List.getD_cons_succ] at h0 h1 h2 h3 h4 h5
    subst h0 h1 h2 h3 h4 h5
    rfl



theorem ascending_prefix_run (out : Mem) (mo : Nat) (c A acc rest : List Int)
    (hasc : ∀ p q, p < q → q < mo → rd out p < rd out q)
    (hmem : ∀ v, (∃ p, p < mo ∧ rd out p = v) ↔ v ∈ greedy_selection 8 [-1] c)
    (hG : greedy_selection 8 [-1] c = A ++ greedy_selection 8 acc rest)
    (hA : List.Pairwise (fun x y => x + 8 < y) A)
    (hrest : ∀ v ∈ rest, ∀ x ∈ A, x < v) :
    ∀ i, i < A.length → i < mo ∧ rd out i = rd A i := by
  have hmemA : ∀ i, i < A.length → rd A i ∈ A := fun i hi => by
    rw [rd_eq_getElem A i hi]
    exact List.getElem_mem _
  refine ascending_prefix out mo (greedy_selection 8 [-1] c) A hasc hmem ?_ ?_ ?_
  · intro i j hij hj
    rw [rd_eq_getElem A i (by omega), rd_eq_getElem A j hj]
    have := List.pairwise_iff_getElem.mp hA i j (by omega) hj hij
    omega
  · intro i hi
    rw [hG]
    exact List.mem_append_left _ (hmemA i hi)
  · intro v hv
    rw [hG] at hv
    rcases List.mem_append.mp hv with h | h
    · left
      obtain ⟨k, hk, e⟩ := List.getElem_of_mem h
      exact ⟨k, hk, by rw [rd_eq_getElem A k hk, e]⟩
    · right
      intro i hi
      exact hrest v (greedy_selection_mem 8 rest acc v h).1 _ (hmemA i hi)



set_option maxRecDepth 1000000 in
theorem sawtooth8_peaks :
    maxim_find_peaks (List.replicate 15 0) (slope8_conditioned (sawtooth_u 8)) 495
        (threshold (slope8_conditioned (sawtooth_u 8))) 8 5
      = .ok ([11, 27, 43, 59, 75, 91, 107, 115, 115, 115, 115, 115, 115, 115, 115], 5) := by
  decide!

theorem sawtooth8_estimate :
    estimate_from (List.replicate 15 0) (slope8_conditioned (sawtooth_u 8)) = .ok (375, 1) := by
  unfold estimate_from
  have e : ((BUFFER_SIZE - HAMMING_SIZE : Nat) : Int) = 495 := by
    simp [BUFFER_SIZE, FS, HAMMING_SIZE]
  simp only [e, sawtooth8_peaks]
  decide

theorem sawtooth2_zero (k : Nat) : slope8_conditioned (sawtooth_u 2) k = 0 := by
  have he : ∀ j, slope8_e (sawtooth_u 2) j = 0 := by
    intro j
    unfold slope8_e sawtooth_u
    simp only [Int.ofNat_eq_coe]
    omega
  unfold slope8_conditioned
  rw [he, he, he, he, he]
  have e : sawtooth_u 2 498 - sawtooth_u 2 494 = 0 := by decide
  rw [e]
  split_ifs <;> rfl

theorem sawtooth2_estimate :
    estimate_from (List.replicate 15 0) (slope8_conditioned (sawtooth_u 2)) = .ok (-999, 0) :=
  (estimate_from_zero _ _ (fun k _ => sawtooth2_zero k)).2.2



theorem peak_interval_average_asc (locs : Mem) (n : Nat) (hn : 2 ≤ n) (g : Int) (hg : 1 ≤ g)
    (hgap : ∀ a, a + 1 < n → rd locs a + g ≤ rd locs (a + 1))
    (h0 : 0 ≤ rd locs 0) (hlast : rd locs (n - 1) < 2147483648) :
    peak_interval_average locs n
      = Int.tdiv (rd locs (n - 1) - rd locs 0) ((n : Int) - 1) := by
  have hmono : ∀ i j, i ≤ j → j ≤ n - 1 → rd locs i ≤ rd locs j := by
    intro i j hij hj
    induction j with
    | zero =>
      have : i = 0 := by omega
      subst this; exact le_refl _
    | succ j ih =>
      rcases Nat.eq_or_lt_of_le hij with e | e
      · subst e; exact le_refl _
      · have h1 := ih (by omega) (by omega)
        have h2 := hgap j (by omega)
        omega
  have hloop := interval_loop locs (n - 1) hmono h0 hlast
  have hspan := gap_lower locs n g hgap (n - 1) (by omega)
  have hcast : ((n - 1 : Nat) : Int) = (n : Int) - 1 := by omega
  rw [hcast] at hspan
  have hmul : g * ((n : Int) - 1) ≥ (n : Int) - 1 := by nlinarith
  have hn1 : i32 ((n : Int) - 1) = (n : Int) - 1 := i32_eq_self (by omega) (by omega)
  unfold peak_interval_average
  rw [Int.toNat_natCast, hloop, hn1]


theorem nodup_of_rd (l : Mem) (h : ∀ i j, i < j → j < l.length → rd l i ≠ rd l j) : l.Nodup := by
  unfold List.Nodup
  rw [List.pairwise_iff_getElem]
  intro i j hi hj hij
  have := h i j hij hj
  rw [rd_eq_getElem l i hi, rd_eq_getElem l j hj] at this
  exact this

theorem rd_ne_of_nodup (l : Mem) (h : l.Nodup) (i j : Nat) (hij : i < j) (hj : j < l.length) :
    rd l i ≠ rd l j := by
  unfold List.Nodup at h
  rw [List.pairwise_iff_getElem] at h
  rw [rd_eq_getElem l i (by omega), rd_eq_getElem l j hj]
  exact h i j (by omega) hj hij

theorem greedy_selection_sublist (d : Int) :
    ∀ (R acc : List Int), List.Sublist (greedy_selection d acc R) R := by
  intro R
  induction R with
  | nil => intro acc; simp [greedy_selection]
  | cons c rest ih =>
    intro acc
    simp only [greedy_selection]
    split_ifs
    · exact List.Sublist.cons₂ _ (ih _)
    · exact List.Sublist.cons _ (ih _)

theorem remove_close_peaks_sorted (pn_locs : Mem) (npks : Nat) (pn_x : Nat → Int) (d : Int)
    (hlen : npks ≤ pn_locs.length)
    (hrange : ∀ k, k < npks → 0 ≤ rd pn_locs k ∧ rd pn_locs k < 2147483647)
    (hasc : ∀ a b, a < b → b < npks → rd pn_locs a < rd pn_locs b) :
    ∃ (out : Mem) (m : Nat),
      maxim_remove_close_peaks pn_locs npks pn_x d = .ok (out, m) ∧ m ≤ out.length ∧
      out.take m = List.insertionSort (fun a b => a ≤ b)
        (greedy_selection d [-1] ((maxim_sort_indices_descend pn_x pn_locs npks).take npks)) ∧
      (∀ p q, p < q → q < m → rd out p < rd out q) := by
  obtain ⟨hl, σ, s1, _, s3, s4, _⟩ :=
    insertion_sort_stable (fun v => pn_x v.toNat) pn_locs npks hlen
  have hS : ∀ k, rd (maxim_sort_indices_descend pn_x pn_locs npks) k = rd pn_locs (σ k) := s4
  have hSl : (maxim_sort_indices_descend pn_x pn_locs npks).length = pn_locs.length := hl
  obtain ⟨l3, m3, e, q1, q3, _⟩ := remove_close_peaks_list pn_locs npks pn_x d hlen hrange
  generalize hc : (maxim_sort_indices_descend pn_x pn_locs npks).take npks = c at q3 ⊢
  have hcl : c.length = npks := by
    rw [← hc, List.length_take, hSl]
    omega
  have hck : ∀ k, k < npks → rd c k = rd pn_locs (σ k) := by
    intro k hk
    rw [← hc, rd_take _ _ _ hk, hS k]
  have hcn : c.Nodup := by
    apply nodup_of_rd
    intro i j hij hj
    rw [hcl] at hj
    rw [hck i (by omega), hck j hj]
    have hne : σ i ≠ σ j := fun h => by
      have := s3 i j h
      omega
    rcases Nat.lt_or_gt_of_ne hne with c1 | c1
    · have := hasc _ _ c1 (s1 j hj)
      omega
    · have := hasc _ _ c1 (s1 i (by omega))
      omega
  have hgn : (greedy_selection d [-1] c).Nodup := hcn.sublist (greedy_selection_sublist d c [-1])
  have hl3n : (l3.take m3).Nodup := by rw [q3]; exact hgn
  have hl3len : (l3.take m3).length = m3 := by
    rw [List.length_take]
    omega
  obtain ⟨hsl, τ, t2, t3, t4⟩ :=
    insertion_sort_reindex (fun n_temp e => decide (n_temp < e)) l3 m3 q1
  have hτ : ∀ k, k < m3 → rd (maxim_sort_ascend l3 m3) k = rd l3 (τ k) := t4
  have hsl2 : (maxim_sort_ascend l3 m3).length = l3.length := hsl
  have hsorted := maxim_sort_ascend_sorted l3 m3 q1
  have hne : ∀ p q, p < q → q < m3 →
      rd (maxim_sort_ascend l3 m3) p ≠ rd (maxim_sort_ascend l3 m3) q := by
    intro p q hpq hq
    rw [hτ p (by omega), hτ q hq]
    have hne : τ p ≠ τ q := fun h => by
      have := t3 p q (by omega) hq h
      omega
    have hp := t2 p (by omega)
    have hq2 := t2 q hq
    rw [← rd_take l3 m3 _ hp, ← rd_take l3 m3 _ hq2]
    rcases Nat.lt_or_gt_of_ne hne with c1 | c1
    · exact rd_ne_of_nodup _ hl3n _ _ c1 (by omega)
    · exact (rd_ne_of_nodup _ hl3n _ _ c1 (by omega)).symm
  have hstrict : ∀ p q, p < q → q < m3 →
      rd (maxim_sort_ascend l3 m3) p < rd (maxim_sort_ascend l3 m3) q := by
    intro p q hpq hq
    have := hsorted p q hpq hq
    have := hne p q hpq hq
    omega
  have houtlen : ((maxim_sort_ascend l3 m3).take m3).length = m3 := by
    rw [List.length_take]
    omega
  have houtn : ((maxim_sort_ascend l3 m3).take m3).Nodup := by
    apply nodup_of_rd
    intro i j hij hj
    rw [houtlen] at hj
    rw [rd_take _ _ _ (by omega), rd_take _ _ _ hj]
    exact hne i j hij hj
  have hperm : List.Perm ((maxim_sort_ascend l3 m3).take m3) (greedy_selection d [-1] c) := by
    rw [← q3]
    rw [List.perm_ext_iff_of_nodup houtn hl3n]
    intro v
    rw [mem_take_iff_rd _ m3 (by omega) v, mem_take_iff_rd l3 m3 q1 v]
    constructor
    · rintro ⟨p, hp, ep⟩
      exact ⟨τ p, t2 p hp, by rw [← hτ p hp]; exact ep⟩
    · rintro ⟨k, hk, ek⟩
      obtain ⟨p, hp, ep⟩ := index_onto m3 τ t2 t3 k hk
      exact ⟨p, hp, by rw [hτ p hp, ep]; exact ek⟩
  have hsort : List.Sorted (fun a b : Int => a ≤ b) ((maxim_sort_ascend l3 m3).take m3) := by
    unfold List.Sorted
    rw [List.pairwise_iff_getElem]
    intro i j hi hj hij
    rw [← rd_eq_getElem _ i hi, ← rd_eq_getElem _ j hj]
    rw [houtlen] at hj
    rw [rd_take _ _ _ (by omega), rd_take _ _ _ hj]
    exact hsorted i j hij hj
  refine ⟨maxim_sort_ascend l3 m3, m3, e, by omega, ?_, hstrict⟩
  exact List.eq_of_perm_of_sorted
    (hperm.trans (List.perm_insertionSort (fun a b : Int => a ≤ b) _).symm) hsort
    (List.sorted_insertionSort (fun a b : Int => a ≤ b) _)

theorem estimate_peaks_spec (locs0 : Mem) (f : Nat → Int) (hl : 15 ≤ locs0.length) :
    ∃ (out : Mem) (n : Nat) (hr v : Int),
      maxim_find_peaks locs0 f 495 (threshold f) 8 5 = .ok (out, (n : Int)) ∧
      estimate_from locs0 f = .ok (hr, v) ∧ n ≤ 5 ∧
      (∀ k, k < n → 8 ≤ rd out k ∧ rd out k ≤ 493) ∧
      (∀ a b, a < b → b < n → rd out a + 8 < rd out b) ∧
      (2 ≤ n → v = 1 ∧ 0 < i32 ((n : Int) - 1) ∧ 9 ≤ peak_interval_average out n ∧
        peak_interval_average out n ≤ 485 ∧
        hr = Int.tdiv 6000 (peak_interval_average out n) ∧ 12 ≤ hr ∧ hr ≤ 666) ∧
      (n < 2 → v = 0 ∧ hr = -999) := by
  obtain ⟨locs, npks, e, h1, _, _, h4, h5⟩ := maxim_find_peaks_spec locs0 f 495 (threshold f) 8 5
    hl (by omega) (by omega) (by omega)
  have hsz : ((BUFFER_SIZE - HAMMING_SIZE : Nat) : Int) = 495 := by
    simp [BUFFER_SIZE, FS, HAMMING_SIZE]
  have hrange : ∀ k, k < npks → 8 ≤ rd locs k ∧ rd locs k ≤ 493 := fun k hk => by
    have := h4 k hk
    omega
  by_cases c : 2 ≤ npks
  · have hgap : ∀ a, a + 1 < npks → rd locs a + 9 ≤ rd locs (a + 1) := fun a ha => by
      have := h5 a (a + 1) (by omega) ha
      omega
    have hfirst := hrange 0 (by omega)
    have hlast := hrange (npks - 1) (by omega)
    obtain ⟨r1, r2, r3⟩ := heart_rate_from_peaks_asc locs npks c 9 (by omega) hgap
      (by omega) (by omega)
    have ravg := peak_interval_average_asc locs npks c 9 (by omega) hgap (by omega) (by omega)
    rw [← ravg] at r1 r2 r3
    refine ⟨locs, npks, _, 1, e, ?_, by omega, hrange, h5, fun _ => ⟨rfl, ?_, r2, by omega, rfl,
      ?_, ?_⟩, fun h => by omega⟩
    · unfold estimate_from
      simp only [hsz, e]
      exact r1
    · rw [i32_eq_self (by omega) (by omega)]
      omega
    · rw [Int.tdiv_eq_ediv (by omega) (by omega)]
      exact Int.le_ediv_of_mul_le (by omega) (by omega)
    · rw [Int.tdiv_eq_ediv (by omega) (by omega)]
      have : (6000 : Int) / peak_interval_average locs npks < 667 :=
        Int.ediv_lt_of_lt_mul (by omega) (by omega)
      omega
  · refine ⟨locs, npks, -999, 0, e, ?_, by omega, hrange, h5, fun h => by omega,
      fun _ => ⟨rfl, rfl⟩⟩
    unfold estimate_from
    simp only [hsz, e]
    exact heart_rate_from_peaks_few locs npks (by omega)

theorem call_peaks_spec (s : Scratch) (locs0 : Mem) (ir : Nat → Int) (hl : 15 ≤ locs0.length) :
    ∃ (s2 : Scratch) (out : Mem) (n : Nat) (hr v : Int),
      maxim_heart_rate_saturation s locs0 ir 500 = .ok (s2, hr, v) ∧
      maxim_find_peaks locs0 (rd s2.an_dx) 495 (threshold (rd s2.an_dx)) 8 5
        = .ok (out, (n : Int)) ∧ n ≤ 5 ∧
      (∀ k, k < n → 8 ≤ rd out k ∧ rd out k ≤ 493) ∧
      (∀ a b, a < b → b < n → rd out a + 8 < rd out b) ∧
      (2 ≤ n → v = 1 ∧ 0 < i32 ((n : Int) - 1) ∧ 9 ≤ peak_interval_average out n ∧
        peak_interval_average out n ≤ 485 ∧
        hr = Int.tdiv 6000 (peak_interval_average out n) ∧ 12 ≤ hr ∧ hr ≤ 666) ∧
      (n < 2 → v = 0 ∧ hr = -999) := by
  obtain ⟨hr, v, e, f, _⟩ := maxim_heart_rate_saturation_total s locs0 ir 500 hl (by decide)
  obtain ⟨out, n, hr2, v2, e1, e2, h1, h2, h3, h4, h5⟩ := estimate_peaks_spec locs0
    (rd (conditioning s ir 500 (ir_sum ir 500 / u32 500)).an_dx) hl
  rw [f] at e2
  injection e2 with e2
  injection e2 with ehr ev
  subst ehr ev
  exact ⟨_, out, n, hr, v, e, e1, h1, h2, h3, h4, h5⟩

theorem period4_spec (ir : Nat → Int) (hper : ∀ k, k + 4 < 500 → ir (k + 4) = ir k) :
    (∀ k, k < 497 → m_spec ir k = m_spec ir 0) ∧ (∀ k, k < 496 → d_spec ir k = 0) ∧
    (∀ k, k < 495 → e_spec ir k = 0) ∧ (∀ k, k < 489 → c_spec ir k = 0) := by
  have hy : ∀ k, k + 4 < 500 → y_spec ir (k + 4) = y_spec ir k := by
    intro k hk
    unfold y_spec
    rw [hper k hk]
  have hS : ∀ k, k < 497 →
      y_spec ir k + y_spec ir (k + 1) + y_spec ir (k + 2) + y_spec ir (k + 3)
        = y_spec ir 0 + y_spec ir 1 + y_spec ir 2 + y_spec ir 3 := by
    intro k
    induction k with
    | zero => intro _; rfl
    | succ k ih =>
      intro hk
      have h1 := ih (by omega)
      have h2 := hy k (by omega)
      have e1 : k + 1 + 1 = k + 2 := rfl
      have e2 : k + 1 + 2 = k + 3 := rfl
      have e3 : k + 1 + 3 = k + 4 := rfl
      rw [e1, e2, e3, h2]
      omega
  have hm : ∀ k, k < 497 → m_spec ir k = m_spec ir 0 := by
    intro k hk
    unfold m_spec
    rw [hS k hk]
  have hd : ∀ k, k < 496 → d_spec ir k = 0 := by
    intro k hk
    unfold d_spec
    rw [hm k (by omega), hm (k + 1) (by omega)]
    omega
  have he : ∀ k, k < 495 → e_spec ir k = 0 := by
    intro k hk
    unfold e_spec
    rw [hd k (by omega), hd (k + 1) (by omega)]
    rfl
  refine ⟨hm, hd, he, fun k hk => ?_⟩
  unfold c_spec
  rw [he k (by omega), he (k + 1) (by omega), he (k + 2) (by omega), he (k + 3) (by omega),
    he (k + 4) (by omega)]
  rfl

theorem period4_call (s : Scratch) (locs0 : Mem) (ir : Nat → Int) (hs : s.WF)
    (hir : ∀ k, k < 500 → 0 ≤ ir k ∧ ir k < 262144)
    (hper : ∀ k, k + 4 < 500 → ir (k + 4) = ir k) :
    ∃ s2, maxim_heart_rate_saturation s locs0 ir 500 = .ok (s2, -999, 0) ∧
      (∀ k, k < 496 → rd s2.an_x k = rd s2.an_x 0) ∧
      (∀ k, k < 495 → rd s2.an_dx k = 0) ∧ threshold (rd s2.an_dx) = 0 ∧
      maxim_find_peaks locs0 (rd s2.an_dx) 495 (threshold (rd s2.an_dx)) 8 5
        = .ok (locs0, 0) := by
  obtain ⟨hm, hd, he, hc⟩ := period4_spec ir hper
  obtain ⟨_, x2, _, _, x5⟩ := condF_exact ir (rd s.an_x) (rd s.an_dx) hir
  obtain ⟨_, hrx, hrd⟩ := conditioning_rd s ir 500 (ir_sum ir 500 / u32 500) hs (le_refl _)
  have ht : (500 : Int).toNat = 500 := rfl
  rw [(mean_exact ir hir).1, ht] at hrx hrd
  have hz : ∀ k, k < BUFFER_SIZE - HAMMING_SIZE →
      condF ir 500 (Int.tdiv (sum_spec ir 500) 500) (rd s.an_x) (rd s.an_dx) k = 0 := by
    intro k hk
    have hk2 : k < 495 := hk
    rw [x5 k]
    split_ifs with c1 c2
    · exact hc k c1
    · exact he k (by omega)
    · exact hd k (by omega)
  obtain ⟨z1, z2, z3⟩ := estimate_from_zero locs0 _ hz
  refine ⟨conditioning s ir 500 (Int.tdiv (sum_spec ir 500) 500), ?_, ?_, ?_, ?_, ?_⟩
  · rw [maxim_heart_rate_saturation_eq s locs0 ir 500 hs (by decide) (le_refl _),
      (mean_exact ir hir).1, ht, z3]
  · intro k hk
    rw [hrx, x2 k hk, x2 0 (by omega)]
    exact hm k (by omega)
  · intro k hk
    rw [hrd]
    exact hz k hk
  · rw [hrd]
    exact z1
  · rw [hrd]
    exact z2

theorem four_cycle_range (k : Nat) : 0 ≤ four_cycle k ∧ four_cycle k < 262144 := by
  have h := Nat.mod_lt k (by decide : 4 > 0)
  unfold four_cycle
  generalize k % 4 = r at h
  interval_cases r <;> decide

theorem four_cycle_period (k : Nat) : four_cycle (k + 4) = four_cycle k := by
  unfold four_cycle
  rw [Nat.add_mod_right]

theorem hamming_acc_exact (f : Nat → Int) (i : Nat)
    (hb : ∀ t, t < 5 → -524288 < f (i + t) ∧ f (i + t) < 524288) :
    hamming_acc f i 0 = 0 ∧ hamming_acc f i 1 = -(41 * f i) ∧
    hamming_acc f i 2 = -(41 * f i + 276 * f (i + 1)) ∧
    hamming_acc f i 3 = -(41 * f i + 276 * f (i + 1) + 512 * f (i + 2)) ∧
    hamming_acc f i 4 = -(41 * f i + 276 * f (i + 1) + 512 * f (i + 2) + 276 * f (i + 3)) ∧
    hamming_acc f i 5
      = -(41 * f i + 276 * f (i + 1) + 512 * f (i + 2) + 276 * f (i + 3) + 41 * f (i + 4)) := by
  unfold hamming_acc
  simp only [forLoop]
  have a0 : auw_hamm 0 = 41 := rfl
  have a1 : auw_hamm 1 = 276 := rfl
  have a2 : auw_hamm 2 = 512 := rfl
  have a3 : auw_hamm 3 = 276 := rfl
  have a4 : auw_hamm 4 = 41 := rfl
  rw [a0, a1, a2, a3, a4]
  have b0 := hb 0 (by omega)
  have b1 := hb 1 (by omega)
  have b2 := hb 2 (by omega)
  have b3 := hb 3 (by omega)
  have b4 := hb 4 (by omega)
  rw [Nat.add_zero] at b0 ⊢
  generalize f i = v0 at b0 ⊢
  generalize f (i + 1) = v1 at b1 ⊢
  generalize f (i + 2) = v2 at b2 ⊢
  generalize f (i + 3) = v3 at b3 ⊢
  generalize f (i + 4) = v4 at b4 ⊢
  have p0 : i32 (v0 * 41) = v0 * 41 := i32_eq_self (by omega) (by omega)
  have p1 : i32 (v1 * 276) = v1 * 276 := i32_eq_self (by omega) (by omega)
  have p2 : i32 (v2 * 512) = v2 * 512 := i32_eq_self (by omega) (by omega)
  have p3 : i32 (v3 * 276) = v3 * 276 := i32_eq_self (by omega) (by omega)
  have p4 : i32 (v4 * 41) = v4 * 41 := i32_eq_self (by omega) (by omega)
  rw [p0, p1, p2, p3, p4]
  have q0 : i32 (0 - v0 * 41) = 0 - v0 * 41 := i32_eq_self (by omega) (by omega)
  rw [q0]
  have q1 : i32 (0 - v0 * 41 - v1 * 276) = 0 - v0 * 41 - v1 * 276 :=
    i32_eq_self (by omega) (by omega)
  rw [q1]
  have q2 : i32 (0 - v0 * 41 - v1 * 276 - v2 * 512) = 0 - v0 * 41 - v1 * 276 - v2 * 512 :=
    i32_eq_self (by omega) (by omega)
  rw [q2]
  have q3 : i32 (0 - v0 * 41 - v1 * 276 - v2 * 512 - v3 * 276)
      = 0 - v0 * 41 - v1 * 276 - v2 * 512 - v3 * 276 := i32_eq_self (by omega) (by omega)
  rw [q3]
  have q4 : i32 (0 - v0 * 41 - v1 * 276 - v2 * 512 - v3 * 276 - v4 * 41)
      = 0 - v0 * 41 - v1 * 276 - v2 * 512 - v3 * 276 - v4 * 41 :=
    i32_eq_self (by omega) (by omega)
  rw [q4]
  refine ⟨trivial, by ring, by ring, by ring, by ring, by ring⟩

theorem threshold_acc_exact (f : Nat → Int)
    (hb : ∀ k, k < 495 → -4000000 ≤ f k ∧ f k ≤ 4000000) :
    ∀ m, m ≤ 495 → threshold_acc f m = abs_sum f m ∧ 0 ≤ abs_sum f m ∧
      abs_sum f m ≤ (m : Int) * 4000000 := by
  intro m
  induction m with
  | zero => intro _; simp [threshold_acc, forLoop, abs_sum]
  | succ m ih =>
    intro hm
    obtain ⟨h1, h2, h3⟩ := ih (by omega)
    obtain ⟨b1, b2⟩ := hb m (by omega)
    unfold threshold_acc at h1 ⊢
    simp only [forLoop, abs_sum]
    rw [h1]
    have ea : (if f m > 0 then f m else i32 (0 - f m)) = |f m| := by
      by_cases c : f m > 0
      · rw [if_pos c, abs_of_pos c]
      · rw [if_neg c, i32_eq_self (by omega) (by omega), abs_of_nonpos (by omega)]
        ring
    have hab : 0 ≤ |f m| ∧ |f m| ≤ 4000000 := ⟨abs_nonneg _, abs_le.mpr ⟨by omega, b2⟩⟩
    rw [ea]
    generalize |f m| = a at hab
    refine ⟨i32_eq_self (by omega) (by omega), by omega, by push_cast; omega⟩

theorem c_spec_bound (x : Nat → Int) (hx : ∀ k, k < 500 → 0 ≤ x k ∧ x k < 262144) :
    ∀ k, k < 489 → -524288 ≤ c_spec x k ∧ c_spec x k ≤ 524288 := by
  intro k hk
  have b0 := e_spec_bound x hx k (by omega)
  have b1 := e_spec_bound x hx (k + 1) (by omega)
  have b2 := e_spec_bound x hx (k + 2) (by omega)
  have b3 := e_spec_bound x hx (k + 3) (by omega)
  have b4 := e_spec_bound x hx (k + 4) (by omega)
  unfold c_spec
  rw [tdiv_cases _ 1146 (by norm_num)]
  split_ifs <;> omega

theorem stages_exact (s : Scratch) (ir : Nat → Int)
    (hir : ∀ k, k < 500 → 0 ≤ ir k ∧ ir k < 262144) :
    (∀ k, k < 500 → an_x_dc s ir k = y_spec ir k) ∧
    (∀ k, k < 496 → an_x_ma4 s ir k = m_spec ir k) ∧
    (∀ k, k < 495 → an_dx_diff s ir k = d_spec ir k) ∧
    (∀ k, k < 494 → an_dx_ma2 s ir k = e_spec ir k) ∧
    ∀ k, an_dx_hamm s ir k
      = if k < 489 then c_spec ir k else if k < 494 then e_spec ir k
        else if k < 495 then d_spec ir k else rd s.an_dx k := by
  unfold an_dx_hamm an_dx_ma2 an_dx_diff an_x_ma4 an_x_dc
  rw [(mean_exact ir hir).1]
  exact condF_exact ir (rd s.an_x) (rd s.an_dx) hir

theorem stages_of_call (s : Scratch) (locs0 : Mem) (ir : Nat → Int) (hs : s.WF)
    (hl : 15 ≤ locs0.length) :
    ∃ s2 hr v, maxim_heart_rate_saturation s locs0 ir 500 = .ok (s2, hr, v) ∧
      rd s2.an_x = an_x_ma4 s ir ∧ rd s2.an_dx = an_dx_hamm s ir := by
  obtain ⟨hr, v, e, _, _⟩ := maxim_heart_rate_saturation_total s locs0 ir 500 hl (by decide)
  obtain ⟨_, hrx, hrd⟩ := conditioning_rd s ir 500 (ir_sum ir 500 / u32 500) hs (le_refl _)
  exact ⟨_, hr, v, e, hrx, hrd⟩

theorem conditioned_bound (s : Scratch) (ir : Nat → Int)
    (hir : ∀ k, k < 500 → 0 ≤ ir k ∧ ir k < 262144) :
    ∀ k, k < 495 → -4000000 ≤ an_dx_hamm s ir k ∧ an_dx_hamm s ir k ≤ 4000000 := by
  intro k hk
  rw [(stages_exact s ir hir).2.2.2.2 k]
  split_ifs with c1 c2
  · have := c_spec_bound ir hir k c1
    omega
  · have := e_spec_bound ir hir k (by omega)
    omega
  · have := d_spec_bound ir hir k (by omega)
    omega

/-! ## Checked accesses -/

theorem rdc_some (a : Mem) (z : Int) (k : Nat) (hz : z = (k : Int)) (hk : k < a.length) :
    rdc a z = some (rd a k) := by
  subst hz
  unfold rdc
  rw [if_pos ⟨by omega, by omega⟩, Int.toNat_natCast]

theorem wrc_some (a : Mem) (z : Int) (k : Nat) (v : Int) (hz : z = (k : Int))
    (hk : k < a.length) : wrc a z v = some (wr a k v) := by
  subst hz
  unfold wrc
  rw [if_pos ⟨by omega, by omega⟩, Int.toNat_natCast]

theorem forLoopM_some {σ : Type} (n : Nat) (bodyM : Nat → σ → Option σ) (body : Nat → σ → σ)
    (I : Nat → σ → Prop) (s : σ) (h0 : I 0 s)
    (hstep : ∀ k s, k < n → I k s → bodyM k s = some (body k s) ∧ I (k + 1) (body k s)) :
    forLoopM n bodyM s = some (forLoop n body s) ∧ I n (forLoop n body s) := by
  induction n with
  | zero => exact ⟨rfl, h0⟩
  | succ n ih =>
    obtain ⟨e, hi⟩ := ih (fun k s hk => hstep k s (by omega))
    obtain ⟨e2, hi2⟩ := hstep n _ (by omega) hi
    simp only [forLoopM, forLoop, e, Option.some_bind]
    exact ⟨e2, hi2⟩

theorem ir_sum_checked_some (ir : Mem) (n : Int) (hn : n.toNat ≤ ir.length) :
    ir_sum_checked ir n = some (ir_sum (rd ir) n) := by
  unfold ir_sum_checked ir_sum
  exact (forLoopM_some n.toNat _ (fun k un_ir_mean => u32 (un_ir_mean + rd ir k))
    (fun _ _ => True) 0 trivial (fun k s hk _ => by
      refine ⟨?_, trivial⟩
      simp only [rdc_some ir (k : Int) k rfl (by omega), Option.bind_eq_bind, Option.some_bind,
        Option.pure_def, bind, pure])).1

theorem remove_dc_checked_some (ir : Mem) (n mean : Int) (a : Mem) (hn : n.toNat ≤ ir.length)
    (ha : n.toNat ≤ a.length) :
    remove_dc_checked ir n mean a = some (remove_dc (rd ir) n mean a) := by
  unfold remove_dc_checked remove_dc
  exact (forLoopM_some n.toNat _ (fun k an_x => wr an_x k (i32 (u32 (rd ir k - mean))))
    (fun _ b => b.length = a.length) a rfl (fun k s hk hs => by
      have hs : s.length = a.length := hs
      refine ⟨?_, (length_wr _ _ _).trans hs⟩
      simp only [rdc_some ir (k : Int) k rfl (by omega), Option.bind_eq_bind, Option.some_bind,
        bind]
      exact wrc_some s (k : Int) k _ rfl (by omega))).1

theorem moving_average4_checked_some (a : Mem) (ha : a.length = 500) :
    moving_average4_checked a = some (moving_average4 a) := by
  unfold moving_average4_checked moving_average4
  have c : BUFFER_SIZE - MA4_SIZE = 496 := rfl
  rw [c]
  exact (forLoopM_some 496 _ (fun k an_x => wr an_x k (ma4_value (rd an_x) k))
    (fun _ b => b.length = 500) a ha (fun k s hk hs => by
      have hs : s.length = 500 := hs
      refine ⟨?_, (length_wr _ _ _).trans hs⟩
      simp only [rdc_some s (k : Int) k rfl (by omega),
        rdc_some s ((k : Int) + 1) (k + 1) (by push_cast; rfl) (by omega),
        rdc_some s ((k : Int) + 2) (k + 2) (by push_cast; rfl) (by omega),
        rdc_some s ((k : Int) + 3) (k + 3) (by push_cast; rfl) (by omega),
        Option.bind_eq_bind, Option.some_bind, bind]
      exact wrc_some s (k : Int) k _ rfl (by omega))).1

theorem difference_checked_some (x : Mem) (d : Mem) (hx : x.length = 500)
    (hd : d.length = 496) :
    difference_checked x d = some (difference (rd x) d) := by
  unfold difference_checked difference
  have c : BUFFER_SIZE - MA4_SIZE - 1 = 495 := rfl
  rw [c]
  exact (forLoopM_some 495 _ (fun k an_dx => wr an_dx k (i32 (rd x (k + 1) - rd x k)))
    (fun _ b => b.length = 496) d hd (fun k s hk hs => by
      have hs : s.length = 496 := hs
      refine ⟨?_, (length_wr _ _ _).trans hs⟩
      simp only [rdc_some x (k : Int) k rfl (by omega),
        rdc_some x ((k : Int) + 1) (k + 1) (by push_cast; rfl) (by omega),
        Option.bind_eq_bind, Option.some_bind, bind]
      exact wrc_some s (k : Int) k _ rfl (by omega))).1

theorem moving_average2_checked_some (d : Mem) (hd : d.length = 496) :
    moving_average2_checked d = some (moving_average2 d) := by
  unfold moving_average2_checked moving_average2
  have c : BUFFER_SIZE - MA4_SIZE - 2 = 494 := rfl
  rw [c]
  exact (forLoopM_some 494 _ (fun k an_dx => wr an_dx k (ma2_value (rd an_dx) k))
    (fun _ b => b.length = 496) d hd (fun k s hk hs => by
      have hs : s.length = 496 := hs
      refine ⟨?_, (length_wr _ _ _).trans hs⟩
      simp only [rdc_some s (k : Int) k rfl (by omega),
        rdc_some s ((k : Int) + 1) (k + 1) (by push_cast; rfl) (by omega),
        Option.bind_eq_bind, Option.some_bind, bind]
      exact wrc_some s (k : Int) k _ rfl (by omega))).1

theorem auw_hamm_table_rd (t : Nat) (ht : t < 5) : rd auw_hamm_table t = auw_hamm t := by
  interval_cases t <;> rfl

theorem hamming_checked_some (d : Mem) (hd : d.length = 496) :
    hamming_checked d = some (hamming d) := by
  unfold hamming_checked hamming
  have c : BUFFER_SIZE - HAMMING_SIZE - MA4_SIZE - 2 = 489 := rfl
  have c5 : HAMMING_SIZE = 5 := rfl
  rw [c]
  exact (forLoopM_some 489 _ (fun i an_dx => wr an_dx i (hamming_value (rd an_dx) i))
    (fun _ b => b.length = 496) d hd (fun i s hi hs => by
      have hs : s.length = 496 := hs
      refine ⟨?_, (length_wr _ _ _).trans hs⟩
      have inner := (forLoopM_some HAMMING_SIZE
        (fun t acc => do
          let d ← rdc s ((i : Int) + (t : Int))
          let w ← rdc auw_hamm_table ((i : Int) + (t : Int) - (i : Int))
          pure (i32 (acc - i32 (d * w))))
        (fun t acc => i32 (acc - i32 (rd s (i + t) * auw_hamm t)))
        (fun _ _ => True) 0 trivial (fun t acc ht _ => by
          refine ⟨?_, trivial⟩
          rw [c5] at ht
          simp only [rdc_some s ((i : Int) + (t : Int)) (i + t) (by push_cast; rfl) (by omega),
            rdc_some auw_hamm_table ((i : Int) + (t : Int) - (i : Int)) t (by omega)
              (by simp [auw_hamm_table]; omega),
            auw_hamm_table_rd t ht, Option.bind_eq_bind, Option.some_bind, Option.pure_def,
            bind, pure])).1
      simp only [Option.bind_eq_bind, Option.pure_def, bind, pure] at inner ⊢
      rw [inner]
      simp only [Option.some_bind]
      exact wrc_some s (i : Int) i _ rfl (by omega))).1

theorem threshold_checked_some (d : Mem) (hd : d.length = 496) :
    threshold_checked d = some (threshold (rd d)) := by
  unfold threshold_checked threshold
  have c : BUFFER_SIZE - HAMMING_SIZE = 495 := rfl
  rw [c]
  have inner := (forLoopM_some 495
    (fun k n_th1 => do
      let v ← rdc d (k : Int)
      pure (i32 (n_th1 + (if v > 0 then v else i32 (0 - v)))))
    (fun k n_th1 => i32 (n_th1 + (if rd d k > 0 then rd d k else i32 (0 - rd d k))))
    (fun _ _ => True) 0 trivial (fun k acc hk _ => by
      refine ⟨?_, trivial⟩
      simp only [rdc_some d (k : Int) k rfl (by omega), Option.bind_eq_bind, Option.some_bind,
        Option.pure_def, bind, pure])).1
  simp only [Option.bind_eq_bind, Option.pure_def, bind, pure] at inner ⊢
  rw [inner]
  simp only [Option.some_bind]

theorem flat_width_checked_eq (pn_x : Mem) (n_size : Int) (i : Nat) (hi : i < pn_x.length)
    (hn : n_size ≤ (pn_x.length : Int)) :
    ∀ fuel w, flat_width_checked pn_x n_size i fuel w
      = (flat_width (rd pn_x) n_size i fuel w).toOption := by
  intro fuel
  induction fuel with
  | zero => intro w; rfl
  | succ fuel ih =>
    intro w
    unfold flat_width_checked flat_width
    by_cases c1 : ((i + w : Nat) : Int) < n_size
    · rw [if_pos c1]
      simp only [rdc_some pn_x (i : Int) i rfl hi,
        rdc_some pn_x ((i : Int) + (w : Int)) (i + w) (by push_cast; rfl) (by omega),
        Option.bind_eq_bind, Option.some_bind, bind]
      by_cases c2 : rd pn_x i = rd pn_x (i + w)
      · rw [if_pos c2, if_pos ⟨c1, c2⟩]
        exact ih (w + 1)
      · rw [if_neg c2, if_neg (fun h => c2 h.2)]
        rfl
    · rw [if_neg c1, if_neg (fun h => c1 h.1)]
      rfl

theorem peaks_loop_checked_eq (pn_x : Mem) (n_size h : Int)
    (hn : n_size + 1 ≤ (pn_x.length : Int)) :
    ∀ (fuel i : Nat) (locs : Mem) (npks : Nat), 1 ≤ i → 15 ≤ locs.length →
      peaks_loop_checked pn_x n_size h fuel i locs npks
        = (peaks_loop (rd pn_x) n_size h fuel i locs npks).toOption := by
  intro fuel
  induction fuel with
  | zero => intro i locs npks _ _; rfl
  | succ fuel ih =>
    intro i locs npks hi hl
    unfold peaks_loop_checked peaks_loop
    by_cases hc : (i : Int) < n_size - 1
    · rw [if_pos hc, if_pos hc]
      have hil : i < pn_x.length := by omega
      simp only [rdc_some pn_x (i : Int) i rfl hil, Option.bind_eq_bind, Option.some_bind, bind]
      by_cases h1 : rd pn_x i > h
      · rw [if_pos h1]
        simp only [rdc_some pn_x ((i : Int) - 1) (i - 1) (by omega) (by omega),
          Option.bind_eq_bind, Option.some_bind, Option.pure_def, bind, pure]
        by_cases h2 : rd pn_x i > rd pn_x (i - 1)
        · rw [if_pos (show rd pn_x i > h ∧ rd pn_x i > rd pn_x (i - 1) from ⟨h1, h2⟩)]
          rw [if_pos (show decide (rd pn_x i > rd pn_x (i - 1)) = true from decide_eq_true h2)]
          rw [flat_width_checked_eq pn_x n_size i hil (by omega)]
          cases hw : flat_width (rd pn_x) n_size i (n_size.toNat + 1) 1 with
          | error e => simp only [Except.toOption, Option.none_bind]
          | ok w =>
            have hle := flat_width_le (rd pn_x) n_size i _ 1 w (by push_cast; omega) hw
            simp only [Except.toOption, Option.some_bind,
              rdc_some pn_x ((i : Int) + (w : Int)) (i + w) (by push_cast; rfl)
                (by push_cast at hle; omega)]
            by_cases h3 : rd pn_x i > rd pn_x (i + w) ∧ npks < 15
            · rw [if_pos h3, if_pos h3]
              simp only [wrc_some locs (npks : Int) npks (i : Int) rfl (by omega),
                Option.some_bind]
              exact ih (i + w + 1) (wr locs npks (i : Int)) (npks + 1) (by omega)
                (by rw [length_wr]; exact hl)
            · rw [if_neg h3, if_neg h3]
              exact ih (i + w) locs npks (by omega) hl
        · rw [if_neg (show ¬ (rd pn_x i > h ∧ rd pn_x i > rd pn_x (i - 1)) from
            fun hh => h2 hh.2)]
          rw [if_neg (show ¬ (decide (rd pn_x i > rd pn_x (i - 1)) = true) from
            fun hh => h2 (of_decide_eq_true hh))]
          exact ih (i + 1) locs npks (by omega) hl
      · rw [if_neg h1, if_neg (show ¬ (rd pn_x i > h ∧ rd pn_x i > rd pn_x (i - 1)) from
          fun hh => h1 hh.1)]
        simp only [Option.pure_def, Option.some_bind, pure, Bool.false_eq_true, if_false]
        exact ih (i + 1) locs npks (by omega) hl
    · rw [if_neg hc, if_neg hc]
      rfl

theorem maxim_peaks_above_min_height_checked_eq (locs : Mem) (pn_x : Mem) (n_size h : Int)
    (hn : n_size + 1 ≤ (pn_x.length : Int)) (hl : 15 ≤ locs.length) :
    maxim_peaks_above_min_height_checked locs pn_x n_size h
      = (maxim_peaks_above_min_height locs (rd pn_x) n_size h).toOption :=
  peaks_loop_checked_eq pn_x n_size h hn _ 1 locs 0 (le_refl _) hl

theorem shift_down_checked_some (bM : Int → Option Bool) (b : Int → Bool) (V : Int → Prop)
    (hb : ∀ e, V e → bM e = some (b e)) :
    ∀ (j : Nat) (a : Mem), j < a.length → (∀ k, k < j → V (rd a k)) →
      shift_down_checked bM a j = some (shift_down b a j) := by
  intro j
  induction j with
  | zero =>
    intro a _ _
    unfold shift_down_checked shift_down
    rfl
  | succ j ih =>
    intro a hj hV
    unfold shift_down_checked shift_down
    simp only [rdc_some a ((j : Int) + 1 - 1) j (by omega) (by omega),
      hb _ (hV j (by omega)), Option.bind_eq_bind, Option.some_bind, bind]
    by_cases c : b (rd a j) = true
    · rw [if_pos c, if_pos c]
      simp only [wrc_some a ((j : Int) + 1) (j + 1) (rd a j) (by push_cast; rfl) hj,
        Option.some_bind]
      exact ih _ (by rw [length_wr]; omega) (fun k hk => by
        rw [rd_wr_ne _ _ _ _ (by omega)]
        exact hV k (by omega))
    · rw [if_neg c, if_neg c]
      rfl

theorem ins_pass_checked_some (bM : Int → Int → Option Bool) (b : Int → Int → Bool)
    (V : Int → Prop) (hb : ∀ t e, V t → V e → bM t e = some (b t e)) (a : Mem) (i : Nat)
    (hi : i < a.length) (hV : ∀ k, k ≤ i → V (rd a k)) :
    ins_pass_checked bM a i = some (ins_pass b a i) := by
  unfold ins_pass_checked ins_pass
  obtain ⟨h1, h2, _⟩ := shift_down_spec (b (rd a i)) i a hi
  simp only [rdc_some a (i : Int) i rfl hi,
    shift_down_checked_some (bM (rd a i)) (b (rd a i)) V (fun e he => hb _ e (hV i (le_refl _)) he)
      i a hi (fun k hk => hV k (by omega)),
    Option.bind_eq_bind, Option.some_bind, bind]
  exact wrc_some _ _ _ _ rfl (by rw [h2]; omega)

theorem insertion_sort_checked_some (bM : Int → Int → Option Bool) (b : Int → Int → Bool)
    (V : Int → Prop) (hb : ∀ t e, V t → V e → bM t e = some (b t e)) (a : Mem) (n : Nat)
    (hn : n ≤ a.length) (hV : ∀ k, k < n → V (rd a k)) :
    insertion_sort_checked bM a n = some (insertion_sort b a n) := by
  unfold insertion_sort_checked insertion_sort
  exact (forLoopM_some (n - 1) _ (fun t a => ins_pass b a (t + 1))
    (fun _ c => c.length = a.length ∧ ∀ k, k < n → V (rd c k)) a ⟨rfl, hV⟩
    (fun t c ht hc => by
      obtain ⟨hc1, hc2⟩ : c.length = a.length ∧ ∀ k, k < n → V (rd c k) := hc
      refine ⟨ins_pass_checked_some bM b V hb c (t + 1) (by omega)
        (fun k hk => hc2 k (by omega)), ?_⟩
      show (ins_pass b c (t + 1)).length = a.length ∧ ∀ k, k < n → V (rd (ins_pass b c (t + 1)) k)
      refine ⟨by rw [ins_pass_length b c (t + 1) (by omega)]; exact hc1, fun k hk => ?_⟩
      obtain ⟨σ, s1, _, s3⟩ := ins_pass_reindex b c (t + 1) n (by omega) (by omega)
      rw [s3 k hk]
      exact hc2 _ (s1 k hk))).1

theorem maxim_sort_ascend_checked_some (a : Mem) (n : Nat) (hn : n ≤ a.length) :
    maxim_sort_ascend_checked a n = some (maxim_sort_ascend a n) :=
  insertion_sort_checked_some _ _ (fun _ => True) (fun _ _ _ _ => rfl) a n hn
    (fun _ _ => trivial)

theorem maxim_sort_indices_descend_checked_some (pn_x : Mem) (a : Mem) (n : Nat)
    (hn : n ≤ a.length) (hV : ∀ k, k < n → 0 ≤ rd a k ∧ rd a k < (pn_x.length : Int)) :
    maxim_sort_indices_descend_checked pn_x a n
      = some (maxim_sort_indices_descend (rd pn_x) a n) := by
  unfold maxim_sort_indices_descend_checked maxim_sort_indices_descend
  exact insertion_sort_checked_some _ _ (fun e => 0 ≤ e ∧ e < (pn_x.length : Int))
    (fun t e ht he => by
      simp only [rdc_some pn_x t t.toNat (by omega) (by omega),
        rdc_some pn_x e e.toNat (by omega) (by omega),
        Option.bind_eq_bind, Option.some_bind, Option.pure_def, bind, pure]) a n hn hV

theorem remove_step_checked_some (d : Int) (i1 j : Nat) (st : Mem × Nat)
    (hj : j < st.1.length) (h2 : st.2 ≤ j) (hi : i1 ≤ j) :
    remove_step_checked d i1 j st = some (remove_step d i1 j st) := by
  unfold remove_step_checked remove_step
  simp only [rdc_some st.1 (j : Int) j rfl hj, Option.bind_eq_bind, Option.some_bind, bind]
  by_cases c : i1 = 0
  · subst c
    simp only [if_true, Option.pure_def, Option.some_bind, pure]
    split_ifs
    · simp only [wrc_some st.1 (st.2 : Int) st.2 _ rfl (by omega), Option.some_bind]
    · rfl
  · simp only [if_neg c, rdc_some st.1 ((i1 : Int) - 1) (i1 - 1) (by omega) (by omega),
      Option.some_bind, Option.pure_def, pure]
    split_ifs
    · simp only [wrc_some st.1 (st.2 : Int) st.2 _ rfl (by omega), Option.some_bind]
    · rfl

theorem remove_pass_checked_some (d : Int) (i1 : Nat) (l0 : Mem) (n_old : Nat)
    (hn : n_old ≤ l0.length) :
    remove_pass_checked d i1 l0 n_old = some (remove_pass d i1 l0 n_old) := by
  unfold remove_pass_checked remove_pass
  exact (forLoopM_some (n_old - i1) _ (fun t st => remove_step d i1 (i1 + t) st)
    (fun t st => st.1.length = l0.length ∧ st.2 ≤ i1 + t) (l0, i1) ⟨rfl, le_refl _⟩
    (fun t st ht hst => by
      obtain ⟨a1, a2⟩ : st.1.length = l0.length ∧ st.2 ≤ i1 + t := hst
      refine ⟨remove_step_checked_some d i1 (i1 + t) st (by omega) a2 (by omega), ?_⟩
      show (remove_step d i1 (i1 + t) st).1.length = l0.length ∧
        (remove_step d i1 (i1 + t) st).2 ≤ i1 + (t + 1)
      unfold remove_step
      simp only []
      split_ifs <;>
        first
        | exact ⟨(length_wr _ _ _).trans a1, by show st.2 + 1 ≤ _; omega⟩
        | exact ⟨a1, by omega⟩)).1

theorem remove_loop_checked_eq (d : Int) :
    ∀ (fuel i1 : Nat) (l : Mem) (m : Nat), m ≤ l.length →
      remove_loop_checked d fuel i1 l m = (remove_loop d fuel i1 l m).toOption := by
  intro fuel
  induction fuel with
  | zero => intro i1 l m _; rfl
  | succ fuel ih =>
    intro i1 l m hm
    unfold remove_loop_checked remove_loop
    by_cases c : i1 ≤ m
    · rw [if_pos c, if_pos c]
      obtain ⟨_, p2, p3, _⟩ := remove_pass_spec d i1 l m hm c
      simp only [remove_pass_checked_some d i1 l m hm, Option.bind_eq_bind, Option.some_bind,
        bind]
      exact ih _ _ _ (by omega)
    · rw [if_neg c, if_neg c]
      rfl

theorem maxim_remove_close_peaks_checked_eq (locs : Mem) (npks : Nat) (pn_x : Mem) (d : Int)
    (hn : npks ≤ locs.length)
    (hV : ∀ k, k < npks → 0 ≤ rd locs k ∧ rd locs k < (pn_x.length : Int)) :
    maxim_remove_close_peaks_checked locs npks pn_x d
      = (maxim_remove_close_peaks locs npks (rd pn_x) d).toOption := by
  unfold maxim_remove_close_peaks_checked maxim_remove_close_peaks
  have hl : (maxim_sort_indices_descend (rd pn_x) locs npks).length = locs.length := by
    unfold maxim_sort_indices_descend
    exact (insertion_sort_reindex _ locs npks hn).1
  simp only [maxim_sort_indices_descend_checked_some pn_x locs npks hn hV,
    remove_loop_checked_eq d (npks + 2) 0 (maxim_sort_indices_descend (rd pn_x) locs npks) npks
      (by rw [hl]; exact hn),
    Option.bind_eq_bind, Option.some_bind, bind]
  obtain ⟨l2, m2, e, r1, r2, _⟩ := remove_loop_spec d (npks + 2) 0
    (maxim_sort_indices_descend (rd pn_x) locs npks) npks (by omega) (by omega)
    (by omega) (fun a b h => by omega) (fun h => by omega)
  rw [e]
  simp only [Except.toOption, Option.some_bind,
    maxim_sort_ascend_checked_some l2 m2 (by omega), Option.pure_def, pure]

theorem maxim_find_peaks_checked_eq (locs : Mem) (pn_x : Mem) (n_size h d n_max : Int)
    (hn : n_size + 1 ≤ (pn_x.length : Int)) (hl : 15 ≤ locs.length) :
    maxim_find_peaks_checked locs pn_x n_size h d n_max
      = (maxim_find_peaks locs (rd pn_x) n_size h d n_max).toOption := by
  unfold maxim_find_peaks_checked maxim_find_peaks
  obtain ⟨l1, m1, e1, c1, c2, c3⟩ :=
    maxim_peaks_above_min_height_ok locs (rd pn_x) n_size h hl
  rw [maxim_peaks_above_min_height_checked_eq locs pn_x n_size h hn hl, e1]
  simp only [Except.toOption, Option.bind_eq_bind, Option.some_bind, bind]
  rw [maxim_remove_close_peaks_checked_eq l1 m1 pn_x d (by omega) (fun k hk => by
    have := c3 k hk
    omega)]
  cases maxim_remove_close_peaks l1 m1 (rd pn_x) d with
  | error e => rfl
  | ok st => rfl

theorem heart_rate_from_peaks_checked_eq (locs : Mem) (n : Int)
    (hn : n ≤ (locs.length : Int)) :
    heart_rate_from_peaks_checked locs n = (heart_rate_from_peaks locs n).toOption := by
  unfold heart_rate_from_peaks_checked heart_rate_from_peaks
  by_cases c : n ≥ 2
  · rw [if_pos c, if_pos c]
    have inner := (forLoopM_some (n.toNat - 1)
      (fun t sum => do
        let a ← rdc locs ((t : Int) + 1)
        let b ← rdc locs ((t : Int) + 1 - 1)
        pure (i32 (sum + i32 (a - b))))
      (fun t sum => i32 (sum + i32 (rd locs (t + 1) - rd locs t)))
      (fun _ _ => True) 0 trivial (fun t acc ht _ => by
        refine ⟨?_, trivial⟩
        simp only [rdc_some locs ((t : Int) + 1) (t + 1) (by push_cast; rfl) (by omega),
          rdc_some locs ((t : Int) + 1 - 1) t (by omega) (by omega),
          Option.bind_eq_bind, Option.some_bind, Option.pure_def, bind, pure])).1
    simp only [Option.bind_eq_bind, Option.pure_def, bind, pure] at inner ⊢
    rw [inner]
    simp only [Option.some_bind]
    cases cdiv (forLoop (n.toNat - 1)
        (fun t sum => i32 (sum + i32 (rd locs (t + 1) - rd locs t))) 0) (i32 (n - 1)) with
    | error e => rfl
    | ok a =>
      simp only [Except.toOption, Option.some_bind, Except.bind]
      cases cdiv 6000 a with
      | error e => rfl
      | ok b => rfl
  · rw [if_neg c, if_neg c]
    rfl

theorem maxim_heart_rate_saturation_checked_eq (s : Scratch) (locs ir : Mem) (hs : s.WF)
    (hl : 15 ≤ locs.length) (hir : ir.length = 500) :
    maxim_heart_rate_saturation_checked s locs ir 500
      = (maxim_heart_rate_saturation s locs (rd ir) 500).toOption := by
  obtain ⟨hs1, hs2⟩ := hs
  have c1 : BUFFER_SIZE = 500 := rfl
  have c2 : MA4_SIZE = 4 := rfl
  have c3 : HAMMING_SIZE = 5 := rfl
  have ht : (500 : Int).toNat = 500 := rfl
  have e5 : ¬ (u32 500 = 0) := by decide
  unfold maxim_heart_rate_saturation_checked maxim_heart_rate_saturation conditioning
    estimate_from
  rw [if_neg e5, if_neg e5]
  have q0 := ir_sum_checked_some ir 500 (by rw [ht]; omega)
  rw [q0]
  simp only [Option.bind_eq_bind, Option.some_bind, bind]
  generalize ir_sum (rd ir) 500 / u32 500 = mean
  have q1 := remove_dc_checked_some ir 500 mean s.an_x (by rw [ht]; omega) (by rw [ht]; omega)
  have l1 := (remove_dc_rd (rd ir) 500 mean s.an_x (by rw [ht]; omega)).1
  rw [q1]
  simp only [Option.some_bind]
  generalize remove_dc (rd ir) 500 mean s.an_x = X1 at l1 ⊢
  have q2 := moving_average4_checked_some X1 (by omega)
  have l2 := (moving_average4_rd X1 (by omega)).1
  rw [q2]
  simp only [Option.some_bind]
  generalize moving_average4 X1 = X2 at l2 ⊢
  have q3 := difference_checked_some X2 s.an_dx (by omega) (by omega)
  have l3 := (difference_rd (rd X2) s.an_dx (by omega)).1
  rw [q3]
  simp only [Option.some_bind]
  generalize difference (rd X2) s.an_dx = D1 at l3 ⊢
  have q4 := moving_average2_checked_some D1 (by omega)
  have l4 := (moving_average2_rd D1 (by omega)).1
  rw [q4]
  simp only [Option.some_bind]
  generalize moving_average2 D1 = D2 at l4 ⊢
  have q5 := hamming_checked_some D2 (by omega)
  have l5 := (hamming_rd D2 (by omega)).1
  rw [q5]
  simp only [Option.some_bind]
  generalize hamming D2 = A at l5 ⊢
  rw [threshold_checked_some A (by omega)]
  simp only [Option.some_bind]
  have hsz : ((BUFFER_SIZE - HAMMING_SIZE : Nat) : Int) = 495 := by
    simp [BUFFER_SIZE, FS, HAMMING_SIZE]
  rw [hsz, maxim_find_peaks_checked_eq locs A 495 (threshold (rd A)) 8 5 (by omega) hl]
  obtain ⟨out, n, e, h1, _, h3, _, _⟩ := maxim_find_peaks_spec locs (rd A) 495
    (threshold (rd A)) 8 5 hl (by omega) (by omega) (by omega)
  rw [e]
  simp only [Except.toOption, Option.some_bind]
  rw [heart_rate_from_peaks_checked_eq out n (by omega)]
  cases heart_rate_from_peaks out n with
  | error e => rfl
  | ok r => rfl

theorem scan_reads_past_end (pn_x : Mem) (n : Nat) (h : Int) (hlen : pn_x.length = n)
    (hn : 3 ≤ n) (h1 : rd pn_x 1 > h) (h0 : rd pn_x 1 > rd pn_x 0)
    (hflat : ∀ k, 1 ≤ k → k < n → rd pn_x k = rd pn_x 1) (fuel : Nat) (locs : Mem)
    (npks : Nat) :
    peaks_loop_checked pn_x (n : Int) h (fuel + 1) 1 locs npks = none := by
  obtain ⟨w, e, hp, _⟩ := flat_width_plateau (rd pn_x) (n : Int) 1 (by push_cast; omega)
  have hp2 : PlateauEnd (rd pn_x) (n : Int) 1 (n - 1) := by
    refine ⟨by omega, Or.inl (by push_cast; omega), fun v hv1 hv2 hc => ?_⟩
    rcases hc with hc | hc
    · push_cast at hc
      omega
    · exact hc (hflat (1 + v) (by omega) (by omega))
  have hw : w = n - 1 := PlateauEnd.unique hp hp2
  subst hw
  have hfw := flat_width_checked_eq pn_x (n : Int) 1 (by omega) (by omega)
    ((n : Int).toNat + 1) 1
  rw [e] at hfw
  have q1 : rdc pn_x ((1 : Nat) : Int) = some (rd pn_x 1) :=
    rdc_some pn_x _ 1 rfl (by omega)
  have q0 : rdc pn_x (((1 : Nat) : Int) - 1) = some (rd pn_x 0) :=
    rdc_some pn_x _ 0 (by norm_num) (by omega)
  have q2 : rdc pn_x (((1 : Nat) : Int) + ((n - 1 : Nat) : Int)) = none := by
    unfold rdc
    rw [if_neg (by rw [hlen]; push_cast; omega)]
  rw [peaks_loop_checked, if_pos (by push_cast; omega), q1]
  simp only [Option.bind_eq_bind, Option.some_bind, bind]
  rw [if_pos h1, q0]
  simp only [Option.some_bind, Option.pure_def, pure, decide_eq_true h0, if_true, hfw,
    Except.toOption, q2, Option.none_bind]

theorem plateau_to_end_rd (k : Nat) :
    rd plateau_to_end k = if 1 ≤ k ∧ k < 495 then 1 else 0 := by
  unfold plateau_to_end
  cases k with
  | zero => rfl
  | succ j =>
    have e : rd (0 :: List.replicate 494 1) (j + 1) = rd (List.replicate 494 1) j := rfl
    rw [e, rd_replicate]
    by_cases c : j < 494
    · rw [if_pos c, if_pos ⟨by omega, by omega⟩]
    · rw [if_neg c, if_neg (by omega)]

theorem plateau_to_end_length : plateau_to_end.length = 495 := by
  show (0 :: List.replicate 494 1).length = 495
  rw [List.length_cons, List.length_replicate]

theorem plateau_reads_index_495 (locs : Mem) (d n_max : Int) :
    maxim_find_peaks_checked locs plateau_to_end 495 0 d n_max = none := by
  have r1 : rd plateau_to_end 1 = 1 := by rw [plateau_to_end_rd]; rfl
  have r0 : rd plateau_to_end 0 = 0 := by rw [plateau_to_end_rd]; rfl
  have key := scan_reads_past_end plateau_to_end 495 0 plateau_to_end_length (by omega)
    (by rw [r1]; norm_num) (by rw [r1, r0]; norm_num)
    (fun k hk1 hk2 => by rw [plateau_to_end_rd, r1, if_pos ⟨hk1, hk2⟩]) 495 locs 0
  unfold maxim_find_peaks_checked maxim_peaks_above_min_height_checked
  have hf : (495 : Int).toNat + 1 = 495 + 1 := rfl
  have hc : ((495 : Nat) : Int) = 495 := rfl
  rw [hf, ← hc, key]
  rfl

/-! ## Rising sawtooth buffers of any step: the stages on a window -/

theorem tdiv4_bound (a : Int) : a - 3 ≤ 4 * Int.tdiv a 4 ∧ 4 * Int.tdiv a 4 ≤ a + 3 := by
  rw [tdiv_cases _ 4 (by norm_num)]
  split_ifs <;> omega

theorem tdiv2_bound (a : Int) : a - 1 ≤ 2 * Int.tdiv a 2 ∧ 2 * Int.tdiv a 2 ≤ a + 1 := by
  rw [tdiv_cases _ 2 (by norm_num)]
  split_ifs <;> omega

theorem tdiv1146_bound (a : Int) :
    a - 1145 ≤ 1146 * Int.tdiv a 1146 ∧ 1146 * Int.tdiv a 1146 ≤ a + 1145 ∧
    (0 ≤ a → 0 ≤ Int.tdiv a 1146 ∧ 1146 * Int.tdiv a 1146 ≤ a) ∧
    (a ≤ 0 → Int.tdiv a 1146 ≤ 0 ∧ a ≤ 1146 * Int.tdiv a 1146) := by
  rw [tdiv_cases _ 1146 (by norm_num)]
  split_ifs <;> refine ⟨?_, ?_, ?_, ?_⟩ <;> (try intro _) <;> (try constructor) <;> omega

theorem tdiv1146_mono (a b : Int) (h : a ≤ b) : Int.tdiv a 1146 ≤ Int.tdiv b 1146 := by
  rw [tdiv_cases a 1146 (by norm_num), tdiv_cases b 1146 (by norm_num)]
  split_ifs <;> omega

theorem win_d_bound (y : Nat → Int) (k : Nat) :
    y (k + 4) - y k - 6 ≤ 4 * win_d y k ∧ 4 * win_d y k ≤ y (k + 4) - y k + 6 := by
  unfold win_d win_m
  have a := tdiv4_bound (y k + y (k + 1) + y (k + 2) + y (k + 3))
  have b := tdiv4_bound (y (k + 1) + y (k + 1 + 1) + y (k + 1 + 2) + y (k + 1 + 3))
  have e1 : k + 1 + 1 = k + 2 := rfl
  have e2 : k + 1 + 2 = k + 3 := rfl
  have e3 : k + 1 + 3 = k + 4 := rfl
  rw [e1, e2, e3] at b ⊢
  constructor <;> omega

theorem win_e_bound (y : Nat → Int) (k : Nat) :
    y (k + 4) + y (k + 5) - y k - y (k + 1) - 10 ≤ 8 * win_e y k ∧
      8 * win_e y k ≤ y (k + 4) + y (k + 5) - y k - y (k + 1) + 10 := by
  have c := tdiv2_bound (win_d y k + win_d y (k + 1))
  unfold win_e
  generalize Int.tdiv (win_d y k + win_d y (k + 1)) 2 = e at c ⊢
  unfold win_d win_m at c
  have e1 : k + 1 + 1 = k + 2 := rfl
  have e2 : k + 1 + 2 = k + 3 := rfl
  have e3 : k + 1 + 3 = k + 4 := rfl
  have e4 : k + 1 + 1 + 1 = k + 3 := rfl
  have e5 : k + 1 + 1 + 2 = k + 4 := rfl
  have e6 : k + 1 + 1 + 3 = k + 5 := rfl
  simp only [e1, e2, e3, e4, e5, e6] at c
  have a := tdiv4_bound (y k + y (k + 1) + y (k + 2) + y (k + 3))
  have b := tdiv4_bound (y (k + 2) + y (k + 3) + y (k + 4) + y (k + 5))
  constructor <;> omega

theorem win_e_ramp (y : Nat → Int) (k : Nat) (s : Int) (hs : 1 ≤ s)
    (h1 : y (k + 4) - y k = 4 * s) (h2 : y (k + 5) - y (k + 1) = 4 * s) :
    s - 1 ≤ win_e y k ∧ win_e y k ≤ s := by
  unfold win_e win_d win_m
  have e1 : k + 1 + 1 = k + 2 := rfl
  have e2 : k + 1 + 2 = k + 3 := rfl
  have e3 : k + 1 + 3 = k + 4 := rfl
  have e4 : k + 1 + 1 + 1 = k + 3 := rfl
  have e5 : k + 1 + 1 + 2 = k + 4 := rfl
  have e6 : k + 1 + 1 + 3 = k + 5 := rfl
  simp only [e1, e2, e3, e4, e5, e6]
  have h3 : y (k + 2) + y (k + 3) + y (k + 4) + y (k + 5)
      = y k + y (k + 1) + y (k + 2) + y (k + 3) + 8 * s := by omega
  rw [h3]
  generalize y k + y (k + 1) + y (k + 2) + y (k + 3) = S
  generalize Int.tdiv (y (k + 1) + y (k + 2) + y (k + 3) + y (k + 4)) 4 = m1
  have e7 : Int.tdiv (m1 - Int.tdiv S 4 + (Int.tdiv (S + 8 * s) 4 - m1)) 2
      = Int.tdiv (Int.tdiv (S + 8 * s) 4 - Int.tdiv S 4) 2 := by
    congr 1
    ring
  rw [e7, tdiv_cases S 4 (by norm_num), tdiv_cases (S + 8 * s) 4 (by norm_num)]
  rw [tdiv_cases _ 2 (by norm_num)]
  split_ifs <;> omega

/-! ## The stages on the rising sawtooth with the mean removed -/

theorem rampy_step4 (s P : Nat) (M : Int) (k : Nat) (hP : 5 ≤ P) :
    rampy s P M (k + 4) - rampy s P M k
      = if k % P + 4 < P then 4 * (s : Int) else 4 * (s : Int) - (s : Int) * (P : Int) := by
  unfold rampy
  rw [add_mod_small k 4 P (by omega)]
  have hr := Nat.mod_lt k (by omega : 0 < P)
  by_cases c : k % P + 4 < P
  · rw [if_pos c, if_pos c]
    push_cast
    ring
  · rw [if_neg c, if_neg c]
    rw [Nat.cast_sub (by omega)]
    push_cast
    ring

theorem rampy_periodic (s P : Nat) (M : Int) (k : Nat) :
    rampy s P M (k + P) = rampy s P M k := by
  unfold rampy
  rw [Nat.add_mod_right]

theorem win_c_periodic (y : Nat → Int) (P : Nat) (hy : ∀ k, y (k + P) = y k) (k : Nat) :
    win_c y (k + P) = win_c y k := by
  have hm : ∀ k, win_m y (k + P) = win_m y k := by
    intro k
    unfold win_m
    have e1 : k + P + 1 = k + 1 + P := by omega
    have e2 : k + P + 2 = k + 2 + P := by omega
    have e3 : k + P + 3 = k + 3 + P := by omega
    rw [e1, e2, e3, hy, hy, hy, hy]
  have hd : ∀ k, win_d y (k + P) = win_d y k := by
    intro k
    unfold win_d
    have e1 : k + P + 1 = k + 1 + P := by omega
    rw [e1, hm, hm]
  have he : ∀ k, win_e y (k + P) = win_e y k := by
    intro k
    unfold win_e
    have e1 : k + P + 1 = k + 1 + P := by omega
    rw [e1, hd, hd]
  unfold win_c
  have e1 : k + P + 1 = k + 1 + P := by omega
  have e2 : k + P + 2 = k + 2 + P := by omega
  have e3 : k + P + 3 = k + 3 + P := by omega
  have e4 : k + P + 4 = k + 4 + P := by omega
  rw [e1, e2, e3, e4, he, he, he, he, he]

theorem win_c_mod (y : Nat → Int) (P : Nat) (hy : ∀ k, y (k + P) = y k) (k : Nat) :
    win_c y k = win_c y (k % P) := by
  have key : ∀ q r, win_c y (r + q * P) = win_c y r := by
    intro q
    induction q with
    | zero => intro r; simp
    | succ q ih =>
      intro r
      have e : r + (q + 1) * P = r + q * P + P := by ring
      rw [e, win_c_periodic y P hy, ih]
  have h := key (k / P) (k % P)
  have e : k % P + k / P * P = k := Nat.mod_add_div' k P
  rw [e] at h
  exact h

/-- The 2 point average of the slope of the rising sawtooth at the index `k`, by the place
`k mod P` of `k` in its period. -/
theorem rampy_e (s P : Nat) (M : Int) (k : Nat) (hs : 1 ≤ s) (hP : 9 ≤ P) :
    (k % P + 5 < P → (s : Int) - 1 ≤ win_e (rampy s P M) k ∧ win_e (rampy s P M) k ≤ s) ∧
    (k % P + 5 = P ∨ k % P + 1 = P →
      8 * (s : Int) - (s : Int) * P - 10 ≤ 8 * win_e (rampy s P M) k ∧
      8 * win_e (rampy s P M) k ≤ 8 * (s : Int) - (s : Int) * P + 10) ∧
    (P < k % P + 5 → k % P + 1 < P →
      8 * (s : Int) - 2 * ((s : Int) * P) - 10 ≤ 8 * win_e (rampy s P M) k ∧
      8 * win_e (rampy s P M) k ≤ 8 * (s : Int) - 2 * ((s : Int) * P) + 10) := by
  have hr := Nat.mod_lt k (by omega : 0 < P)
  have a := rampy_step4 s P M k (by omega)
  have b := rampy_step4 s P M (k + 1) (by omega)
  have e1 : k + 1 + 4 = k + 5 := rfl
  rw [e1] at b
  have m1 := add_mod_small k 1 P (by omega)
  have hb := win_e_bound (rampy s P M) k
  refine ⟨fun h => ?_, fun h => ?_, fun h1 h2 => ?_⟩
  · rw [if_pos (by omega)] at m1
    rw [if_pos (by omega)] at a
    rw [m1, if_pos (by omega)] at b
    exact win_e_ramp _ k s (by exact_mod_cast hs) a b
  · rcases h with h | h
    · rw [if_pos (by omega)] at m1
      rw [if_pos (by omega)] at a
      rw [m1, if_neg (by omega)] at b
      constructor <;> omega
    · rw [if_neg (by omega)] at m1
      rw [if_neg (by omega)] at a
      rw [m1, if_pos (by omega)] at b
      constructor <;> omega
  · rw [if_pos (by omega)] at m1
    rw [if_neg (by omega)] at a
    rw [m1, if_neg (by omega)] at b
    constructor <;> omega

theorem rampy_e_any (s P : Nat) (M : Int) (k : Nat) (hs : 1 ≤ s) (hP : 9 ≤ P) :
    8 * (s : Int) - 2 * ((s : Int) * P) - 10 ≤ 8 * win_e (rampy s P M) k ∧
      8 * win_e (rampy s P M) k ≤ 8 * (s : Int) + 10 := by
  have hr := Nat.mod_lt k (by omega : 0 < P)
  obtain ⟨h1, h2, h3⟩ := rampy_e s P M k hs hP
  have hV : 9 * (s : Int) ≤ (s : Int) * P := by
    have : (9 : Int) ≤ P := by exact_mod_cast hP
    nlinarith
  by_cases c1 : k % P + 5 < P
  · have := h1 c1
    constructor <;> omega
  · by_cases c2 : k % P + 5 = P ∨ k % P + 1 = P
    · have := h2 c2
      constructor <;> omega
    · have := h3 (by omega) (by omega)
      constructor <;> omega

theorem rampy_d_any (s P : Nat) (M : Int) (k : Nat) (hP : 9 ≤ P) :
    4 * (s : Int) - (s : Int) * P - 6 ≤ 4 * win_d (rampy s P M) k ∧
      4 * win_d (rampy s P M) k ≤ 4 * (s : Int) + 6 := by
  have a := rampy_step4 s P M k (by omega)
  have hb := win_d_bound (rampy s P M) k
  have hV : 0 ≤ (s : Int) * P := by positivity
  split_ifs at a <;> constructor <;> omega

/-- The conditioned rising sawtooth away from the drops: `-s` or `-s + 1`. -/
theorem rampy_baseline (s P : Nat) (M : Int) (k : Nat) (hs : 1 ≤ s) (hP : 9 ≤ P)
    (hk : k % P + 9 < P) :
    -(s : Int) ≤ win_c (rampy s P M) k ∧ win_c (rampy s P M) k ≤ 1 - (s : Int) := by
  have e0 := (rampy_e s P M k hs hP).1 (by omega)
  have m1 := add_mod_small k 1 P (by omega)
  have m2 := add_mod_small k 2 P (by omega)
  have m3 := add_mod_small k 3 P (by omega)
  have m4 := add_mod_small k 4 P (by omega)
  rw [if_pos (by omega)] at m1 m2 m3 m4
  have e1 := (rampy_e s P M (k + 1) hs hP).1 (by omega)
  have e2 := (rampy_e s P M (k + 2) hs hP).1 (by omega)
  have e3 := (rampy_e s P M (k + 3) hs hP).1 (by omega)
  have e4 := (rampy_e s P M (k + 4) hs hP).1 (by omega)
  unfold win_c
  have hs2 : (1 : Int) ≤ s := by exact_mod_cast hs
  rw [tdiv_cases _ 1146 (by norm_num)]
  split_ifs <;> constructor <;> omega

/-! ## The bump of a drop when the drop is large against the rounding of the stages -/

theorem tdiv1146_facts (a : Int) :
    a - 1145 ≤ 1146 * Int.tdiv a 1146 ∧ 1146 * Int.tdiv a 1146 ≤ a + 1145 ∧
    (0 ≤ a → 1146 * Int.tdiv a 1146 ≤ a) ∧ (a ≤ 0 → a ≤ 1146 * Int.tdiv a 1146) ∧
    (a ≤ 1145 → Int.tdiv a 1146 ≤ 0) := by
  rw [tdiv_cases _ 1146 (by norm_num)]
  split_ifs <;> refine ⟨?_, ?_, ?_, ?_, ?_⟩ <;> (try intro _) <;> omega

theorem abs_scaled (n x B : Int) (_hn : 0 ≤ n) (h1 : n * x ≤ B) (h2 : -B ≤ n * x) :
    n * |x| ≤ B := by
  rcases abs_cases x with ⟨h, _⟩ | ⟨h, _⟩ <;> rw [h] <;> linarith

theorem tdiv1146_abs (a B : Int) (h1 : a ≤ B) (h2 : -B ≤ a) :
    1146 * |Int.tdiv a 1146| ≤ B := by
  obtain ⟨_, _, f3, f4, _⟩ := tdiv1146_facts a
  have m0 := tdiv1146_mono 0 a
  have m1 := tdiv1146_mono a 0
  have z : Int.tdiv 0 1146 = 0 := rfl
  rw [z] at m0 m1
  refine abs_scaled 1146 _ B (by norm_num) ?_ ?_
  · by_cases c : 0 ≤ a
    · have := f3 c
      omega
    · have := m1 (by omega)
      omega
  · by_cases c : 0 ≤ a
    · have := m0 c
      omega
    · have := f4 (by omega)
      omega

theorem bump_index (P : Nat) (hP : 9 ≤ P) :
    (∀ t, t ≤ 8 → (P - 9 + t) % P = P - 9 + t) ∧ (P - 9 + 9) % P = 0 ∧ (P - 9 + 10) % P = 1 ∧
      (P - 9 + 11) % P = 2 ∧ (P - 9 + 12) % P = 3 := by
  refine ⟨fun t ht => Nat.mod_eq_of_lt (by omega), ?_, ?_, ?_, ?_⟩
  · have e : P - 9 + 9 = 0 + P := by omega
    rw [e, Nat.add_mod_right, Nat.mod_eq_of_lt (by omega)]
  · have e : P - 9 + 10 = 1 + P := by omega
    rw [e, Nat.add_mod_right, Nat.mod_eq_of_lt (by omega)]
  · have e : P - 9 + 11 = 2 + P := by omega
    rw [e, Nat.add_mod_right, Nat.mod_eq_of_lt (by omega)]
  · have e : P - 9 + 12 = 3 + P := by omega
    rw [e, Nat.add_mod_right, Nat.mod_eq_of_lt (by omega)]

/-- The 2 point averages of the slope around the first drop of the rising sawtooth. -/
theorem bump_slopes (s P : Nat) (M : Int) (hs : 1 ≤ s) (hP : 9 ≤ P) :
    (∀ t, t ≤ 3 ∨ (9 ≤ t ∧ t ≤ 12) →
      (s : Int) - 1 ≤ win_e (rampy s P M) (P - 9 + t) ∧ win_e (rampy s P M) (P - 9 + t) ≤ s) ∧
    (∀ t, t = 4 ∨ t = 8 →
      8 * (s : Int) - (s : Int) * P - 10 ≤ 8 * win_e (rampy s P M) (P - 9 + t) ∧
      8 * win_e (rampy s P M) (P - 9 + t) ≤ 8 * (s : Int) - (s : Int) * P + 10) ∧
    (∀ t, 5 ≤ t → t ≤ 7 →
      8 * (s : Int) - 2 * ((s : Int) * P) - 10 ≤ 8 * win_e (rampy s P M) (P - 9 + t) ∧
      8 * win_e (rampy s P M) (P - 9 + t) ≤ 8 * (s : Int) - 2 * ((s : Int) * P) + 10) := by
  obtain ⟨i0, i9, i10, i11, i12⟩ := bump_index P hP
  refine ⟨fun t ht => ?_, fun t ht => ?_, fun t h1 h2 => ?_⟩
  · refine (rampy_e s P M (P - 9 + t) hs hP).1 ?_
    rcases ht with h | ⟨h1, h2⟩
    · rw [i0 t (by omega)]
      omega
    · have : t = 9 ∨ t = 10 ∨ t = 11 ∨ t = 12 := by omega
      rcases this with h | h | h | h <;> subst h
      · rw [i9]; omega
      · rw [i10]; omega
      · rw [i11]; omega
      · rw [i12]; omega
  · refine (rampy_e s P M (P - 9 + t) hs hP).2.1 ?_
    rw [i0 t (by omega)]
    omega
  · refine (rampy_e s P M (P - 9 + t) hs hP).2.2 ?_ ?_
    · rw [i0 t (by omega)]
      omega
    · rw [i0 t (by omega)]
      omega

theorem drop_bounds (s P : Nat) (hs : 1 ≤ s) (hP : 9 ≤ P) (hP2 : P ≤ 100)
    (hV : 64 ≤ s * P) (h9 : 10 ≤ P ∨ 14 ≤ s) :
    (1 : Int) ≤ s ∧ (64 : Int) ≤ (s : Int) * P ∧ 9 * (s : Int) ≤ (s : Int) * P ∧
    (s : Int) * P ≤ 100 * (s : Int) ∧ (10 ≤ P → 10 * (s : Int) ≤ (s : Int) * P) ∧
    (33 ≤ P → 33 * (s : Int) ≤ (s : Int) * P) ∧ (¬ 10 ≤ P → 126 ≤ (s : Int) * P) := by
  have hs2 : (1 : Int) ≤ s := by exact_mod_cast hs
  have h1 : (9 : Int) ≤ P := by exact_mod_cast hP
  have h2 : (P : Int) ≤ 100 := by exact_mod_cast hP2
  refine ⟨hs2, by exact_mod_cast hV, by nlinarith, by nlinarith, fun h => ?_, fun h => ?_,
    fun h => ?_⟩
  · have : (10 : Int) ≤ P := by exact_mod_cast h
    nlinarith
  · have : (33 : Int) ≤ P := by exact_mod_cast h
    nlinarith
  · have h3 : P = 9 := by omega
    have h4 : (14 : Int) ≤ s := by
      have : 14 ≤ s := by omega
      exact_mod_cast this
    subst h3
    push_cast
    omega


/-- The weighted sums of the Hamming filter over the slopes around a drop of size `V`. -/
theorem bump_numerators (σ V E0 E1 E2 E3 E4 E5 E6 E7 E8 E9 E10 E11 E12 : Int)
    (hσ : 1 ≤ σ) (hV : 64 ≤ V) (h9 : 9 * σ ≤ V) (h100 : V ≤ 100 * σ)
    (b0 : σ - 1 ≤ E0 ∧ E0 ≤ σ)
    (b1 : σ - 1 ≤ E1 ∧ E1 ≤ σ)
    (b2 : σ - 1 ≤ E2 ∧ E2 ≤ σ)
    (b3 : σ - 1 ≤ E3 ∧ E3 ≤ σ)
    (b4 : 8 * σ - V - 10 ≤ 8 * E4 ∧ 8 * E4 ≤ 8 * σ - V + 10)
    (b5 : 8 * σ - 2 * V - 10 ≤ 8 * E5 ∧ 8 * E5 ≤ 8 * σ - 2 * V + 10)
    (b6 : 8 * σ - 2 * V - 10 ≤ 8 * E6 ∧ 8 * E6 ≤ 8 * σ - 2 * V + 10)
    (b7 : 8 * σ - 2 * V - 10 ≤ 8 * E7 ∧ 8 * E7 ≤ 8 * σ - 2 * V + 10)
    (b8 : 8 * σ - V - 10 ≤ 8 * E8 ∧ 8 * E8 ≤ 8 * σ - V + 10)
    (b9 : σ - 1 ≤ E9 ∧ E9 ≤ σ)
    (b10 : σ - 1 ≤ E10 ∧ E10 ≤ σ)
    (b11 : σ - 1 ≤ E11 ∧ E11 ≤ σ)
    (b12 : σ - 1 ≤ E12 ∧ E12 ≤ σ)
    :
    -(41 * E0 + 276 * E1 + 512 * E2 + 276 * E3 + 41 * E4) ≤ -(41 * E1 + 276 * E2 + 512 * E3 + 276 * E4 + 41 * E5) ∧
    -(41 * E1 + 276 * E2 + 512 * E3 + 276 * E4 + 41 * E5) ≤ -(41 * E2 + 276 * E3 + 512 * E4 + 276 * E5 + 41 * E6) ∧
    -(41 * E2 + 276 * E3 + 512 * E4 + 276 * E5 + 41 * E6) ≤ -(41 * E3 + 276 * E4 + 512 * E5 + 276 * E6 + 41 * E7) ∧
    -(41 * E3 + 276 * E4 + 512 * E5 + 276 * E6 + 41 * E7) ≤ -(41 * E4 + 276 * E5 + 512 * E6 + 276 * E7 + 41 * E8) ∧
    -(41 * E5 + 276 * E6 + 512 * E7 + 276 * E8 + 41 * E9) ≤ -(41 * E4 + 276 * E5 + 512 * E6 + 276 * E7 + 41 * E8) ∧
    -(41 * E6 + 276 * E7 + 512 * E8 + 276 * E9 + 41 * E10) ≤ -(41 * E5 + 276 * E6 + 512 * E7 + 276 * E8 + 41 * E9) ∧
    -(41 * E7 + 276 * E8 + 512 * E9 + 276 * E10 + 41 * E11) ≤ -(41 * E6 + 276 * E7 + 512 * E8 + 276 * E9 + 41 * E10) ∧
    -(41 * E8 + 276 * E9 + 512 * E10 + 276 * E11 + 41 * E12) ≤ -(41 * E7 + 276 * E8 + 512 * E9 + 276 * E10 + 41 * E11) ∧
    -(41 * E0 + 276 * E1 + 512 * E2 + 276 * E3 + 41 * E4) ≤ 1145 ∧
    -(41 * E8 + 276 * E9 + 512 * E10 + 276 * E11 + 41 * E12) ≤ 1145 ∧
    -(1146 * σ) ≤ -(41 * E0 + 276 * E1 + 512 * E2 + 276 * E3 + 41 * E4) ∧
    -(1146 * σ) ≤ -(41 * E8 + 276 * E9 + 512 * E10 + 276 * E11 + 41 * E12) ∧
    2210 * V - 9168 * σ - 11460 ≤ 8 * (-(41 * E4 + 276 * E5 + 512 * E6 + 276 * E7 + 41 * E8)) ∧
    8 * (-(41 * E2 + 276 * E3 + 512 * E4 + 276 * E5 + 41 * E6)) ≤ 1146 * V - 9168 * σ + 10826 ∧
    -(1146 * V - 9168 * σ + 10826) ≤ 8 * (-(41 * E2 + 276 * E3 + 512 * E4 + 276 * E5 + 41 * E6)) ∧
    8 * (-(41 * E6 + 276 * E7 + 512 * E8 + 276 * E9 + 41 * E10)) ≤ 1146 * V - 9168 * σ + 10826 ∧
    -(1146 * V - 9168 * σ + 10826) ≤ 8 * (-(41 * E6 + 276 * E7 + 512 * E8 + 276 * E9 + 41 * E10)) := by
  obtain ⟨l0, u0⟩ := b0
  obtain ⟨l1, u1⟩ := b1
  obtain ⟨l2, u2⟩ := b2
  obtain ⟨l3, u3⟩ := b3
  obtain ⟨l4, u4⟩ := b4
  obtain ⟨l5, u5⟩ := b5
  obtain ⟨l6, u6⟩ := b6
  obtain ⟨l7, u7⟩ := b7
  obtain ⟨l8, u8⟩ := b8
  obtain ⟨l9, u9⟩ := b9
  obtain ⟨l10, u10⟩ := b10
  obtain ⟨l11, u11⟩ := b11
  obtain ⟨l12, u12⟩ := b12
  refine ⟨?_, ?_, ?_, ?_, ?_, ?_, ?_, ?_, ?_, ?_, ?_, ?_, ?_, ?_, ?_, ?_, ?_⟩ <;> linarith

theorem tdiv1146_neg_mul (σ : Int) : Int.tdiv (-(1146 * σ)) 1146 = -σ := by
  rw [Int.neg_tdiv, Int.mul_tdiv_cancel_left _ (by norm_num)]

theorem top_lower (V σ n4 : Int) (h4 : 2210 * V - 9168 * σ - 11460 ≤ 8 * n4) :
    2210 * V - 9168 * σ - 20620 ≤ 9168 * Int.tdiv n4 1146 := by
  have := (tdiv1146_facts n4).1
  omega

theorem top_ge_step (V σ n4 : Int) (h4 : 2210 * V - 9168 * σ - 11460 ≤ 8 * n4)
    (hc : (10 * σ ≤ V ∧ 64 ≤ V) ∨ (9 * σ ≤ V ∧ 126 ≤ V)) : σ ≤ Int.tdiv n4 1146 := by
  have := top_lower V σ n4 h4
  rcases hc with ⟨h1, h2⟩ | ⟨h1, h2⟩ <;> omega

theorem top_pos (V σ n4 : Int) (h4 : 2210 * V - 9168 * σ - 11460 ≤ 8 * n4)
    (h9 : 9 * σ ≤ V) (hV : 64 ≤ V) : 1 ≤ Int.tdiv n4 1146 := by
  have := top_lower V σ n4 h4
  omega

theorem edge_ge (σ n : Int) (h : -(1146 * σ) ≤ n) : -σ ≤ Int.tdiv n 1146 := by
  have := tdiv1146_mono _ _ h
  rw [tdiv1146_neg_mul] at this
  exact this

theorem side_lt_top (V σ n2 n4 : Int) (h2 : 8 * n2 ≤ 1146 * V - 9168 * σ + 10826)
    (h4 : 2210 * V - 9168 * σ - 11460 ≤ 8 * n4) (hV : 64 ≤ V) :
    Int.tdiv n2 1146 < Int.tdiv n4 1146 := by
  have a := top_lower V σ n4 h4
  have b := (tdiv1146_facts n2).2.1
  omega

theorem tail_sum_lt (V σ n2 n4 n6 t1 t2 t3 t4 t5 d : Int) (hV : 64 ≤ V) (h9 : 9 * σ ≤ V)
    (h2a : 8 * n2 ≤ 1146 * V - 9168 * σ + 10826)
    (h2b : -(1146 * V - 9168 * σ + 10826) ≤ 8 * n2)
    (h6a : 8 * n6 ≤ 1146 * V - 9168 * σ + 10826)
    (h6b : -(1146 * V - 9168 * σ + 10826) ≤ 8 * n6)
    (h4 : 2210 * V - 9168 * σ - 11460 ≤ 8 * n4)
    (u1 : 8 * σ - 2 * V - 10 ≤ 8 * t1 ∧ 8 * t1 ≤ 8 * σ + 10)
    (u2 : 8 * σ - 2 * V - 10 ≤ 8 * t2 ∧ 8 * t2 ≤ 8 * σ + 10)
    (u3 : 8 * σ - 2 * V - 10 ≤ 8 * t3 ∧ 8 * t3 ≤ 8 * σ + 10)
    (u4 : 8 * σ - 2 * V - 10 ≤ 8 * t4 ∧ 8 * t4 ≤ 8 * σ + 10)
    (u5 : 8 * σ - 2 * V - 10 ≤ 8 * t5 ∧ 8 * t5 ≤ 8 * σ + 10)
    (ud : 4 * σ - V - 6 ≤ 4 * d ∧ 4 * d ≤ 4 * σ + 6) :
    |t1| + |t2| + |t3| + |t4| + |t5| + |d| + 4 * |Int.tdiv n2 1146| + 4 * |Int.tdiv n6 1146|
      < 14 * Int.tdiv n4 1146 := by
  have a := top_lower V σ n4 h4
  have a1 := abs_scaled 8 t1 (2 * V - 8 * σ + 10) (by norm_num) (by omega) (by omega)
  have a2 := abs_scaled 8 t2 (2 * V - 8 * σ + 10) (by norm_num) (by omega) (by omega)
  have a3 := abs_scaled 8 t3 (2 * V - 8 * σ + 10) (by norm_num) (by omega) (by omega)
  have a4 := abs_scaled 8 t4 (2 * V - 8 * σ + 10) (by norm_num) (by omega) (by omega)
  have a5 := abs_scaled 8 t5 (2 * V - 8 * σ + 10) (by norm_num) (by omega) (by omega)
  have ad := abs_scaled 4 d (V - 4 * σ + 6) (by norm_num) (by omega) (by omega)
  have g2 := tdiv1146_abs n2 ((1146 * V - 9168 * σ + 10826) / 8) (by omega) (by omega)
  have g6 := tdiv1146_abs n6 ((1146 * V - 9168 * σ + 10826) / 8) (by omega) (by omega)
  generalize |t1| = A1 at a1 ⊢
  generalize |t2| = A2 at a2 ⊢
  generalize |t3| = A3 at a3 ⊢
  generalize |t4| = A4 at a4 ⊢
  generalize |t5| = A5 at a5 ⊢
  generalize |d| = Ad at ad ⊢
  generalize |Int.tdiv n2 1146| = G2 at g2 ⊢
  generalize |Int.tdiv n6 1146| = G6 at g6 ⊢
  generalize Int.tdiv n4 1146 = c4 at a ⊢
  clear u1 u2 u3 u4 u5 ud h2a h2b h6a h6b h4
  omega

theorem tail_le_top (V σ n4 t : Int) (h4 : 2210 * V - 9168 * σ - 11460 ≤ 8 * n4)
    (h33 : 33 * σ ≤ V) (hV : 64 ≤ V) (u : 8 * t ≤ 8 * σ + 10) : t ≤ Int.tdiv n4 1146 := by
  have a := top_lower V σ n4 h4
  omega

/-- The shape of the bump for every mean `M`, when the drop `s * P` of the sawtooth is at
least 64 (and, for the period 9, the step at least 14). -/
theorem bump_facts_large (s P : Nat) (M : Int) (hs : 1 ≤ s) (hP : 9 ≤ P) (hP2 : P ≤ 100)
    (hV : 64 ≤ s * P) (h9 : 10 ≤ P ∨ 14 ≤ s) : BumpFacts s P M := by
  obtain ⟨hs2, hVz, hV9, hV100, hV10, hV33, hV14⟩ := drop_bounds s P hs hP hP2 hV h9
  obtain ⟨r, d1, d2⟩ := bump_slopes s P M hs hP
  obtain ⟨m0, m1, m2, m3, m4, m5, m6, m7, le0, le8, ge0, ge8, top, s2a, s2b, s6a, s6b⟩ :=
    bump_numerators (s : Int) ((s : Int) * P) _ _ _ _ _ _ _ _ _ _ _ _ _ hs2 hVz hV9 hV100
      (r 0 (by omega))
      (r 1 (by omega))
      (r 2 (by omega))
      (r 3 (by omega))
      (d1 4 (by omega))
      (d2 5 (by omega) (by omega))
      (d2 6 (by omega) (by omega))
      (d2 7 (by omega) (by omega))
      (d1 8 (by omega))
      (r 9 (by omega))
      (r 10 (by omega))
      (r 11 (by omega))
      (r 12 (by omega))
  have hc : (10 * (s : Int) ≤ (s : Int) * P ∧ 64 ≤ (s : Int) * P) ∨
      (9 * (s : Int) ≤ (s : Int) * P ∧ 126 ≤ (s : Int) * P) := by
    by_cases c : 10 ≤ P
    · exact Or.inl ⟨hV10 c, hVz⟩
    · exact Or.inr ⟨hV9, hV14 c⟩
  have hst := top_ge_step _ _ _ top hc
  have e0 := edge_ge _ _ ge0
  have e8 := edge_ge _ _ ge8
  unfold BumpFacts bump tail_e win_c
  simp only [Nat.add_assoc, Nat.reduceAdd]
  refine ⟨(tdiv1146_facts _).2.2.2.2 le0, (tdiv1146_facts _).2.2.2.2 le8, ?_, ?_,
    tdiv1146_mono _ _ m0, tdiv1146_mono _ _ m1, tdiv1146_mono _ _ m2, tdiv1146_mono _ _ m3,
    tdiv1146_mono _ _ m4, tdiv1146_mono _ _ m5, tdiv1146_mono _ _ m6, tdiv1146_mono _ _ m7,
    side_lt_top _ _ _ _ s2a top hVz, side_lt_top _ _ _ _ s6a top hVz,
    top_pos _ _ _ top hV9 hVz, fun _ => hst,
    tail_sum_lt _ _ _ _ _ _ _ _ _ _ _ hVz hV9 s2a s2b s6a s6b top
      (rampy_e_any s P M 489 hs hP) (rampy_e_any s P M 490 hs hP) (rampy_e_any s P M 491 hs hP)
      (rampy_e_any s P M 492 hs hP) (rampy_e_any s P M 493 hs hP) (rampy_d_any s P M 494 hP),
    fun h => ⟨tail_le_top _ _ _ _ top (hV33 h) hVz (rampy_e_any s P M 489 hs hP).2,
      tail_le_top _ _ _ _ top (hV33 h) hVz (rampy_e_any s P M 490 hs hP).2,
      tail_le_top _ _ _ _ top (hV33 h) hVz (rampy_e_any s P M 491 hs hP).2,
      tail_le_top _ _ _ _ top (hV33 h) hVz (rampy_e_any s P M 492 hs hP).2,
      tail_le_top _ _ _ _ top (hV33 h) hVz (rampy_e_any s P M 493 hs hP).2⟩⟩
  · have := hst
    have := e0
    omega
  · have := hst
    have := e8
    omega


/-! ## The mean of a rising sawtooth and its conditioned signal -/

theorem succ_div_mod (n P : Nat) (hP : 0 < P) :
    (n % P + 1 < P ∧ (n + 1) / P = n / P ∧ (n + 1) % P = n % P + 1) ∨
    (n % P + 1 = P ∧ (n + 1) / P = n / P + 1 ∧ (n + 1) % P = 0) := by
  have hr := Nat.mod_lt n hP
  have hd := Nat.div_add_mod n P
  by_cases c : n % P + 1 < P
  · left
    have e : n + 1 = (n % P + 1) + P * (n / P) := by omega
    refine ⟨c, ?_, ?_⟩
    · rw [e, Nat.add_mul_div_left _ _ hP, Nat.div_eq_of_lt c, Nat.zero_add]
    · rw [e, Nat.add_mul_mod_self_left, Nat.mod_eq_of_lt c]
  · right
    have e : n + 1 = 0 + P * (n / P + 1) := by
      rw [Nat.mul_add]
      omega
    refine ⟨by omega, ?_, ?_⟩
    · rw [e, Nat.add_mul_div_left _ _ hP, Nat.zero_div, Nat.zero_add]
    · rw [e, Nat.add_mul_mod_self_left, Nat.zero_mod]

theorem mod_sum_closed (P : Nat) (hP : 0 < P) (n : Nat) :
    2 * sum_spec (fun k => ((k % P : Nat) : Int)) n
      = (((n / P) * (P * (P - 1)) + (n % P) * (n % P - 1) : Nat) : Int) := by
  induction n with
  | zero => simp [sum_spec]
  | succ n ih =>
    simp only [sum_spec]
    rw [mul_add, ih]
    rcases succ_div_mod n P hP with ⟨h1, h2, h3⟩ | ⟨h1, h2, h3⟩
    · rw [h2, h3]
      have e : n % P + 1 - 1 = n % P := by omega
      rw [e]
      rcases Nat.eq_zero_or_pos (n % P) with z | z
      · rw [z]
        simp
      · obtain ⟨r, hr⟩ : ∃ r, n % P = r + 1 := ⟨n % P - 1, by omega⟩
        rw [hr]
        have e2 : r + 1 - 1 = r := by omega
        rw [e2]
        push_cast
        ring
    · rw [h2, h3]
      obtain ⟨p, hp⟩ : ∃ p, P = p + 1 := ⟨P - 1, by omega⟩
      have hr : n % P = p := by omega
      rw [hr]
      subst hp
      have e2 : p + 1 - 1 = p := by omega
      rw [e2]
      rcases Nat.eq_zero_or_pos p with z | z
      · subst z
        simp
      · obtain ⟨q, hq⟩ : ∃ q, p = q + 1 := ⟨p - 1, by omega⟩
        subst hq
        have e3 : q + 1 - 1 = q := by omega
        rw [e3]
        push_cast
        ring

theorem saw_mod_sum_eq (P : Nat) (hP : 0 < P) :
    sum_spec (fun k => ((k % P : Nat) : Int)) 500 = (saw_mod_sum P : Nat) := by
  have h := mod_sum_closed P hP 500
  unfold saw_mod_sum
  generalize (500 / P) * (P * (P - 1)) + (500 % P) * (500 % P - 1) = X at h ⊢
  generalize sum_spec (fun k => ((k % P : Nat) : Int)) 500 = S at h ⊢
  omega

theorem sum_spec_sawtooth (c : Int) (s P : Nat) (n : Nat) :
    sum_spec (sawtooth c s P) n
      = (n : Int) * c + (s : Int) * sum_spec (fun k => ((k % P : Nat) : Int)) n := by
  induction n with
  | zero => simp [sum_spec]
  | succ n ih =>
    simp only [sum_spec]
    rw [ih]
    unfold sawtooth
    push_cast
    ring

theorem sawtooth_mean (c : Int) (s P : Nat) (hP : 0 < P) (hc : 0 ≤ c) :
    Int.tdiv (sum_spec (sawtooth c s P) 500) 500 = c + saw_mean s P := by
  rw [sum_spec_sawtooth, saw_mod_sum_eq P hP]
  unfold saw_mean
  have e : (s : Int) * ((saw_mod_sum P : Nat) : Int) = ((s * saw_mod_sum P : Nat) : Int) := by
    push_cast
    ring
  rw [e]
  generalize s * saw_mod_sum P = A
  have hA : (0 : Int) ≤ (A : Int) := Int.natCast_nonneg A
  rw [Int.tdiv_eq_ediv (by push_cast; nlinarith) (by norm_num)]
  push_cast
  omega

theorem sawtooth_y (c : Int) (s P : Nat) (hP : 0 < P) (hc : 0 ≤ c) :
    y_spec (sawtooth c s P) = rampy s P (saw_mean s P) := by
  funext k
  unfold y_spec
  rw [sawtooth_mean c s P hP hc]
  unfold sawtooth rampy
  ring

theorem sawtooth_range (c : Int) (s P : Nat) (hP : 1 ≤ P) (hc : 0 ≤ c)
    (hmax : c + (s : Int) * ((P : Int) - 1) < 262144) (k : Nat) :
    0 ≤ sawtooth c s P k ∧ sawtooth c s P k < 262144 := by
  have hr := Nat.mod_lt k (by omega : 0 < P)
  unfold sawtooth
  have h1 : (0 : Int) ≤ ((k % P : Nat) : Int) := Int.natCast_nonneg _
  have h2 : ((k % P : Nat) : Int) ≤ (P : Int) - 1 := by
    have : k % P ≤ P - 1 := by omega
    have h3 : ((P - 1 : Nat) : Int) = (P : Int) - 1 := by omega
    rw [← h3]
    exact_mod_cast this
  have h0 : (0 : Int) ≤ (s : Int) := Int.natCast_nonneg _
  constructor <;> nlinarith

theorem spec_as_window (x : Nat → Int) (k : Nat) :
    c_spec x k = win_c (y_spec x) k ∧ e_spec x k = win_e (y_spec x) k ∧
      d_spec x k = win_d (y_spec x) k :=
  ⟨rfl, rfl, rfl⟩

/-! ## The bump of a drop for the small amplitudes, by evaluation -/

set_option maxRecDepth 1000000 in
set_option synthInstance.maxSize 1000 in
set_option synthInstance.maxHeartbeats 200000 in
theorem bump_facts_table : ∀ P, P < 64 → ∀ s, s < 14 → 9 ≤ P → 1 ≤ s → (2 ≤ s ∨ 12 ≤ P) →
    (s * P ≤ 63 ∨ P = 9) → BumpFacts s P (saw_mean s P) := by
  decide!

/-- The shape of the bump of the conditioned rising sawtooth of step `s` and period `P`. -/
theorem bump_facts (s P : Nat) (hs : 1 ≤ s) (hP : 9 ≤ P) (hP2 : P ≤ 100)
    (hsP : 2 ≤ s ∨ 12 ≤ P) : BumpFacts s P (saw_mean s P) := by
  by_cases c : 64 ≤ s * P ∧ (10 ≤ P ∨ 14 ≤ s)
  · exact bump_facts_large s P _ hs hP hP2 c.1 c.2
  · have h1 : s * P ≤ 63 ∨ (P = 9 ∧ s ≤ 13) := by omega
    have hs13 : s < 14 := by
      rcases h1 with h | ⟨_, h⟩
      · by_contra hcon
        have : 14 * 9 ≤ s * P := Nat.mul_le_mul (by omega) hP
        omega
      · omega
    have hP63 : P < 64 := by
      rcases h1 with h | ⟨h, _⟩
      · by_contra hcon
        have : 1 * 64 ≤ s * P := Nat.mul_le_mul hs (by omega)
        omega
      · omega
    exact bump_facts_table P hP63 s hs13 hP hs hsP (by omega)

/-! ## A signal with one bump per period: values and threshold -/

theorem bump_abs (f : Nat → Int) (P : Nat) (hP : 9 ≤ P) (hf : BumpSignal f P) (k : Nat)
    (hk : k < 489) : |f k| ≤ f (P - 5) := by
  rw [hf.1 k hk]
  exact hf.2.2.1 _ (Nat.mod_lt k (by omega))

theorem abs_sum_add (f : Nat → Int) (a : Nat) :
    ∀ b, abs_sum f (a + b) = abs_sum f a + abs_sum (fun k => f (a + k)) b := by
  intro b
  induction b with
  | zero => simp [abs_sum]
  | succ b ih =>
    have e : a + (b + 1) = a + b + 1 := rfl
    rw [e]
    simp only [abs_sum]
    rw [ih]
    ring

theorem abs_sum_le (h : Nat → Int) (T : Int) :
    ∀ n, (∀ k, k < n → |h k| ≤ T) → abs_sum h n ≤ (n : Int) * T := by
  intro n
  induction n with
  | zero => intro _; simp [abs_sum]
  | succ n ih =>
    intro hall
    simp only [abs_sum]
    have h1 := ih (fun k hk => hall k (by omega))
    have h2 := hall n (by omega)
    push_cast
    linarith

theorem abs_sum_two (h : Nat → Int) (T : Int) (i j : Nat) (hij : i < j) :
    ∀ n, (∀ k, k < n → |h k| ≤ T) →
      abs_sum h n ≤ (n : Int) * T - (if i < n then T - |h i| else 0)
        - (if j < n then T - |h j| else 0) := by
  intro n
  induction n with
  | zero => intro _; simp [abs_sum]
  | succ n ih =>
    intro hall
    simp only [abs_sum]
    have h1 := ih (fun k hk => hall k (by omega))
    have h2 := hall n (by omega)
    push_cast
    by_cases ci : n = i
    · subst ci
      rw [if_neg (by omega), if_neg (by omega)] at h1
      rw [if_pos (by omega), if_neg (by omega)]
      linarith
    · by_cases cj : n = j
      · subst cj
        rw [if_pos (by omega), if_neg (by omega)] at h1
        rw [if_pos (by omega), if_pos (by omega)]
        linarith
      · by_cases c1 : i < n
        · rw [if_pos c1] at h1
          rw [if_pos (by omega)]
          by_cases c2 : j < n
          · rw [if_pos c2] at h1
            rw [if_pos (by omega)]
            linarith
          · rw [if_neg c2] at h1
            rw [if_neg (by omega)]
            linarith
        · rw [if_neg c1, if_neg (by omega)] at h1
          rw [if_neg (by omega), if_neg (by omega)]
          linarith

theorem bump_block (f : Nat → Int) (P : Nat) (hP : 9 ≤ P) (hf : BumpSignal f P) (a : Nat)
    (haP : a % P = 0) (ha : a + P ≤ 489) :
    abs_sum (fun k => f (a + k)) P
      ≤ ((P : Int) - 2) * f (P - 5) + |f (P - 7)| + |f (P - 3)| := by
  have hall : ∀ k, k < P → |(fun k => f (a + k)) k| ≤ f (P - 5) :=
    fun k hk => bump_abs f P hP hf (a + k) (by omega)
  have h := abs_sum_two (fun k => f (a + k)) (f (P - 5)) (P - 7) (P - 3) (by omega) P hall
  rw [if_pos (by omega), if_pos (by omega)] at h
  have e : ∀ t, t < P → f (a + t) = f t := by
    intro t ht
    rw [hf.1 (a + t) (by omega), Nat.add_mod, haP, Nat.zero_add, Nat.mod_mod,
      Nat.mod_eq_of_lt ht]
  simp only [] at h
  rw [e (P - 7) (by omega), e (P - 3) (by omega)] at h
  linarith

theorem bump_threshold (f : Nat → Int) (P : Nat) (hP : 9 ≤ P) (hP2 : P ≤ 100)
    (hf : BumpSignal f P) : 0 ≤ threshold f ∧ threshold f < f (P - 5) := by
  have hf2 := hf
  obtain ⟨_, _, _, _, _, _, _, _, _, _, _, _, _, _, _, hT1, hthr, _, hb⟩ := hf2
  have hnn : ∀ n, 0 ≤ abs_sum f n := by
    intro n
    induction n with
    | zero => simp [abs_sum]
    | succ n ih =>
      simp only [abs_sum]
      have := abs_nonneg (f n)
      omega
  have b0 := bump_block f P hP hf 0 (Nat.zero_mod P) (by omega)
  have b1 := bump_block f P hP hf P (Nat.mod_self P) (by omega)
  have b2 := bump_block f P hP hf (P + P) (by
    rw [Nat.add_mod_right, Nat.mod_self]) (by omega)
  have b3 := bump_block f P hP hf (P + P + P) (by
    rw [Nat.add_mod_right, Nat.add_mod_right, Nat.mod_self]) (by omega)
  have b4 := abs_sum_le (fun k => f (P + P + P + P + k)) (f (P - 5)) (489 - 4 * P)
    (fun k hk => bump_abs f P hP hf _ (by omega))
  have e489 : 489 = P + P + P + P + (489 - 4 * P) := by omega
  have s0 := abs_sum_add f (P + P + P + P) (489 - 4 * P)
  rw [← e489] at s0
  have s1 := abs_sum_add f (P + P + P) P
  have s2 := abs_sum_add f (P + P) P
  have s3 := abs_sum_add f P P
  have s4 := abs_sum_add f 0 P
  simp only [Nat.zero_add, abs_sum, zero_add] at s4
  have e495 : abs_sum f 495
      = abs_sum f 489 + |f 489| + |f 490| + |f 491| + |f 492| + |f 493| + |f 494| := rfl
  have h0 := hnn 495
  rw [threshold_exact f hb]
  unfold threshold_spec
  rw [tdiv_cases _ _ (by norm_num), if_pos h0]
  have hc : ((489 - 4 * P : Nat) : Int) = 489 - 4 * (P : Int) := by omega
  rw [hc] at b4
  have hsum : abs_sum f 495 < 495 * f (P - 5) := by
    rw [e495, s0, s1, s2, s3]
    simp only [zero_add] at b0
    have b0' : abs_sum f P ≤ ((P : Int) - 2) * f (P - 5) + |f (P - 7)| + |f (P - 3)| := by
      have := b0
      simp only [Nat.zero_add] at this
      exact this
    linarith
  generalize abs_sum f 495 = S at hsum h0 ⊢
  generalize f (P - 5) = T at hsum hT1 ⊢
  push_cast
  constructor <;> omega

/-! ## A signal with one bump per period: the qualifying indices -/

theorem bump_shift (f : Nat → Int) (P : Nat) (_hP : 9 ≤ P) (hf : BumpSignal f P) (k b : Nat)
    (hb : k % P + b < P) (hk : k + b < 489) : f (k + b) = f (k % P + b) := by
  rw [hf.1 (k + b) hk, add_mod_small k b P (by omega), if_pos hb]

theorem bump_pred (f : Nat → Int) (P : Nat) (hP : 9 ≤ P) (hf : BumpSignal f P) (k : Nat)
    (hk1 : 1 ≤ k) (hr : 1 ≤ k % P) (hk : k < 490) : f (k - 1) = f (k % P - 1) := by
  have hm := add_mod_small (k - 1) 1 P (by omega)
  have e : k - 1 + 1 = k := by omega
  rw [e] at hm
  have h0 := Nat.mod_lt (k - 1) (by omega : 0 < P)
  have e2 : (k - 1) % P = k % P - 1 := by
    split_ifs at hm <;> omega
  rw [hf.1 (k - 1) (by omega), e2]

theorem bump_top_cases (f : Nat → Int) (P : Nat) (hf : BumpSignal f P) :
    (bump_top f P = P - 6 ∧ f (P - 6) = f (P - 5)) ∨
      (bump_top f P = P - 5 ∧ f (P - 6) < f (P - 5)) := by
  unfold bump_top
  by_cases c : f (P - 6) = f (P - 5)
  · left
    rw [if_pos c]
    exact ⟨rfl, c⟩
  · right
    rw [if_neg c]
    have := hf.2.2.2.2.2.2.2.2.1
    exact ⟨rfl, lt_of_le_of_ne this c⟩

theorem bump_top_value (f : Nat → Int) (P : Nat) (hf : BumpSignal f P) :
    f (bump_top f P) = f (P - 5) := by
  rcases bump_top_cases f P hf with ⟨h1, h2⟩ | ⟨h1, _⟩
  · rw [h1, h2]
  · rw [h1]

theorem bump_top_qualifies (f : Nat → Int) (P k : Nat) (t : Int) (hP : 9 ≤ P)
    (hf : BumpSignal f P) (ht : t < f (P - 5)) (hk1 : 1 ≤ k) (hk2 : k ≤ 485)
    (hr : k % P = bump_top f P) : Qualifies f 495 t k := by
  have hf2 := hf
  obtain ⟨_, _, _, _, _, _, _, _, h65, h45, h34, _, _, h75, h35, _, _, _, _⟩ := hf2
  have s1 := bump_shift f P hP hf k 1
  have s2 := bump_shift f P hP hf k 2
  have s3 := bump_shift f P hP hf k 3
  have s0 := hf.1 k (by omega)
  have sp := bump_pred f P hP hf k hk1
  rcases bump_top_cases f P hf with ⟨h1, h2⟩ | ⟨h1, h2⟩
  · rw [h1] at hr
    rw [hr] at s0 s1 s2 s3 sp
    have e1 : P - 6 + 1 = P - 5 := by omega
    have e2 : P - 6 + 2 = P - 4 := by omega
    have e3 : P - 6 + 3 = P - 3 := by omega
    have e4 : P - 6 - 1 = P - 7 := by omega
    rw [e1] at s1
    rw [e2] at s2
    rw [e3] at s3
    rw [e4] at sp
    have v1 := s1 (by omega) (by omega)
    have v2 := s2 (by omega) (by omega)
    have v3 := s3 (by omega) (by omega)
    have vp := sp (by omega) (by omega)
    refine ⟨hk1, by omega, by omega, by omega, ?_⟩
    by_cases c : f (P - 4) = f (P - 5)
    · refine ⟨3, ⟨by omega, Or.inr (by omega), fun v hv1 hv2 => ?_⟩, by omega⟩
      have hv : v = 1 ∨ v = 2 := by omega
      rcases hv with h | h <;> subst h
      · intro hcon
        rcases hcon with h | h
        · omega
        · exact h (by omega)
      · intro hcon
        rcases hcon with h | h
        · omega
        · exact h (by omega)
    · have c2 : f (P - 4) < f (P - 5) := lt_of_le_of_ne h45 c
      refine ⟨2, ⟨by omega, Or.inr (by omega), fun v hv1 hv2 => ?_⟩, by omega⟩
      have hv : v = 1 := by omega
      subst hv
      intro hcon
      rcases hcon with h | h
      · omega
      · exact h (by omega)
  · rw [h1] at hr
    rw [hr] at s0 s1 s2 sp
    have e1 : P - 5 + 1 = P - 4 := by omega
    have e2 : P - 5 + 2 = P - 3 := by omega
    have e4 : P - 5 - 1 = P - 6 := by omega
    rw [e1] at s1
    rw [e2] at s2
    rw [e4] at sp
    have v1 := s1 (by omega) (by omega)
    have v2 := s2 (by omega) (by omega)
    have vp := sp (by omega) (by omega)
    refine ⟨hk1, by omega, by omega, by omega, ?_⟩
    by_cases c : f (P - 4) = f (P - 5)
    · refine ⟨2, ⟨by omega, Or.inr (by omega), fun v hv1 hv2 => ?_⟩, by omega⟩
      have hv : v = 1 := by omega
      subst hv
      intro hcon
      rcases hcon with h | h
      · omega
      · exact h (by omega)
    · have c2 : f (P - 4) < f (P - 5) := lt_of_le_of_ne h45 c
      refine ⟨1, ⟨by omega, Or.inr (by omega), fun v hv1 hv2 => ?_⟩, by omega⟩
      omega

theorem plateau_blocked (f : Nat → Int) (M : Int) (k v0 : Nat) (hv0 : 1 ≤ v0)
    (hup : f k < f (k + v0)) (hmid : ∀ v, 1 ≤ v → v < v0 → f k ≤ f (k + v)) :
    ¬ ∃ w, PlateauEnd f M k w ∧ f (k + w) < f k := by
  rintro ⟨w, ⟨w1, _, w3⟩, hlt⟩
  rcases Nat.lt_trichotomy w v0 with c | c | c
  · have := hmid w w1 c
    omega
  · subst c
    omega
  · exact w3 v0 hv0 c (Or.inr (by omega))

theorem bump_positive_place (f : Nat → Int) (P k : Nat) (hP : 9 ≤ P) (hf : BumpSignal f P)
    (hk : k < 489) (hpos : 0 < f k) : P ≤ k % P + 8 ∧ k % P + 2 ≤ P := by
  have hr := Nat.mod_lt k (by omega : 0 < P)
  have s0 := hf.1 k hk
  rw [s0] at hpos
  by_contra hcon
  by_cases c1 : k % P + 9 < P
  · have := hf.2.1 _ c1
    omega
  · by_cases c2 : k % P + 9 = P
    · have e : k % P = P - 9 := by omega
      rw [e] at hpos
      have := hf.2.2.2.1
      omega
    · have e : k % P = P - 1 := by omega
      rw [e] at hpos
      have := hf.2.2.2.2.1
      omega

theorem seven_cases (j : Nat) (h1 : 1 ≤ j) (h2 : j ≤ 7) :
    j = 1 ∨ j = 2 ∨ j = 3 ∨ j = 4 ∨ j = 5 ∨ j = 6 ∨ j = 7 := by
  omega

theorem bump_only_tops (f : Nat → Int) (P k : Nat) (t : Int) (hP : 9 ≤ P)
    (hf : BumpSignal f P) (ht : 0 ≤ t) (hk2 : k ≤ 485) (hq : Qualifies f 495 t k) :
    k % P = bump_top f P := by
  have hf2 := hf
  obtain ⟨_, _, _, _, _, h98, h87, h76, h65, h45, h34, h23, h12, h75, h35, _, _, _, _⟩ := hf2
  obtain ⟨hk1, _, q3, q4, q5⟩ := hq
  have hr := Nat.mod_lt k (by omega : 0 < P)
  obtain ⟨p1, p2⟩ := bump_positive_place f P k hP hf (by omega) (by omega)
  have s0 := hf.1 k (by omega)
  have s1 := bump_shift f P hP hf k 1
  have s2 := bump_shift f P hP hf k 2
  have s3 := bump_shift f P hP hf k 3
  have sp := bump_pred f P hP hf k hk1 (by omega) (by omega)
  obtain ⟨j, hj⟩ : ∃ j, k % P + 9 = P + j := ⟨k % P + 9 - P, by omega⟩
  have hj1 : 1 ≤ j ∧ j ≤ 7 := by omega
  have hjr : k % P = P - 9 + j := by omega
  rw [hjr] at s0 s1 s2 s3 sp
  have tc := bump_top_cases f P hf
  have hj7 := seven_cases j hj1.1 hj1.2
  rcases hj7 with h | h | h | h | h | h | h <;> subst h
  · exfalso
    have e0 : P - 9 + 1 = P - 8 := by omega
    have e1 : P - 9 + 1 + 1 = P - 7 := by omega
    have e2 : P - 9 + 1 + 2 = P - 6 := by omega
    have e3 : P - 9 + 1 + 3 = P - 5 := by omega
    rw [e0] at s0
    rw [e1] at s1
    rw [e2] at s2
    rw [e3] at s3
    have v1 := s1 (by omega) (by omega)
    have v2 := s2 (by omega) (by omega)
    have v3 := s3 (by omega) (by omega)
    refine plateau_blocked f 495 k 3 (by omega) (by omega) (fun v hv1 hv2 => ?_) q5
    have hv : v = 1 ∨ v = 2 := by omega
    rcases hv with h | h <;> subst h <;> omega
  · exfalso
    have e0 : P - 9 + 2 = P - 7 := by omega
    have e1 : P - 9 + 2 + 1 = P - 6 := by omega
    have e2 : P - 9 + 2 + 2 = P - 5 := by omega
    rw [e0] at s0
    rw [e1] at s1
    rw [e2] at s2
    have v1 := s1 (by omega) (by omega)
    have v2 := s2 (by omega) (by omega)
    refine plateau_blocked f 495 k 2 (by omega) (by omega) (fun v hv1 hv2 => ?_) q5
    have hv : v = 1 := by omega
    subst hv
    omega
  · have e0 : P - 9 + 3 = P - 6 := by omega
    have e1 : P - 9 + 3 + 1 = P - 5 := by omega
    rw [e0] at s0
    rw [e1] at s1
    have v1 := s1 (by omega) (by omega)
    rcases tc with ⟨h1, h2⟩ | ⟨h1, h2⟩
    · rw [h1]
      omega
    · exfalso
      refine plateau_blocked f 495 k 1 (by omega) (by omega) (fun v hv1 hv2 => ?_) q5
      omega
  · have e0 : P - 9 + 4 = P - 5 := by omega
    have e1 : P - 9 + 4 - 1 = P - 6 := by omega
    rw [e0] at s0
    rw [e1] at sp
    rcases tc with ⟨h1, h2⟩ | ⟨h1, h2⟩
    · omega
    · rw [h1]
      omega
  · exfalso
    have e0 : P - 9 + 5 = P - 4 := by omega
    have e1 : P - 9 + 5 - 1 = P - 5 := by omega
    rw [e0] at s0
    rw [e1] at sp
    omega
  · exfalso
    have e0 : P - 9 + 6 = P - 3 := by omega
    have e1 : P - 9 + 6 - 1 = P - 4 := by omega
    rw [e0] at s0
    rw [e1] at sp
    omega
  · exfalso
    have e0 : P - 9 + 7 = P - 2 := by omega
    have e1 : P - 9 + 7 - 1 = P - 3 := by omega
    rw [e0] at s0
    rw [e1] at sp
    omega

/-! ## A signal with one bump per period: the recorded candidates -/

theorem no_place_between (P a v i : Nat) (hv : v % P = a)
    (hlt : v < a + i * P) (hgt : i = 0 ∨ a + (i - 1) * P < v) : False := by
  have hdiv := Nat.div_add_mod v P
  have e1 : P * (v / P) = (v / P) * P := Nat.mul_comm _ _
  rw [e1, hv] at hdiv
  generalize v / P = q at hdiv
  generalize hqP : q * P = qP at hdiv
  generalize hiP : i * P = iP at hlt
  have h1 : qP < iP := by omega
  rw [← hqP, ← hiP] at h1
  have h2 : q < i := Nat.lt_of_mul_lt_mul_right h1
  rcases hgt with h | h
  · omega
  · generalize hjP : (i - 1) * P = jP at h
    have h3 : jP < qP := by omega
    rw [← hqP, ← hjP] at h3
    have h4 : i - 1 < q := Nat.lt_of_mul_lt_mul_right h3
    omega

theorem place_residue (P a i : Nat) (ha : a < P) : (a + i * P) % P = a := by
  rw [Nat.add_mul_mod_self_right, Nat.mod_eq_of_lt ha]

theorem places_recorded (P a B : Nat) (ha : a < P) (ha1 : 1 ≤ a) (Q : Nat → Prop) (locs : Mem)
    (npks : Nat)
    (hQ1 : ∀ k, 1 ≤ k → k ≤ B → k % P = a → Q k)
    (hQ2 : ∀ k, k ≤ B → Q k → k % P = a)
    (n2 : ∀ k, k < npks → ∃ j : Nat, rd locs k = (j : Int) ∧ Q j)
    (n3 : ∀ x y, x < y → y < npks → rd locs x < rd locs y)
    (n4 : ∀ j, Q j → (∃ k, k < npks ∧ rd locs k = (j : Int)) ∨
      (npks = 15 ∧ ∀ k, k < npks → rd locs k < (j : Int))) :
    ∀ i, i < 15 → a + i * P ≤ B →
      i < npks ∧ rd locs i = ((a + i * P : Nat) : Int) := by
  intro i
  induction i using Nat.strong_induction_on with
  | _ i ih =>
    intro hi hT
    have hmono : ∀ x, x ≤ i → a + x * P ≤ a + i * P := fun x hx =>
      Nat.add_le_add_left (Nat.mul_le_mul_right P hx) _
    have QT : Q (a + i * P) := hQ1 _ (by omega) hT (place_residue P a i ha)
    have gap : ∀ v : Nat, i < npks → rd locs i = (v : Int) → Q v → v < a + i * P → False := by
      intro v hin ev qv hlt
      have hres := hQ2 v (by omega) qv
      refine no_place_between P a v i hres hlt ?_
      by_cases c : i = 0
      · exact Or.inl c
      · right
        obtain ⟨_, e0⟩ := ih (i - 1) (by omega) (by omega) (by
          have := hmono (i - 1) (by omega)
          omega)
        have := n3 (i - 1) i (by omega) hin
        rw [e0, ev] at this
        exact_mod_cast this
    rcases n4 _ QT with ⟨k, hk, ek⟩ | ⟨hfull, hall⟩
    · rcases Nat.lt_trichotomy k i with c | c | c
      · exfalso
        obtain ⟨_, e0⟩ := ih k c (by omega) (by
          have := hmono k (by omega)
          omega)
        rw [e0] at ek
        have e1 : a + k * P = a + i * P := by exact_mod_cast ek
        have e2 : k * P = i * P := by omega
        have := Nat.eq_of_mul_eq_mul_right (by omega : 0 < P) e2
        omega
      · subst c
        exact ⟨hk, ek⟩
      · exfalso
        obtain ⟨v, ev, qv⟩ := n2 i (by omega)
        have hlt := n3 i k c hk
        rw [ev, ek] at hlt
        exact gap v (by omega) ev qv (by exact_mod_cast hlt)
    · exfalso
      obtain ⟨v, ev, qv⟩ := n2 i (by omega)
      have hlt := hall i (by omega)
      rw [ev] at hlt
      exact gap v (by omega) ev qv (by exact_mod_cast hlt)

theorem bump_top_range (f : Nat → Int) (P : Nat) (hf : BumpSignal f P) :
    P - 6 ≤ bump_top f P ∧ bump_top f P ≤ P - 5 := by
  rcases bump_top_cases f P hf with ⟨h, _⟩ | ⟨h, _⟩ <;> rw [h] <;> omega

theorem bump_candidates_head (f : Nat → Int) (P : Nat) (locs0 : Mem) (hP : 9 ≤ P)
    (hP2 : P ≤ 100) (hf : BumpSignal f P) (hl : 15 ≤ locs0.length) (m : Nat)
    (hfit : ∀ i, i < m → i < 15 ∧ bump_top f P + i * P ≤ 485) :
    ∃ (out : Mem) (mo : Nat) (c : List Int),
      maxim_find_peaks locs0 f 495 (threshold f) 8 5 = .ok (out, min (mo : Int) 5) ∧
      m ≤ c.length ∧ (∀ i, i < m → rd c i = bump_peak f P i) ∧
      (∀ v ∈ c.drop m, v ≤ 493 ∧ (∀ i, i < m → bump_peak f P i < v) ∧
        ∃ j : Nat, v = (j : Int) ∧ Qualifies f 495 (threshold f) j) ∧
      (∀ p q, p < q → q < mo → rd out p < rd out q) ∧
      (∀ v, (∃ p, p < mo ∧ rd out p = v) ↔ v ∈ greedy_selection 8 [-1] c) := by
  obtain ⟨ht0, ht1⟩ := bump_threshold f P hP hP2 hf
  obtain ⟨tr1, tr2⟩ := bump_top_range f P hf
  obtain ⟨locs, npks, e1, hlen1, n1, n2, n3, n4⟩ :=
    peaks_scan_spec locs0 f 495 (threshold f) hl
  have T := places_recorded P (bump_top f P) 485 (by omega) (by omega)
    (Qualifies f 495 (threshold f)) locs npks
    (fun k h1 h2 h3 => bump_top_qualifies f P k _ hP hf ht1 h1 h2 h3)
    (fun k h2 hq => bump_only_tops f P k _ hP hf ht0 h2 hq) n2 n3 n4
  have hT : ∀ i, i < m → i < npks ∧ rd locs i = bump_peak f P i :=
    fun i hi => T i (hfit i hi).1 (hfit i hi).2
  have hrange : ∀ k, k < npks → 0 ≤ rd locs k ∧ rd locs k ≤ 493 := by
    intro k hk
    obtain ⟨j, ej, hq⟩ := n2 k hk
    have := hq.2.1
    rw [ej]
    omega
  obtain ⟨out, mo, σ, c, e2, hcl, s1, s3, hck, hlex, hmo, hasc, hmem, _, _⟩ :=
    remove_close_peaks_selection locs npks f 8 (by norm_num)
      (by omega) (fun k hk => ⟨(hrange k hk).1, by have := (hrange k hk).2; omega⟩)
  have hmn : m ≤ npks := by
    rcases Nat.eq_zero_or_pos m with h | h
    · omega
    · have := (hT (m - 1) (by omega)).1
      omega
  have hamp : ∀ p, p < npks → f (rd locs p).toNat ≤ f (P - 5) := by
    intro p hp
    obtain ⟨j, ej, hq⟩ := n2 p hp
    have hj := hq.2.1
    rw [ej, Int.toNat_natCast]
    by_cases cj : j < 489
    · exact (abs_le.mp (bump_abs f P hP hf j cj)).2
    · by_cases cP : 33 ≤ P
      · exact hf.2.2.2.2.2.2.2.2.2.2.2.2.2.2.2.2.2.1 cP j (by omega) (by omega)
      · exfalso
        have hmul : 14 * P ≤ 14 * 32 := Nat.mul_le_mul_left 14 (by omega)
        have h14 := T 14 (by omega) (by omega)
        have hp14 : p ≤ 14 := by omega
        have hi := T p (by omega) (by
          have : p * P ≤ 14 * P := Nat.mul_le_mul_right P hp14
          omega)
        rw [ej] at hi
        have hle : p * P ≤ 14 * P := Nat.mul_le_mul_right P hp14
        have : j = bump_top f P + p * P := by exact_mod_cast hi.2
        omega
  have hfix := stable_prefix (fun v => f v.toNat) locs npks m σ (f (P - 5)) s1 s3
    (fun p q hpq hq => by
      have := hlex p q hpq hq
      rw [hck p (by omega), hck q hq] at this
      exact this)
    hamp
    (fun i hi => by
      show f (rd locs i).toNat = f (P - 5)
      rw [(hT i hi).2]
      unfold bump_peak
      rw [Int.toNat_natCast, hf.1 _ (by have := (hfit i hi).2; omega),
        place_residue P _ i (by omega)]
      exact bump_top_value f P hf)
    hmn
  refine ⟨out, mo, c, ?_, by omega, ?_, ?_, hasc, hmem⟩
  · unfold maxim_find_peaks
    simp only [e1, e2]
  · intro i hi
    rw [hck i (by omega), hfix i hi, (hT i hi).2]
  · intro v hv
    obtain ⟨p, hp1, hp2, hp3⟩ := mem_drop_rd c m v hv
    rw [hcl] at hp2
    have hs := s1 p hp2
    have hge : m ≤ σ p := by
      by_contra hlt
      have := s3 (σ p) p (hfix (σ p) (by omega))
      omega
    rw [← hp3, hck p hp2]
    refine ⟨(hrange _ hs).2, fun i hi => ?_, ?_⟩
    · rw [← (hT i hi).2]
      exact n3 i (σ p) (by omega) hs
    · obtain ⟨j, ej, hq⟩ := n2 (σ p) hs
      exact ⟨j, ej, hq⟩

/-! ## A signal with one bump per period: the peaks found -/

theorem bump_peak_eq (f : Nat → Int) (P i : Nat) :
    bump_peak f P i = (bump_top f P : Int) + (i : Int) * (P : Int) := by
  unfold bump_peak
  push_cast
  ring

theorem list_split4 (c : List Int) (a0 a1 a2 a3 : Int) (h : 4 ≤ c.length)
    (h0 : rd c 0 = a0) (h1 : rd c 1 = a1) (h2 : rd c 2 = a2) (h3 : rd c 3 = a3) :
    c = [a0, a1, a2, a3] ++ c.drop 4 := by
  match c, h with
  | b0 :: b1 :: b2 :: b3 :: rest, _ =>
    simp only [rd, List.getD_cons_zero, List.getD_cons_succ] at h0 h1 h2 h3
    subst h0 h1 h2 h3
    rfl

/-- Five leading candidates in steps of `P ≥ 9`, the first at 8 or later, are the first five
peaks returned. -/
theorem select_five (out : Mem) (mo : Nat) (c : List Int) (t P : Int) (hP : 9 ≤ P) (h8 : 8 ≤ t)
    (hlen : 5 ≤ c.length)
    (hhead : rd c 0 = t ∧ rd c 1 = t + P ∧ rd c 2 = t + 2 * P ∧ rd c 3 = t + 3 * P ∧
      rd c 4 = t + 4 * P)
    (hdrop : ∀ v ∈ c.drop 5, t + 4 * P < v)
    (hasc : ∀ p q, p < q → q < mo → rd out p < rd out q)
    (hmem : ∀ v, (∃ p, p < mo ∧ rd out p = v) ↔ v ∈ greedy_selection 8 [-1] c) :
    5 ≤ mo ∧ rd out 0 = t ∧ rd out 1 = t + P ∧ rd out 2 = t + 2 * P ∧ rd out 3 = t + 3 * P ∧
      rd out 4 = t + 4 * P := by
  obtain ⟨h0, h1, h2, h3, h4⟩ := hhead
  have hsplit := list_split5 c _ _ _ _ _ hlen h0 h1 h2 h3 h4
  have hpw : List.Pairwise (fun x y => x + 8 < y) [t, t + P, t + 2 * P, t + 3 * P, t + 4 * P] := by
    simp only [List.pairwise_cons, List.mem_cons, List.not_mem_nil, or_false,
      List.Pairwise.nil, and_true, forall_eq_or_imp, forall_eq, IsEmpty.forall_iff,
      implies_true]
    omega
  have hrun := greedy_selection_run [-1] [t, t + P, t + 2 * P, t + 3 * P, t + 4 * P]
    (c.drop 5) []
    (by
      intro a ha x hx
      simp only [List.append_nil, List.mem_singleton] at ha
      simp only [List.mem_cons, List.not_mem_nil, or_false] at hx
      subst ha
      rcases hx with h | h | h | h | h <;> subst h <;> omega) hpw
  have hG : greedy_selection 8 [-1] c
      = [t, t + P, t + 2 * P, t + 3 * P, t + 4 * P]
        ++ greedy_selection 8 ([-1] ++ [] ++ [t, t + P, t + 2 * P, t + 3 * P, t + 4 * P])
          (c.drop 5) := by
    rw [← hrun]
    conv_lhs => rw [hsplit]
    simp only [List.append_nil]
  have hpre := ascending_prefix_run out mo c _ _ _ hasc hmem hG hpw
    (by
      intro v hv x hx
      have h5 := hdrop v hv
      simp only [List.mem_cons, List.not_mem_nil, or_false] at hx
      rcases hx with h | h | h | h | h <;> subst h <;> omega)
  have l5 : [t, t + P, t + 2 * P, t + 3 * P, t + 4 * P].length = 5 := rfl
  refine ⟨?_, ?_, ?_, ?_, ?_, ?_⟩
  · have := (hpre 4 (by omega)).1
    omega
  · rw [(hpre 0 (by omega)).2]; rfl
  · rw [(hpre 1 (by omega)).2]; rfl
  · rw [(hpre 2 (by omega)).2]; rfl
  · rw [(hpre 3 (by omega)).2]; rfl
  · rw [(hpre 4 (by omega)).2]; rfl

/-- Six leading candidates in steps of `P ≥ 9`, the first below 8: the lag-zero rule rejects
the first, the next five are the first five peaks returned. -/
theorem select_five_skip (out : Mem) (mo : Nat) (c : List Int) (t P : Int) (hP : 9 ≤ P)
    (h0t : 0 ≤ t) (h7 : t ≤ 7) (hlen : 6 ≤ c.length)
    (hhead : rd c 0 = t ∧ rd c 1 = t + P ∧ rd c 2 = t + 2 * P ∧ rd c 3 = t + 3 * P ∧
      rd c 4 = t + 4 * P ∧ rd c 5 = t + 5 * P)
    (hdrop : ∀ v ∈ c.drop 6, t + 5 * P < v)
    (hasc : ∀ p q, p < q → q < mo → rd out p < rd out q)
    (hmem : ∀ v, (∃ p, p < mo ∧ rd out p = v) ↔ v ∈ greedy_selection 8 [-1] c) :
    5 ≤ mo ∧ rd out 0 = t + P ∧ rd out 1 = t + 2 * P ∧ rd out 2 = t + 3 * P ∧
      rd out 3 = t + 4 * P ∧ rd out 4 = t + 5 * P := by
  obtain ⟨h0, h1, h2, h3, h4, h5⟩ := hhead
  have hsplit := list_split6 c _ _ _ _ _ _ hlen h0 h1 h2 h3 h4 h5
  have hrej : ¬ ∀ a ∈ [(-1 : Int)], |t - a| > 8 := by
    intro h
    have := h (-1) (List.mem_singleton.mpr rfl)
    rw [abs_of_nonneg (by omega)] at this
    omega
  have hpw : List.Pairwise (fun x y => x + 8 < y)
      [t + P, t + 2 * P, t + 3 * P, t + 4 * P, t + 5 * P] := by
    simp only [List.pairwise_cons, List.mem_cons, List.not_mem_nil, or_false,
      List.Pairwise.nil, and_true, forall_eq_or_imp, forall_eq, IsEmpty.forall_iff,
      implies_true]
    omega
  have hrun := greedy_selection_run [-1] [t + P, t + 2 * P, t + 3 * P, t + 4 * P, t + 5 * P]
    (c.drop 6) []
    (by
      intro a ha x hx
      simp only [List.append_nil, List.mem_singleton] at ha
      simp only [List.mem_cons, List.not_mem_nil, or_false] at hx
      subst ha
      rcases hx with h | h | h | h | h <;> subst h <;> omega) hpw
  have hG : greedy_selection 8 [-1] c
      = [t + P, t + 2 * P, t + 3 * P, t + 4 * P, t + 5 * P]
        ++ greedy_selection 8
          ([-1] ++ [] ++ [t + P, t + 2 * P, t + 3 * P, t + 4 * P, t + 5 * P]) (c.drop 6) := by
    rw [← hrun]
    conv_lhs => rw [hsplit]
    simp only [List.singleton_append, List.cons_append, List.append_nil, greedy_selection,
      List.nil_append]
    rw [if_neg hrej]
  have hpre := ascending_prefix_run out mo c _ _ _ hasc hmem hG hpw
    (by
      intro v hv x hx
      have h5 := hdrop v hv
      simp only [List.mem_cons, List.not_mem_nil, or_false] at hx
      rcases hx with h | h | h | h | h <;> subst h <;> omega)
  have l5 : [t + P, t + 2 * P, t + 3 * P, t + 4 * P, t + 5 * P].length = 5 := rfl
  refine ⟨?_, ?_, ?_, ?_, ?_, ?_⟩
  · have := (hpre 4 (by omega)).1
    omega
  · rw [(hpre 0 (by omega)).2]; rfl
  · rw [(hpre 1 (by omega)).2]; rfl
  · rw [(hpre 2 (by omega)).2]; rfl
  · rw [(hpre 3 (by omega)).2]; rfl
  · rw [(hpre 4 (by omega)).2]; rfl

/-- Four leading candidates in steps of `P ≥ 9`, the first at 8 or later, are the first four
peaks returned, and a fifth peak is one of the later candidates. -/
theorem select_four (out : Mem) (mo : Nat) (c : List Int) (t P : Int) (hP : 9 ≤ P) (h8 : 8 ≤ t)
    (hlen : 4 ≤ c.length)
    (hhead : rd c 0 = t ∧ rd c 1 = t + P ∧ rd c 2 = t + 2 * P ∧ rd c 3 = t + 3 * P)
    (hdrop : ∀ v ∈ c.drop 4, t + 3 * P < v)
    (hasc : ∀ p q, p < q → q < mo → rd out p < rd out q)
    (hmem : ∀ v, (∃ p, p < mo ∧ rd out p = v) ↔ v ∈ greedy_selection 8 [-1] c) :
    4 ≤ mo ∧ rd out 0 = t ∧ rd out 1 = t + P ∧ rd out 2 = t + 2 * P ∧ rd out 3 = t + 3 * P ∧
      (5 ≤ mo → rd out 4 ∈ c.drop 4) := by
  obtain ⟨h0, h1, h2, h3⟩ := hhead
  have hsplit := list_split4 c _ _ _ _ hlen h0 h1 h2 h3
  have hpw : List.Pairwise (fun x y => x + 8 < y) [t, t + P, t + 2 * P, t + 3 * P] := by
    simp only [List.pairwise_cons, List.mem_cons, List.not_mem_nil, or_false,
      List.Pairwise.nil, and_true, forall_eq_or_imp, forall_eq, IsEmpty.forall_iff,
      implies_true]
    omega
  have hrun := greedy_selection_run [-1] [t, t + P, t + 2 * P, t + 3 * P] (c.drop 4) []
    (by
      intro a ha x hx
      simp only [List.append_nil, List.mem_singleton] at ha
      simp only [List.mem_cons, List.not_mem_nil, or_false] at hx
      subst ha
      rcases hx with h | h | h | h <;> subst h <;> omega) hpw
  have hG : greedy_selection 8 [-1] c
      = [t, t + P, t + 2 * P, t + 3 * P]
        ++ greedy_selection 8 ([-1] ++ [] ++ [t, t + P, t + 2 * P, t + 3 * P]) (c.drop 4) := by
    rw [← hrun]
    conv_lhs => rw [hsplit]
    simp only [List.append_nil]
  have hpre := ascending_prefix_run out mo c _ _ _ hasc hmem hG hpw
    (by
      intro v hv x hx
      have h5 := hdrop v hv
      simp only [List.mem_cons, List.not_mem_nil, or_false] at hx
      rcases hx with h | h | h | h <;> subst h <;> omega)
  have l4 : [t, t + P, t + 2 * P, t + 3 * P].length = 4 := rfl
  have r0 : rd out 0 = t := by rw [(hpre 0 (by omega)).2]; rfl
  have r1 : rd out 1 = t + P := by rw [(hpre 1 (by omega)).2]; rfl
  have r2 : rd out 2 = t + 2 * P := by rw [(hpre 2 (by omega)).2]; rfl
  have r3 : rd out 3 = t + 3 * P := by rw [(hpre 3 (by omega)).2]; rfl
  refine ⟨?_, r0, r1, r2, r3, fun h5 => ?_⟩
  · have := (hpre 3 (by omega)).1
    omega
  · have hin : rd out 4 ∈ greedy_selection 8 [-1] c := (hmem _).mp ⟨4, by omega, rfl⟩
    have h34 := hasc 3 4 (by omega) (by omega)
    rw [hG] at hin
    rcases List.mem_append.mp hin with h | h
    · exfalso
      simp only [List.mem_cons, List.not_mem_nil, or_false] at h
      rcases h with h | h | h | h <;> omega
    · exact (greedy_selection_mem 8 _ _ _ h).1

theorem bump_peaks_five (f : Nat → Int) (P : Nat) (locs0 : Mem) (hP : 9 ≤ P) (hP2 : P ≤ 98)
    (hf : BumpSignal f P) (hl : 15 ≤ locs0.length) :
    ∃ (out : Mem) (i0 : Nat),
      maxim_find_peaks locs0 f 495 (threshold f) 8 5 = .ok (out, 5) ∧
      (i0 = 0 ∨ (i0 = 1 ∧ P ≤ 13)) ∧ ∀ i, i < 5 → rd out i = bump_peak f P (i0 + i) := by
  obtain ⟨tr1, tr2⟩ := bump_top_range f P hf
  have hPz : (9 : Int) ≤ (P : Int) := by exact_mod_cast hP
  have p0 : bump_peak f P 0 = (bump_top f P : Int) := by rw [bump_peak_eq]; push_cast; ring
  have p1 : bump_peak f P 1 = (bump_top f P : Int) + P := by rw [bump_peak_eq]; push_cast; ring
  have p2 : bump_peak f P 2 = (bump_top f P : Int) + 2 * P := by
    rw [bump_peak_eq]; push_cast; ring
  have p3 : bump_peak f P 3 = (bump_top f P : Int) + 3 * P := by
    rw [bump_peak_eq]; push_cast; ring
  have p4 : bump_peak f P 4 = (bump_top f P : Int) + 4 * P := by
    rw [bump_peak_eq]; push_cast; ring
  have p5 : bump_peak f P 5 = (bump_top f P : Int) + 5 * P := by
    rw [bump_peak_eq]; push_cast; ring
  by_cases cP : bump_top f P ≤ 7
  · have hmul : 5 * P ≤ 5 * 13 := Nat.mul_le_mul_left 5 (by omega)
    obtain ⟨out, mo, c, e, hlen, hhead, hdrop, hasc, hmem⟩ :=
      bump_candidates_head f P locs0 hP (by omega) hf hl 6 (fun i hi => by
        have : i * P ≤ 5 * P := Nat.mul_le_mul_right P (by omega)
        exact ⟨by omega, by omega⟩)
    obtain ⟨hmo, o0, o1, o2, o3, o4⟩ := select_five_skip out mo c (bump_top f P : Int) P hPz
      (by omega) (by omega) hlen
      ⟨by rw [hhead 0 (by omega), p0], by rw [hhead 1 (by omega), p1],
        by rw [hhead 2 (by omega), p2], by rw [hhead 3 (by omega), p3],
        by rw [hhead 4 (by omega), p4], by rw [hhead 5 (by omega), p5]⟩
      (fun v hv => by rw [← p5]; exact (hdrop v hv).2.1 5 (by omega)) hasc hmem
    refine ⟨out, 1, ?_, Or.inr ⟨rfl, by omega⟩, ?_⟩
    · rw [e]
      have e5 : min (mo : Int) 5 = 5 := by omega
      rw [e5]
    · intro i hi
      have hi5 : i = 0 ∨ i = 1 ∨ i = 2 ∨ i = 3 ∨ i = 4 := by omega
      rcases hi5 with h | h | h | h | h <;> subst h
      · rw [o0, ← p1]
      · rw [o1, ← p2]
      · rw [o2, ← p3]
      · rw [o3, ← p4]
      · rw [o4, ← p5]
  · have hmul : 4 * P ≤ 4 * 98 := Nat.mul_le_mul_left 4 hP2
    obtain ⟨out, mo, c, e, hlen, hhead, hdrop, hasc, hmem⟩ :=
      bump_candidates_head f P locs0 hP (by omega) hf hl 5 (fun i hi => by
        have : i * P ≤ 4 * P := Nat.mul_le_mul_right P (by omega)
        exact ⟨by omega, by omega⟩)
    obtain ⟨hmo, o0, o1, o2, o3, o4⟩ := select_five out mo c (bump_top f P : Int) P hPz
      (by omega) hlen
      ⟨by rw [hhead 0 (by omega), p0], by rw [hhead 1 (by omega), p1],
        by rw [hhead 2 (by omega), p2], by rw [hhead 3 (by omega), p3],
        by rw [hhead 4 (by omega), p4]⟩
      (fun v hv => by rw [← p4]; exact (hdrop v hv).2.1 4 (by omega)) hasc hmem
    refine ⟨out, 0, ?_, Or.inl rfl, ?_⟩
    · rw [e]
      have e5 : min (mo : Int) 5 = 5 := by omega
      rw [e5]
    · intro i hi
      have hi5 : i = 0 ∨ i = 1 ∨ i = 2 ∨ i = 3 ∨ i = 4 := by omega
      rcases hi5 with h | h | h | h | h <;> subst h
      · rw [o0, ← p0]
      · rw [o1, ← p1]
      · rw [o2, ← p2]
      · rw [o3, ← p3]
      · rw [o4, ← p4]

theorem bump_late_candidate (f : Nat → Int) (P j : Nat) (t : Int) (hP : 99 ≤ P)
    (hP2 : P ≤ 100) (hf : BumpSignal f P) (ht : 0 ≤ t) (hq : Qualifies f 495 t j)
    (hj : bump_peak f P 3 < (j : Int)) : 487 ≤ j := by
  obtain ⟨tr1, tr2⟩ := bump_top_range f P hf
  have p3 : bump_peak f P 3 = (bump_top f P : Int) + 3 * P := by
    rw [bump_peak_eq]; push_cast; ring
  by_contra hcon
  by_cases c : j ≤ 485
  · have hr := bump_only_tops f P j t (by omega) hf ht c hq
    exact no_place_between P (bump_top f P) j 4 hr (by omega) (Or.inr (by
      simp only [Nat.add_one_sub_one]
      omega))
  · have e : j = 486 := by omega
    subst e
    have hpos : 0 < f 486 := by
      have := hq.2.2.1
      omega
    have := bump_positive_place f P 486 (by omega) hf (by omega) hpos
    have hP3 : P = 99 ∨ P = 100 := by omega
    rcases hP3 with h | h <;> subst h <;> omega

theorem bump_peaks_four (f : Nat → Int) (P : Nat) (locs0 : Mem) (hP : 99 ≤ P) (hP2 : P ≤ 100)
    (hf : BumpSignal f P) (hl : 15 ≤ locs0.length) :
    ∃ (out : Mem) (n : Nat),
      maxim_find_peaks locs0 f 495 (threshold f) 8 5 = .ok (out, (n : Int)) ∧
      (n = 4 ∨ (n = 5 ∧ 487 ≤ rd out 4 ∧ rd out 4 ≤ 493)) ∧
      ∀ i, i < 4 → rd out i = bump_peak f P i := by
  obtain ⟨tr1, tr2⟩ := bump_top_range f P hf
  obtain ⟨ht0, _⟩ := bump_threshold f P (by omega) hP2 hf
  have hPz : (9 : Int) ≤ (P : Int) := by
    have : 9 ≤ P := by omega
    exact_mod_cast this
  have p0 : bump_peak f P 0 = (bump_top f P : Int) := by rw [bump_peak_eq]; push_cast; ring
  have p1 : bump_peak f P 1 = (bump_top f P : Int) + P := by rw [bump_peak_eq]; push_cast; ring
  have p2 : bump_peak f P 2 = (bump_top f P : Int) + 2 * P := by
    rw [bump_peak_eq]; push_cast; ring
  have p3 : bump_peak f P 3 = (bump_top f P : Int) + 3 * P := by
    rw [bump_peak_eq]; push_cast; ring
  have hmul : 3 * P ≤ 3 * 100 := Nat.mul_le_mul_left 3 hP2
  obtain ⟨out, mo, c, e, hlen, hhead, hdrop, hasc, hmem⟩ :=
    bump_candidates_head f P locs0 (by omega) hP2 hf hl 4 (fun i hi => by
      have : i * P ≤ 3 * P := Nat.mul_le_mul_right P (by omega)
      exact ⟨by omega, by omega⟩)
  obtain ⟨hmo4, o0, o1, o2, o3, o4⟩ := select_four out mo c (bump_top f P : Int) P hPz
    (by omega) hlen
    ⟨by rw [hhead 0 (by omega), p0], by rw [hhead 1 (by omega), p1],
      by rw [hhead 2 (by omega), p2], by rw [hhead 3 (by omega), p3]⟩
    (fun v hv => by rw [← p3]; exact (hdrop v hv).2.1 3 (by omega)) hasc hmem
  have hout : ∀ i, i < 4 → rd out i = bump_peak f P i := by
    intro i hi
    have hi4 : i = 0 ∨ i = 1 ∨ i = 2 ∨ i = 3 := by omega
    rcases hi4 with h | h | h | h <;> subst h
    · rw [o0, ← p0]
    · rw [o1, ← p1]
    · rw [o2, ← p2]
    · rw [o3, ← p3]
  by_cases c4 : mo = 4
  · refine ⟨out, 4, ?_, Or.inl rfl, hout⟩
    rw [e, c4]
    rfl
  · refine ⟨out, 5, ?_, Or.inr ⟨rfl, ?_⟩, hout⟩
    · rw [e]
      have e5 : min (mo : Int) 5 = ((5 : Nat) : Int) := by
        push_cast
        omega
      rw [e5]
    · have hv := o4 (by omega)
      obtain ⟨h493, h3, j, ej, hq⟩ := hdrop _ hv
      have h34 := h3 3 (by omega)
      rw [ej] at h34
      have := bump_late_candidate f P j _ hP hP2 hf ht0 hq h34
      omega

/-- The peaks that the search finds in a signal with one bump per period `P`: at least two,
more than 8 entries apart, with a truncated average distance within 2 of `P`. -/
theorem bump_estimate_peaks (f : Nat → Int) (P : Nat) (locs0 : Mem) (hP : 9 ≤ P) (hP2 : P ≤ 100)
    (hf : BumpSignal f P) (hl : 15 ≤ locs0.length) :
    ∃ (out : Mem) (n : Nat),
      maxim_find_peaks locs0 f 495 (threshold f) 8 5 = .ok (out, (n : Int)) ∧
      2 ≤ n ∧ (∀ a, a + 1 < n → rd out a + 9 ≤ rd out (a + 1)) ∧ 0 ≤ rd out 0 ∧
      rd out (n - 1) < 500 ∧
      (Int.tdiv (rd out (n - 1) - rd out 0) ((n : Int) - 1) = P ∨
        (99 ≤ P ∧ 98 ≤ Int.tdiv (rd out (n - 1) - rd out 0) ((n : Int) - 1) ∧
          Int.tdiv (rd out (n - 1) - rd out 0) ((n : Int) - 1) ≤ 100)) := by
  obtain ⟨tr1, tr2⟩ := bump_top_range f P hf
  by_cases c98 : P ≤ 98
  · obtain ⟨out, i0, e, hi0, hout⟩ := bump_peaks_five f P locs0 hP c98 hf hl
    have h0 := hout 0 (by omega)
    have h1 := hout 1 (by omega)
    have h2 := hout 2 (by omega)
    have h3 := hout 3 (by omega)
    have h4 := hout 4 (by omega)
    rw [bump_peak_eq] at h0 h1 h2 h3 h4
    have hlast : rd out 4 < 500 ∧ 0 ≤ rd out 0 := by
      rcases hi0 with h | ⟨h, hP13⟩ <;> subst h <;> push_cast at h0 h4 <;> constructor <;> omega
    have hstep : rd out 1 = rd out 0 + P ∧ rd out 2 = rd out 1 + P ∧ rd out 3 = rd out 2 + P ∧
        rd out 4 = rd out 3 + P := by
      rw [h0, h1, h2, h3, h4]
      push_cast
      refine ⟨?_, ?_, ?_, ?_⟩ <;> ring
    obtain ⟨q1, q2, q3, q4⟩ := hstep
    refine ⟨out, 5, e, by omega, ?_, hlast.2, hlast.1, Or.inl ?_⟩
    · intro a ha
      have ha2 : a ≤ 3 := by omega
      interval_cases a <;> simp only [Nat.reduceAdd] <;> omega
    · show Int.tdiv (rd out 4 - rd out 0) (((5 : Nat) : Int) - 1) = P
      have e4 : rd out 4 - rd out 0 = 4 * (P : Int) := by omega
      rw [e4, Int.tdiv_eq_ediv (by omega) (by norm_num)]
      norm_num
  · obtain ⟨out, n, e, hn, hout⟩ := bump_peaks_four f P locs0 (by omega) hP2 hf hl
    have h0 := hout 0 (by omega)
    have h1 := hout 1 (by omega)
    have h2 := hout 2 (by omega)
    have h3 := hout 3 (by omega)
    rw [bump_peak_eq] at h0 h1 h2 h3
    push_cast at h0 h1 h2 h3
    rcases hn with h | ⟨h, h487, h493⟩
    · subst h
      refine ⟨out, 4, e, by omega, ?_, by omega, ?_, Or.inl ?_⟩
      · intro a ha
        have ha2 : a ≤ 2 := by omega
        interval_cases a <;> simp only [Nat.reduceAdd] <;> omega
      · show rd out 3 < 500
        omega
      · show Int.tdiv (rd out 3 - rd out 0) (((4 : Nat) : Int) - 1) = P
        have e4 : rd out 3 - rd out 0 = 3 * (P : Int) := by omega
        rw [e4, Int.tdiv_eq_ediv (by omega) (by norm_num)]
        norm_num
    · subst h
      refine ⟨out, 5, e, by omega, ?_, by omega, ?_, Or.inr ⟨by omega, ?_⟩⟩
      · intro a ha
        have ha2 : a ≤ 3 := by omega
        interval_cases a <;> simp only [Nat.reduceAdd] <;> omega
      · show rd out 4 < 500
        omega
      · show 98 ≤ Int.tdiv (rd out 4 - rd out 0) (((5 : Nat) : Int) - 1) ∧
          Int.tdiv (rd out 4 - rd out 0) (((5 : Nat) : Int) - 1) ≤ 100
        rw [Int.tdiv_eq_ediv (by omega) (by norm_num)]
        norm_num
        omega

/-! ## The conditioned rising sawtooth is a signal with one bump per period -/

theorem place_cases (P r : Nat) (hP : 9 ≤ P) (h1 : ¬ r + 9 < P) (h2 : r < P) :
    r = P - 9 ∨ r = P - 8 ∨ r = P - 7 ∨ r = P - 6 ∨ r = P - 5 ∨ r = P - 4 ∨
      r = P - 3 ∨ r = P - 2 ∨ r = P - 1 := by
  omega

theorem sawtooth_signal (f : Nat → Int) (c : Int) (s P : Nat) (hs : 1 ≤ s) (hP : 9 ≤ P)
    (hP2 : P ≤ 100) (hsP : 2 ≤ s ∨ 12 ≤ P) (hc : 0 ≤ c)
    (hmax : c + (s : Int) * ((P : Int) - 1) < 262144)
    (hf : ∀ k, k < 495 → f k
      = if k < 489 then c_spec (sawtooth c s P) k
        else if k < 494 then e_spec (sawtooth c s P) k else d_spec (sawtooth c s P) k) :
    BumpSignal f P := by
  have hx : ∀ k, k < 500 → 0 ≤ sawtooth c s P k ∧ sawtooth c s P k < 262144 :=
    fun k _ => sawtooth_range c s P (by omega) hc hmax k
  have hy := sawtooth_y c s P (by omega) hc
  have hper : ∀ k, rampy s P (saw_mean s P) (k + P) = rampy s P (saw_mean s P) k :=
    rampy_periodic s P _
  have hc1 : ∀ k, k < 489 → f k = win_c (rampy s P (saw_mean s P)) k := by
    intro k hk
    rw [hf k (by omega), if_pos hk, (spec_as_window _ k).1, hy]
  have he1 : ∀ k, 489 ≤ k → k < 494 → f k = tail_e s P (saw_mean s P) k := by
    intro k hk1 hk2
    rw [hf k (by omega), if_neg (by omega), if_pos hk2, (spec_as_window _ k).2.1, hy]
    rfl
  have hd1 : f 494 = win_d (rampy s P (saw_mean s P)) 494 := by
    rw [hf 494 (by omega), if_neg (by omega), if_neg (by omega), (spec_as_window _ 494).2.2, hy]
  have hb : ∀ j, j ≤ 8 → f (P - 9 + j) = bump s P (saw_mean s P) j := by
    intro j hj
    rw [hc1 _ (by omega)]
    rfl
  have b0 := hb 0 (by omega)
  have b1 := hb 1 (by omega)
  have b2 := hb 2 (by omega)
  have b3 := hb 3 (by omega)
  have b4 := hb 4 (by omega)
  have b5 := hb 5 (by omega)
  have b6 := hb 6 (by omega)
  have b7 := hb 7 (by omega)
  have b8 := hb 8 (by omega)
  have e0 : P - 9 + 0 = P - 9 := rfl
  have e1 : P - 9 + 1 = P - 8 := by omega
  have e2 : P - 9 + 2 = P - 7 := by omega
  have e3 : P - 9 + 3 = P - 6 := by omega
  have e4 : P - 9 + 4 = P - 5 := by omega
  have e5 : P - 9 + 5 = P - 4 := by omega
  have e6 : P - 9 + 6 = P - 3 := by omega
  have e7 : P - 9 + 7 = P - 2 := by omega
  have e8 : P - 9 + 8 = P - 1 := by omega
  rw [e0] at b0
  rw [e1] at b1
  rw [e2] at b2
  rw [e3] at b3
  rw [e4] at b4
  rw [e5] at b5
  rw [e6] at b6
  rw [e7] at b7
  rw [e8] at b8
  obtain ⟨g1, g2, g3, g4, g5, g6, g7, g8, g9, g10, g11, g12, g13, g14, g15, g16, g17, g18⟩ :=
    bump_facts s P hs hP hP2 hsP
  have t489 := he1 489 (by omega) (by omega)
  have t490 := he1 490 (by omega) (by omega)
  have t491 := he1 491 (by omega) (by omega)
  have t492 := he1 492 (by omega) (by omega)
  have t493 := he1 493 (by omega) (by omega)
  have q1 : f (P - 9) ≤ 0 := by rw [b0]; exact g1
  have q2 : f (P - 1) ≤ 0 := by rw [b8]; exact g2
  have q3 : -f (P - 5) ≤ f (P - 9) := by rw [b0, b4]; exact g3
  have q4 : -f (P - 5) ≤ f (P - 1) := by rw [b8, b4]; exact g4
  have q5 : f (P - 9) ≤ f (P - 8) := by rw [b0, b1]; exact g5
  have q6 : f (P - 8) ≤ f (P - 7) := by rw [b1, b2]; exact g6
  have q7 : f (P - 7) ≤ f (P - 6) := by rw [b2, b3]; exact g7
  have q8 : f (P - 6) ≤ f (P - 5) := by rw [b3, b4]; exact g8
  have q9 : f (P - 4) ≤ f (P - 5) := by rw [b5, b4]; exact g9
  have q10 : f (P - 3) ≤ f (P - 4) := by rw [b6, b5]; exact g10
  have q11 : f (P - 2) ≤ f (P - 3) := by rw [b7, b6]; exact g11
  have q12 : f (P - 1) ≤ f (P - 2) := by rw [b8, b7]; exact g12
  have q13 : f (P - 7) < f (P - 5) := by rw [b2, b4]; exact g13
  have q14 : f (P - 3) < f (P - 5) := by rw [b6, b4]; exact g14
  have q15 : 1 ≤ f (P - 5) := by rw [b4]; exact g15
  have q16 : 10 ≤ P → (s : Int) ≤ f (P - 5) := by rw [b4]; exact g16
  have q17 : |f 489| + |f 490| + |f 491| + |f 492| + |f 493| + |f 494|
      + 4 * |f (P - 7)| + 4 * |f (P - 3)| < 14 * f (P - 5) := by
    rw [t489, t490, t491, t492, t493, hd1, b2, b6, b4]
    exact g17
  have q18 : 33 ≤ P → f 489 ≤ f (P - 5) ∧ f 490 ≤ f (P - 5) ∧ f 491 ≤ f (P - 5) ∧
      f 492 ≤ f (P - 5) ∧ f 493 ≤ f (P - 5) := by
    rw [t489, t490, t491, t492, t493, b4]
    exact g18
  clear g1 g2 g3 g4 g5 g6 g7 g8 g9 g10 g11 g12 g13 g14 g15 g16 g17 g18 b0 b1 b2 b3 b4 b5 b6 b7 b8
    t489 t490 t491 t492 t493 hd1 hb he1
  refine ⟨fun k hk => ?_, fun r hr => ?_, fun r hr => ?_, q1, q2, q5, q6, q7, q8, q9, q10, q11,
    q12, q13, q14, q15, q17, fun h k hk1 hk2 => ?_, fun k hk => ?_⟩
  · rw [hc1 k hk, hc1 (k % P) (by have := Nat.mod_lt k (by omega : 0 < P); omega)]
    exact win_c_mod _ P hper k
  · rw [hc1 r (by omega)]
    have := (rampy_baseline s P (saw_mean s P) r hs hP (by
      rw [Nat.mod_eq_of_lt (by omega)]
      exact hr)).2
    have hs2 : (1 : Int) ≤ s := by exact_mod_cast hs
    omega
  · by_cases cr : r + 9 < P
    · rw [hc1 r (by omega)]
      have hbl := rampy_baseline s P (saw_mean s P) r hs hP (by
        rw [Nat.mod_eq_of_lt (by omega)]
        exact cr)
      have hs2 : (1 : Int) ≤ s := by exact_mod_cast hs
      have := q16 (by omega)
      exact abs_le.mpr ⟨by omega, by omega⟩
    · have hj := place_cases P r hP cr hr
      have hlo : ∀ v : Int, f (P - 9) ≤ v ∨ f (P - 1) ≤ v → -f (P - 5) ≤ v := by
        intro v hv
        rcases hv with h | h <;> omega
      rcases hj with h | h | h | h | h | h | h | h | h <;> rw [h]
      · exact abs_le.mpr ⟨q3, by omega⟩
      · exact abs_le.mpr ⟨hlo _ (Or.inl q5), by omega⟩
      · exact abs_le.mpr ⟨hlo _ (Or.inl (by omega)), by omega⟩
      · exact abs_le.mpr ⟨hlo _ (Or.inl (by omega)), q8⟩
      · exact abs_le.mpr ⟨by omega, le_refl _⟩
      · exact abs_le.mpr ⟨hlo _ (Or.inr (by omega)), q9⟩
      · exact abs_le.mpr ⟨hlo _ (Or.inr (by omega)), by omega⟩
      · exact abs_le.mpr ⟨hlo _ (Or.inr q12), by omega⟩
      · exact abs_le.mpr ⟨q4, by omega⟩
  · have hk5 : k = 489 ∨ k = 490 ∨ k = 491 ∨ k = 492 ∨ k = 493 := by omega
    obtain ⟨t1, t2, t3, t4, t5⟩ := q18 h
    rcases hk5 with h | h | h | h | h <;> subst h <;> assumption
  · rw [hf k hk]
    by_cases c1 : k < 489
    · rw [if_pos c1]
      have := c_spec_bound _ hx k c1
      omega
    · rw [if_neg c1]
      by_cases c2 : k < 494
      · rw [if_pos c2]
        have := e_spec_bound _ hx k (by omega)
        omega
      · rw [if_neg c2]
        have := d_spec_bound _ hx k (by omega)
        omega

/-! ## Sawtooth buffers on which the estimate fails -/

theorem flat_call (c : Int) (s P : Nat) (tail : List Int) (hr v : Int) (hP : 0 < P)
    (hc : 0 ≤ c) (hmax : c + (s : Int) * ((P : Int) - 1) < 262144)
    (hw0 : ∀ r, r < P → win_c (rampy s P (saw_mean s P)) r = 0)
    (hw : win_e (rampy s P (saw_mean s P)) 489 = rd tail 0 ∧
      win_e (rampy s P (saw_mean s P)) 490 = rd tail 1 ∧
      win_e (rampy s P (saw_mean s P)) 491 = rd tail 2 ∧
      win_e (rampy s P (saw_mean s P)) 492 = rd tail 3 ∧
      win_e (rampy s P (saw_mean s P)) 493 = rd tail 4 ∧
      win_d (rampy s P (saw_mean s P)) 494 = rd tail 5 ∧ rd tail 6 = 0)
    (hest : estimate_from (List.replicate 15 0) (flat_conditioned tail) = .ok (hr, v)) :
    ∃ s2, maxim_heart_rate_saturation boot_scratch (List.replicate 15 0) (sawtooth c s P) 500
      = .ok (s2, hr, v) := by
  have hx : ∀ k, k < 500 → 0 ≤ sawtooth c s P k ∧ sawtooth c s P k < 262144 :=
    fun k _ => sawtooth_range c s P hP hc hmax k
  obtain ⟨s2, hr2, v2, e, hest2, hk⟩ := conditioned_exact boot_scratch (List.replicate 15 0)
    (sawtooth c s P) boot_scratch_WF (by simp) hx
  have hy := sawtooth_y c s P hP hc
  obtain ⟨w1, w2, w3, w4, w5, w6, w7⟩ := hw
  have hfg : ∀ k, k ≤ BUFFER_SIZE - HAMMING_SIZE → rd s2.an_dx k = flat_conditioned tail k := by
    intro k hk2
    have hk3 : k ≤ 495 := hk2
    rw [hk k]
    unfold flat_conditioned
    by_cases c1 : k < 489
    · rw [if_pos c1, if_pos c1, (spec_as_window _ k).1, hy,
        win_c_mod _ P (rampy_periodic s P _) k]
      exact hw0 _ (Nat.mod_lt k hP)
    · rw [if_neg c1, if_neg c1]
      have h7 : k = 489 ∨ k = 490 ∨ k = 491 ∨ k = 492 ∨ k = 493 ∨ k = 494 ∨ k = 495 := by omega
      rcases h7 with h | h | h | h | h | h | h <;> subst h
      · rw [if_pos (by omega), (spec_as_window _ _).2.1, hy, w1]
      · rw [if_pos (by omega), (spec_as_window _ _).2.1, hy, w2]
      · rw [if_pos (by omega), (spec_as_window _ _).2.1, hy, w3]
      · rw [if_pos (by omega), (spec_as_window _ _).2.1, hy, w4]
      · rw [if_pos (by omega), (spec_as_window _ _).2.1, hy, w5]
      · rw [if_neg (by omega), if_pos (by omega), (spec_as_window _ _).2.2, hy, w6]
      · rw [if_neg (by omega), if_neg (by omega), boot_scratch_495, w7]
  rw [estimate_from_congr (List.replicate 15 0) (List.replicate 15 0) _ _ hfg (by simp)
    (by simp), hest] at hest2
  injection hest2 with hest2
  injection hest2 with h1 h2
  subst h1 h2
  exact ⟨s2, e⟩

set_option maxRecDepth 1000000 in
theorem step1_windows :
    ((∀ r, r < 9 → win_c (rampy 1 9 (saw_mean 1 9)) r = 0) ∧
      win_e (rampy 1 9 (saw_mean 1 9)) 489 = 1 ∧ win_e (rampy 1 9 (saw_mean 1 9)) 490 = 0 ∧
      win_e (rampy 1 9 (saw_mean 1 9)) 491 = -1 ∧ win_e (rampy 1 9 (saw_mean 1 9)) 492 = -1 ∧
      win_e (rampy 1 9 (saw_mean 1 9)) 493 = -1 ∧ win_d (rampy 1 9 (saw_mean 1 9)) 494 = -1) ∧
    ((∀ r, r < 10 → win_c (rampy 1 10 (saw_mean 1 10)) r = 0) ∧
      win_e (rampy 1 10 (saw_mean 1 10)) 489 = 0 ∧ win_e (rampy 1 10 (saw_mean 1 10)) 490 = 1 ∧
      win_e (rampy 1 10 (saw_mean 1 10)) 491 = 0 ∧ win_e (rampy 1 10 (saw_mean 1 10)) 492 = 0 ∧
      win_e (rampy 1 10 (saw_mean 1 10)) 493 = 1 ∧ win_d (rampy 1 10 (saw_mean 1 10)) 494 = 1) ∧
    ((∀ r, r < 11 → win_c (rampy 1 11 (saw_mean 1 11)) r = 0) ∧
      win_e (rampy 1 11 (saw_mean 1 11)) 489 = 1 ∧ win_e (rampy 1 11 (saw_mean 1 11)) 490 = 0 ∧
      win_e (rampy 1 11 (saw_mean 1 11)) 491 = -1 ∧ win_e (rampy 1 11 (saw_mean 1 11)) 492 = -1 ∧
      win_e (rampy 1 11 (saw_mean 1 11)) 493 = -1 ∧
      win_d (rampy 1 11 (saw_mean 1 11)) 494 = -2) := by
  decide!

set_option maxRecDepth 1000000 in
theorem step1_estimates :
    estimate_from (List.replicate 15 0) (flat_conditioned [1, 0, -1, -1, -1, -1, 0])
      = .ok (-999, 0) ∧
    estimate_from (List.replicate 15 0) (flat_conditioned [0, 1, 0, 0, 1, 1, 0])
      = .ok (-999, 0) ∧
    estimate_from (List.replicate 15 0) (flat_conditioned [1, 0, -1, -1, -1, -2, 0])
      = .ok (-999, 0) := by
  decide!

theorem step1_calls :
    (∃ s2, maxim_heart_rate_saturation boot_scratch (List.replicate 15 0) (sawtooth 1000 1 9) 500
      = .ok (s2, -999, 0)) ∧
    (∃ s2, maxim_heart_rate_saturation boot_scratch (List.replicate 15 0) (sawtooth 1000 1 10) 500
      = .ok (s2, -999, 0)) ∧
    (∃ s2, maxim_heart_rate_saturation boot_scratch (List.replicate 15 0) (sawtooth 1000 1 11) 500
      = .ok (s2, -999, 0)) := by
  obtain ⟨⟨a0, a1, a2, a3, a4, a5, a6⟩, ⟨b0, b1, b2, b3, b4, b5, b6⟩,
    ⟨c0, c1, c2, c3, c4, c5, c6⟩⟩ := step1_windows
  obtain ⟨e9, e10, e11⟩ := step1_estimates
  exact ⟨flat_call 1000 1 9 [1, 0, -1, -1, -1, -1, 0] (-999) 0 (by omega) (by omega) (by decide) a0
      ⟨a1, a2, a3, a4, a5, a6, rfl⟩ e9,
    flat_call 1000 1 10 [0, 1, 0, 0, 1, 1, 0] (-999) 0 (by omega) (by omega) (by decide) b0
      ⟨b1, b2, b3, b4, b5, b6, rfl⟩ e10,
    flat_call 1000 1 11 [1, 0, -1, -1, -1, -2, 0] (-999) 0 (by omega) (by omega) (by decide) c0
      ⟨c1, c2, c3, c4, c5, c6, rfl⟩ e11⟩

set_option maxRecDepth 1000000 in
theorem falling13_estimate :
    estimate_from (List.replicate 15 0) (slope8_conditioned (falling_u 13)) = .ok (-999, 0) := by
  decide!

set_option maxRecDepth 1000000 in
theorem falling14_estimate :
    estimate_from (List.replicate 15 0) (slope8_conditioned (falling_u 14)) = .ok (-999, 0) := by
  decide!

set_option maxRecDepth 1000000 in
theorem falling100_estimate :
    estimate_from (List.replicate 15 0) (slope8_conditioned (falling_u 100)) = .ok (-999, 0) := by
  decide!

theorem falling_sawtooth_range (P k : Nat) (hP2 : P ≤ 100) :
    0 ≤ falling_sawtooth 1000 8 P k ∧ falling_sawtooth 1000 8 P k < 262144 := by
  unfold falling_sawtooth
  omega

theorem falling8_call (P : Nat) (hr v : Int)
    (h : estimate_from (List.replicate 15 0) (slope8_conditioned (falling_u P)) = .ok (hr, v))
    (hP2 : P ≤ 100) :
    ∃ s2, maxim_heart_rate_saturation boot_scratch (List.replicate 15 0)
      (falling_sawtooth 1000 8 P) 500 = .ok (s2, hr, v) := by
  obtain ⟨s2, hr2, v2, e, f, _⟩ := slope8_call boot_scratch (List.replicate 15 0)
    (falling_sawtooth 1000 8 P) (falling_u P) 1000 boot_scratch_WF boot_scratch_495 (by simp)
    (fun _ _ => rfl) (fun k _ => falling_sawtooth_range P k hP2)
  rw [h] at f
  injection f with f
  injection f with f1 f2
  subst f1 f2
  exact ⟨s2, e⟩

theorem sawtooth8_call (P : Nat) (hr v : Int)
    (h : estimate_from (List.replicate 15 0) (slope8_conditioned (sawtooth_u P)) = .ok (hr, v))
    (hP : 1 ≤ P) (hP2 : P ≤ 100) :
    ∃ s2, maxim_heart_rate_saturation boot_scratch (List.replicate 15 0) (sawtooth 1000 8 P) 500
      = .ok (s2, hr, v) := by
  obtain ⟨s2, hr2, v2, e, f, _⟩ := slope8_call boot_scratch (List.replicate 15 0)
    (sawtooth 1000 8 P) (sawtooth_u P) 1000 boot_scratch_WF boot_scratch_495 (by simp)
    (fun _ _ => rfl) (fun k _ => sawtooth_range 1000 8 P hP (by omega) (by
      have : (P : Int) ≤ 100 := by exact_mod_cast hP2
      push_cast
      omega) k)
  rw [h] at f
  injection f with f
  injection f with f1 f2
  subst f1 f2
  exact ⟨s2, e⟩

/-! ## Buffers that hold a rising sawtooth in their 500 samples -/

theorem sum_spec_congr (x1 x2 : Nat → Int) (n : Nat) (h : ∀ k, k < n → x1 k = x2 k) :
    sum_spec x1 n = sum_spec x2 n := by
  induction n with
  | zero => rfl
  | succ m ih =>
    simp only [sum_spec]
    rw [ih (fun k hk => h k (by omega)), h m (by omega)]

theorem spec_congr (x1 x2 : Nat → Int) (h : ∀ k, k < 500 → x1 k = x2 k) :
    (∀ k, k < 489 → c_spec x1 k = c_spec x2 k) ∧ (∀ k, k < 494 → e_spec x1 k = e_spec x2 k) ∧
      d_spec x1 494 = d_spec x2 494 := by
  have hy : ∀ k, k < 500 → y_spec x1 k = y_spec x2 k := fun k hk => by
    unfold y_spec
    rw [h k hk, sum_spec_congr x1 x2 500 h]
  have hm : ∀ k, k < 497 → m_spec x1 k = m_spec x2 k := fun k hk => by
    unfold m_spec
    rw [hy k (by omega), hy (k + 1) (by omega), hy (k + 2) (by omega), hy (k + 3) (by omega)]
  have hd : ∀ k, k < 496 → d_spec x1 k = d_spec x2 k := fun k hk => by
    unfold d_spec
    rw [hm k (by omega), hm (k + 1) (by omega)]
  have he : ∀ k, k < 495 → e_spec x1 k = e_spec x2 k := fun k hk => by
    unfold e_spec
    rw [hd k (by omega), hd (k + 1) (by omega)]
  refine ⟨fun k hk => ?_, fun k hk => he k (by omega), hd 494 (by omega)⟩
  unfold c_spec
  rw [he k (by omega), he (k + 1) (by omega), he (k + 2) (by omega), he (k + 3) (by omega),
    he (k + 4) (by omega)]

theorem sawtooth_buffer_call (s : Scratch) (an_dx_peak_locs : Mem) (ir : Nat → Int)
    (P step : Nat) (c : Int) (hs : s.WF) (hl : 15 ≤ an_dx_peak_locs.length) (hP : 9 ≤ P)
    (hP2 : P ≤ 100) (hstep : 2 ≤ step ∨ (1 ≤ step ∧ 12 ≤ P)) (hc : 0 ≤ c)
    (hmax : c + (step : Int) * ((P : Int) - 1) < 262144)
    (hir : ∀ k, k < 500 → ir k = sawtooth c step P k) :
    ∃ s2 out n hr,
      maxim_heart_rate_saturation s an_dx_peak_locs ir 500 = .ok (s2, hr, 1) ∧ s2.WF ∧
      maxim_find_peaks an_dx_peak_locs (rd s2.an_dx) 495 (threshold (rd s2.an_dx)) 8 5
        = .ok (out, n) ∧
      2 ≤ n ∧
      (peak_interval_average out n = (P : Int) ∨
        (99 ≤ P ∧ 98 ≤ peak_interval_average out n ∧ peak_interval_average out n ≤ 100)) ∧
      hr = Int.tdiv 6000 (peak_interval_average out n) := by
  have hx : ∀ k, k < 500 → 0 ≤ ir k ∧ ir k < 262144 := fun k hk => by
    rw [hir k hk]
    exact sawtooth_range c step P (by omega) hc hmax k
  obtain ⟨g1, g2, g3⟩ := spec_congr ir (sawtooth c step P) hir
  obtain ⟨s2, hr, v, e, hest, hk⟩ := conditioned_exact s an_dx_peak_locs ir hs hl hx
  have hwf : s2.WF := by
    rw [(maxim_heart_rate_saturation_ok s s2 an_dx_peak_locs ir 500 hr v e).2]
    exact (conditioning_rd s ir 500 _ hs (le_refl _)).1
  have hf : BumpSignal (rd s2.an_dx) P :=
    sawtooth_signal (rd s2.an_dx) c step P (by omega) hP hP2 (by omega) hc hmax (fun k hk2 => by
      rw [hk k]
      by_cases c1 : k < 489
      · rw [if_pos c1, if_pos c1, g1 k c1]
      · rw [if_neg c1, if_neg c1]
        by_cases c2 : k < 494
        · rw [if_pos c2, if_pos c2, g2 k c2]
        · have h494 : k = 494 := by omega
          subst h494
          rw [if_neg c2, if_neg c2, if_pos hk2, g3])
  obtain ⟨out, n, ep, hn, hgap, h0, hlast, havg⟩ :=
    bump_estimate_peaks (rd s2.an_dx) P an_dx_peak_locs hP hP2 hf hl
  obtain ⟨r1, _, _⟩ := heart_rate_from_peaks_asc out n hn 9 (by omega) hgap h0 (by omega)
  have ravg := peak_interval_average_asc out n hn 9 (by omega) hgap h0 (by omega)
  have hsz : ((BUFFER_SIZE - HAMMING_SIZE : Nat) : Int) = 495 := by
    simp [BUFFER_SIZE, FS, HAMMING_SIZE]
  unfold estimate_from at hest
  simp only [hsz, ep, r1] at hest
  injection hest with hest
  injection hest with ehr ev
  subst ev
  refine ⟨s2, out, n, hr, e, hwf, ep, by omega, ?_, ?_⟩
  · rw [ravg]
    exact havg
  · rw [ravg]
    exact ehr.symm

theorem fast_bus_samples (t k : Nat) (ht : t < 2) (hk : k < 500) :
    rd (round_samples fast_bus t) k = sawtooth 65536 256 (20 + 5 * t) k := by
  rw [rd_round_samples fast_bus t k hk]
  have hm : k % (20 + 5 * t) < 25 := lt_of_lt_of_le (Nat.mod_lt k (by omega)) (by omega)
  have e1 : fifo_sample [0, 0, 0, 1, k % (20 + 5 * t), 0] = 65536 + 256 * (k % (20 + 5 * t)) := by
    unfold fifo_sample
    simp only [List.getD_cons_succ, List.getD_cons_zero, Nat.shiftLeft_eq]
    have e2 : (0x03FFFF : Nat) = 2 ^ 18 - 1 := by norm_num
    rw [e2, Nat.and_pow_two_sub_one_eq_mod]
    omega
  unfold sample_of fast_bus
  simp only [e1]
  unfold sawtooth
  push_cast
  ring

/-! ## Claims -/

/-- C1: the heart-rate step of maxim_heart_rate_saturation (lines 163-176) computes the
reference estimate of the specification. For every strictly ascending list `p` of peak
indices held in the first entries of the location array, with `n` the length of `p`: when
`n ≥ 2` the step returns 6000 / ((sum of the differences p[k] - p[k-1]) / (n - 1)), both
divisions truncating toward zero, with the validity flag 1; when `n < 2` it returns -999
with the validity flag 0. -/
theorem heart_rate_from_peaks_refines_spec (p : List Int) (rest : Mem)
    (hasc : p.Pairwise (· < ·)) (hidx : ∀ x ∈ p, 0 ≤ x ∧ x < 2147483648) :
    heart_rate_from_peaks (p ++ rest) p.length
        = .ok ((estimate_spec p).1, if (estimate_spec p).2 then 1 else 0) ∧
      (p.length < 2 → heart_rate_from_peaks (p ++ rest) p.length = .ok (-999, 0)) := by
  refine ⟨?_, fun h => heart_rate_from_peaks_few _ _ (by omega)⟩
  by_cases h : 2 ≤ p.length
  · have hget : ∀ k, k < p.length → 0 ≤ rd p k ∧ rd p k < 2147483648 := by
      intro k hk
      rw [rd_eq_getElem p k hk]
      exact hidx _ (List.getElem_mem hk)
    have hL : ∀ k, k < p.length → rd (p ++ rest) k = rd p k :=
      fun k hk => rd_append_left p rest k hk
    have hlt : ∀ a, a + 1 < p.length → rd p a < rd p (a + 1) := by
      intro a ha
      rw [rd_eq_getElem p a (by omega), rd_eq_getElem p (a + 1) ha]
      exact (List.pairwise_iff_getElem.mp hasc) a (a + 1) _ _ (by omega)
    obtain ⟨r1, _, _⟩ := heart_rate_from_peaks_asc (p ++ rest) p.length h 1 (le_refl _)
      (fun a ha => by rw [hL a (by omega), hL (a + 1) ha]; have := hlt a ha; omega)
      (by rw [hL 0 (by omega)]; exact (hget 0 (by omega)).1)
      (by rw [hL _ (by omega)]; exact (hget _ (by omega)).2)
    have hsum : interval_sum p = rd p (p.length - 1) - rd p 0 := by
      cases p with
      | nil => simp at h
      | cons a q => rw [interval_sum_eq]; simp [rd]
    rw [r1, hL _ (by omega), hL 0 (by omega), ← hsum]
    simp [estimate_spec, h]
  · rw [heart_rate_from_peaks_few _ _ (by omega)]
    simp [estimate_spec, h]

/-- Witness of C1 at the peaks 10, 18, 26 of the specification: 750 BPM, valid. -/
theorem heart_rate_from_peaks_refines_spec_witness :
    heart_rate_from_peaks [10, 18, 26] 3 = .ok (750, 1) ∧
      estimate_spec [10, 18, 26] = (750, true) :=
  ⟨(heart_rate_from_peaks_refines_spec [10, 18, 26] [] (by decide) (by decide)).1, by decide⟩

/-- C2: for every signal, every length `n_size` and every threshold, maxim_find_peaks with
minimum distance 8 and maximum count 5 returns at most 5 peak locations, and any two
different entries of the returned list differ by at least 8 index positions. -/
theorem maxim_find_peaks_at_most_five_spaced (pn_locs : Mem) (pn_x : Nat → Int)
    (n_size n_min_height : Int) (hlocs : pn_locs.length = 15) (hsize : n_size ≤ 2147483647) :
    ∃ (locs : Mem) (npks : Nat),
      maxim_find_peaks pn_locs pn_x n_size n_min_height 8 5 = .ok (locs, (npks : Int)) ∧
      npks ≤ 5 ∧ ∀ a b, a < npks → b < npks → a ≠ b → 8 ≤ |rd locs a - rd locs b| := by
  obtain ⟨locs, npks, e, h1, _, _, _, h5⟩ := maxim_find_peaks_spec pn_locs pn_x n_size
    n_min_height 8 5 (by omega) hsize (by omega) (by omega)
  refine ⟨locs, npks, e, by omega, ?_⟩
  intro a b ha hb hab
  rw [le_abs]
  rcases Nat.lt_or_gt_of_ne hab with c | c
  · have := h5 a b c hb
    right; omega
  · have := h5 b a c ha
    left; omega

/-- Witness of C2 on a signal of 42 samples with five candidate peaks. -/
theorem maxim_find_peaks_at_most_five_spaced_witness :
    ∃ (locs : Mem) (npks : Nat),
      maxim_find_peaks (List.replicate 15 0)
          (rd [0, 1, 5, 5, 2, 0, 0, 3, 9, 9, 9, 1, 0, 0, 0, 0, 0, 0, 0, 7, 2, 0, 0, 0, 0, 0, 0, 0,
            8, 8, 0, 0, 0, 0, 0, 0, 0, 0, 0, 0, 6, 0]) 42 1 8 5 = .ok (locs, (npks : Int)) ∧
      npks ≤ 5 ∧ ∀ a b, a < npks → b < npks → a ≠ b → 8 ≤ |rd locs a - rd locs b| :=
  maxim_find_peaks_at_most_five_spaced _ _ 42 1 (by decide) (by decide)

/-- C3: in the default (lenient) mode the combination step of MAX30102_get_hr reports, for
round results that reach it (a result flagged valid is below 200 BPM after the gate of
lines 355-357 and is not negative): the smaller BPM when both rounds are valid, the valid
round's BPM when exactly one is valid, and 0 when neither is valid. -/
theorem combine_lenient (hrA validA hrB validB : Int)
    (hA : validA ≠ 0 → 0 ≤ hrA ∧ hrA < 200) (hB : validB ≠ 0 → 0 ≤ hrB ∧ hrB < 200) :
    u8 (combine false hrA validA hrB validB)
      = if validA ≠ 0 ∧ validB ≠ 0 then min hrA hrB
        else if validA ≠ 0 then hrA
        else if validB ≠ 0 then hrB
        else 0 := by
  exact combine_lenient_value hrA validA hrB validB hA hB

/-- Witness of C3 on the examples of the specification: 120 and 110 both valid report 110. -/
theorem combine_lenient_witness :
    u8 (combine false 120 1 110 1) = 110 ∧ u8 (combine false 120 1 (-999) 0) = 120 ∧
      u8 (combine false (-999) 0 (-999) 0) = 0 :=
  ⟨combine_lenient 120 1 110 1 (by decide) (by decide), by decide, by decide⟩

/-- C4: for every buffer of 500 samples that all equal the same value `c` with
`0 ≤ c < 2^18`, maxim_heart_rate_saturation leaves an all-zero conditioned signal in
`an_dx`, its peak search finds 0 peaks, and it returns the heart rate -999 with the
validity flag 0. -/
theorem constant_buffer_no_estimate (s : Scratch) (an_dx_peak_locs : Mem)
    (ir_buffer : Nat → Int) (c : Int) (hs : s.WF) (hc0 : 0 ≤ c) (hc : c < 262144)
    (hir : ∀ k, k < 500 → ir_buffer k = c) :
    ∃ s2, maxim_heart_rate_saturation s an_dx_peak_locs ir_buffer 500 = .ok (s2, -999, 0) ∧
      (∀ k, k < BUFFER_SIZE - HAMMING_SIZE → rd s2.an_dx k = 0) ∧
      maxim_find_peaks an_dx_peak_locs (rd s2.an_dx) 495 (threshold (rd s2.an_dx)) 8 5
        = .ok (an_dx_peak_locs, 0) := by
  obtain ⟨h1, h2⟩ := maxim_heart_rate_saturation_const s an_dx_peak_locs ir_buffer c hs hc0 hc hir
  exact ⟨_, h1, h2, (estimate_from_zero an_dx_peak_locs _ h2).2.1⟩

/-- Witness of C4: the buffer with all samples equal to 70000, from the scratch arrays at
program start. -/
theorem constant_buffer_no_estimate_witness :
    ∃ s2, maxim_heart_rate_saturation boot_scratch (List.replicate 15 0) (fun _ => 70000) 500
        = .ok (s2, -999, 0) ∧
      (∀ k, k < BUFFER_SIZE - HAMMING_SIZE → rd s2.an_dx k = 0) ∧
      maxim_find_peaks (List.replicate 15 0) (rd s2.an_dx) 495 (threshold (rd s2.an_dx)) 8 5
        = .ok (List.replicate 15 0, 0) :=
  constant_buffer_no_estimate boot_scratch (List.replicate 15 0) (fun _ => 70000) 70000
    boot_scratch_WF (by decide) (by decide) (fun _ _ => rfl)

/-- C5: in MAX30102_get_hr, in either mode, when both rounds acquire their 500 samples, each of
the two rounds `hr_round bus 0` and `hr_round bus 1` hands to the combination step the BPM
that maxim_heart_rate_saturation returned for the samples of that round together with a
validity flag that is 0 when that BPM is 200 or more, whatever flag the estimator returned,
and that is the estimator's flag when the BPM is 199 or less; the function returns the
combination of these two gated round results. The gate of lines 355-357 clears the flag
from 200 on and keeps it up to 199, so the round results (210, valid), (80, valid) report 80
and (210, valid) with an invalid second round reports 0. -/
theorem hr_gate_rejects_from_200 (strict : Bool) (bus : Bus) (d : Driver)
    (hrun : d.status = .running) (hwake : bus.wake = true)
    (hintr : ∀ t, t < 2 → bus.round_intr t = true)
    (hfifo : ∀ t k, t < 2 → k < BUFFER_LENGTH → FifoOk (bus.fifo 0 t k))
    (hbuf : d.ir_buffer.length = BUFFER_LENGTH) (hstack : ∀ t, (bus.stack t).length = 15) :
    (∃ hr0 valid0 s1 hr1 valid1 s2 flag0 flag1 d1 d2 d3,
      maxim_heart_rate_saturation d.scratch (bus.stack 0) (rd (round_samples bus 0)) 500
        = .ok (s1, hr0, valid0) ∧
      maxim_heart_rate_saturation s1 (bus.stack 1) (rd (round_samples bus 1)) 500
        = .ok (s2, hr1, valid1) ∧
      hr_round bus 0 { d with status := MAX30102_shutdown d.status bus.wake }
        = .ok (d1, some (hr0, flag0)) ∧
      hr_round bus 1 d1 = .ok (d2, some (hr1, flag1)) ∧
      (hr0 ≥ 200 → flag0 = 0) ∧ (hr0 ≤ 199 → flag0 = valid0) ∧
      (hr1 ≥ 200 → flag1 = 0) ∧ (hr1 ≤ 199 → flag1 = valid1) ∧
      MAX30102_get_hr strict bus d = .ok (u8 (combine strict hr0 flag0 hr1 flag1), d3) ∧
      (hr0 ≥ 200 → MAX30102_get_hr strict bus d = .ok (u8 (combine strict hr0 0 hr1 flag1), d3)) ∧
      (hr1 ≥ 200 → MAX30102_get_hr strict bus d = .ok (u8 (combine strict hr0 flag0 hr1 0), d3))) ∧
    (∀ hr valid : Int, hr ≥ 200 → hr_gate hr valid = 0) ∧
    (∀ hr valid : Int, hr ≤ 199 → hr_gate hr valid = valid) ∧
    u8 (combine false 210 (hr_gate 210 1) 80 (hr_gate 80 1)) = 80 ∧
    u8 (combine false 210 (hr_gate 210 1) (-999) (hr_gate (-999) 0)) = 0 := by
  have gate_hi : ∀ hr valid : Int, hr ≥ 200 → hr_gate hr valid = 0 := by
    intro hr valid h
    unfold hr_gate MAX_HR
    rw [if_pos h]
  have gate_lo : ∀ hr valid : Int, hr ≤ 199 → hr_gate hr valid = valid := by
    intro hr valid h
    unfold hr_gate MAX_HR
    rw [if_neg (by omega)]
  refine ⟨?_, gate_hi, gate_lo, by decide, by decide⟩
  obtain ⟨status, ir_buffer, scratch, estimated⟩ := d
  simp only [] at hbuf hrun ⊢
  subst hrun
  have g2 : MAX30102_shutdown .running bus.wake = .running := by
    unfold MAX30102_shutdown
    simp [hwake]
  obtain ⟨s1, hr0, v0, e0, r0, _⟩ := hr_round_ok bus 0 ir_buffer scratch estimated
    (hintr 0 (by omega)) (fun k hk => hfifo 0 k (by omega) hk) hbuf (hstack 0)
  obtain ⟨s2, hr1, v1, e1, r1, _⟩ := hr_round_ok bus 1 (round_samples bus 0) s1
    (estimated ++ [round_samples bus 0]) (hintr 1 (by omega))
    (fun k hk => hfifo 1 k (by omega) hk) (round_samples_length bus 0) (hstack 1)
  have hget : ∃ d3, MAX30102_get_hr strict bus (Driver.mk .running ir_buffer scratch estimated)
      = .ok (u8 (combine strict hr0 (hr_gate hr0 v0) hr1 (hr_gate hr1 v1)), d3) := by
    unfold MAX30102_get_hr
    simp only []
    rw [if_neg (by simp), g2, r0]
    simp only []
    rw [r1]
    exact ⟨_, rfl⟩
  obtain ⟨d3, hget⟩ := hget
  refine ⟨hr0, v0, s1, hr1, v1, s2, hr_gate hr0 v0, hr_gate hr1 v1, _, _, d3, e0, e1, ?_, r1,
    gate_hi hr0 v0, gate_lo hr0 v0, gate_hi hr1 v1, gate_lo hr1 v1, hget, ?_, ?_⟩
  · rw [g2]
    exact r0
  · intro h
    rw [hget, gate_hi hr0 v0 h]
  · intro h
    rw [hget, gate_hi hr1 v1 h]

/-- Witness of C5: two complete rounds on the fast bus in lenient mode. The estimator returns
the valid estimates 300 BPM for the first round and 240 BPM for the second, both rounds hand
on the flag 0, and the function reports 0; with the flags of the estimator the combination
step would report 240. -/
theorem hr_gate_rejects_from_200_witness :
    ∃ s1 s2 d1 d2 d3,
      maxim_heart_rate_saturation fresh_driver.scratch (fast_bus.stack 0)
          (rd (round_samples fast_bus 0)) 500 = .ok (s1, 300, 1) ∧
      maxim_heart_rate_saturation s1 (fast_bus.stack 1) (rd (round_samples fast_bus 1)) 500
        = .ok (s2, 240, 1) ∧
      hr_round fast_bus 0
          { fresh_driver with status := MAX30102_shutdown fresh_driver.status fast_bus.wake }
        = .ok (d1, some (300, 0)) ∧
      hr_round fast_bus 1 d1 = .ok (d2, some (240, 0)) ∧
      MAX30102_get_hr false fast_bus fresh_driver = .ok (0, d3) ∧
      u8 (combine false 300 1 240 1) = 240 := by
  obtain ⟨⟨hr0, valid0, s1, hr1, valid1, s2, flag0, flag1, d1, d2, d3, e0, e1, r0, r1, g0, _,
      g1, _, hget, _, _⟩, _⟩ :=
    hr_gate_rejects_from_200 false fast_bus fresh_driver rfl rfl (fun _ _ => rfl)
      (fun _ _ _ _ => by simp [fast_bus, FifoOk]) (by simp [fresh_driver])
      (fun _ => by simp [fast_bus])
  obtain ⟨t1, _, _, h0, a0, w1, _, _, avg0, b0⟩ := sawtooth_buffer_call fresh_driver.scratch
    (fast_bus.stack 0) (rd (round_samples fast_bus 0)) 20 256 65536 boot_scratch_WF
    (by simp [fast_bus]) (by omega) (by omega) (by omega) (by omega) (by norm_num)
    (fun k hk => fast_bus_samples 0 k (by omega) hk)
  rw [a0] at e0
  injection e0 with e0
  injection e0 with e0 e0b
  injection e0b with e0b e0c
  subst e0 e0b e0c
  obtain ⟨t2, _, _, h1, a1, _, _, _, avg1, b1⟩ := sawtooth_buffer_call t1
    (fast_bus.stack 1) (rd (round_samples fast_bus 1)) 25 256 65536 w1
    (by simp [fast_bus]) (by omega) (by omega) (by omega) (by omega) (by norm_num)
    (fun k hk => fast_bus_samples 1 k (by omega) hk)
  rw [a1] at e1
  injection e1 with e1
  injection e1 with e1 e1b
  injection e1b with e1b e1c
  subst e1 e1b e1c
  have q0 : h0 = 300 := by
    rcases avg0 with h | ⟨h, _⟩
    · rw [b0, h]
      decide
    · omega
  have q1 : h1 = 240 := by
    rcases avg1 with h | ⟨h, _⟩
    · rw [b1, h]
      decide
    · omega
  subst q0 q1
  have f0 : flag0 = 0 := g0 (by decide)
  have f1 : flag1 = 0 := g1 (by decide)
  subst f0 f1
  exact ⟨t1, t2, d1, d2, d3, a0, a1, r0, r1, hget, by decide⟩

/-- C6: with every sample read of MAX30102_get_hr answered by the bus either with a sample
or with a failure, if the read of any sample `i` of either round `times` fails, the function
returns 0, in the second round also when the first round has produced an estimate; and no
estimate is computed from the partially filled buffer: the only buffer that may have been
handed to maxim_heart_rate_saturation is the completely acquired buffer of the first
round. -/
theorem read_failure_returns_zero (strict : Bool) (bus : Bus) (d : Driver) (times i : Nat)
    (hbuf : d.ir_buffer.length = BUFFER_LENGTH) (hstack : ∀ t, (bus.stack t).length = 15)
    (ht : times < 2) (hi : i < BUFFER_LENGTH) (hfail : ¬ FifoOk (bus.fifo 0 times i)) :
    ∃ d2, MAX30102_get_hr strict bus d = .ok (0, d2) ∧
      (times = 0 → d2.estimated = d.estimated) ∧
      (d2.estimated = d.estimated ∨
        ((∀ k, k < BUFFER_LENGTH → FifoOk (bus.fifo 0 0 k)) ∧
          d2.estimated = d.estimated ++ [round_samples bus 0])) := by
  obtain ⟨status, ir_buffer, scratch, estimated⟩ := d
  simp only [] at hbuf ⊢
  unfold MAX30102_get_hr
  simp only []
  by_cases c : status ≠ .running
  · rw [if_pos c]
    exact ⟨_, rfl, fun _ => rfl, Or.inl rfl⟩
  · rw [if_neg c]
    by_cases c0 : bus.round_intr 0 = false ∨ MAX30102_shutdown status bus.wake ≠ .running ∨
        ∃ k, k < BUFFER_LENGTH ∧ ¬ FifoOk (bus.fifo 0 0 k)
    · obtain ⟨d2, e, h1, _⟩ := hr_round_fail bus 0
        (Driver.mk (MAX30102_shutdown status bus.wake) ir_buffer scratch estimated) c0
      rw [e]
      exact ⟨d2, rfl, fun _ => h1, Or.inl h1⟩
    · have g1 : bus.round_intr 0 = true := by
        by_contra hh
        exact c0 (Or.inl (by simpa using hh))
      have g2 : MAX30102_shutdown status bus.wake = .running := by
        by_contra hh
        exact c0 (Or.inr (Or.inl hh))
      have g3 : ∀ k, k < BUFFER_LENGTH → FifoOk (bus.fifo 0 0 k) := by
        intro k hk
        by_contra hh
        exact c0 (Or.inr (Or.inr ⟨k, hk, hh⟩))
      have ht1 : times = 1 := by
        rcases Nat.eq_zero_or_pos times with e | e
        · subst e
          exact absurd (g3 i hi) hfail
        · omega
      subst ht1
      obtain ⟨s2, hr, v, _, e, _⟩ := hr_round_ok bus 0 ir_buffer scratch estimated g1 g3 hbuf
        (hstack 0)
      rw [g2, e]
      simp only []
      obtain ⟨d2, e2, h1, _⟩ := hr_round_fail bus 1
        (Driver.mk .running (round_samples bus 0) s2 (estimated ++ [round_samples bus 0]))
        (Or.inr (Or.inr ⟨i, hi, hfail⟩))
      rw [e2]
      exact ⟨d2, rfl, fun h => absurd h (by decide), Or.inr ⟨g3, h1⟩⟩

/-- Witness of C6: the last read of the second round fails after a complete first round. -/
theorem read_failure_returns_zero_witness :
    ∃ d2, MAX30102_get_hr false failing_bus fresh_driver = .ok (0, d2) ∧
      ((1 : Nat) = 0 → d2.estimated = fresh_driver.estimated) ∧
      (d2.estimated = fresh_driver.estimated ∨
        ((∀ k, k < BUFFER_LENGTH → FifoOk (failing_bus.fifo 0 0 k)) ∧
          d2.estimated = fresh_driver.estimated ++ [round_samples failing_bus 0])) :=
  read_failure_returns_zero false failing_bus fresh_driver 1 499 (by simp [fresh_driver])
    (fun _ => by simp [failing_bus, steady_bus]) (by decide) (by decide)
    (by simp [failing_bus, FifoOk])

/-- C7: in lenient mode, when both rounds of MAX30102_get_hr acquire their 500 samples
(which are below 2^18) without fault, the function returns 0 if and only if neither round
yields a valid estimate below 200 BPM, and otherwise it returns exactly the BPM of the
selected round (the smaller one when both rounds qualify): the conversion of the 32 bit BPM
to the returned byte never wraps. -/
theorem get_hr_zero_iff_no_valid_round (bus : Bus) (d : Driver) (hrun : d.status = .running)
    (hwake : bus.wake = true) (hintr : ∀ t, t < 2 → bus.round_intr t = true)
    (hfifo : ∀ t k, t < 2 → k < BUFFER_LENGTH → FifoOk (bus.fifo 0 t k))
    (hbuf : d.ir_buffer.length = BUFFER_LENGTH) (hstack : ∀ t, (bus.stack t).length = 15) :
    ∃ hr0 valid0 s1 hr1 valid1 s2 result d2,
      maxim_heart_rate_saturation d.scratch (bus.stack 0) (rd (round_samples bus 0)) 500
        = .ok (s1, hr0, valid0) ∧
      maxim_heart_rate_saturation s1 (bus.stack 1) (rd (round_samples bus 1)) 500
        = .ok (s2, hr1, valid1) ∧
      (∀ t k, 0 ≤ rd (round_samples bus t) k ∧ rd (round_samples bus t) k < 262144) ∧
      MAX30102_get_hr false bus d = .ok (result, d2) ∧
      (result = 0 ↔ ¬ (valid0 ≠ 0 ∧ hr0 < 200) ∧ ¬ (valid1 ≠ 0 ∧ hr1 < 200)) ∧
      result = (if (valid0 ≠ 0 ∧ hr0 < 200) ∧ (valid1 ≠ 0 ∧ hr1 < 200) then min hr0 hr1
        else if valid0 ≠ 0 ∧ hr0 < 200 then hr0
        else if valid1 ≠ 0 ∧ hr1 < 200 then hr1
        else 0) ∧
      0 ≤ result ∧ result ≤ 255 := by
  obtain ⟨status, ir_buffer, scratch, estimated⟩ := d
  simp only [] at hbuf hrun ⊢
  subst hrun
  have g2 : MAX30102_shutdown .running bus.wake = .running := by
    unfold MAX30102_shutdown
    simp [hwake]
  obtain ⟨s1, hr0, v0, e0, r0, b0⟩ := hr_round_ok bus 0 ir_buffer scratch estimated
    (hintr 0 (by omega)) (fun k hk => hfifo 0 k (by omega) hk) hbuf (hstack 0)
  obtain ⟨s2, hr1, v1, e1, r1, b1⟩ := hr_round_ok bus 1 (round_samples bus 0) s1
    (estimated ++ [round_samples bus 0]) (hintr 1 (by omega))
    (fun k hk => hfifo 1 k (by omega) hk) (round_samples_length bus 0) (hstack 1)
  have hrange : ∀ t k, 0 ≤ rd (round_samples bus t) k ∧ rd (round_samples bus t) k < 262144 := by
    intro t k
    by_cases hk : k < BUFFER_LENGTH
    · rw [rd_round_samples bus t k hk]
      exact sample_of_range _
    · unfold rd
      rw [List.getD_eq_default _ _ (by rw [round_samples_length]; omega)]
      omega
  have hget : ∃ d2, MAX30102_get_hr false bus (Driver.mk .running ir_buffer scratch estimated)
      = .ok (u8 (combine false hr0 (hr_gate hr0 v0) hr1 (hr_gate hr1 v1)), d2) := by
    unfold MAX30102_get_hr
    simp only []
    rw [if_neg (by simp), g2, r0]
    simp only []
    rw [r1]
    exact ⟨_, rfl⟩
  obtain ⟨d2, hget⟩ := hget
  obtain ⟨f0, f0b⟩ := hr_gate_facts hr0 v0 b0
  obtain ⟨f1, f1b⟩ := hr_gate_facts hr1 v1 b1
  have hval := combine_lenient_value hr0 (hr_gate hr0 v0) hr1 (hr_gate hr1 v1)
    (fun h => by have := f0b h; omega) (fun h => by have := f1b h; omega)
  simp only [f0, f1] at hval
  refine ⟨hr0, v0, s1, hr1, v1, s2, u8 (combine false hr0 (hr_gate hr0 v0) hr1 (hr_gate hr1 v1)),
    d2, e0, e1, hrange, hget, ?_, hval, ?_, ?_⟩
  all_goals
    rw [hval]
    by_cases A : v0 ≠ 0 ∧ hr0 < 200 <;> by_cases B : v1 ≠ 0 ∧ hr1 < 200 <;>
      simp only [A, B, and_self, and_true, and_false, true_and, false_and, if_true, if_false,
        not_true_eq_false, not_false_eq_true, iff_true, iff_false] <;>
      (try have := f0b (f0.mpr A)) <;> (try have := f1b (f1.mpr B)) <;>
      (try rw [min_def]) <;> (try split_ifs) <;> omega

/-- Witness of C7: two complete rounds on the steady bus. -/
theorem get_hr_zero_iff_no_valid_round_witness :
    ∃ hr0 valid0 s1 hr1 valid1 s2 result d2,
      maxim_heart_rate_saturation fresh_driver.scratch (steady_bus.stack 0)
          (rd (round_samples steady_bus 0)) 500 = .ok (s1, hr0, valid0) ∧
      maxim_heart_rate_saturation s1 (steady_bus.stack 1) (rd (round_samples steady_bus 1)) 500
        = .ok (s2, hr1, valid1) ∧
      (∀ t k, 0 ≤ rd (round_samples steady_bus t) k ∧ rd (round_samples steady_bus t) k < 262144) ∧
      MAX30102_get_hr false steady_bus fresh_driver = .ok (result, d2) ∧
      (result = 0 ↔ ¬ (valid0 ≠ 0 ∧ hr0 < 200) ∧ ¬ (valid1 ≠ 0 ∧ hr1 < 200)) ∧
      result = (if (valid0 ≠ 0 ∧ hr0 < 200) ∧ (valid1 ≠ 0 ∧ hr1 < 200) then min hr0 hr1
        else if valid0 ≠ 0 ∧ hr0 < 200 then hr0
        else if valid1 ≠ 0 ∧ hr1 < 200 then hr1
        else 0) ∧
      0 ≤ result ∧ result ≤ 255 :=
  get_hr_zero_iff_no_valid_round steady_bus fresh_driver rfl rfl (fun _ _ => rfl)
    (fun _ _ _ _ => by simp [steady_bus, FifoOk]) (by simp [fresh_driver])
    (fun _ => by simp [steady_bus])

/-- C8: for every 500-sample buffer, the heart rate and the validity flag returned by
maxim_heart_rate_saturation with buffer_length = 500 are the same for any two contents of
the scratch arrays an_x and an_dx that earlier calls can leave behind (and for any two
contents of the uninitialised local array of peak locations): the estimate is a function
of the input buffer alone. -/
theorem estimate_independent_of_scratch (s1 s2 : Scratch) (locs1 locs2 : Mem)
    (ir_buffer : Nat → Int) (h1 : Reachable s1) (h2 : Reachable s2)
    (hl1 : locs1.length = 15) (hl2 : locs2.length = 15) :
    ∃ heart_rate hr_valid t1 t2,
      maxim_heart_rate_saturation s1 locs1 ir_buffer 500 = .ok (t1, heart_rate, hr_valid) ∧
      maxim_heart_rate_saturation s2 locs2 ir_buffer 500 = .ok (t2, heart_rate, hr_valid) := by
  obtain ⟨hr, v, e1, e2⟩ := estimate_same s1 s2 locs1 locs2 ir_buffer h1.inv h2.inv
    (by omega) (by omega)
  exact ⟨hr, v, _, _, e1, e2⟩

/-- Witness of C8: the scratch arrays at program start and the scratch arrays left by a
call on 499 samples of a triangle wave give the same estimate of a buffer. -/
theorem estimate_independent_of_scratch_witness :
    ∃ heart_rate hr_valid t1 t2,
      maxim_heart_rate_saturation boot_scratch (List.replicate 15 0) triangle_wave 500
        = .ok (t1, heart_rate, hr_valid) ∧
      maxim_heart_rate_saturation (conditioning boot_scratch triangle_wave 499 105874)
        (List.replicate 15 7) triangle_wave 500 = .ok (t2, heart_rate, hr_valid) :=
  estimate_independent_of_scratch boot_scratch _ (List.replicate 15 0) (List.replicate 15 7)
    triangle_wave Reachable.boot
    (Reachable.call boot_scratch _ (List.replicate 15 0) triangle_wave 499 75 1 Reachable.boot
      (by decide) triangle_call)
    (by decide) (by decide)

/-- C9, as the code has it: in strict mode, for two round estimates that are both valid when
they reach the combination step, MAX30102_get_hr reports the smaller BPM when the estimates
differ by less than 25 BPM and 0 when they differ by 25 BPM or more. -/
theorem combine_strict (hrA validA hrB validB : Int) (vA : validA ≠ 0) (vB : validB ≠ 0)
    (hA : 0 ≤ hrA ∧ hrA < 200) (hB : 0 ≤ hrB ∧ hrB < 200) :
    u8 (combine true hrA validA hrB validB) = if |hrA - hrB| < 25 then min hrA hrB else 0 := by
  unfold combine MIN u8 MAX_DIFF
  simp only [if_true, vA, vB, and_self, not_false_eq_true, ne_eq]
  rw [i32_eq_self (by omega) (by omega), min_def]
  by_cases c : |hrA - hrB| < 25
  · rw [if_pos c]
    rw [abs_lt] at c
    rw [if_pos ⟨by omega, by omega⟩]
    split_ifs <;> omega
  · rw [if_neg c]
    rw [abs_lt] at c
    rw [if_neg (by omega)]
    rfl

/-- Witness of the amended C9 on the example of the specification: 120 and 160 report 0. -/
theorem combine_strict_witness : u8 (combine true 120 1 160 1) = 0 :=
  combine_strict 120 1 160 1 (by decide) (by decide) (by decide) (by decide)

/-- Counterexample to C9 as stated: the valid estimates 100 and 125 differ by exactly 25,
which is within the tolerance of the claim, yet strict mode reports 0 and not 100. -/
theorem combine_strict_counterexample :
    |(100 : Int) - 125| ≤ 25 ∧ u8 (combine true 100 1 125 1) = 0 ∧
      u8 (combine true 100 1 125 1) ≠ min 100 125 := by
  decide

/-- C10, as the code has it: for every buffer_length from 1 to 499,
maxim_heart_rate_saturation performs no check of the length and rejects nothing. It takes
the mean of the first buffer_length samples, conditions the 500 entries of an_x of which
the first buffer_length are the samples minus that mean and the others are what the
previous call left there, and returns the estimate of that signal. -/
theorem short_buffer_is_processed (s : Scratch) (an_dx_peak_locs : Mem) (ir_buffer : Nat → Int)
    (buffer_length : Int) (hs : s.WF) (hl : an_dx_peak_locs.length = 15)
    (h1 : 1 ≤ buffer_length) (h2 : buffer_length ≤ 499) :
    ∃ heart_rate hr_valid,
      maxim_heart_rate_saturation s an_dx_peak_locs ir_buffer buffer_length
        = .ok (conditioning s ir_buffer buffer_length
            (ir_sum ir_buffer buffer_length / buffer_length), heart_rate, hr_valid) ∧
      estimate_from an_dx_peak_locs
          (condF ir_buffer buffer_length.toNat (ir_sum ir_buffer buffer_length / buffer_length)
            (rd s.an_x) (rd s.an_dx)) = .ok (heart_rate, hr_valid) ∧
      ((hr_valid = 1 ∧ 12 ≤ heart_rate ∧ heart_rate ≤ 666) ∨
        (hr_valid = 0 ∧ heart_rate = -999)) ∧
      (∀ k, k < buffer_length.toNat →
        dcF ir_buffer buffer_length.toNat (ir_sum ir_buffer buffer_length / buffer_length)
            (rd s.an_x) k
          = i32 (u32 (ir_buffer k - ir_sum ir_buffer buffer_length / buffer_length))) ∧
      (∀ k, buffer_length.toNat ≤ k →
        dcF ir_buffer buffer_length.toNat (ir_sum ir_buffer buffer_length / buffer_length)
            (rd s.an_x) k = rd s.an_x k) := by
  have hu : u32 buffer_length = buffer_length := u32_eq_self (by omega) (by omega)
  obtain ⟨hr, v, e, f, hb⟩ := maxim_heart_rate_saturation_total s an_dx_peak_locs ir_buffer
    buffer_length (by omega) (by rw [hu]; omega)
  rw [hu] at e f
  rw [(conditioning_rd s ir_buffer buffer_length _ hs (by omega)).2.2] at f
  refine ⟨hr, v, e, f, hb, ?_, ?_⟩
  · intro k hk
    unfold dcF
    rw [if_pos hk]
  · intro k hk
    unfold dcF
    rw [if_neg (by omega)]

/-- Witness of the amended C10: 499 samples of a triangle wave, from the scratch arrays at
program start. -/
theorem short_buffer_is_processed_witness :
    ∃ heart_rate hr_valid,
      maxim_heart_rate_saturation boot_scratch (List.replicate 15 0) triangle_wave 499
        = .ok (conditioning boot_scratch triangle_wave 499
            (ir_sum triangle_wave 499 / 499), heart_rate, hr_valid) ∧
      ((hr_valid = 1 ∧ 12 ≤ heart_rate ∧ heart_rate ≤ 666) ∨
        (hr_valid = 0 ∧ heart_rate = -999)) := by
  obtain ⟨hr, v, a, _, b, _⟩ := short_buffer_is_processed boot_scratch (List.replicate 15 0)
    triangle_wave 499 boot_scratch_WF (by decide) (by decide) (by decide)
  exact ⟨hr, v, a, b⟩

/-- Counterexample to C10 as stated: called with buffer_length = 499 on a triangle wave,
from the scratch arrays at program start, maxim_heart_rate_saturation rejects nothing: it
conditions the scratch arrays and returns 75 BPM with the validity flag 1. -/
theorem short_buffer_counterexample :
    (499 : Int) ≠ 500 ∧
      maxim_heart_rate_saturation boot_scratch (List.replicate 15 0) triangle_wave 499
        = .ok (conditioning boot_scratch triangle_wave 499 105874, 75, 1) :=
  ⟨by decide, triangle_call⟩

/-- C11 (amended): for every period `P` with `9 ≤ P ≤ 100` and every 500-sample rising
sawtooth buffer `x[k] = c + s * (k mod P)` with an integer step `s ≥ 1` per sample (`s ≥ 2`
when `P ≤ 11`) and values in `[0, 2^18)`, maxim_heart_rate_saturation, called on scratch
arrays of the declared sizes, returns a valid estimate; its peak search finds at least 2
peaks, the truncated average inter-peak distance it computes is within 2 samples of `P`, and
the BPM it returns is `6000` divided by that average and within 2 of `6000 / P` rounded toward
zero. -/
theorem rising_sawtooth_estimate (s : Scratch) (an_dx_peak_locs : Mem) (P step : Nat) (c : Int)
    (hs : s.WF) (hl : 15 ≤ an_dx_peak_locs.length) (hP : 9 ≤ P) (hP2 : P ≤ 100)
    (hstep : 2 ≤ step ∨ (1 ≤ step ∧ 12 ≤ P)) (hc : 0 ≤ c)
    (hmax : c + (step : Int) * ((P : Int) - 1) < 262144) :
    ∃ s2 out n hr,
      maxim_heart_rate_saturation s an_dx_peak_locs (sawtooth c step P) 500 = .ok (s2, hr, 1) ∧
      maxim_find_peaks an_dx_peak_locs (rd s2.an_dx) 495 (threshold (rd s2.an_dx)) 8 5
        = .ok (out, n) ∧
      2 ≤ n ∧ |peak_interval_average out n - (P : Int)| ≤ 2 ∧
      hr = Int.tdiv 6000 (peak_interval_average out n) ∧
      |hr - Int.tdiv 6000 (P : Int)| ≤ 2 := by
  obtain ⟨s2, out, n, hr, e, _, ep, hn, havg, ehr⟩ := sawtooth_buffer_call s an_dx_peak_locs
    (sawtooth c step P) P step c hs hl hP hP2 hstep hc hmax (fun _ _ => rfl)
  refine ⟨s2, out, n, hr, e, ep, hn, ?_, ehr, ?_⟩
  · rcases havg with h | ⟨h1, h2, h3⟩
    · rw [h]; simp
    · have hPz : (99 : Int) ≤ P ∧ (P : Int) ≤ 100 := ⟨by exact_mod_cast h1, by exact_mod_cast hP2⟩
      exact abs_le.mpr ⟨by omega, by omega⟩
  · rw [ehr]
    rcases havg with h | ⟨h1, h2, h3⟩
    · rw [h]; simp
    · have hP3 : P = 99 ∨ P = 100 := by omega
      generalize peak_interval_average out n = a at h2 h3 ⊢
      have ha : a = 98 ∨ a = 99 ∨ a = 100 := by omega
      rcases hP3 with h | h <;> subst h <;> rcases ha with h | h | h <;> subst h <;> decide

/-- Witness of C11 (amended): the rising sawtooth of period 50 samples and step 3 on the
offset 100000, from the scratch arrays at program start. -/
theorem rising_sawtooth_estimate_witness :
    ∃ s2 out n hr,
      maxim_heart_rate_saturation boot_scratch (List.replicate 15 0) (sawtooth 100000 3 50) 500
        = .ok (s2, hr, 1) ∧
      maxim_find_peaks (List.replicate 15 0) (rd s2.an_dx) 495 (threshold (rd s2.an_dx)) 8 5
        = .ok (out, n) ∧
      2 ≤ n ∧ |peak_interval_average out n - ((50 : Nat) : Int)| ≤ 2 ∧
      hr = Int.tdiv 6000 (peak_interval_average out n) ∧
      |hr - Int.tdiv 6000 ((50 : Nat) : Int)| ≤ 2 :=
  rising_sawtooth_estimate boot_scratch (List.replicate 15 0) 50 3 100000 boot_scratch_WF
    (by simp) (by decide) (by decide) (by decide) (by decide) (by decide)

/-- Counterexample to C11: sawtooth buffers of 500 samples with values below `2^18`, on the
scratch arrays at program start. The rising sawtooth `1000 + 8 * (k mod 8)` of period 8
yields 375 BPM, and `6000 / 8 = 750`; the rising sawtooth `1000 + 8 * (k mod 2)` of period 2,
the rising sawtooths `1000 + (k mod P)` of step 1 and period 9, 10 and 11, and the falling
sawtooths `1000 + 8 * (P - 1 - k mod P)` of period 13, 14 and 100 each yield -999 with the
validity flag 0. -/
theorem sawtooth_counterexample :
    (∃ s2, maxim_heart_rate_saturation boot_scratch (List.replicate 15 0) (sawtooth 1000 8 8) 500
        = .ok (s2, 375, 1)) ∧
    Int.tdiv 6000 8 = 750 ∧
    (∃ s2, maxim_heart_rate_saturation boot_scratch (List.replicate 15 0) (sawtooth 1000 8 2) 500
        = .ok (s2, -999, 0)) ∧
    (∃ s2, maxim_heart_rate_saturation boot_scratch (List.replicate 15 0) (sawtooth 1000 1 9) 500
        = .ok (s2, -999, 0)) ∧
    (∃ s2, maxim_heart_rate_saturation boot_scratch (List.replicate 15 0) (sawtooth 1000 1 10) 500
        = .ok (s2, -999, 0)) ∧
    (∃ s2, maxim_heart_rate_saturation boot_scratch (List.replicate 15 0) (sawtooth 1000 1 11) 500
        = .ok (s2, -999, 0)) ∧
    (∃ s2, maxim_heart_rate_saturation boot_scratch (List.replicate 15 0)
        (falling_sawtooth 1000 8 13) 500 = .ok (s2, -999, 0)) ∧
    (∃ s2, maxim_heart_rate_saturation boot_scratch (List.replicate 15 0)
        (falling_sawtooth 1000 8 14) 500 = .ok (s2, -999, 0)) ∧
    (∃ s2, maxim_heart_rate_saturation boot_scratch (List.replicate 15 0)
        (falling_sawtooth 1000 8 100) 500 = .ok (s2, -999, 0)) ∧
    (∀ s P k, 1 ≤ P → P ≤ 14 → s ≤ 8 →
      0 ≤ sawtooth 1000 s P k ∧ sawtooth 1000 s P k < 262144) ∧
    (∀ P k, P ≤ 100 →
      0 ≤ falling_sawtooth 1000 8 P k ∧ falling_sawtooth 1000 8 P k < 262144) :=
  ⟨sawtooth8_call 8 375 1 sawtooth8_estimate (by omega) (by omega), by decide,
    sawtooth8_call 2 (-999) 0 sawtooth2_estimate (by omega) (by omega),
    step1_calls.1, step1_calls.2.1, step1_calls.2.2,
    falling8_call 13 (-999) 0 falling13_estimate (by omega),
    falling8_call 14 (-999) 0 falling14_estimate (by omega),
    falling8_call 100 (-999) 0 falling100_estimate (by omega),
    fun s P k h1 h2 h3 => sawtooth_range 1000 s P h1 (by omega) (by
      have a : (P : Int) ≤ 14 := by exact_mod_cast h2
      have b : (s : Int) ≤ 8 := by exact_mod_cast h3
      have c : (0 : Int) ≤ s := Int.natCast_nonneg _
      have d : (1 : Int) ≤ P := by exact_mod_cast h1
      nlinarith) k,
    fun P k h => falling_sawtooth_range P k h⟩

/-- C12, as the code has it: the inverted Hamming stage computes 489 entries, which is
BUFFER_SIZE - HAMMING_SIZE - MA4_SIZE - 2 for BUFFER_SIZE = 500: it replaces an_dx[i] by
the Hamming value for every i below 489 and leaves every entry from 489 on as the stage
before left it. -/
theorem hamming_computes_489_entries (an_dx : Mem) (hd : an_dx.length = BUFFER_SIZE - MA4_SIZE) :
    BUFFER_SIZE - HAMMING_SIZE - MA4_SIZE - 2 = 489 ∧
      (∀ i, i < 489 → rd (hamming an_dx) i = hamming_value (rd an_dx) i) ∧
      (∀ i, 489 ≤ i → rd (hamming an_dx) i = rd an_dx i) := by
  have hl : BUFFER_SIZE - HAMMING_SIZE - MA4_SIZE - 2 ≤ an_dx.length := by
    rw [hd]
    decide
  exact ⟨by decide, (hamming_written an_dx hl).1, (hamming_written an_dx hl).2⟩

/-- Witness of the amended C12 on an array an_dx whose 496 entries are all 1. -/
theorem hamming_computes_489_entries_witness :
    BUFFER_SIZE - HAMMING_SIZE - MA4_SIZE - 2 = 489 ∧
      (∀ i, i < 489 → rd (hamming (List.replicate 496 1)) i
        = hamming_value (rd (List.replicate 496 1)) i) ∧
      (∀ i, 489 ≤ i → rd (hamming (List.replicate 496 1)) i = rd (List.replicate 496 1) i) :=
  hamming_computes_489_entries (List.replicate 496 1) (by rw [List.length_replicate]; decide)

/-- Counterexample to C12 as stated: the entry 489 is below the claimed count
500 - (4 - 1) - (5 - 1) - 1 = 492, yet on an array an_dx whose entries are all 1 the
Hamming stage leaves an_dx[489] = 1, while the Hamming value at 489 is -1. -/
theorem hamming_entry_489_counterexample :
    500 - (4 - 1) - (5 - 1) - 1 = 492 ∧ 489 < 492 ∧
      rd (hamming (List.replicate 496 1)) 489 = 1 ∧
      hamming_value (rd (List.replicate 496 1)) 489 = -1 := by
  refine ⟨by decide, by decide, ?_, ?_⟩
  · rw [(hamming_written (List.replicate 496 1) (by
      rw [List.length_replicate]; decide)).2 489 (by omega), rd_replicate]
    rfl
  · rw [hamming_value_const _ 489 1 (fun t ht => by rw [rd_replicate, if_pos (by omega)])
      (by omega)]
    rfl

/-- C13: for every 6-byte FIFO frame b0..b5 that MAX30102_read_fifo reads successfully, the
sample stored is (b3*65536 + b4*256 + b5) mod 2^18; it lies in [0, 2^18 - 1] and does not
depend on b0, b1, b2. -/
theorem read_fifo_sample (b0 b1 b2 b3 b4 b5 : Nat) (r : FifoRead)
    (h1 : r.intr_status_1 = true) (h2 : r.intr_status_2 = true)
    (hd : r.fifo_data = some [b0, b1, b2, b3, b4, b5]) :
    MAX30102_read_fifo .running r
        = (.running, some (((b3 * 65536 + b4 * 256 + b5) % 262144 : Nat) : Int)) ∧
      (0 : Int) ≤ ((b3 * 65536 + b4 * 256 + b5) % 262144 : Nat) ∧
      (((b3 * 65536 + b4 * 256 + b5) % 262144 : Nat) : Int) ≤ 262143 ∧
      ∀ c0 c1 c2 : Nat,
        MAX30102_read_fifo .running (FifoRead.mk true true (some [c0, c1, c2, b3, b4, b5]))
          = MAX30102_read_fifo .running r := by
  have e : ∀ r2 : FifoRead, r2.intr_status_1 = true → r2.intr_status_2 = true →
      ∀ a0 a1 a2, r2.fifo_data = some [a0, a1, a2, b3, b4, b5] →
      MAX30102_read_fifo .running r2
        = (.running, some (((b3 * 65536 + b4 * 256 + b5) % 262144 : Nat) : Int)) := by
    intro r2 g1 g2 a0 a1 a2 gd
    unfold MAX30102_read_fifo
    rw [if_neg (by simp), if_neg (by simp [g1]), if_neg (by simp [g2]), gd]
    simp only [fifo_sample_eq]
  refine ⟨e r h1 h2 b0 b1 b2 hd, by omega, by omega, fun c0 c1 c2 => ?_⟩
  rw [e r h1 h2 b0 b1 b2 hd, e _ rfl rfl c0 c1 c2 rfl]

/-- Witness of C13 on the frame 255, 7, 0, 255, 255, 255, whose sample is 2^18 - 1. -/
theorem read_fifo_sample_witness :
    MAX30102_read_fifo .running (FifoRead.mk true true (some [255, 7, 0, 255, 255, 255]))
        = (.running, some (((255 * 65536 + 255 * 256 + 255) % 262144 : Nat) : Int)) ∧
      (0 : Int) ≤ ((255 * 65536 + 255 * 256 + 255) % 262144 : Nat) ∧
      (((255 * 65536 + 255 * 256 + 255) % 262144 : Nat) : Int) ≤ 262143 ∧
      ∀ c0 c1 c2 : Nat,
        MAX30102_read_fifo .running (FifoRead.mk true true (some [c0, c1, c2, 255, 255, 255]))
          = MAX30102_read_fifo .running
              (FifoRead.mk true true (some [255, 7, 0, 255, 255, 255])) :=
  read_fifo_sample 255 7 0 255 255 255 (FifoRead.mk true true (some [255, 7, 0, 255, 255, 255]))
    rfl rfl rfl

/-- C14, as the code has it: both acquisition rounds of MAX30102_get_hr read their samples
with MAX30102_read_fifo(ir_buffer + i, 0), from the same channel 0. The returned value and
the driver state afterwards are the same for any two hardware behaviours that agree on
channel 0 (and on the other accesses of the function): they do not depend on the data of
any other channel. -/
theorem get_hr_reads_channel_zero (strict : Bool) (bus1 bus2 : Bus) (d : Driver)
    (hwake : bus1.wake = bus2.wake) (hintr : ∀ t, bus1.round_intr t = bus2.round_intr t)
    (hfifo : ∀ t i, bus1.fifo 0 t i = bus2.fifo 0 t i) (hsleep : bus1.sleep = bus2.sleep)
    (hstack : ∀ t, bus1.stack t = bus2.stack t) :
    MAX30102_get_hr strict bus1 d = MAX30102_get_hr strict bus2 d :=
  get_hr_channel strict bus1 bus2 d hwake hintr hfifo hsleep hstack

/-- Witness of the amended C14: the steady bus and the bus whose second channel is dead
give the same measurement. -/
theorem get_hr_reads_channel_zero_witness :
    MAX30102_get_hr false dead_channel_bus fresh_driver
      = MAX30102_get_hr false steady_bus fresh_driver :=
  get_hr_reads_channel_zero false dead_channel_bus steady_bus fresh_driver rfl (fun _ => rfl)
    (fun _ _ => rfl) rfl (fun _ => rfl)

/-- Counterexample to C14 as stated: on a bus whose channel 1 fails at every read, the
measurement still completes both rounds, and the buffers handed to the estimator in the
first and in the second round are both the samples of channel 0. -/
theorem second_round_channel_counterexample :
    (∀ t i, ¬ FifoOk (dead_channel_bus.fifo 1 t i)) ∧
      ∃ result d2, MAX30102_get_hr false dead_channel_bus fresh_driver = .ok (result, d2) ∧
        d2.estimated
          = [(List.range BUFFER_LENGTH).map (fun i => sample_of (dead_channel_bus.fifo 0 0 i)),
             (List.range BUFFER_LENGTH).map (fun i => sample_of (dead_channel_bus.fifo 0 1 i))] := by
  refine ⟨fun t i h => ?_, ?_⟩
  · have := h.1
    simp [dead_channel_bus] at this
  · exact get_hr_log false dead_channel_bus fresh_driver rfl rfl (fun _ _ => rfl)
      (fun _ _ _ _ => by simp [dead_channel_bus, steady_bus, FifoOk]) (by simp [fresh_driver])
      (fun _ => by simp [dead_channel_bus, steady_bus])

/-- C15: for every 500-sample buffer x with values below 2^18 and every index i written by
the Hamming stage (i < 489), after maxim_heart_rate_saturation the entry an_dx[i] equals
trunc(-(41 e[i] + 276 e[i+1] + 512 e[i+2] + 276 e[i+3] + 41 e[i+4]) / 1146) in exact
integers, with y[k] = x[k] - trunc(sum(x)/500), m[k] = trunc((y[k]+y[k+1]+y[k+2]+y[k+3])/4),
d[k] = m[k+1] - m[k] and e[k] = trunc((d[k]+d[k+1])/2): the stages run in place over the
shared buffers, with 32-bit arithmetic, give the values of stages computed into separate
buffers without overflow. -/
theorem conditioning_matches_staged_formula (s : Scratch) (an_dx_peak_locs : Mem)
    (ir_buffer : Nat → Int) (hs : s.WF) (hl : an_dx_peak_locs.length = 15)
    (hir : ∀ k, k < 500 → 0 ≤ ir_buffer k ∧ ir_buffer k < 262144) :
    ∃ s2 heart_rate hr_valid,
      maxim_heart_rate_saturation s an_dx_peak_locs ir_buffer 500
        = .ok (s2, heart_rate, hr_valid) ∧
      ∀ i, i < 489 → rd s2.an_dx i = c_spec ir_buffer i := by
  obtain ⟨s2, hr, v, e, _, h⟩ := conditioned_exact s an_dx_peak_locs ir_buffer hs (by omega) hir
  refine ⟨s2, hr, v, e, fun i hi => ?_⟩
  rw [h i, if_pos hi]

/-- Witness of C15: the triangle wave from the scratch arrays at program start. -/
theorem conditioning_matches_staged_formula_witness :
    ∃ s2 heart_rate hr_valid,
      maxim_heart_rate_saturation boot_scratch (List.replicate 15 0) triangle_wave 500
        = .ok (s2, heart_rate, hr_valid) ∧
      ∀ i, i < 489 → rd s2.an_dx i = c_spec triangle_wave i :=
  conditioning_matches_staged_formula boot_scratch (List.replicate 15 0) triangle_wave
    boot_scratch_WF (by decide) (fun k _ => triangle_wave_range k)

/-- C16 fails on the code: for the buffer whose samples are 0 except the last two, which
are 8000, every one of the 489 entries written by the Hamming stage is 0, so the claimed
minimum height trunc((sum of |c[k]| for k < 489) / 489) is 0; the code passes 6 to
maxim_find_peaks, the sum 3000 of |an_dx[k]| over k < 495 divided by 495, to which the
entries an_dx[493] = 1000 and an_dx[494] = 2000, not written by the Hamming stage,
contribute. -/
theorem threshold_counts_unconditioned_entries :
    ∃ s2 heart_rate hr_valid,
      maxim_heart_rate_saturation boot_scratch (List.replicate 15 0) end_step 500
        = .ok (s2, heart_rate, hr_valid) ∧
      (∀ i, i < 489 → rd s2.an_dx i = 0) ∧ rd s2.an_dx 493 = 1000 ∧ rd s2.an_dx 494 = 2000 ∧
      threshold (rd s2.an_dx) = 6 ∧ threshold_spec (rd s2.an_dx) 489 = 0 := by
  obtain ⟨s2, hr, v, e, _, hk⟩ := slope8_call boot_scratch (List.replicate 15 0) end_step
    end_step_u 0 boot_scratch_WF boot_scratch_495 (by simp)
    (fun k _ => (end_step_form k).1) (fun k _ => (end_step_form k).2)
  have hf : rd s2.an_dx = slope8_conditioned end_step_u := funext hk
  refine ⟨s2, hr, v, e, ?_⟩
  rw [hf]
  exact end_step_values

/-- C17 fails on the code: for a triangle wave of period 120 samples (50 beats per minute)
the peak search, which runs over an_dx[0 .. 494], returns the peaks 60, 180, 300, 420 and
489. The index 489 is not below the number 489 of entries written by the Hamming stage:
an_dx[489] = 8 is an entry of the stage before, next to the conditioned an_dx[488] = -8.
The peak 489 enters the heart rate, which becomes 56. -/
theorem peak_at_unconditioned_entry :
    ∃ s2, maxim_heart_rate_saturation boot_scratch (List.replicate 15 0) triangle120 500
        = .ok (s2, 56, 1) ∧
      maxim_find_peaks (List.replicate 15 0) (rd s2.an_dx)
          ((BUFFER_SIZE - HAMMING_SIZE : Nat) : Int) (threshold (rd s2.an_dx)) 8 5
        = .ok ([60, 180, 300, 420, 489, 0, 0, 0, 0, 0, 0, 0, 0, 0, 0], 5) ∧
      BUFFER_SIZE - HAMMING_SIZE - MA4_SIZE - 2 = 489 ∧
      rd s2.an_dx 488 = -8 ∧ rd s2.an_dx 489 = 8 := by
  obtain ⟨s2, hr, v, e, f, hk⟩ := slope8_call boot_scratch (List.replicate 15 0) triangle120
    triangle120_u 100000 boot_scratch_WF boot_scratch_495 (by simp)
    (fun k _ => (triangle120_form k).1) (fun k _ => (triangle120_form k).2)
  have hf : rd s2.an_dx = slope8_conditioned triangle120_u := funext hk
  rw [triangle120_estimate] at f
  have e2 : (56, 1) = (hr, v) := Except.ok.inj f
  have e3 : hr = 56 := (congrArg Prod.fst e2).symm
  have e4 : v = 1 := (congrArg Prod.snd e2).symm
  subst e3 e4
  refine ⟨s2, e, ?_⟩
  rw [hf]
  exact ⟨triangle120_peaks, by decide, triangle120_tail⟩

/-- C18: for every signal x of length M and every threshold t, the candidate list written
by maxim_peaks_above_min_height is exactly the first 15, in ascending order, of the
indices i with 1 <= i <= M - 2, x[i] > t, x[i] > x[i - 1] and x[i + w] < x[i], where
w >= 1 is the least offset with i + w = M or x[i + w] != x[i]: every recorded entry
qualifies, the entries ascend, and a qualifying index that is not recorded lies above 15
recorded ones. A plateau contributes only its left edge and the scan skips no qualifying
index. -/
theorem candidates_are_first_qualifying (pn_locs : Mem) (pn_x : Nat → Int)
    (n_size n_min_height : Int) (hlen : 15 ≤ pn_locs.length) :
    ∃ locs npks,
      maxim_peaks_above_min_height pn_locs pn_x n_size n_min_height = .ok (locs, npks) ∧
      npks ≤ 15 ∧
      (∀ k, k < npks → ∃ j : Nat, rd locs k = (j : Int) ∧ Qualifies pn_x n_size n_min_height j) ∧
      (∀ a b, a < b → b < npks → rd locs a < rd locs b) ∧
      ∀ j, Qualifies pn_x n_size n_min_height j →
        (∃ k, k < npks ∧ rd locs k = (j : Int)) ∨
          (npks = 15 ∧ ∀ k, k < npks → rd locs k < (j : Int)) := by
  obtain ⟨locs, npks, e, _, h⟩ := peaks_scan_spec pn_locs pn_x n_size n_min_height hlen
  exact ⟨locs, npks, e, h⟩

/-- Witness of C18 on the signal 0, 5, 5, 2, 7, 1, 9, 9 of length 8 (stored with a ninth
entry 9) and the threshold 3: the candidates are 1, the left edge of the plateau 5, 5,
and 4; the plateau 9, 9 that runs to the end is no candidate. -/
theorem candidates_are_first_qualifying_witness :
    maxim_peaks_above_min_height (List.replicate 15 0) (rd [0, 5, 5, 2, 7, 1, 9, 9, 9]) 8 3
      = .ok ([1, 4, 0, 0, 0, 0, 0, 0, 0, 0, 0, 0, 0, 0, 0], 2) ∧
    ∃ locs npks,
      maxim_peaks_above_min_height (List.replicate 15 0) (rd [0, 5, 5, 2, 7, 1, 9, 9, 9]) 8 3
        = .ok (locs, npks) ∧
      npks ≤ 15 ∧
      (∀ k, k < npks → ∃ j : Nat, rd locs k = (j : Int) ∧
        Qualifies (rd [0, 5, 5, 2, 7, 1, 9, 9, 9]) 8 3 j) ∧
      (∀ a b, a < b → b < npks → rd locs a < rd locs b) ∧
      ∀ j, Qualifies (rd [0, 5, 5, 2, 7, 1, 9, 9, 9]) 8 3 j →
        (∃ k, k < npks ∧ rd locs k = (j : Int)) ∨
          (npks = 15 ∧ ∀ k, k < npks → rd locs k < (j : Int)) :=
  ⟨by decide, candidates_are_first_qualifying (List.replicate 15 0)
    (rd [0, 5, 5, 2, 7, 1, 9, 9, 9]) 8 3 (by decide)⟩

/-- C19: for every candidate list of valid indices and every minimum distance d >= 0,
maxim_remove_close_peaks returns, sorted ascending, exactly the greedy selection over the
candidates c taken in stable descending-amplitude order (c[k] is the candidate at position
sigma k of the input, amplitudes non-increasing, equal amplitudes in input order): a
candidate is selected iff it is more than d away from -1 and from every candidate selected
before it. In particular, with d = 8 every candidate at an index below 8 is excluded and the
first candidate in that order at an index >= 8 is kept. -/
theorem remove_close_peaks_greedy (pn_locs : Mem) (npks : Nat) (pn_x : Nat → Int) (d : Int)
    (hd : 0 ≤ d) (hlen : npks ≤ pn_locs.length)
    (hrange : ∀ k, k < npks → 0 ≤ rd pn_locs k ∧ rd pn_locs k < 2147483647) :
    ∃ (out : Mem) (m : Nat) (σ : Nat → Nat) (c : List Int),
      maxim_remove_close_peaks pn_locs npks pn_x d = .ok (out, m) ∧
      c.length = npks ∧ (∀ k, k < npks → σ k < npks) ∧ (∀ a b, σ a = σ b → a = b) ∧
      (∀ k, k < npks → rd c k = rd pn_locs (σ k)) ∧
      (∀ p q, p < q → q < npks →
        pn_x (rd c p).toNat > pn_x (rd c q).toNat ∨
          (pn_x (rd c p).toNat = pn_x (rd c q).toNat ∧ σ p < σ q)) ∧
      m = (greedy_selection d [-1] c).length ∧
      (∀ p q, p < q → q < m → rd out p < rd out q) ∧
      (∀ v, (∃ p, p < m ∧ rd out p = v) ↔ v ∈ greedy_selection d [-1] c) ∧
      (d = 8 → ∀ v ∈ c, v < 8 → v ∉ greedy_selection d [-1] c) ∧
      (d = 8 → ∀ k, k < npks → 8 ≤ rd c k → (∀ j, j < k → rd c j < 8) →
        rd c k ∈ greedy_selection d [-1] c) := by
  obtain ⟨out, m, σ, c, e, hcl, s1, s3, hck, hlex, hm, hasc, hmem, hcr, _⟩ :=
    remove_close_peaks_selection pn_locs npks pn_x d hd hlen hrange
  refine ⟨out, m, σ, c, e, hcl, s1, s3, hck, hlex, hm, hasc, hmem, ?_, ?_⟩
  · intro hd8 v hv hlt hin
    have h1 := (greedy_selection_mem d c [-1] v hin).2 (-1) (by simp)
    have h2 := (hcr v hv).1
    rw [hd8, abs_of_nonneg (by omega)] at h1
    omega
  · intro hd8 k hk hge hbefore
    have hkc : k < c.length := by omega
    have hsplit : c = c.take k ++ rd c k :: c.drop (k + 1) := by
      rw [rd_eq_getElem c k hkc]
      exact (List.take_append_drop k c).symm.trans (by rw [List.drop_eq_getElem_cons hkc])
    have key : greedy_selection d [-1] c
        = rd c k :: greedy_selection d ([-1] ++ [rd c k]) (c.drop (k + 1)) := by
      conv_lhs => rw [hsplit]
      rw [greedy_selection_skip d [-1] (c.take k) _ (by
        intro x hx hall
        obtain ⟨j, hj, ej⟩ := (mem_take_iff_rd c k (by omega) x).mp hx
        have h1 := hall (-1) (by simp)
        have h2 := hbefore j hj
        have h3 := (hcr x (List.mem_of_mem_take hx)).1
        rw [ej] at h2
        rw [hd8, abs_of_nonneg (by omega)] at h1
        omega)]
      simp only [greedy_selection]
      rw [if_pos (by
        intro a ha
        simp only [List.mem_singleton] at ha
        rw [ha, hd8, abs_of_nonneg (by omega)]
        omega)]
    rw [key]
    exact List.mem_cons_self _ _

/-- Witness of C19: of the candidates 3, 10, 15, 20, 30 with amplitudes 9, 5, 7, 5, 1 and
d = 8, the candidate 3 is too close to -1, then 15 is selected, 10 and 20 are too close
to 15, and 30 is selected: the result is 15, 30. -/
theorem remove_close_peaks_greedy_witness :
    maxim_remove_close_peaks example_candidates 5 (rd example_signal) 8
      = .ok ([15, 30, 20, 30, 30, 0, 0, 0, 0, 0, 0, 0, 0, 0, 0], 2) ∧
    ∃ (out : Mem) (m : Nat) (σ : Nat → Nat) (c : List Int),
      maxim_remove_close_peaks example_candidates 5 (rd example_signal) 8 = .ok (out, m) ∧
      c.length = 5 ∧ (∀ k, k < 5 → σ k < 5) ∧ (∀ a b, σ a = σ b → a = b) ∧
      (∀ k, k < 5 → rd c k = rd example_candidates (σ k)) ∧
      (∀ p q, p < q → q < 5 →
        rd example_signal (rd c p).toNat > rd example_signal (rd c q).toNat ∨
          (rd example_signal (rd c p).toNat = rd example_signal (rd c q).toNat ∧ σ p < σ q)) ∧
      m = (greedy_selection 8 [-1] c).length ∧
      (∀ p q, p < q → q < m → rd out p < rd out q) ∧
      (∀ v, (∃ p, p < m ∧ rd out p = v) ↔ v ∈ greedy_selection 8 [-1] c) ∧
      ((8 : Int) = 8 → ∀ v ∈ c, v < 8 → v ∉ greedy_selection 8 [-1] c) ∧
      ((8 : Int) = 8 → ∀ k, k < 5 → 8 ≤ rd c k → (∀ j, j < k → rd c j < 8) →
        rd c k ∈ greedy_selection 8 [-1] c) :=
  ⟨by decide, remove_close_peaks_greedy example_candidates 5 (rd example_signal) 8 (by decide)
    (by decide) (fun k hk => by
      have : k = 0 ∨ k = 1 ∨ k = 2 ∨ k = 3 ∨ k = 4 := by omega
      rcases this with h | h | h | h | h <;> subst h <;> decide)⟩

/-- C20: for every signal x and every list of valid indices into x,
maxim_sort_indices_descend rearranges the list into a permutation of itself (the entry at
position k afterwards is the entry at position sigma k before, sigma a bijection of the
positions) with non-increasing amplitudes x[idx]; indices with equal amplitude keep their
original relative order, so the insertion sort is stable. Entries beyond n_size stay. -/
theorem sort_indices_descend_stable (pn_x : Nat → Int) (pn_indx : Mem) (n_size : Nat)
    (hn : n_size ≤ pn_indx.length) (_hv : ∀ k, k < n_size → 0 ≤ rd pn_indx k) :
    (maxim_sort_indices_descend pn_x pn_indx n_size).length = pn_indx.length ∧
    ∃ σ : Nat → Nat, (∀ k, k < n_size → σ k < n_size) ∧ (∀ k, n_size ≤ k → σ k = k) ∧
      (∀ a b, σ a = σ b → a = b) ∧
      (∀ k, rd (maxim_sort_indices_descend pn_x pn_indx n_size) k = rd pn_indx (σ k)) ∧
      (∀ p q, p < q → q < n_size →
        pn_x (rd (maxim_sort_indices_descend pn_x pn_indx n_size) p).toNat
          ≥ pn_x (rd (maxim_sort_indices_descend pn_x pn_indx n_size) q).toNat) ∧
      (∀ p q, p < q → q < n_size →
        pn_x (rd (maxim_sort_indices_descend pn_x pn_indx n_size) p).toNat
          = pn_x (rd (maxim_sort_indices_descend pn_x pn_indx n_size) q).toNat → σ p < σ q) := by
  obtain ⟨hl, σ, s1, s2, s3, s4, s5⟩ :=
    insertion_sort_stable (fun v => pn_x v.toNat) pn_indx n_size hn
  refine ⟨hl, σ, s1, s2, s3, s4, ?_, ?_⟩
  · intro p q hpq hq
    have e1 : rd (maxim_sort_indices_descend pn_x pn_indx n_size) p = rd pn_indx (σ p) := s4 p
    have e2 : rd (maxim_sort_indices_descend pn_x pn_indx n_size) q = rd pn_indx (σ q) := s4 q
    rw [e1, e2]
    rcases s5 p q hpq hq with h | h
    · exact le_of_lt h
    · exact le_of_eq h.1.symm
  · intro p q hpq hq
    have e1 : rd (maxim_sort_indices_descend pn_x pn_indx n_size) p = rd pn_indx (σ p) := s4 p
    have e2 : rd (maxim_sort_indices_descend pn_x pn_indx n_size) q = rd pn_indx (σ q) := s4 q
    rw [e1, e2]
    intro heq
    rcases s5 p q hpq hq with h | h
    · omega
    · exact h.2

/-- Witness of C20: the indices 0..4 into the amplitudes 5, 9, 5, 9, 1 are sorted to
1, 3, 0, 2, 4. -/
theorem sort_indices_descend_stable_witness :
    maxim_sort_indices_descend (rd [5, 9, 5, 9, 1]) [0, 1, 2, 3, 4] 5 = [1, 3, 0, 2, 4] ∧
    (maxim_sort_indices_descend (rd [5, 9, 5, 9, 1]) [0, 1, 2, 3, 4] 5).length
      = [(0 : Int), 1, 2, 3, 4].length ∧
    ∃ σ : Nat → Nat, (∀ k, k < 5 → σ k < 5) ∧ (∀ k, 5 ≤ k → σ k = k) ∧
      (∀ a b, σ a = σ b → a = b) ∧
      (∀ k, rd (maxim_sort_indices_descend (rd [5, 9, 5, 9, 1]) [0, 1, 2, 3, 4] 5) k
        = rd [0, 1, 2, 3, 4] (σ k)) ∧
      (∀ p q, p < q → q < 5 →
        rd [5, 9, 5, 9, 1] (rd (maxim_sort_indices_descend (rd [5, 9, 5, 9, 1])
            [0, 1, 2, 3, 4] 5) p).toNat
          ≥ rd [5, 9, 5, 9, 1] (rd (maxim_sort_indices_descend (rd [5, 9, 5, 9, 1])
            [0, 1, 2, 3, 4] 5) q).toNat) ∧
      (∀ p q, p < q → q < 5 →
        rd [5, 9, 5, 9, 1] (rd (maxim_sort_indices_descend (rd [5, 9, 5, 9, 1])
            [0, 1, 2, 3, 4] 5) p).toNat
          = rd [5, 9, 5, 9, 1] (rd (maxim_sort_indices_descend (rd [5, 9, 5, 9, 1])
            [0, 1, 2, 3, 4] 5) q).toNat → σ p < σ q) :=
  ⟨by decide, sort_indices_descend_stable (rd [5, 9, 5, 9, 1]) [0, 1, 2, 3, 4] 5 (by decide)
    (fun k hk => by
      have : k = 0 ∨ k = 1 ∨ k = 2 ∨ k = 3 ∨ k = 4 := by omega
      rcases this with h | h | h | h | h <;> subst h <;> decide)⟩

/-- C21: for every input, maxim_find_peaks with maximum count 5 returns the array that
maxim_remove_close_peaks left, whose first `k` entries are the `k` distance-filtered peaks
sorted by ascending index, with the count `min(k, 5)`: the returned list is the prefix of
length `min(k, 5)` of the sorted survivors, its entries are strictly increasing and they
are smaller than every survivor that the cap drops, whatever the amplitudes. -/
theorem find_peaks_returns_lowest_five (pn_locs : Mem) (pn_x : Nat → Int)
    (n_size n_min_height n_min_distance : Int) (hlocs : 15 ≤ pn_locs.length)
    (hsize : n_size ≤ 2147483647) :
    ∃ (cand : Mem) (ncand : Nat) (out : Mem) (k : Nat),
      maxim_peaks_above_min_height pn_locs pn_x n_size n_min_height = .ok (cand, ncand) ∧
      maxim_remove_close_peaks cand ncand pn_x n_min_distance = .ok (out, k) ∧
      maxim_find_peaks pn_locs pn_x n_size n_min_height n_min_distance 5
        = .ok (out, ((min k 5 : Nat) : Int)) ∧
      k = (greedy_selection n_min_distance [-1]
        ((maxim_sort_indices_descend pn_x cand ncand).take ncand)).length ∧
      out.take (min k 5)
        = truncate_ascending (greedy_selection n_min_distance [-1]
            ((maxim_sort_indices_descend pn_x cand ncand).take ncand)) 5 ∧
      (out.take (min k 5)).length = min k 5 ∧
      (∀ p q, p < q → q < min k 5 → rd out p < rd out q) ∧
      (∀ p q, p < min k 5 → min k 5 ≤ q → q < k → rd out p < rd out q) := by
  obtain ⟨cand, ncand, e1, hlen1, n1, n2, n3, _⟩ :=
    peaks_scan_spec pn_locs pn_x n_size n_min_height hlocs
  have hrange : ∀ i, i < ncand → 0 ≤ rd cand i ∧ rd cand i < 2147483647 := by
    intro i hi
    obtain ⟨j, ej, hq⟩ := n2 i hi
    have := hq.2.1
    rw [ej]
    omega
  obtain ⟨out, k, e2, hk, hsorted, hasc⟩ :=
    remove_close_peaks_sorted cand ncand pn_x n_min_distance (by omega) hrange n3
  have hlen : (List.insertionSort (fun a b : Int => a ≤ b)
      (greedy_selection n_min_distance [-1]
        ((maxim_sort_indices_descend pn_x cand ncand).take ncand))).length = k := by
    rw [← hsorted, List.length_take]
    omega
  refine ⟨cand, ncand, out, k, e1, e2, ?_, ?_, ?_, ?_, fun p q hpq hq => hasc p q hpq (by omega),
    fun p q hp hpq hq => hasc p q (by omega) hq⟩
  · unfold maxim_find_peaks
    simp only [e1, e2]
    congr 2
    omega
  · rw [← hlen, List.length_insertionSort]
  · unfold truncate_ascending
    rw [← hsorted, List.take_take]
    congr 1
    omega
  · rw [List.length_take]
    omega

/-- Witness of C21: the signal with six peaks of growing amplitude 10 samples apart; the
five lowest indices are returned. -/
theorem find_peaks_returns_lowest_five_witness :
    ∃ (cand : Mem) (ncand : Nat) (out : Mem) (k : Nat),
      maxim_peaks_above_min_height (List.replicate 15 0) six_peaks 70 0 = .ok (cand, ncand) ∧
      maxim_remove_close_peaks cand ncand six_peaks 8 = .ok (out, k) ∧
      maxim_find_peaks (List.replicate 15 0) six_peaks 70 0 8 5
        = .ok (out, ((min k 5 : Nat) : Int)) ∧
      k = (greedy_selection 8 [-1]
        ((maxim_sort_indices_descend six_peaks cand ncand).take ncand)).length ∧
      out.take (min k 5)
        = truncate_ascending (greedy_selection 8 [-1]
            ((maxim_sort_indices_descend six_peaks cand ncand).take ncand)) 5 ∧
      (out.take (min k 5)).length = min k 5 ∧
      (∀ p q, p < q → q < min k 5 → rd out p < rd out q) ∧
      (∀ p q, p < min k 5 → min k 5 ≤ q → q < k → rd out p < rd out q) :=
  find_peaks_returns_lowest_five (List.replicate 15 0) six_peaks 70 0 8 (by decide)
    (by decide)

/-- C22: for every signal `x`, every length `M` and every threshold `t`, every index that
maxim_find_peaks(x, M, t, 8, 5) returns is an entry of the candidate array that
maxim_peaks_above_min_height produced, and it is an index `i` with `8 ≤ i ≤ M - 2`,
`x[i] > t` and `x[i] > x[i - 1]`. -/
theorem returned_peaks_are_candidates (pn_locs : Mem) (pn_x : Nat → Int) (M t : Int)
    (hlocs : 15 ≤ pn_locs.length) (hsize : M ≤ 2147483647) :
    ∃ (cand : Mem) (ncand : Nat) (out : Mem) (n : Nat),
      maxim_peaks_above_min_height pn_locs pn_x M t = .ok (cand, ncand) ∧
      maxim_find_peaks pn_locs pn_x M t 8 5 = .ok (out, (n : Int)) ∧
      ∀ k, k < n → (∃ k0, k0 < ncand ∧ rd out k = rd cand k0) ∧
        ∃ i : Nat, rd out k = (i : Int) ∧ 8 ≤ i ∧ (i : Int) ≤ M - 2 ∧ pn_x i > t ∧
          pn_x i > pn_x (i - 1) := by
  obtain ⟨cand, ncand, e1, hlen1, n1, n2, _, _⟩ := peaks_scan_spec pn_locs pn_x M t hlocs
  have hrange : ∀ i, i < ncand → 1 ≤ rd cand i ∧ rd cand i < M - 1 := by
    intro i hi
    obtain ⟨j, ej, hq⟩ := n2 i hi
    have h1 := hq.1
    have h2 := hq.2.1
    rw [ej]
    omega
  obtain ⟨out, m, e2, hm, _, q3, _, q5⟩ := maxim_remove_close_peaks_spec cand ncand pn_x 8
    (by omega) (M - 1) (by omega) (by omega) hrange
  refine ⟨cand, ncand, out, min m 5, e1, ?_, fun k hk => ?_⟩
  · unfold maxim_find_peaks
    simp only [e1, e2]
    congr 2
    omega
  · obtain ⟨k0, hk0, ek⟩ := q5 k (by omega)
    refine ⟨⟨k0, hk0, ek⟩, ?_⟩
    obtain ⟨j, ej, hq⟩ := n2 k0 hk0
    have h8 := (q3 k (by omega)).2.2
    rw [ek, ej] at h8
    exact ⟨j, by rw [ek, ej], by omega, hq.2.1, hq.2.2.1, hq.2.2.2.1⟩

/-- Witness of C22 on the signal with six peaks 10 samples apart. -/
theorem returned_peaks_are_candidates_witness :
    ∃ (cand : Mem) (ncand : Nat) (out : Mem) (n : Nat),
      maxim_peaks_above_min_height (List.replicate 15 0) six_peaks 70 0 = .ok (cand, ncand) ∧
      maxim_find_peaks (List.replicate 15 0) six_peaks 70 0 8 5 = .ok (out, (n : Int)) ∧
      ∀ k, k < n → (∃ k0, k0 < ncand ∧ rd out k = rd cand k0) ∧
        ∃ i : Nat, rd out k = (i : Int) ∧ 8 ≤ i ∧ (i : Int) ≤ 70 - 2 ∧ six_peaks i > 0 ∧
          six_peaks i > six_peaks (i - 1) :=
  returned_peaks_are_candidates (List.replicate 15 0) six_peaks 70 0 (by decide) (by decide)

/-- C23: for every 500-sample buffer, whenever the peak search of
maxim_heart_rate_saturation finds `n ≥ 2` peaks, the divisor `n - 1` of the interval sum
is positive and the truncated average inter-peak interval is at least 9, so the division
of 6000 by it does not divide by zero: the call returns `6000 / average` with the validity
flag 1. -/
theorem average_interval_at_least_nine (s : Scratch) (an_dx_peak_locs : Mem)
    (ir_buffer : Nat → Int) (hl : 15 ≤ an_dx_peak_locs.length) :
    ∃ (s2 : Scratch) (out : Mem) (n : Nat) (hr v : Int),
      maxim_heart_rate_saturation s an_dx_peak_locs ir_buffer 500 = .ok (s2, hr, v) ∧
      maxim_find_peaks an_dx_peak_locs (rd s2.an_dx) 495 (threshold (rd s2.an_dx)) 8 5
        = .ok (out, (n : Int)) ∧
      (2 ≤ n → 0 < i32 ((n : Int) - 1) ∧ 9 ≤ peak_interval_average out n ∧
        cdiv 6000 (peak_interval_average out n) = .ok hr ∧ v = 1) := by
  obtain ⟨s2, out, n, hr, v, e1, e2, _, _, _, h4, _⟩ :=
    call_peaks_spec s an_dx_peak_locs ir_buffer hl
  refine ⟨s2, out, n, hr, v, e1, e2, fun hn => ?_⟩
  obtain ⟨a1, a2, a3, a4, a5, a6, a7⟩ := h4 hn
  refine ⟨a2, a3, ?_, a1⟩
  unfold cdiv
  rw [if_neg (by omega), ← a5, i32_eq_self (by omega) (by omega)]

/-- Witness of C23: the triangle wave of period 80 samples from the scratch arrays at
program start. -/
theorem average_interval_at_least_nine_witness :
    ∃ (s2 : Scratch) (out : Mem) (n : Nat) (hr v : Int),
      maxim_heart_rate_saturation boot_scratch (List.replicate 15 0) triangle_wave 500
        = .ok (s2, hr, v) ∧
      maxim_find_peaks (List.replicate 15 0) (rd s2.an_dx) 495 (threshold (rd s2.an_dx)) 8 5
        = .ok (out, (n : Int)) ∧
      (2 ≤ n → 0 < i32 ((n : Int) - 1) ∧ 9 ≤ peak_interval_average out n ∧
        cdiv 6000 (peak_interval_average out n) = .ok hr ∧ v = 1) :=
  average_interval_at_least_nine boot_scratch (List.replicate 15 0) triangle_wave (by decide)

/-- C24: for every 500-sample buffer with values in `[0, 2^18 - 1]`, no arithmetic result
of the conditioning and threshold stages of maxim_heart_rate_saturation leaves the range
of its machine type. The running sample sum fits `uint32_t`; the DC-removed samples (the
unsigned difference converted to `int32_t`), the partial 4 point sums, the deltas, the
2 point sums, the Hamming products and accumulator `s`, the negations `0 - an_dx[k]` and
the running sum `n_th1` fit `int32_t`. The values computed with 32-bit wrapping therefore
equal the exact integers: the sample sum, the stages `y`, `m`, `d`, `e`, the conditioned
entries and the threshold. -/
theorem no_intermediate_overflow (s : Scratch) (an_dx_peak_locs : Mem) (ir_buffer : Nat → Int)
    (hs : s.WF) (hl : 15 ≤ an_dx_peak_locs.length)
    (hir : ∀ k, k < 500 → 0 ≤ ir_buffer k ∧ ir_buffer k ≤ 262143) :
    (∃ s2 hr v, maxim_heart_rate_saturation s an_dx_peak_locs ir_buffer 500 = .ok (s2, hr, v) ∧
      rd s2.an_x = an_x_ma4 s ir_buffer ∧ rd s2.an_dx = an_dx_hamm s ir_buffer) ∧
    (∀ k : Nat, k < 500 → fits_u32 (ir_sum ir_buffer (k : Int) + ir_buffer k)) ∧
    (∀ k, k < 500 → fits_i32 (ir_buffer k - ir_sum ir_buffer 500 / u32 500) ∧
      an_x_dc s ir_buffer k = ir_buffer k - ir_sum ir_buffer 500 / u32 500) ∧
    (∀ k, k < 496 →
      fits_i32 (an_x_dc s ir_buffer k + an_x_dc s ir_buffer (k + 1)) ∧
      fits_i32 (an_x_dc s ir_buffer k + an_x_dc s ir_buffer (k + 1)
        + an_x_dc s ir_buffer (k + 2)) ∧
      fits_i32 (an_x_dc s ir_buffer k + an_x_dc s ir_buffer (k + 1)
        + an_x_dc s ir_buffer (k + 2) + an_x_dc s ir_buffer (k + 3))) ∧
    (∀ k, k < 495 → fits_i32 (an_x_ma4 s ir_buffer (k + 1) - an_x_ma4 s ir_buffer k)) ∧
    (∀ k, k < 494 → fits_i32 (an_dx_diff s ir_buffer k + an_dx_diff s ir_buffer (k + 1))) ∧
    (∀ i t, i < 489 → t < 5 →
      fits_i32 (an_dx_ma2 s ir_buffer (i + t) * auw_hamm t) ∧
      fits_i32 (hamming_acc (an_dx_ma2 s ir_buffer) i t
        - an_dx_ma2 s ir_buffer (i + t) * auw_hamm t)) ∧
    (∀ k, k < 495 → fits_i32 (0 - an_dx_hamm s ir_buffer k) ∧
      fits_i32 (threshold_acc (an_dx_hamm s ir_buffer) k + |an_dx_hamm s ir_buffer k|)) ∧
    ir_sum ir_buffer 500 = sum_spec ir_buffer 500 ∧
    (∀ k, k < 500 → an_x_dc s ir_buffer k = y_spec ir_buffer k) ∧
    (∀ k, k < 496 → an_x_ma4 s ir_buffer k = m_spec ir_buffer k) ∧
    (∀ k, k < 495 → an_dx_diff s ir_buffer k = d_spec ir_buffer k) ∧
    (∀ k, k < 494 → an_dx_ma2 s ir_buffer k = e_spec ir_buffer k) ∧
    (∀ i, i < 489 → an_dx_hamm s ir_buffer i = c_spec ir_buffer i) ∧
    threshold (an_dx_hamm s ir_buffer) = threshold_spec (an_dx_hamm s ir_buffer) 495 := by
  have hir2 : ∀ k, k < 500 → 0 ≤ ir_buffer k ∧ ir_buffer k < 262144 := fun k hk => by
    have := hir k hk
    omega
  obtain ⟨x1, x2, x3, x4, x5⟩ := stages_exact s ir_buffer hir2
  obtain ⟨m1, m2, m3⟩ := mean_exact ir_buffer hir2
  have hsum := ir_sum_exact ir_buffer 500 (le_refl _) hir2
  have hy := y_spec_bound ir_buffer hir2
  have hm := m_spec_bound ir_buffer hir2
  have hd := d_spec_bound ir_buffer hir2
  have he := e_spec_bound ir_buffer hir2
  have hcb := conditioned_bound s ir_buffer hir2
  refine ⟨stages_of_call s an_dx_peak_locs ir_buffer hs hl, ?_, ?_, ?_, ?_, ?_, ?_, ?_,
    (hsum 500 (le_refl _)).1, x1, x2, x3, x4, fun i hi => by rw [x5 i, if_pos hi],
    threshold_exact _ hcb⟩
  · intro k hk
    obtain ⟨a1, a2, a3⟩ := hsum k (by omega)
    have e : ir_sum ir_buffer (k : Int) = sum_spec ir_buffer k := by
      unfold ir_sum
      rw [Int.toNat_natCast]
      exact a1
    have := hir k hk
    have hk2 : (k : Int) ≤ 499 := by omega
    unfold fits_u32
    rw [e]
    constructor
    · omega
    · nlinarith
  · intro k hk
    have h1 := hy k hk
    have h2 := x1 k hk
    rw [m1]
    unfold y_spec at h1 h2
    unfold fits_i32
    exact ⟨⟨by omega, by omega⟩, h2⟩
  · intro k hk
    have h0 := hy k (by omega)
    have h1 := hy (k + 1) (by omega)
    have h2 := hy (k + 2) (by omega)
    have h3 := hy (k + 3) (by omega)
    rw [x1 k (by omega), x1 (k + 1) (by omega), x1 (k + 2) (by omega), x1 (k + 3) (by omega)]
    unfold fits_i32
    omega
  · intro k hk
    have h0 := hm k (by omega)
    have h1 := hm (k + 1) (by omega)
    rw [x2 k (by omega), x2 (k + 1) (by omega)]
    unfold fits_i32
    omega
  · intro k hk
    have h0 := hd k (by omega)
    have h1 := hd (k + 1) (by omega)
    rw [x3 k (by omega), x3 (k + 1) (by omega)]
    unfold fits_i32
    omega
  · intro i t hi ht
    have hb : ∀ t, t < 5 → -524288 < an_dx_ma2 s ir_buffer (i + t) ∧
        an_dx_ma2 s ir_buffer (i + t) < 524288 := fun t ht => by
      rw [x4 (i + t) (by omega)]
      exact he (i + t) (by omega)
    obtain ⟨c0, c1, c2, c3, c4, _⟩ := hamming_acc_exact (an_dx_ma2 s ir_buffer) i hb
    have b0 := hb 0 (by omega)
    have b1 := hb 1 (by omega)
    have b2 := hb 2 (by omega)
    have b3 := hb 3 (by omega)
    have b4 := hb 4 (by omega)
    rw [Nat.add_zero] at b0
    have a0 : auw_hamm 0 = 41 := rfl
    have a1 : auw_hamm 1 = 276 := rfl
    have a2 : auw_hamm 2 = 512 := rfl
    have a3 : auw_hamm 3 = 276 := rfl
    have a4 : auw_hamm 4 = 41 := rfl
    unfold fits_i32
    interval_cases t
    · rw [c0, a0, Nat.add_zero]; omega
    · rw [c1, a1]; omega
    · rw [c2, a2]; omega
    · rw [c3, a3]; omega
    · rw [c4, a4]; omega
  · intro k hk
    obtain ⟨a1, a2, a3⟩ := threshold_acc_exact _ hcb k (by omega)
    obtain ⟨b1, b2⟩ := hcb k hk
    have hab : 0 ≤ |an_dx_hamm s ir_buffer k| ∧ |an_dx_hamm s ir_buffer k| ≤ 4000000 :=
      ⟨abs_nonneg _, abs_le.mpr ⟨by omega, b2⟩⟩
    have hk2 : (k : Int) ≤ 494 := by omega
    unfold fits_i32
    rw [a1]
    generalize |an_dx_hamm s ir_buffer k| = a at hab
    refine ⟨by omega, by omega, ?_⟩
    nlinarith

/-- Witness of C24: the triangle wave of period 80 samples from the scratch arrays at
program start. -/
theorem no_intermediate_overflow_witness :
    (∃ s2 hr v, maxim_heart_rate_saturation boot_scratch
        (List.replicate 15 0) triangle_wave 500 = .ok (s2, hr, v) ∧
      rd s2.an_x = an_x_ma4 boot_scratch triangle_wave ∧ rd s2.an_dx
          = an_dx_hamm boot_scratch triangle_wave) ∧
    (∀ k : Nat, k < 500 → fits_u32 (ir_sum triangle_wave (k : Int) + triangle_wave k)) ∧
    (∀ k, k < 500 → fits_i32 (triangle_wave k - ir_sum triangle_wave 500 / u32 500) ∧
      an_x_dc boot_scratch triangle_wave k = triangle_wave k - ir_sum triangle_wave 500 / u32 500) ∧
    (∀ k, k < 496 →
      fits_i32 (an_x_dc boot_scratch triangle_wave k + an_x_dc boot_scratch triangle_wave (k + 1)) ∧
      fits_i32 (an_x_dc boot_scratch triangle_wave k + an_x_dc boot_scratch triangle_wave (k + 1)
        + an_x_dc boot_scratch triangle_wave (k + 2)) ∧
      fits_i32 (an_x_dc boot_scratch triangle_wave k + an_x_dc boot_scratch triangle_wave (k + 1)
        + an_x_dc boot_scratch triangle_wave (k + 2) + an_x_dc boot_scratch triangle_wave (k
            + 3))) ∧
    (∀ k, k < 495 → fits_i32 (an_x_ma4 boot_scratch triangle_wave (k + 1)
        - an_x_ma4 boot_scratch triangle_wave k)) ∧
    (∀ k, k < 494 → fits_i32 (an_dx_diff boot_scratch triangle_wave k
        + an_dx_diff boot_scratch triangle_wave (k + 1))) ∧
    (∀ i t, i < 489 → t < 5 →
      fits_i32 (an_dx_ma2 boot_scratch triangle_wave (i + t) * auw_hamm t) ∧
      fits_i32 (hamming_acc (an_dx_ma2 boot_scratch triangle_wave) i t
        - an_dx_ma2 boot_scratch triangle_wave (i + t) * auw_hamm t)) ∧
    (∀ k, k < 495 → fits_i32 (0 - an_dx_hamm boot_scratch triangle_wave k) ∧
      fits_i32 (threshold_acc (an_dx_hamm boot_scratch triangle_wave) k
          + |an_dx_hamm boot_scratch triangle_wave k|)) ∧
    ir_sum triangle_wave 500 = sum_spec triangle_wave 500 ∧
    (∀ k, k < 500 → an_x_dc boot_scratch triangle_wave k = y_spec triangle_wave k) ∧
    (∀ k, k < 496 → an_x_ma4 boot_scratch triangle_wave k = m_spec triangle_wave k) ∧
    (∀ k, k < 495 → an_dx_diff boot_scratch triangle_wave k = d_spec triangle_wave k) ∧
    (∀ k, k < 494 → an_dx_ma2 boot_scratch triangle_wave k = e_spec triangle_wave k) ∧
    (∀ i, i < 489 → an_dx_hamm boot_scratch triangle_wave i = c_spec triangle_wave i) ∧
    threshold (an_dx_hamm boot_scratch triangle_wave) = threshold_spec
        (an_dx_hamm boot_scratch triangle_wave) 495 :=
  no_intermediate_overflow boot_scratch (List.replicate 15 0) triangle_wave
    boot_scratch_WF (by decide) (fun k _ => by have := triangle_wave_range k; omega)

/-- C25: for every 500-sample buffer, the peaks that maxim_heart_rate_saturation finds lie
in `[8, 493]` and are more than 8 apart, and if the call sets the validity flag to 1 then
at least 2 peaks were found, the truncated average interval lies in `[9, 485]` and the
heart rate returned is `6000 / average` with `12 ≤ heart_rate ≤ 666`; the flag is 1 or
0. -/
theorem valid_estimate_between_12_and_666 (s : Scratch) (an_dx_peak_locs : Mem)
    (ir_buffer : Nat → Int) (hl : 15 ≤ an_dx_peak_locs.length) :
    ∃ (s2 : Scratch) (out : Mem) (n : Nat) (hr v : Int),
      maxim_heart_rate_saturation s an_dx_peak_locs ir_buffer 500 = .ok (s2, hr, v) ∧
      maxim_find_peaks an_dx_peak_locs (rd s2.an_dx) 495 (threshold (rd s2.an_dx)) 8 5
        = .ok (out, (n : Int)) ∧
      (∀ k, k < n → 8 ≤ rd out k ∧ rd out k ≤ 493) ∧
      (∀ a b, a < b → b < n → rd out a + 8 < rd out b) ∧
      (v = 1 ∨ v = 0) ∧
      (v = 1 → 2 ≤ n ∧ 9 ≤ peak_interval_average out n ∧ peak_interval_average out n ≤ 485 ∧
        hr = Int.tdiv 6000 (peak_interval_average out n) ∧ 12 ≤ hr ∧ hr ≤ 666) := by
  obtain ⟨s2, out, n, hr, v, e1, e2, _, h2, h3, h4, h5⟩ :=
    call_peaks_spec s an_dx_peak_locs ir_buffer hl
  refine ⟨s2, out, n, hr, v, e1, e2, h2, h3, ?_, fun hv => ?_⟩
  · by_cases c : 2 ≤ n
    · exact Or.inl (h4 c).1
    · exact Or.inr (h5 (by omega)).1
  · have hn : 2 ≤ n := by
      by_contra c
      have := (h5 (by omega)).1
      omega
    obtain ⟨_, _, a3, a4, a5, a6, a7⟩ := h4 hn
    exact ⟨hn, a3, a4, a5, a6, a7⟩

/-- Witness of C25: the triangle wave of period 80 samples from the scratch arrays at
program start. -/
theorem valid_estimate_between_12_and_666_witness :
    ∃ (s2 : Scratch) (out : Mem) (n : Nat) (hr v : Int),
      maxim_heart_rate_saturation boot_scratch (List.replicate 15 0) triangle_wave 500
        = .ok (s2, hr, v) ∧
      maxim_find_peaks (List.replicate 15 0) (rd s2.an_dx) 495 (threshold (rd s2.an_dx)) 8 5
        = .ok (out, (n : Int)) ∧
      (∀ k, k < n → 8 ≤ rd out k ∧ rd out k ≤ 493) ∧
      (∀ a b, a < b → b < n → rd out a + 8 < rd out b) ∧
      (v = 1 ∨ v = 0) ∧
      (v = 1 → 2 ≤ n ∧ 9 ≤ peak_interval_average out n ∧ peak_interval_average out n ≤ 485 ∧
        hr = Int.tdiv 6000 (peak_interval_average out n) ∧ 12 ≤ hr ∧ hr ≤ 666) :=
  valid_estimate_between_12_and_666 boot_scratch (List.replicate 15 0) triangle_wave
    (by decide)

/-- C26: for every call of maxim_heart_rate_saturation with `buffer_length = 500`, on a
buffer `ir_buffer[500]`, the scratch arrays `an_x[500]` and `an_dx[496]` and a peak
location array of 15 entries, the function with every array access checked against the
size of its array runs to the end and returns the result of the unchecked function: no
access leaves its array. The entry `an_dx[495]` is needed: on a signal of 495 entries
whose plateau reaches the end, the peak search called with size 495 reads index 495 and
fails the check. -/
theorem array_accesses_in_bounds (s : Scratch) (an_dx_peak_locs ir_buffer : Mem)
    (hs : s.WF) (hl : an_dx_peak_locs.length = 15) (hir : ir_buffer.length = 500) :
    (∃ r, maxim_heart_rate_saturation_checked s an_dx_peak_locs ir_buffer 500 = some r ∧
      maxim_heart_rate_saturation s an_dx_peak_locs (rd ir_buffer) 500 = .ok r) ∧
    plateau_to_end.length = 495 ∧
    maxim_find_peaks_checked an_dx_peak_locs plateau_to_end 495 0 8 5 = none := by
  refine ⟨?_, plateau_to_end_length, plateau_reads_index_495 an_dx_peak_locs 8 5⟩
  obtain ⟨hr, v, e, _, _⟩ := maxim_heart_rate_saturation_total s an_dx_peak_locs
    (rd ir_buffer) 500 (by omega) (by decide)
  refine ⟨_, ?_, e⟩
  rw [maxim_heart_rate_saturation_checked_eq s an_dx_peak_locs ir_buffer hs (by omega) hir, e]
  rfl

/-- Witness of C26: the first 500 samples of the triangle wave, from the scratch arrays at
program start. -/
theorem array_accesses_in_bounds_witness :
    (∃ r, maxim_heart_rate_saturation_checked boot_scratch (List.replicate 15 0)
        ((List.range 500).map triangle_wave) 500 = some r ∧
      maxim_heart_rate_saturation boot_scratch (List.replicate 15 0)
        (rd ((List.range 500).map triangle_wave)) 500 = .ok r) ∧
    plateau_to_end.length = 495 ∧
    maxim_find_peaks_checked (List.replicate 15 0) plateau_to_end 495 0 8 5 = none :=
  array_accesses_in_bounds boot_scratch (List.replicate 15 0)
    ((List.range 500).map triangle_wave) boot_scratch_WF (by decide)
    (by rw [List.length_map, List.length_range])

/-- C27: for every 500-sample buffer `x` with values in `[0, 2^18)` that satisfies
`x[k + 4] = x[k]` for all `k` (any waveform of period 1, 2 or 4), the 4 point moving
average that maxim_heart_rate_saturation leaves in `an_x[0 .. 495]` is constant, the
conditioned signal `an_dx[0 .. 494]` and the threshold are zero, the peak search finds no
peak, and the call returns -999 with the validity flag 0. -/
theorem period_four_no_estimate (s : Scratch) (an_dx_peak_locs : Mem) (ir_buffer : Nat → Int)
    (hs : s.WF) (hir : ∀ k, k < 500 → 0 ≤ ir_buffer k ∧ ir_buffer k < 262144)
    (hper : ∀ k, k + 4 < 500 → ir_buffer (k + 4) = ir_buffer k) :
    ∃ s2, maxim_heart_rate_saturation s an_dx_peak_locs ir_buffer 500 = .ok (s2, -999, 0) ∧
      (∀ k, k < 496 → rd s2.an_x k = rd s2.an_x 0) ∧
      (∀ k, k < 495 → rd s2.an_dx k = 0) ∧ threshold (rd s2.an_dx) = 0 ∧
      maxim_find_peaks an_dx_peak_locs (rd s2.an_dx) 495 (threshold (rd s2.an_dx)) 8 5
        = .ok (an_dx_peak_locs, 0) :=
  period4_call s an_dx_peak_locs ir_buffer hs hir hper

/-- Witness of C27: the buffer that repeats the four samples 1000, 5000, 2000, 90000, from
the scratch arrays at program start. -/
theorem period_four_no_estimate_witness :
    ∃ s2, maxim_heart_rate_saturation boot_scratch (List.replicate 15 0) four_cycle 500
        = .ok (s2, -999, 0) ∧
      (∀ k, k < 496 → rd s2.an_x k = rd s2.an_x 0) ∧
      (∀ k, k < 495 → rd s2.an_dx k = 0) ∧ threshold (rd s2.an_dx) = 0 ∧
      maxim_find_peaks (List.replicate 15 0) (rd s2.an_dx) 495 (threshold (rd s2.an_dx)) 8 5
        = .ok (List.replicate 15 0, 0) :=
  period_four_no_estimate boot_scratch (List.replicate 15 0) four_cycle boot_scratch_WF
    (fun k _ => four_cycle_range k) (fun k _ => four_cycle_period k)

end SmartBand
